import Mathlib

/-!
# Verification development for the QUDA split-grid reshape and the ARPACK driver

Shallow embedding of

* `include/split_grid.h`: `CommKey` arithmetic, `coordinate_from_index`,
  `index_from_coordinate`, `split_field`, `join_field`;
* `lib/quda_arpack_interface.cpp`: `polyOp`, the spectrum selector and the
  reverse-communication loop of `arpack_solve_float` / `arpack_solve_double`;
* `utils/host_utils.cpp`: `lex_rank_from_coords_t`, `lex_rank_from_coords_x`,
  `setDims`, `getOddBit`, the `fullLatticeIndex` and `neighborIndex` families,
  `accumulateConjugateProduct`, `su3Construct12`, `su3Reconstruct12`;
* `include/qlua_contract.h`: `rotateVectorBasis`.

Machine `int` values are embedded as natural numbers where the source only
ever holds non-negative quantities (grid sizes, grid coordinates, ranks, tags)
and as integers where a sign matters (`ido`, `info`, `polyDeg`, `max_iter`,
lattice displacements); integer division and remainder of signed values are the
truncating `Int.tdiv` and `Int.tmod`. The lattice-index functions are modelled
over unbounded integers: wrap-around of the 32-bit `int` is outside the model.
-/

namespace quda

/-! ## `CommKey` and its arithmetic (split_grid.h, lines 16-59) -/

/-- A `CommKey` is `std::array<int, 4>`; the components are indexed 0..3. -/
structure CommKey where
  c0 : Nat
  c1 : Nat
  c2 : Nat
  c3 : Nat
deriving DecidableEq, Repr

/-- Source: `product(const CommKey &input)`. -/
def product (input : CommKey) : Nat := input.c0 * input.c1 * input.c2 * input.c3

/-- Source: `operator+` on `CommKey`, componentwise. -/
def CommKey.add (lhs rhs : CommKey) : CommKey :=
  ⟨lhs.c0 + rhs.c0, lhs.c1 + rhs.c1, lhs.c2 + rhs.c2, lhs.c3 + rhs.c3⟩

/-- Source: `operator*` on `CommKey`, componentwise. -/
def CommKey.mul (lhs rhs : CommKey) : CommKey :=
  ⟨lhs.c0 * rhs.c0, lhs.c1 * rhs.c1, lhs.c2 * rhs.c2, lhs.c3 * rhs.c3⟩

/-- Source: `operator/` on `CommKey`, componentwise integer division. -/
def CommKey.div (lhs rhs : CommKey) : CommKey :=
  ⟨lhs.c0 / rhs.c0, lhs.c1 / rhs.c1, lhs.c2 / rhs.c2, lhs.c3 / rhs.c3⟩

/-- Source: `operator%` on `CommKey`, componentwise remainder. -/
def CommKey.mod (lhs rhs : CommKey) : CommKey :=
  ⟨lhs.c0 % rhs.c0, lhs.c1 % rhs.c1, lhs.c2 % rhs.c2, lhs.c3 % rhs.c3⟩

instance : Add CommKey := ⟨CommKey.add⟩
instance : Mul CommKey := ⟨CommKey.mul⟩
instance : Div CommKey := ⟨CommKey.div⟩
instance : Mod CommKey := ⟨CommKey.mod⟩

/-- Componentwise strict bound: the coordinate `a` lies inside the box `b`. -/
def CommKey.inBox (a b : CommKey) : Prop :=
  a.c0 < b.c0 ∧ a.c1 < b.c1 ∧ a.c2 < b.c2 ∧ a.c3 < b.c3

instance (a b : CommKey) : Decidable (a.inBox b) := by
  unfold CommKey.inBox; exact inferInstance

/-- Every component is positive. -/
def CommKey.positive (a : CommKey) : Prop :=
  0 < a.c0 ∧ 0 < a.c1 ∧ 0 < a.c2 ∧ 0 < a.c3

instance (a : CommKey) : Decidable a.positive := by
  unfold CommKey.positive; exact inferInstance

/-- Componentwise divisibility `a ∣ b`. -/
def CommKey.divides (a b : CommKey) : Prop :=
  a.c0 ∣ b.c0 ∧ a.c1 ∣ b.c1 ∧ a.c2 ∣ b.c2 ∧ a.c3 ∣ b.c3

instance (a b : CommKey) : Decidable (a.divides b) := by
  unfold CommKey.divides; exact inferInstance

/-- Source: `coordinate_from_index(int index, CommKey dim)`; the loop over
`d = 0..3` takes `index % dim[d]` and then divides `index` by `dim[d]`. -/
def coordinate_from_index (index : Nat) (dim : CommKey) : CommKey :=
  let coord0 := index % dim.c0
  let index1 := index / dim.c0
  let coord1 := index1 % dim.c1
  let index2 := index1 / dim.c1
  let coord2 := index2 % dim.c2
  let index3 := index2 / dim.c2
  let coord3 := index3 % dim.c3
  ⟨coord0, coord1, coord2, coord3⟩

/-- Source: `index_from_coordinate(CommKey coord, CommKey dim)`. -/
def index_from_coordinate (coord dim : CommKey) : Nat :=
  ((coord.c3 * dim.c2 + coord.c2) * dim.c1 + coord.c1) * dim.c0 + coord.c0

/-- Source: `lex_rank_from_coords_t` of host_utils.cpp, with the global
`gridsize_from_cmdline` passed as `gridsize`. -/
def lex_rank_from_coords_t (gridsize : CommKey) (coords : CommKey) : Nat :=
  let rank0 := coords.c0
  let rank1 := gridsize.c1 * rank0 + coords.c1
  let rank2 := gridsize.c2 * rank1 + coords.c2
  gridsize.c3 * rank2 + coords.c3

/-! ## Fields, staging buffers and messages -/

/-- Modelled from the spec: the `Field` collaborator (gauge, spinor or clover
field, the template parameter `Field` of split_grid.h; its class is not part
of the sources at hand). A field is a 4-D tensor
of per-site payloads with local extents `X`; `data` gives the payload of a
site, and only sites inside the box `X` belong to the field. -/
structure LatticeField (V : Type) where
  X : CommKey
  data : CommKey → V

/-- Modelled from the spec: `Field::TotalBytes`, counted in site payloads. -/
def LatticeField.TotalBytes {V : Type} (f : LatticeField V) : Nat := product f.X

/-- Modelled from the spec: `Field::copy_to_buffer`, the serialisation that
flattens the local volume to a contiguous buffer in a fixed site order (here
the order of `coordinate_from_index`, axis 0 fastest). -/
def LatticeField.copy_to_buffer {V : Type} (f : LatticeField V) : List V :=
  (List.range f.TotalBytes).map (fun i => f.data (coordinate_from_index i f.X))

/-- Modelled from the spec: `Field::copy_from_buffer`, the inverse of
`copy_to_buffer`: every site of the field takes the payload stored at its
position in the buffer. -/
def LatticeField.copy_from_buffer {V : Type} (f : LatticeField V) (buffer : List V) : LatticeField V :=
  { X := f.X
    data := fun x =>
      if x.inBox f.X then
        match buffer[index_from_coordinate x f.X]? with
        | some v => v
        | none => f.data x
      else f.data x }

/-- Modelled from the spec: `Field::Create(param)` with `param` built from
`meta`: a new field of the geometry of `meta` whose content is not yet
meaningful. -/
def LatticeField.Create {V : Type} [Inhabited V] (meta : LatticeField V) : LatticeField V :=
  { X := meta.X, data := fun _ => default }

/-- Modelled from the spec: the free function `copyFieldOffset(dst, src,
offset)`. When `dst` is the larger field, `src` is written into `dst` at the
4-D offset (the stitch of the split); otherwise the slab of `src` that starts
at the offset is carved out into `dst` (the join). -/
def copyFieldOffset {V : Type} (dst src : LatticeField V) (offset : CommKey) : LatticeField V :=
  if product src.X < product dst.X then
    { X := dst.X
      data := fun x =>
        if offset.c0 ≤ x.c0 ∧ x.c0 < offset.c0 + src.X.c0 ∧
           offset.c1 ≤ x.c1 ∧ x.c1 < offset.c1 + src.X.c1 ∧
           offset.c2 ≤ x.c2 ∧ x.c2 < offset.c2 + src.X.c2 ∧
           offset.c3 ≤ x.c3 ∧ x.c3 < offset.c3 + src.X.c3 then
          src.data ⟨x.c0 - offset.c0, x.c1 - offset.c1, x.c2 - offset.c2, x.c3 - offset.c3⟩
        else dst.data x }
  else
    { X := dst.X
      data := fun x => if x.inBox dst.X then src.data (x + offset) else dst.data x }

/-- A point-to-point message as posted by `comm_declare_send_rank` followed
by `comm_start`: source rank, destination rank, tag and the staged buffer. -/
structure Msg (V : Type) where
  src : Nat
  dst : Nat
  tag : Nat
  payload : List V

/-- Modelled from the spec: the transport. A receive declared with
`comm_declare_recv_rank(buf, src_rank, tag, bytes)` on rank `rank` completes
in `comm_wait` with the buffer of the posted message that has the same source,
destination and tag, delivered unchanged; with no such message it never
completes (`none`). -/
def comm_wait {V : Type} (net : List (Msg V)) (src_rank rank tag : Nat) : Option (List V) :=
  (net.find? (fun m => decide (m.src = src_rank ∧ m.dst = rank ∧ m.tag = tag))).map Msg.payload

/-- What the communicator reports on one rank: `comm_dim(0..3)`,
`comm_coord(0..3)` and `comm_rank()`. -/
structure CommEnv where
  comm_dim : CommKey
  comm_coord : CommKey
  comm_rank : Nat

/-- Result of running one collective on one rank: normal return; a fatal
abort through `errorQuda`; a rank that never returns from a wait (`comm_wait`
for a message that is never sent, `comm_barrier` for a rank that never
arrives); or a process killed by an integer division by zero. -/
inductive Outcome (α : Type) where
  | ok (a : α)
  | fatal (msg : String)
  | blocked
  | trap

/-- The outcome with the returned value transformed; an abort, a blocked
wait and a trap stay what they are. -/
def Outcome.map {α β : Type} (f : α → β) : Outcome α → Outcome β
  | Outcome.ok a => Outcome.ok (f a)
  | Outcome.fatal msg => Outcome.fatal msg
  | Outcome.blocked => Outcome.blocked
  | Outcome.trap => Outcome.trap

/-- Whether the outcome is a normal return. -/
def Outcome.isOk {α : Type} : Outcome α → Bool
  | Outcome.ok _ => true
  | _ => false

/-- Source: the two divisions at the head of `split_field` and `join_field`
(lines 85-86 and 171-172), `grid_dim = full_dim / comm_key` and
`block_dim = full_dim / grid_dim`. `operator/` divides component by component,
and an integer division by zero is undefined in C++ (the process is killed by
SIGFPE on the usual targets): the two divisions are defined when no component
of `comm_key` and no component of `grid_dim` is zero. -/
def divisions_defined (full_dim comm_key : CommKey) : Prop :=
  comm_key.positive ∧ (full_dim / comm_key).positive

instance (full_dim comm_key : CommKey) : Decidable (divisions_defined full_dim comm_key) :=
  inferInstanceAs (Decidable (comm_key.positive ∧ (full_dim / comm_key).positive))

/-- Modelled from the spec: `comm_barrier()`, the global barrier that closes
each collective. The call returns once every rank of the communicator has
reached the barrier (`all_arrive`); when some rank never reaches it, the call
never returns. -/
def comm_barrier {α : Type} (all_arrive : Bool) (a : α) : Outcome α :=
  if all_arrive then Outcome.ok a else Outcome.blocked

/-! ## `split_field` (split_grid.h, lines 76-160) -/

/-- Source: `dst_idx` in the send loop of `split_field` (lines 99-102), as a
function of `full_dim`, `full_idx`, `comm_key` and the loop index. -/
def split_dst_idx (full_dim full_idx comm_key : CommKey) (i : Nat) : CommKey :=
  let grid_dim := full_dim / comm_key
  let block_dim := full_dim / grid_dim
  let grid_idx := coordinate_from_index i comm_key
  let block_idx := full_idx / block_dim
  grid_idx * grid_dim + block_idx

/-- Source: `src_idx` in the receive loop of `split_field` (lines 128-129). -/
def split_src_idx (full_dim full_idx comm_key : CommKey) (i : Nat) : CommKey :=
  let grid_dim := full_dim / comm_key
  let block_dim := full_dim / grid_dim
  let thread_idx := coordinate_from_index i comm_key
  (full_idx % grid_dim) * block_dim + thread_idx

/-- Source: one pass of the send loop of `split_field` (lines 98-116): the
message posted for replica index `i`. -/
def split_send {V : Type} (rankOf : CommKey → Nat) (env : CommEnv)
    (v_base_field : List (LatticeField V)) (meta : LatticeField V) (comm_key : CommKey) (i : Nat) : Msg V :=
  let full_dim := env.comm_dim
  let full_idx := env.comm_coord
  let rank := env.comm_rank
  let total_rank := product full_dim
  let n_fields := v_base_field.length
  let dst_idx := split_dst_idx full_dim full_idx comm_key i
  let dst_rank := rankOf dst_idx
  let tag := rank * total_rank + dst_rank
  { src := rank, dst := dst_rank, tag := tag,
    payload := (v_base_field.getD (i % n_fields) meta).copy_to_buffer }

/-- Source: one pass of the receive loop of `split_field` (lines 127-152).
The state is the pair `(collect_field, buffer_field)`. -/
def split_recv {V : Type} (rankOf : CommKey → Nat) (env : CommEnv) (net : List (Msg V))
    (meta : LatticeField V) (comm_key : CommKey) (st : LatticeField V × LatticeField V) (i : Nat) :
    Option (LatticeField V × LatticeField V) :=
  let full_dim := env.comm_dim
  let full_idx := env.comm_coord
  let rank := env.comm_rank
  let total_rank := product full_dim
  let thread_dim := meta.X
  let thread_idx := coordinate_from_index i comm_key
  let src_idx := split_src_idx full_dim full_idx comm_key i
  let src_rank := rankOf src_idx
  let tag := src_rank * total_rank + rank
  match comm_wait net src_rank rank tag with
  | none => none
  | some recv_buffer_h =>
    let buffer_field := st.2.copy_from_buffer recv_buffer_h
    let offset := thread_idx * thread_dim
    some (copyFieldOffset st.1 buffer_field offset, buffer_field)

/-- Source: the receive loop of `split_field`; the state after the passes
`i = 0 .. n-1`, or `none` when one of the waits never completes. -/
def split_recv_cycles {V : Type} (rankOf : CommKey → Nat) (env : CommEnv) (net : List (Msg V))
    (meta : LatticeField V) (comm_key : CommKey) (init : LatticeField V × LatticeField V) :
    Nat → Option (LatticeField V × LatticeField V)
  | 0 => some init
  | n + 1 =>
    match split_recv_cycles rankOf env net meta comm_key init n with
    | none => none
    | some st => split_recv rankOf env net meta comm_key st n

/-- Source: the messages that the send loop of `split_field` (lines 98-116)
posts, in posting order, for a call that gets past the divisions of lines
85-86: none when the field vector is empty (the call aborts before the loop),
otherwise one per replica index. -/
def split_field_posts {V : Type} (rankOf : CommKey → Nat) (env : CommEnv)
    (v_base_field : List (LatticeField V)) (comm_key : CommKey) : List (Msg V) :=
  match v_base_field with
  | [] => []
  | meta :: _ =>
    (List.range (product comm_key)).map (split_send rankOf env v_base_field meta comm_key)

/-- Source: `split_field(collect_field, v_base_field, comm_key)` on one rank
from its first line up to the closing `comm_barrier()` (lines 79-154), given
the messages `net` that are posted to the transport during the call. The
divisions of lines 85-86 come first, then the check of the empty vector, then
the send loop and the receive loop. `ok` carries the collect field as the
receive loop has written it and the messages this rank posted: the state in
which the rank reaches the barrier. -/
def split_field_to_barrier {V : Type} [Inhabited V] (rankOf : CommKey → Nat) (env : CommEnv)
    (net : List (Msg V)) (collect_field : LatticeField V) (v_base_field : List (LatticeField V))
    (comm_key : CommKey) : Outcome (LatticeField V × List (Msg V)) :=
  let full_dim := env.comm_dim
  if divisions_defined full_dim comm_key then
    let n_replicates := product comm_key
    match v_base_field with
    | [] => Outcome.fatal "Empty vector!"
    | meta :: _ =>
      let posts := split_field_posts rankOf env v_base_field comm_key
      let buffer_field := LatticeField.Create meta
      match split_recv_cycles rankOf env net meta comm_key (collect_field, buffer_field)
          n_replicates with
      | none => Outcome.blocked
      | some st => Outcome.ok (st.1, posts)
  else Outcome.trap

/-- Source: `split_field(collect_field, v_base_field, comm_key)` on one rank
(lines 76-160): the call up to the barrier, then `comm_barrier()`; the frees
that follow the barrier change nothing that is observed. `all_arrive` tells
whether every rank of the communicator reaches the barrier. Returns the new
collect field and the messages this rank posted. -/
def split_field {V : Type} [Inhabited V] (rankOf : CommKey → Nat) (env : CommEnv)
    (net : List (Msg V)) (all_arrive : Bool) (collect_field : LatticeField V)
    (v_base_field : List (LatticeField V)) (comm_key : CommKey) :
    Outcome (LatticeField V × List (Msg V)) :=
  match split_field_to_barrier rankOf env net collect_field v_base_field comm_key with
  | Outcome.ok r => comm_barrier all_arrive r
  | Outcome.fatal msg => Outcome.fatal msg
  | Outcome.blocked => Outcome.blocked
  | Outcome.trap => Outcome.trap

/-! ## `join_field` (split_grid.h, lines 162-247) -/

/-- Source: `dst_idx` in the send loop of `join_field` (lines 194-195). -/
def join_dst_idx (full_dim full_idx comm_key : CommKey) (i : Nat) : CommKey :=
  let grid_dim := full_dim / comm_key
  let block_dim := full_dim / grid_dim
  let thread_idx := coordinate_from_index i comm_key
  (full_idx % grid_dim) * block_dim + thread_idx

/-- Source: `src_idx` in the receive loop of `join_field` (lines 217-220). -/
def join_src_idx (full_dim full_idx comm_key : CommKey) (i : Nat) : CommKey :=
  let grid_dim := full_dim / comm_key
  let block_dim := full_dim / grid_dim
  let grid_idx := coordinate_from_index i comm_key
  let block_idx := full_idx / block_dim
  grid_idx * grid_dim + block_idx

/-- Source: one pass of the send loop of `join_field` (lines 192-212). The
state is `buffer_field`; the result is its new value and the posted message. -/
def join_send {V : Type} (rankOf : CommKey → Nat) (env : CommEnv)
    (collect_field : LatticeField V) (thread_dim : CommKey) (comm_key : CommKey)
    (buffer_field : LatticeField V) (i : Nat) : LatticeField V × Msg V :=
  let full_dim := env.comm_dim
  let full_idx := env.comm_coord
  let rank := env.comm_rank
  let total_rank := product full_dim
  let thread_idx := coordinate_from_index i comm_key
  let dst_idx := join_dst_idx full_dim full_idx comm_key i
  let dst_rank := rankOf dst_idx
  let tag := rank * total_rank + dst_rank
  let offset := thread_idx * thread_dim
  let buffer_field1 := copyFieldOffset buffer_field collect_field offset
  (buffer_field1,
    { src := rank, dst := dst_rank, tag := tag, payload := buffer_field1.copy_to_buffer })

/-- Source: the send loop of `join_field`; `buffer_field` and the messages
posted (in posting order) after the passes `i = 0 .. n-1`. -/
def join_send_cycles {V : Type} (rankOf : CommKey → Nat) (env : CommEnv)
    (collect_field : LatticeField V) (thread_dim : CommKey) (comm_key : CommKey)
    (init : LatticeField V) : Nat → LatticeField V × List (Msg V)
  | 0 => (init, [])
  | n + 1 =>
    let st := join_send_cycles rankOf env collect_field thread_dim comm_key init n
    let r := join_send rankOf env collect_field thread_dim comm_key st.1 n
    (r.1, st.2 ++ [r.2])

/-- Source: one pass of the receive loop of `join_field` (lines 215-239). The
state is the vector of base fields. -/
def join_recv {V : Type} (rankOf : CommKey → Nat) (env : CommEnv) (net : List (Msg V))
    (comm_key : CommKey) (v_base_field : List (LatticeField V)) (i : Nat) : Option (List (LatticeField V)) :=
  let full_dim := env.comm_dim
  let full_idx := env.comm_coord
  let rank := env.comm_rank
  let total_rank := product full_dim
  let n_fields := v_base_field.length
  let src_idx := join_src_idx full_dim full_idx comm_key i
  let src_rank := rankOf src_idx
  let tag := src_rank * total_rank + rank
  match comm_wait net src_rank rank tag with
  | none => none
  | some recv_buffer_h =>
    match v_base_field[i % n_fields]? with
    | none => none
    | some f => some (v_base_field.set (i % n_fields) (f.copy_from_buffer recv_buffer_h))

/-- Source: the receive loop of `join_field`; the base fields after the passes
`i = 0 .. n-1`, or `none` when one of the waits never completes. -/
def join_recv_cycles {V : Type} (rankOf : CommKey → Nat) (env : CommEnv) (net : List (Msg V))
    (comm_key : CommKey) (init : List (LatticeField V)) : Nat → Option (List (LatticeField V))
  | 0 => some init
  | n + 1 =>
    match join_recv_cycles rankOf env net comm_key init n with
    | none => none
    | some st => join_recv rankOf env net comm_key st n

/-- Source: the messages that the send loop of `join_field` (lines 192-212)
posts, in posting order, for a call that gets past the divisions of lines
171-172: none when the field vector is empty (the call aborts before the
loop), otherwise one per replica index. -/
def join_field_posts {V : Type} [Inhabited V] (rankOf : CommKey → Nat) (env : CommEnv)
    (v_base_field : List (LatticeField V)) (collect_field : LatticeField V) (comm_key : CommKey) :
    List (Msg V) :=
  match v_base_field with
  | [] => []
  | meta :: _ =>
    (join_send_cycles rankOf env collect_field meta.X comm_key (LatticeField.Create meta)
      (product comm_key)).2

/-- Source: `join_field(v_base_field, collect_field, comm_key)` on one rank
from its first line up to the closing `comm_barrier()` (lines 165-241), given
the messages `net` posted to the transport during the call. The divisions of
lines 171-172 come first, then the check of the empty vector, then the send
loop and the receive loop. `ok` carries the base fields as the receive loop
has written them and the messages this rank posted: the state in which the
rank reaches the barrier. -/
def join_field_to_barrier {V : Type} [Inhabited V] (rankOf : CommKey → Nat) (env : CommEnv)
    (net : List (Msg V)) (v_base_field : List (LatticeField V)) (collect_field : LatticeField V)
    (comm_key : CommKey) : Outcome (List (LatticeField V) × List (Msg V)) :=
  let full_dim := env.comm_dim
  if divisions_defined full_dim comm_key then
    let n_replicates := product comm_key
    match v_base_field with
    | [] => Outcome.fatal "Empty vector!"
    | _ :: _ =>
      let posts := join_field_posts rankOf env v_base_field collect_field comm_key
      match join_recv_cycles rankOf env net comm_key v_base_field n_replicates with
      | none => Outcome.blocked
      | some bs => Outcome.ok (bs, posts)
  else Outcome.trap

/-- Source: `join_field(v_base_field, collect_field, comm_key)` on one rank
(lines 162-247): the call up to the barrier, then `comm_barrier()`; the frees
that follow the barrier change nothing that is observed. `all_arrive` tells
whether every rank of the communicator reaches the barrier. Returns the new
base fields and the messages this rank posted. -/
def join_field {V : Type} [Inhabited V] (rankOf : CommKey → Nat) (env : CommEnv)
    (net : List (Msg V)) (all_arrive : Bool) (v_base_field : List (LatticeField V))
    (collect_field : LatticeField V) (comm_key : CommKey) :
    Outcome (List (LatticeField V) × List (Msg V)) :=
  match join_field_to_barrier rankOf env net v_base_field collect_field comm_key with
  | Outcome.ok r => comm_barrier all_arrive r
  | Outcome.fatal msg => Outcome.fatal msg
  | Outcome.blocked => Outcome.blocked
  | Outcome.trap => Outcome.trap

/-! ## The collective: every rank of the process grid runs the same call -/

/-- The grid coordinates of all ranks of the process grid `P`. -/
def ranks (P : CommKey) : List CommKey :=
  (List.range (product P)).map (fun r => coordinate_from_index r P)

/-- The communicator as seen by the rank at grid coordinate `c`. -/
def envOf (rankOf : CommKey → Nat) (P c : CommKey) : CommEnv :=
  { comm_dim := P, comm_coord := c, comm_rank := rankOf c }

/-- The per-rank data of a collective: the base fields and the collect field
of the rank at each grid coordinate. -/
structure World (V : Type) where
  base : CommKey → List (LatticeField V)
  collect : CommKey → LatticeField V

/-- All messages posted when every rank of `P` runs `split_field`: those of
the send loops of all ranks, and none when the divisions at the head of the
call are not defined (every rank then stops before its send loop). -/
def split_net {V : Type} (rankOf : CommKey → Nat) (P K : CommKey) (w : World V) :
    List (Msg V) :=
  if divisions_defined P K then
    (ranks P).flatMap (fun c => split_field_posts rankOf (envOf rankOf P c) (w.base c) K)
  else []

/-- Whether every rank of `P` reaches the closing barrier of `split_field`
when all ranks of `P` run it. -/
def split_arrive {V : Type} [Inhabited V] (rankOf : CommKey → Nat) (P K : CommKey)
    (w : World V) : Bool :=
  (ranks P).all (fun c =>
    (split_field_to_barrier rankOf (envOf rankOf P c) (split_net rankOf P K w) (w.collect c)
      (w.base c) K).isOk)

/-- The outcome of `split_field` on the rank at coordinate `d` when all ranks
of `P` run it. -/
def split_all {V : Type} [Inhabited V] (rankOf : CommKey → Nat) (P K : CommKey)
    (w : World V) (d : CommKey) : Outcome (LatticeField V × List (Msg V)) :=
  split_field rankOf (envOf rankOf P d) (split_net rankOf P K w) (split_arrive rankOf P K w)
    (w.collect d) (w.base d) K

/-- All messages posted when every rank of `P` runs `join_field`: those of
the send loops of all ranks, and none when the divisions at the head of the
call are not defined (every rank then stops before its send loop). -/
def join_net {V : Type} [Inhabited V] (rankOf : CommKey → Nat) (P K : CommKey)
    (w : World V) : List (Msg V) :=
  if divisions_defined P K then
    (ranks P).flatMap
      (fun c => join_field_posts rankOf (envOf rankOf P c) (w.base c) (w.collect c) K)
  else []

/-- Whether every rank of `P` reaches the closing barrier of `join_field`
when all ranks of `P` run it. -/
def join_arrive {V : Type} [Inhabited V] (rankOf : CommKey → Nat) (P K : CommKey)
    (w : World V) : Bool :=
  (ranks P).all (fun c =>
    (join_field_to_barrier rankOf (envOf rankOf P c) (join_net rankOf P K w) (w.base c)
      (w.collect c) K).isOk)

/-- The outcome of `join_field` on the rank at coordinate `d` when all ranks
of `P` run it. -/
def join_all {V : Type} [Inhabited V] (rankOf : CommKey → Nat) (P K : CommKey)
    (w : World V) (d : CommKey) : Outcome (List (LatticeField V) × List (Msg V)) :=
  join_field rankOf (envOf rankOf P d) (join_net rankOf P K w) (join_arrive rankOf P K w)
    (w.base d) (w.collect d) K

/-- The rank map is injective on the coordinates of the process grid `P`. -/
def RankInjective (rankOf : CommKey → Nat) (P : CommKey) : Prop :=
  ∀ a b : CommKey, a.inBox P → b.inBox P → rankOf a = rankOf b → a = b

/-- The input of a reshape over the process grid `P` with key `K`: every rank
holds `n` base fields of local extents `X` and a collect field of extents
`K * X` (the spec's `block_dim × X`). -/
def WellFormed {V : Type} (P K X : CommKey) (n : Nat) (w : World V) : Prop :=
  ∀ c : CommKey, c.inBox P →
    (w.base c).length = n ∧ (∀ f ∈ w.base c, f.X = X) ∧ (w.collect c).X = K * X

/-- The world after every rank has run `split_field`: the base fields are
read-only inputs, the collect field of a rank is the one its call returned. -/
def after_split {V : Type} [Inhabited V] (rankOf : CommKey → Nat) (P K : CommKey)
    (w : World V) : World V :=
  { base := w.base
    collect := fun d =>
      match split_all rankOf P K w d with
      | Outcome.ok r => r.1
      | _ => w.collect d }

/-- Routing of the split: the message that the rank at `s` posts in pass `i` of
its send loop is the one that the rank at `d` waits for in pass `i2` of its
receive loop (and stitches into block `i2` of its collect field). -/
def SplitRoute (P K : CommKey) (s : CommKey) (i : Nat) (d : CommKey) (i2 : Nat) : Prop :=
  split_dst_idx P s K i = d ∧ split_src_idx P d K i2 = s

/-- The rank map sends the coordinates of the process grid `P` to rank ids
below the number of ranks. -/
def RankBounded (rankOf : CommKey → Nat) (P : CommKey) : Prop :=
  ∀ a : CommKey, a.inBox P → rankOf a < product P

/-! ## A concrete two-rank reshape, used to instantiate the theorems -/

/-- A process grid of two ranks along axis 0. -/
def demoGrid : CommKey := ⟨2, 1, 1, 1⟩

/-- The key that gathers both ranks of `demoGrid`. -/
def demoKey : CommKey := ⟨2, 1, 1, 1⟩

/-- Local extents of the base fields of the example. -/
def demoExtent : CommKey := ⟨2, 1, 1, 1⟩

/-- Two base fields per rank; base field `k` of rank `r` holds `100 * k + 10 * r + x0` at the
site with first coordinate `x0`, and the collect fields start filled with `7`. -/
def demoWorld : World Nat :=
  { base := fun c =>
      [ { X := demoExtent, data := fun x => 10 * lex_rank_from_coords_t demoGrid c + x.c0 },
        { X := demoExtent,
          data := fun x => 100 + 10 * lex_rank_from_coords_t demoGrid c + x.c0 } ]
    collect := fun _ => { X := demoKey * demoExtent, data := fun _ => 7 } }

/-! ## The Chebyshev accelerator `polyOp` (quda_arpack_interface.cpp, lines 10-65) -/

/-- Modelled from the spec: the spectrum tag `arpack_param->spectrum`. The enum
is declared outside the sources at hand; the six tags are those the driver
compares against, and `other` stands for any other value of the C enum. -/
inductive QudaArpackSpectrumType where
  | QUDA_SR_SPECTRUM
  | QUDA_LR_SPECTRUM
  | QUDA_SM_SPECTRUM
  | QUDA_LM_SPECTRUM
  | QUDA_SI_SPECTRUM
  | QUDA_LI_SPECTRUM
  | other (code : Int)
deriving DecidableEq, Repr

/-- Modelled from the spec: the precision tag `arpack_param->arpackPrec`
(`prec: f32 | f64` of the configuration surface); `other` stands for any
other value of the C enum. -/
inductive QudaPrecision where
  | QUDA_SINGLE_PRECISION
  | QUDA_DOUBLE_PRECISION
  | other (code : Int)
deriving DecidableEq, Repr

/-- Modelled from the spec: the fields of `QudaArpackParam` that `polyOp` and
the drivers read (the struct is declared outside the sources at hand). Real
parameters are taken in an exact field `K`. -/
structure QudaArpackParam (K : Type) where
  amin : K
  amax : K
  polyDeg : Int
  usePolyAcc : Bool
  spectrum : QudaArpackSpectrumType
  nEv : Int
  nKv : Int
  arpackMaxiter : Int
  arpackTol : K
  arpackMode : Int
  arpackPrec : QudaPrecision

/-- Modelled from the spec: `blas::axpby(a, x, b, y)` sets `y = a*x + b*y`;
the value returned is the new `y`, `x` is not written. -/
def blas_axpby {K V : Type} [Field K] [AddCommGroup V] [Module K V]
    (a : K) (x : V) (b : K) (y : V) : V := a • x + b • y

/-- Modelled from the spec: `blas::ax(a, x)` sets `x = a*x`. -/
def blas_ax {K V : Type} [Field K] [AddCommGroup V] [Module K V] (a : K) (x : V) : V := a • x

/-- Modelled from the spec: `blas::cxpaypbz(x, a, y, b, z)` sets
`z = x + a*y + b*z`; the value returned is the new `z`. -/
def blas_cxpaypbz {K V : Type} [Field K] [AddCommGroup V] [Module K V]
    (x : V) (a : K) (y : V) (b : K) (z : V) : V := x + a • y + b • z

/-- The variables that the loop of `polyOp` carries from one pass to the next. -/
structure PolyState (K V : Type) where
  out : V
  tm1 : V
  tm2 : V
  sigma_old : K

/-- Source: one pass of the loop of `polyOp` (lines 47-60). -/
def polyOp_step {K V : Type} [Field K] [AddCommGroup V] [Module K V] (MdagM : V → V)
    (delta theta sigma1 : K) (st : PolyState K V) : PolyState K V :=
  let sigma := 1 / (2 / sigma1 - st.sigma_old)
  let d1 := 2 * sigma / delta
  let d2 := -d1 * theta
  let d3 := -sigma * st.sigma_old
  let out1 := MdagM st.tm2
  let tm1a := blas_ax d3 st.tm1
  let out2 := blas_cxpaypbz tm1a d2 st.tm2 d1 out1
  { out := out2, tm1 := st.tm2, tm2 := out2, sigma_old := sigma }

/-- Source: the loop `for (i = 2; i <= polyDeg; i++)` of `polyOp`; the state
after `n` passes. -/
def polyOp_loop {K V : Type} [Field K] [AddCommGroup V] [Module K V] (MdagM : V → V)
    (delta theta sigma1 : K) (st : PolyState K V) : Nat → PolyState K V
  | 0 => st
  | n + 1 => polyOp_step MdagM delta theta sigma1 (polyOp_loop MdagM delta theta sigma1 st n)

/-- What a call of `polyOp` leaves behind: the output vector, the input vector
after the call, and the number of scratch vectors created with `new`. -/
structure PolyResult (V : Type) where
  out : V
  inp : V
  scratch : Nat

/-- Source: `polyOp<Float>(mat, out, in, arpack_param)` with `mat.MdagM` passed
as the function `MdagM`, in exact arithmetic. -/
def polyOp {K V : Type} [Field K] [AddCommGroup V] [Module K V] (MdagM : V → V)
    (inp : V) (arpack_param : QudaArpackParam K) : PolyResult V :=
  let a := arpack_param.amin
  let b := arpack_param.amax
  let polyDeg := arpack_param.polyDeg
  let delta := (b - a) / 2
  let theta := (b + a) / 2
  let sigma1 := -delta / theta
  let d1 := sigma1 / delta
  let d2 : K := 1
  let out1 := MdagM inp
  let out2 := blas_axpby d2 inp d1 out1
  if polyDeg = 1 then { out := out2, inp := inp, scratch := 0 }
  else
    let st := polyOp_loop MdagM delta theta sigma1
      { out := out2, tm1 := inp, tm2 := out2, sigma_old := sigma1 } (polyDeg - 1).toNat
    { out := st.out, inp := inp, scratch := 2 }

/-- The scalar by which `polyOp` multiplies an eigenvector of eigenvalue `lam`:
`polyOp` run on the one-dimensional space `K` with `MdagM` the multiplication
by `lam` and input `1`. -/
def polyFactor {K : Type} [Field K] (arpack_param : QudaArpackParam K) (lam : K) : K :=
  (polyOp (fun v : K => lam * v) (1 : K) arpack_param).out

/-- The recurrence as the specification words it: `sigma_1 = -delta/theta` and
`sigma_k = 1 / (2/sigma_1 - sigma_{k-1})`; the value at index `k` is
`sigma_{k+1}`. -/
def specSigma {K : Type} [Field K] (delta theta : K) : Nat → K
  | 0 => -delta / theta
  | k + 1 => 1 / (2 / (-delta / theta) - specSigma delta theta k)

/-- The recurrence as the specification words it: `y_0 = in`,
`y_1 = (sigma_1/delta) * H y_0 + y_0` and, for `k >= 2`,
`y_k = d1 * H y_{k-1} + d2 * y_{k-1} + d3 * y_{k-2}` with `d1 = 2 sigma_k / delta`,
`d2 = -d1 * theta`, `d3 = -sigma_k * sigma_{k-1}`. -/
def specY {K V : Type} [Field K] [AddCommGroup V] [Module K V] (H : V → V)
    (delta theta : K) (inp : V) : Nat → V
  | 0 => inp
  | 1 => ((-delta / theta) / delta) • H inp + inp
  | k + 2 =>
    let sigma := specSigma delta theta (k + 1)
    let sigma_prev := specSigma delta theta k
    let d1 := 2 * sigma / delta
    let d2 := -d1 * theta
    let d3 := -sigma * sigma_prev
    d1 • H (specY H delta theta inp (k + 1)) + d2 • specY H delta theta inp (k + 1)
      + d3 • specY H delta theta inp k

/-- The Chebyshev polynomials of the first kind by their three-term
recurrence: `T_0 = 1`, `T_1 = u`, `T_{k+2} = 2 u T_{k+1} - T_k`. -/
def chebT {K : Type} [Field K] : Nat → K → K
  | 0, _ => 1
  | 1, u => u
  | k + 2, u => 2 * u * chebT (k + 1) u - chebT k u

/-- The test operator `H = diag(1, 4)` of the specification, on pairs. -/
def diagH (v : ℚ × ℚ) : ℚ × ℚ := (1 * v.1, 4 * v.2)

/-- Accelerator parameters `amin = 1`, `amax = 4` with the given degree. -/
def demoParam (polyDeg : Int) : QudaArpackParam ℚ :=
  { amin := 1, amax := 4, polyDeg := polyDeg, usePolyAcc := true,
    spectrum := QudaArpackSpectrumType.QUDA_SR_SPECTRUM, nEv := 1, nKv := 2,
    arpackMaxiter := 10, arpackTol := 0, arpackMode := 1,
    arpackPrec := QudaPrecision.QUDA_DOUBLE_PRECISION }

/-! ## The ARPACK drivers (quda_arpack_interface.cpp, lines 67-641) -/

open QudaArpackSpectrumType in
/-- Source: the selector string computed by `arpack_solve_float` (lines 168-186):
`spectrum` is initialised to `"SR"` and then set by the two `if`/`else if`
chains. -/
def spectrum_float (usePolyAcc : Bool) (spectrum : QudaArpackSpectrumType) : String :=
  let init := "SR"
  if usePolyAcc then
    if spectrum = QUDA_SR_SPECTRUM then "LR"
    else if spectrum = QUDA_LR_SPECTRUM then "SR"
    else if spectrum = QUDA_SM_SPECTRUM then "LM"
    else if spectrum = QUDA_LM_SPECTRUM then "SM"
    else if spectrum = QUDA_SI_SPECTRUM then "LI"
    else if spectrum = QUDA_LI_SPECTRUM then "SI"
    else init
  else
    if spectrum = QUDA_SR_SPECTRUM then "SR"
    else if spectrum = QUDA_LR_SPECTRUM then "LR"
    else if spectrum = QUDA_SM_SPECTRUM then "SM"
    else if spectrum = QUDA_LM_SPECTRUM then "LM"
    else if spectrum = QUDA_SI_SPECTRUM then "SI"
    else if spectrum = QUDA_LI_SPECTRUM then "LI"
    else init

open QudaArpackSpectrumType in
/-- Source: the selector string computed by `arpack_solve_double` (lines 454-472). -/
def spectrum_double (usePolyAcc : Bool) (spectrum : QudaArpackSpectrumType) : String :=
  let init := "SR"
  if usePolyAcc then
    if spectrum = QUDA_SR_SPECTRUM then "LR"
    else if spectrum = QUDA_LR_SPECTRUM then "SR"
    else if spectrum = QUDA_SM_SPECTRUM then "LM"
    else if spectrum = QUDA_LM_SPECTRUM then "SM"
    else if spectrum = QUDA_SI_SPECTRUM then "LI"
    else if spectrum = QUDA_LI_SPECTRUM then "SI"
    else init
  else
    if spectrum = QUDA_SR_SPECTRUM then "SR"
    else if spectrum = QUDA_LR_SPECTRUM then "LR"
    else if spectrum = QUDA_SM_SPECTRUM then "SM"
    else if spectrum = QUDA_LM_SPECTRUM then "LM"
    else if spectrum = QUDA_SI_SPECTRUM then "SI"
    else if spectrum = QUDA_LI_SPECTRUM then "LI"
    else init

/-- The spectrum tag is one of the six tags the drivers know. -/
def QudaArpackSpectrumType.isTag : QudaArpackSpectrumType → Bool
  | QudaArpackSpectrumType.other _ => false
  | _ => true

/-- The part of the solver state that the library routine `_naupd` reads and
writes through its arguments: `ido`, `info`, `ipntr`, `iparam`, the work array
`workd` (indexed by the offset from `w_workd_`), and in `lib` everything else
the library owns (`resid`, the Krylov basis, `workl`, `rwork`). -/
structure ArpackState (C L : Type) where
  ido : Int
  info : Int
  ipntr : Nat → Int
  iparam : Nat → Int
  workd : Int → C
  lib : L

/-- The vector of length `n` that a `cpuColorSpinorField` created on the
address `w_workd_ + off` aliases. -/
def readVec {C : Type} (n : Nat) (workd : Int → C) (off : Int) : Fin n → C :=
  fun i => workd (off + (i.val : Int))

/-- Assignment to a `cpuColorSpinorField` that aliases `w_workd_ + off`: the
`n` entries from `off` on are overwritten, the rest of the array is kept. -/
def writeVec {C : Type} (n : Nat) (workd : Int → C) (off : Int) (v : Fin n → C) : Int → C :=
  fun j => if h : off ≤ j ∧ j < off + (n : Int) then v ⟨(j - off).toNat, by omega⟩ else workd j

/-- One application of the operator by the driver, with its input vector. -/
inductive OpCall (V : Type) where
  | polyOp (inp : V)
  | MdagM (inp : V)

/-- The local variables of the driver that live across passes of its loop:
the library state, the `allocate` flag, the offsets into `w_workd_` that the
host fields `h_v` and `h_v2` alias, the device fields `d_v` and `d_v2`, the
iteration counter, and (for the statement of properties) the list of operator
applications made so far. -/
structure DriverState (C L : Type) (n : Nat) where
  arp : ArpackState C L
  allocate : Bool
  h_v : Int
  h_v2 : Int
  d_v : Fin n → C
  d_v2 : Fin n → C
  iter_cnt : Int
  calls : List (OpCall (Fin n → C))

/-- How one pass of the driver loop ends: `errorQuda`, `break`, or the end of
the loop body. -/
inductive PassResult (C L : Type) (n : Nat) where
  | fatal (msg : String) (st : DriverState C L n)
  | brk (st : DriverState C L n)
  | next (st : DriverState C L n)

/-- Source: the block `if (allocate) { ... }` of the driver loop (lines 216-233
and 502-519), run after the library step has returned `arp`: on the first pass
the host fields are created on `w_workd_ + ipntr_[0] - 1` and
`w_workd_ + (ipntr_[1] - 1)`, the device fields are created zeroed, and
`allocate` is cleared. -/
def arpack_allocate {C L : Type} {n : Nat} [AddCommGroup C] (arp : ArpackState C L)
    (st : DriverState C L n) : DriverState C L n :=
  if st.allocate then
    { st with arp := arp, h_v := arp.ipntr 0 - 1, h_v2 := arp.ipntr 1 - 1,
              d_v := 0, d_v2 := 0, allocate := false }
  else { st with arp := arp }

/-- Source: the block `if (ido_ == -1 || ido_ == 1) { ... }` of the driver loop
(lines 238-250 and 524-536): `*d_v = *h_v`, the operator application, and
`*h_v2 = *d_v2`. -/
def arpack_apply {K C L : Type} {n : Nat} [Field K] [AddCommGroup C] [Module K C]
    (MdagM : (Fin n → C) → (Fin n → C)) (arpack_param : QudaArpackParam K)
    (st : DriverState C L n) : DriverState C L n :=
  let d_v := readVec n st.arp.workd st.h_v
  if arpack_param.usePolyAcc then
    let r := polyOp MdagM d_v arpack_param
    { st with d_v := r.inp, d_v2 := r.out,
              arp := { st.arp with workd := writeVec n st.arp.workd st.h_v2 r.out },
              calls := st.calls ++ [OpCall.polyOp d_v] }
  else
    let d_v2 := MdagM d_v
    { st with d_v := d_v, d_v2 := d_v2,
              arp := { st.arp with workd := writeVec n st.arp.workd st.h_v2 d_v2 },
              calls := st.calls ++ [OpCall.MdagM d_v] }

/-- Source: the body of the `do ... while` loop of `arpack_solve_float` (lines
199-255) and, alike apart from the precision, of `arpack_solve_double` (lines
485-541). `naupd` is the library routine (`cnaupd`, `znaupd` or the parallel
variants), `MdagM` is `mat->MdagM`. -/
def arpack_pass {K C L : Type} {n : Nat} [Field K] [AddCommGroup C] [Module K C]
    (naupd : ArpackState C L → ArpackState C L) (MdagM : (Fin n → C) → (Fin n → C))
    (arpack_param : QudaArpackParam K) (st : DriverState C L n) : PassResult C L n :=
  if (naupd st.arp).info ≠ 0 then
    PassResult.fatal "Error in naupd" { st with arp := naupd st.arp }
  else if (naupd st.arp).ido = 99 ∨ (naupd st.arp).info = 1 then
    PassResult.brk (arpack_allocate (naupd st.arp) st)
  else if (naupd st.arp).ido = -1 ∨ (naupd st.arp).ido = 1 then
    PassResult.next
      { arpack_apply MdagM arpack_param (arpack_allocate (naupd st.arp) st) with
        iter_cnt := (arpack_apply MdagM arpack_param
          (arpack_allocate (naupd st.arp) st)).iter_cnt + 1 }
  else
    PassResult.next
      { arpack_allocate (naupd st.arp) st with
        iter_cnt := (arpack_allocate (naupd st.arp) st).iter_cnt + 1 }

/-- How the driver loop ends. -/
inductive LoopResult (C L : Type) (n : Nat) where
  | fatal (msg : String) (st : DriverState C L n)
  | finished (st : DriverState C L n)
  | outOfFuel (st : DriverState C L n)

/-- Source: the `do ... while (99 != ido_ && iter_cnt < max_iter)` loop of the
drivers, run for at most `fuel` passes. -/
def arpack_loop {K C L : Type} {n : Nat} [Field K] [AddCommGroup C] [Module K C]
    (naupd : ArpackState C L → ArpackState C L) (MdagM : (Fin n → C) → (Fin n → C))
    (arpack_param : QudaArpackParam K) : Nat → DriverState C L n → LoopResult C L n
  | 0, st => LoopResult.outOfFuel st
  | fuel + 1, st =>
    match arpack_pass naupd MdagM arpack_param st with
    | PassResult.fatal msg st1 => LoopResult.fatal msg st1
    | PassResult.brk st1 => LoopResult.finished st1
    | PassResult.next st1 =>
      if 99 ≠ st1.arp.ido ∧ st1.iter_cnt < arpack_param.arpackMaxiter then
        arpack_loop naupd MdagM arpack_param fuel st1
      else LoopResult.finished st1

/-- Source: the state of the driver when it enters the loop (lines 157-163 and
188-194): `ido = 0`, `info = 0`, `iparam[0] = 1`, `iparam[2] = max_iter`,
`iparam[3] = 1`, `iparam[6] = 1`, `iparam[7] = arpackMode`, `iter_cnt = 0`,
`allocate = true` and the four field pointers `NULL`. The content of the
work array and of the library-owned storage is whatever `malloc` returned. -/
def arpack_init {K C L : Type} {n : Nat} [AddCommGroup C] (arpack_param : QudaArpackParam K)
    (ipntr iparam : Nat → Int) (workd : Int → C) (lib : L) : DriverState C L n :=
  { arp :=
      { ido := 0, info := 0, ipntr := ipntr,
        iparam := fun k =>
          if k = 0 then 1 else if k = 2 then arpack_param.arpackMaxiter
          else if k = 3 then 1 else if k = 6 then 1
          else if k = 7 then arpack_param.arpackMode else iparam k,
        workd := workd, lib := lib }
    allocate := true, h_v := 0, h_v2 := 0, d_v := 0, d_v2 := 0, iter_cnt := 0, calls := [] }

/-- A library step for instantiating the theorems: it asks for one operator
application (`ido = 1`) on the vector at Fortran position 1, with the result
wanted at Fortran position 3, and reports `info = 0`. -/
def demoNaupd (a : ArpackState ℚ Unit) : ArpackState ℚ Unit :=
  { a with ido := 1, info := 0,
           ipntr := fun k => if k = 0 then 1 else if k = 1 then 3 else a.ipntr k }

/-- A library step that reports convergence (`ido = 99`, `info = 0`). -/
def demoNaupdDone (a : ArpackState ℚ Unit) : ArpackState ℚ Unit :=
  { a with ido := 99, info := 0 }

/-- A library step that asks for nothing the driver handles (`ido = 2`). -/
def demoNaupdOther (a : ArpackState ℚ Unit) : ArpackState ℚ Unit :=
  { a with ido := 2, info := 0 }

/-- The test operator `diag(1, 4)` on vectors of length two. -/
def diagH2 (v : Fin 2 → ℚ) : Fin 2 → ℚ := fun i => if i.val = 0 then 1 * v i else 4 * v i

/-- The initial driver state of the example, the work array holding `j` at offset `j`. -/
def demoDriver : DriverState ℚ Unit 2 :=
  arpack_init (demoParam 3) (fun _ => 0) (fun _ => 0) (fun j => (j : ℚ)) ()

/-! ## The drivers as a whole: loop, extraction, and what the caller gets back -/

/-- Source: the library results seen by the `do ... while` loop of the drivers,
in order: one entry for every call of the library step, run for at most
`fuel` passes. The recursion is that of `arpack_loop`. -/
def arpack_loop_trace {K C L : Type} {n : Nat} [Field K] [AddCommGroup C] [Module K C]
    (naupd : ArpackState C L → ArpackState C L) (MdagM : (Fin n → C) → (Fin n → C))
    (arpack_param : QudaArpackParam K) : Nat → DriverState C L n → List (ArpackState C L)
  | 0, _ => []
  | fuel + 1, st =>
    naupd st.arp ::
      (match arpack_pass naupd MdagM arpack_param st with
       | PassResult.fatal _ _ => []
       | PassResult.brk _ => []
       | PassResult.next st1 =>
         if 99 ≠ st1.arp.ido ∧ st1.iter_cnt < arpack_param.arpackMaxiter then
           arpack_loop_trace naupd MdagM arpack_param fuel st1
         else [])

/-- The driver state after `k` passes of the loop body that all ran to the end
of the body (`none` once a pass aborts or breaks). -/
def arpack_passes {K C L : Type} {n : Nat} [Field K] [AddCommGroup C] [Module K C]
    (naupd : ArpackState C L → ArpackState C L) (MdagM : (Fin n → C) → (Fin n → C))
    (arpack_param : QudaArpackParam K) (st0 : DriverState C L n) :
    Nat → Option (DriverState C L n)
  | 0 => some st0
  | k + 1 =>
    match arpack_passes naupd MdagM arpack_param st0 k with
    | none => none
    | some st =>
      match arpack_pass naupd MdagM arpack_param st with
      | PassResult.next st1 => some st1
      | _ => none

/-- The pass that starts in `st` applies the operator once, to the vector at
offset `off_in` of the work array as the library step of this pass left it,
and writes the result to the vector at offset `off_out`. -/
def AddressedBy {K C L : Type} {n : Nat} [Field K] [AddCommGroup C] [Module K C]
    (naupd : ArpackState C L → ArpackState C L) (MdagM : (Fin n → C) → (Fin n → C))
    (arpack_param : QudaArpackParam K) (off_in off_out : Int) (st : DriverState C L n) : Prop :=
  ∃ st1, arpack_pass naupd MdagM arpack_param st = PassResult.next st1 ∧
    st1.calls = st.calls ++
      [if arpack_param.usePolyAcc then OpCall.polyOp (readVec n (naupd st.arp).workd off_in)
        else OpCall.MdagM (readVec n (naupd st.arp).workd off_in)] ∧
    st1.arp.workd = writeVec n (naupd st.arp).workd off_out
      (if arpack_param.usePolyAcc then
        (polyOp MdagM (readVec n (naupd st.arp).workd off_in) arpack_param).out
      else MdagM (readVec n (naupd st.arp).workd off_in))

/-- The eigensolver library as the drivers use it: the reverse-communication
step `_naupd` and the extraction `_neupd`, both given the selector string.
`_neupd` returns the library state (with `info` and `iparam`) and the content
it leaves in the buffers `h_evals_` and `h_evecs_` passed to it. -/
structure ArpackLib (C L : Type) where
  naupd : String → ArpackState C L → ArpackState C L
  neupd : String → ArpackState C L → ArpackState C L × (Nat → C) × (Nat → C)

/-- What is left when a driver returns: the caller's buffers `h_evecs` and
`h_evals` (the two `void*` arguments), and, as they were just before the
cleanup, the driver's own buffers: the extracted eigenvalues `h_evals_`, the
eigenvectors `h_evecs_`, `nconv`, the arrays `h_evals_sorted_idx` and
`h_evals_sorted`, whether `h_evals_lc` and `h_evecs_lc` were freed, and the
final state of the loop. -/
structure SolveReturn (K C L : Type) (n : Nat) where
  h_evecs : Nat → C
  h_evals : Nat → C
  nconv : Int
  h_evals_ : Nat → C
  h_evecs_ : Nat → C
  h_evals_sorted_idx : List Nat
  h_evals_sorted : List K
  lc_freed : Bool
  st : DriverState C L n

/-- How a driver ends: `errorQuda`, or a normal return. -/
inductive SolveOutcome (K C L : Type) (n : Nat) where
  | fatal (msg : String)
  | outOfFuel
  | returned (r : SolveReturn K C L n)

/-- Source: the part of the drivers after the loop (lines 257-349 and 543-640):
the test `info_ < 0`, the call of `_neupd` with its test `info_ != 0`, the loop
that fills `h_evals_sorted_idx[j] = j` and `h_evals_sorted[j] = abs(h_evals_[j])`
for `j < nconv = iparam_[4]` (the sort that follows is commented out in the
source), and the cleanup. `cabs` is `std::abs` on complex numbers; `freed`
tells whether the cleanup frees `h_evals_lc` and `h_evecs_lc` (it does in the
single-precision driver only). The arguments `h_evecs` and `h_evals` of the
caller occur in no statement of the source. -/
def arpack_finish {K C L : Type} {n : Nat} (lib : ArpackLib C L) (cabs : C → K)
    (selector : String) (freed : Bool) (h_evecs h_evals : Nat → C)
    (st : DriverState C L n) : SolveOutcome K C L n :=
  if st.arp.info < 0 then SolveOutcome.fatal "Error in _naupd"
  else
    let e := lib.neupd selector st.arp
    if e.1.info ≠ 0 then SolveOutcome.fatal "Error in neupd"
    else
      let nconv := e.1.iparam 4
      SolveOutcome.returned
        { h_evecs := h_evecs, h_evals := h_evals, nconv := nconv,
          h_evals_ := e.2.1, h_evecs_ := e.2.2,
          h_evals_sorted_idx := (List.range nconv.toNat).map (fun j => j),
          h_evals_sorted := (List.range nconv.toNat).map (fun j => cabs (e.2.1 j)),
          lc_freed := freed,
          st := { st with arp := e.1 } }

/-- Source: a driver from the initial assignments to the return, for a given
selector string. The loop needs at most `max(1, max_iter)` passes, which is
the fuel given to it. -/
def arpack_solve_driver {K C L : Type} {n : Nat} [Field K] [AddCommGroup C] [Module K C]
    (lib : ArpackLib C L) (MdagM : (Fin n → C) → (Fin n → C)) (cabs : C → K)
    (arpack_param : QudaArpackParam K) (selector : String) (freed : Bool)
    (h_evecs h_evals : Nat → C) (st0 : DriverState C L n) : SolveOutcome K C L n :=
  match arpack_loop (lib.naupd selector) MdagM arpack_param
      (max 1 arpack_param.arpackMaxiter.toNat) st0 with
  | LoopResult.fatal msg _ => SolveOutcome.fatal msg
  | LoopResult.outOfFuel _ => SolveOutcome.outOfFuel
  | LoopResult.finished st => arpack_finish lib cabs selector freed h_evecs h_evals st

/-- Source: `arpack_solve_float(h_evecs, h_evals, inv_param, arpack_param,
d_param, local_dim)`; `st0` is the state at loop entry (`arpack_init`). -/
def arpack_solve_float {K C L : Type} {n : Nat} [Field K] [AddCommGroup C] [Module K C]
    (lib : ArpackLib C L) (MdagM : (Fin n → C) → (Fin n → C)) (cabs : C → K)
    (arpack_param : QudaArpackParam K) (h_evecs h_evals : Nat → C)
    (st0 : DriverState C L n) : SolveOutcome K C L n :=
  arpack_solve_driver lib MdagM cabs arpack_param
    (spectrum_float arpack_param.usePolyAcc arpack_param.spectrum) true h_evecs h_evals st0

/-- Source: `arpack_solve_double(h_evecs, h_evals, inv_param, arpack_param,
d_param, local_dim)`; the frees of `h_evals_lc` and `h_evecs_lc` are commented
out in this driver. -/
def arpack_solve_double {K C L : Type} {n : Nat} [Field K] [AddCommGroup C] [Module K C]
    (lib : ArpackLib C L) (MdagM : (Fin n → C) → (Fin n → C)) (cabs : C → K)
    (arpack_param : QudaArpackParam K) (h_evecs h_evals : Nat → C)
    (st0 : DriverState C L n) : SolveOutcome K C L n :=
  arpack_solve_driver lib MdagM cabs arpack_param
    (spectrum_double arpack_param.usePolyAcc arpack_param.spectrum) false h_evecs h_evals st0

/-- Source: `arpackSolve` (lines 643-654), the dispatch on `arpackPrec`. -/
def arpackSolve {K C L : Type} {n : Nat} [Field K] [AddCommGroup C] [Module K C]
    (lib : ArpackLib C L) (MdagM : (Fin n → C) → (Fin n → C)) (cabs : C → K)
    (arpack_param : QudaArpackParam K) (h_evecs h_evals : Nat → C)
    (st0 : DriverState C L n) : SolveOutcome K C L n :=
  if arpack_param.arpackPrec = QudaPrecision.QUDA_DOUBLE_PRECISION then
    arpack_solve_double lib MdagM cabs arpack_param h_evecs h_evals st0
  else arpack_solve_float lib MdagM cabs arpack_param h_evecs h_evals st0

/-! ## Library behaviours used to instantiate the theorems on the drivers -/

/-- A library step that asks for an operator application in every call
(`ido = 1`, `info = 0`) and moves its buffers: the first call hands the input at
Fortran position 1 and wants the output at position 3, every later call hands
the input at position 3 and wants the output at position 1. The library state
counts the calls. -/
def flipNaupd (a : ArpackState ℚ Nat) : ArpackState ℚ Nat :=
  { a with ido := 1, info := 0,
           ipntr := fun k =>
             if a.lib = 0 then (if k = 0 then 1 else if k = 1 then 3 else a.ipntr k)
             else (if k = 0 then 3 else if k = 1 then 1 else a.ipntr k),
           lib := a.lib + 1 }

/-- Driver parameters without polynomial acceleration. -/
def plainParam : QudaArpackParam ℚ := { demoParam 1 with usePolyAcc := false }

/-- The initial driver state for `flipNaupd`, the work array holding `j` at offset `j`. -/
def flipDriver : DriverState ℚ Nat 2 :=
  arpack_init plainParam (fun _ => 0) (fun _ => 0) (fun j => (j : ℚ)) 0

/-- A library whose first step reports convergence (`ido = 99`, `info = 0`)
and whose extraction reports two converged pairs with eigenvalues `2` and `1`,
in this order. The library state records the selector of every `_naupd` call. -/
def demoLib : ArpackLib ℚ (List String) :=
  { naupd := fun sel a => { a with ido := 99, info := 0, lib := a.lib ++ [sel] }
    neupd := fun _ a =>
      ({ a with info := 0, iparam := fun k => if k = 4 then 2 else a.iparam k },
        fun j => if j = 0 then 2 else 1, fun j => (j : ℚ)) }

/-- A library whose step reports that the maximum number of iterations was
reached (`ido = 99`, `info = 1`); its extraction is that of `demoLib`. -/
def demoLibMaxIter : ArpackLib ℚ (List String) :=
  { naupd := fun sel a => { a with ido := 99, info := 1, lib := a.lib ++ [sel] }
    neupd := demoLib.neupd }

/-- A library whose step reports that no shifts could be applied (`ido = 99`,
`info = 3`); its extraction is that of `demoLib`. -/
def demoLibNoShifts : ArpackLib ℚ (List String) :=
  { naupd := fun sel a => { a with ido := 99, info := 3, lib := a.lib ++ [sel] }
    neupd := demoLib.neupd }

/-- The state at loop entry for the libraries above, with parameters `p`. -/
def demoEntry (p : QudaArpackParam ℚ) : DriverState ℚ (List String) 2 :=
  arpack_init p (fun _ => 0) (fun _ => 0) (fun j => (j : ℚ)) []

/-- The caller's buffers of the examples: filled with `-1` before the call. -/
def callerBuffer : Nat → ℚ := fun _ => -1

/-! ## Further concrete reshapes, used to instantiate the theorems -/

/-- A process grid of four ranks along axis 0. -/
def oddGrid : CommKey := ⟨4, 1, 1, 1⟩

/-- A key whose first component, `3`, does not divide the four ranks of
`oddGrid`. -/
def oddKey : CommKey := ⟨3, 1, 1, 1⟩

/-- One single-site base field per rank of `oddGrid`, holding `10 + rank`; the
collect fields have the extents of `oddKey` and start filled with `7`. -/
def oddWorld : World Nat :=
  { base := fun c =>
      [ { X := ⟨1, 1, 1, 1⟩, data := fun _ => 10 + lex_rank_from_coords_t oddGrid c } ]
    collect := fun _ => { X := oddKey * ⟨1, 1, 1, 1⟩, data := fun _ => 7 } }

/-- Three base fields per rank on `demoGrid`, one more than `product demoKey`;
base field `k` of rank `r` holds `100 * k + 10 * r + x0` at the site with first
coordinate `x0`, and the collect fields start filled with `7`. -/
def surplusWorld : World Nat :=
  { base := fun c =>
      [ { X := demoExtent, data := fun x => 10 * lex_rank_from_coords_t demoGrid c + x.c0 },
        { X := demoExtent,
          data := fun x => 100 + 10 * lex_rank_from_coords_t demoGrid c + x.c0 },
        { X := demoExtent,
          data := fun x => 200 + 10 * lex_rank_from_coords_t demoGrid c + x.c0 } ]
    collect := fun _ => { X := demoKey * demoExtent, data := fun _ => 7 } }

/-- The input of the second scenario of the spec on the two-rank grid
`demoGrid`: two base fields of local extents `X` per rank, each holding the
rank id of its rank at every site; the collect fields have extents
`demoKey * X` and start filled with `7`. -/
def rankIdWorld (X : CommKey) : World Nat :=
  { base := fun c =>
      [ { X := X, data := fun _ => lex_rank_from_coords_t demoGrid c },
        { X := X, data := fun _ => lex_rank_from_coords_t demoGrid c } ]
    collect := fun _ => { X := demoKey * X, data := fun _ => 7 } }

/-! ## The receives that the reshape declares, and the second rank layout -/

/-- Source: the receive that pass `i` of the receive loop of `split_field`
declares (lines 128-139): the source rank and the tag handed to
`comm_declare_recv_rank`. -/
def split_recv_decl (rankOf : CommKey → Nat) (env : CommEnv) (comm_key : CommKey) (i : Nat) :
    Nat × Nat :=
  let full_dim := env.comm_dim
  let full_idx := env.comm_coord
  let rank := env.comm_rank
  let total_rank := product full_dim
  let src_idx := split_src_idx full_dim full_idx comm_key i
  let src_rank := rankOf src_idx
  let tag := src_rank * total_rank + rank
  (src_rank, tag)

/-- Source: the receive that pass `i` of the receive loop of `join_field`
declares (lines 217-230): the source rank and the tag. -/
def join_recv_decl (rankOf : CommKey → Nat) (env : CommEnv) (comm_key : CommKey) (i : Nat) :
    Nat × Nat :=
  let full_dim := env.comm_dim
  let full_idx := env.comm_coord
  let rank := env.comm_rank
  let total_rank := product full_dim
  let src_idx := join_src_idx full_dim full_idx comm_key i
  let src_rank := rankOf src_idx
  let tag := src_rank * total_rank + rank
  (src_rank, tag)

/-- Source: the receives of the receive loop of `split_field`, one per pass
`i = 0 .. n_replicates - 1`, in the order in which the loop declares them;
none when the field vector is empty (the call aborts first). -/
def split_field_recvs {V : Type} (rankOf : CommKey → Nat) (env : CommEnv)
    (v_base_field : List (LatticeField V)) (comm_key : CommKey) : List (Nat × Nat) :=
  match v_base_field with
  | [] => []
  | _ :: _ => (List.range (product comm_key)).map (split_recv_decl rankOf env comm_key)

/-- Source: the receives of the receive loop of `join_field`, one per pass. -/
def join_field_recvs {V : Type} (rankOf : CommKey → Nat) (env : CommEnv)
    (v_base_field : List (LatticeField V)) (comm_key : CommKey) : List (Nat × Nat) :=
  match v_base_field with
  | [] => []
  | _ :: _ => (List.range (product comm_key)).map (join_recv_decl rankOf env comm_key)

/-- Source: `lex_rank_from_coords_x` of host_utils.cpp, with the global
`gridsize_from_cmdline` passed as `gridsize`: the loop runs over `i = 2, 1, 0`. -/
def lex_rank_from_coords_x (gridsize : CommKey) (coords : CommKey) : Nat :=
  let rank3 := coords.c3
  let rank2 := gridsize.c2 * rank3 + coords.c2
  let rank1 := gridsize.c1 * rank2 + coords.c1
  gridsize.c0 * rank1 + coords.c0

/-- Matching of receives and sends in one collective call over the process
grid `P` with `n` passes per loop: `recv d i` is the (source rank, tag) of the
receive that the rank at `d` declares in pass `i`, `send s j` is the
(destination rank, tag) of the message that the rank at `s` posts in pass `j`.
The rank at `d` has a receive from the rank at `s` exactly when the rank at `s`
has a send to the rank at `d`, either happens in at most one pass, and both
carry the tag `rank(s) * total_rank + rank(d)`. -/
def SendRecvMatched (rankOf : CommKey → Nat) (P : CommKey) (n : Nat)
    (recv send : CommKey → Nat → Nat × Nat) : Prop :=
  ∀ s d : CommKey, s.inBox P → d.inBox P →
    ((∃ i, i < n ∧ (recv d i).1 = rankOf s) ↔ (∃ j, j < n ∧ (send s j).1 = rankOf d)) ∧
    (∀ i i2, i < n → i2 < n → (recv d i).1 = rankOf s → (recv d i2).1 = rankOf s → i = i2) ∧
    (∀ j j2, j < n → j2 < n → (send s j).1 = rankOf d → (send s j2).1 = rankOf d → j = j2) ∧
    (∀ i, i < n → (recv d i).1 = rankOf s → (recv d i).2 = rankOf s * product P + rankOf d) ∧
    (∀ j, j < n → (send s j).1 = rankOf d → (send s j).2 = rankOf s * product P + rankOf d)

/-! ## The divisions of `polyOp` -/

/-- Source: the denominators of the three divisions of one pass of the loop of
`polyOp` (lines 48-50), in the order of evaluation: `2.0/sigma1`,
`1.0/((2.0/sigma1) - sigma_old)` and `2.0*sigma/delta`. -/
def polyOp_step_denominators {K V : Type} [Field K] (delta sigma1 : K) (st : PolyState K V) :
    List K :=
  [sigma1, 2 / sigma1 - st.sigma_old, delta]

/-- Source: the denominators of all divisions that a call of `polyOp`
evaluates, in the order of evaluation: `(b-a)/2.0`, `(b+a)/2.0`,
`-delta/theta`, `sigma1/delta`, and then those of the passes of the loop. -/
def polyOp_denominators {K V : Type} [Field K] [AddCommGroup V] [Module K V] (MdagM : V → V)
    (inp : V) (arpack_param : QudaArpackParam K) : List K :=
  let a := arpack_param.amin
  let b := arpack_param.amax
  let polyDeg := arpack_param.polyDeg
  let delta := (b - a) / 2
  let theta := (b + a) / 2
  let sigma1 := -delta / theta
  let d1 := sigma1 / delta
  let d2 : K := 1
  let out1 := MdagM inp
  let out2 := blas_axpby d2 inp d1 out1
  [2, 2, theta, delta] ++
    (if polyDeg = 1 then []
     else (List.range (polyDeg - 1).toNat).flatMap (fun k =>
       polyOp_step_denominators delta sigma1
         (polyOp_loop MdagM delta theta sigma1
           { out := out2, tm1 := inp, tm2 := out2, sigma_old := sigma1 } k)))

/-! ## `rotateVectorBasis` (qlua_contract.h, lines 43-100) -/

/-- A counted `for (int i = 0; i < n; i++)` loop over a state: the body is
run for `i = 0, 1, .., n-1` in this order. -/
def forLoop {σ : Type} (n : Nat) (body : Nat → σ → σ) (s : σ) : σ :=
  (List.range n).foldl (fun s i => body i s) s

/-- Modelled from the spec: the tag `RotateType` (declared outside the
sources at hand); `other` stands for any value that is neither of the two
tags the function compares against. -/
inductive RotateType where
  | QLUA_quda2qdp
  | QLUA_qdp2quda
  | other (code : Int)
deriving DecidableEq, Repr

/-- Modelled from the spec: `QUDA_Ns`, the number of spin components (the
matrix `M` of the source is written out as a 4x4 array). -/
def QUDA_Ns : Nat := 4

/-- Modelled from the spec: `QUDA_Nc`, the number of colours. -/
def QUDA_Nc : Nat := 3

/-- Modelled from the spec: `QUDA_PROP_NVEC`, the number of vectors of a
propagator, `12`. -/
def QUDA_PROP_NVEC : Nat := 12

/-- An array of `Vector`s: `v iv id` stands for `v[iv].data[id]`. The
assignment `v[iv].data[id] = x`. -/
def setData {C : Type} (v : Nat → Nat → C) (iv id : Nat) (x : C) : Nat → Nat → C :=
  fun i j => if i = iv ∧ j = id then x else v i j

/-- The entry `A[i][j]` of a matrix given by its rows. -/
def matEntry {C : Type} [Zero C] (A : List (List C)) (i j : Nat) : C :=
  (A.getD i []).getD j 0

/-- Source: the matrix `M` of `rotateVectorBasis` (lines 62-65), with `val`
standing for `complex{sqrt(0.5), 0}` and `zro` for `complex{0, 0}`. -/
def rotateM {C : Type} [Ring C] (val : C) : List (List C) :=
  let zro : C := 0
  [ [zro, -val, zro, -val],
    [val, zro, val, zro],
    [zro, -val, zro, val],
    [val, zro, -val, zro] ]

/-- Source: the matrix `M_Trans` of `rotateVectorBasis` (lines 67-72),
`M_Trans[i][j] = M[j][i]`. -/
def rotateM_Trans {C : Type} [Ring C] (val : C) : List (List C) :=
  (List.range QUDA_Ns).map (fun i =>
    (List.range QUDA_Ns).map (fun j => matEntry (rotateM val) j i))

/-- Source: `rotateVectorBasis(vecIO, rType)` in exact arithmetic over a
commutative ring `C` of complex numbers, with `val` the value of
`complex{sqrt(0.5), 0}`. The result is the array `vecIO` after the call, or
`none` when `rType` is neither tag (the pointer `A` stays `NULL` and is
dereferenced). The local array `res` starts zeroed. -/
def rotateVectorBasis {C : Type} [CommRing C] (val : C) ( vecIO : Nat → Nat → C)
    (rType : RotateType) : Option (Nat → Nat → C) :=
  let Ns := QUDA_Ns
  let Nc := QUDA_Nc
  let M := rotateM val
  let M_Trans := rotateM_Trans val
  let A : Option (List (List C)) :=
    if rType = RotateType.QLUA_quda2qdp then some M
    else if rType = RotateType.QLUA_qdp2quda then some M_Trans
    else none
  match A with
  | none => none
  | some A =>
    let res : Nat → Nat → C :=
      forLoop Nc (fun ic => forLoop Nc (fun jc => forLoop Ns (fun is => forLoop Ns
        (fun js res =>
          let iv := js + Ns * jc
          let id := ic + Nc * is
          let res0 := setData res iv id 0
          forLoop Ns (fun a res =>
            let as := ic + Nc * a
            setData res iv id (res iv id + matEntry A is a * vecIO iv as)) res0))))
        (fun _ _ => 0)
    some (fun v id => if v < QUDA_PROP_NVEC ∧ id < Nc * Ns then res v id else vecIO v id)

/-- The rotation as the comment of the source words it, `F <- A F` acting on
the spin index: the component of colour `c = id mod Nc` and spin
`s = id / Nc` of vector `iv` is `sum_a A[s][a] * F[iv](c, a)`. -/
def spinRotate {C : Type} [CommRing C] (A : List (List C)) (F : Nat → Nat → C)
    (iv id : Nat) : C :=
  ((List.range QUDA_Ns).map (fun a =>
    matEntry A (id / QUDA_Nc) a * F iv (id % QUDA_Nc + QUDA_Nc * a))).sum

/-! ## The lattice globals and the SU(3) reconstruction (host_utils.cpp) -/

/-- An `int[4]` array of lattice extents or displacements, as the argument
`X` of `setDims`, the global `Z` and the arguments `dim` and `dx` of the
overloads; the components are indexed 0..3. Values are mathematical integers
(no wrap-around). -/
structure Int4 where
  i0 : Int
  i1 : Int
  i2 : Int
  i3 : Int
deriving DecidableEq, Repr

/-- The globals `Z`, `V` and `Vh` of host_utils.cpp. -/
structure HostGlobals where
  Z : Int4
  V : Int
  Vh : Int
deriving DecidableEq, Repr

/-- Source: `setDims(int *X)` (lines 834-846), restricted to the globals
`V`, `Z` and `Vh`. The C operator `/` on `int` truncates: `Int.tdiv`. -/
def setDims (X : Int4) : HostGlobals :=
  let V := 1 * X.i0 * X.i1 * X.i2 * X.i3
  { Z := X, V := V, Vh := Int.tdiv V 2 }

/-- Modelled from the spec: the fields of `QudaGaugeParam` that
`su3Reconstruct12` reads (the struct is declared outside the sources at
hand), converted to `Float`. -/
structure QudaGaugeParam (K : Type) where
  anisotropy : K
  t_boundary : K

/-- Modelled from the spec: the tag `QudaReconstructType`; `other` stands for
every value different from `QUDA_RECONSTRUCT_12`. -/
inductive QudaReconstructType where
  | QUDA_RECONSTRUCT_12
  | other (code : Int)
deriving DecidableEq, Repr

/-- Source: `accumulateConjugateProduct(a, b, c, sign)` (lines 975-979) on
pointers into one array `mat`, given as offsets: `a += sign * conj(b * c)`. -/
def accumulateConjugateProduct {K : Type} [Field K] (mat : Nat → K) (a b c : Nat)
    (sign : Int) : Nat → K :=
  let m1 := Function.update mat (a + 0)
    (mat (a + 0) + sign * (mat (b + 0) * mat (c + 0) - mat (b + 1) * mat (c + 1)))
  Function.update m1 (a + 1)
    (m1 (a + 1) - sign * (m1 (b + 0) * m1 (c + 1) + m1 (b + 1) * m1 (c + 0)))

/-- Source: `su3Construct12(mat)` (lines 982-990): the third row is zeroed. -/
def su3Construct12 {K : Type} [Field K] (mat : Nat → K) : Nat → K :=
  let w := 12
  let m0 := Function.update mat (w + 0) 0
  let m1 := Function.update m0 (w + 1) 0
  let m2 := Function.update m1 (w + 2) 0
  let m3 := Function.update m2 (w + 3) 0
  let m4 := Function.update m3 (w + 4) 0
  Function.update m4 (w + 5) 0

/-- Source: `su3_construct(mat, reconstruct, precision)` (lines 999-1007); the
branch for the 8-parameter format is passed as the function `su3Construct8`. -/
def su3_construct {K : Type} [Field K] (su3Construct8 : (Nat → K) → (Nat → K))
    (mat : Nat → K) (reconstruct : QudaReconstructType) (precision : QudaPrecision) : Nat → K :=
  if reconstruct = QudaReconstructType.QUDA_RECONSTRUCT_12 then
    if precision = QudaPrecision.QUDA_DOUBLE_PRECISION then su3Construct12 mat
    else su3Construct12 mat
  else
    if precision = QudaPrecision.QUDA_DOUBLE_PRECISION then su3Construct8 mat
    else su3Construct8 mat

/-- Source: the factor `u0` of `su3Reconstruct12` (lines 1026-1027), with the
global `Z`. -/
def su3_u0 {K : Type} [Field K] (Z : Int4) (dir ga_idx : Int) (param : QudaGaugeParam K) : K :=
  if dir < 3 then param.anisotropy
  else if ga_idx ≥ Int.tdiv ((Z.i3 - 1) * Z.i0 * Z.i1 * Z.i2) 2 then param.t_boundary
  else 1

/-- Source: `su3Reconstruct12(mat, dir, ga_idx, param)` (lines 1014-1029),
with the global `Z`; `u`, `v`, `w` are the offsets of the three rows. -/
def su3Reconstruct12 {K : Type} [Field K] (Z : Int4) (mat : Nat → K) (dir ga_idx : Int)
    (param : QudaGaugeParam K) : Nat → K :=
  let u := 0 * (3 * 2)
  let v := 1 * (3 * 2)
  let w := 2 * (3 * 2)
  let m0 := Function.update mat (w + 0) 0
  let m1 := Function.update m0 (w + 1) 0
  let m2 := Function.update m1 (w + 2) 0
  let m3 := Function.update m2 (w + 3) 0
  let m4 := Function.update m3 (w + 4) 0
  let m5 := Function.update m4 (w + 5) 0
  let m6 := accumulateConjugateProduct m5 (w + 0 * 2) (u + 1 * 2) (v + 2 * 2) 1
  let m7 := accumulateConjugateProduct m6 (w + 0 * 2) (u + 2 * 2) (v + 1 * 2) (-1)
  let m8 := accumulateConjugateProduct m7 (w + 1 * 2) (u + 2 * 2) (v + 0 * 2) 1
  let m9 := accumulateConjugateProduct m8 (w + 1 * 2) (u + 0 * 2) (v + 2 * 2) (-1)
  let m10 := accumulateConjugateProduct m9 (w + 2 * 2) (u + 0 * 2) (v + 1 * 2) 1
  let m11 := accumulateConjugateProduct m10 (w + 2 * 2) (u + 1 * 2) (v + 0 * 2) (-1)
  let u0 := su3_u0 Z dir ga_idx param
  let m12 := Function.update m11 (w + 0) (m11 (w + 0) * u0)
  let m13 := Function.update m12 (w + 1) (m12 (w + 1) * u0)
  let m14 := Function.update m13 (w + 2) (m13 (w + 2) * u0)
  let m15 := Function.update m14 (w + 3) (m14 (w + 3) * u0)
  let m16 := Function.update m15 (w + 4) (m15 (w + 4) * u0)
  Function.update m16 (w + 5) (m16 (w + 5) * u0)

/-- Source: `su3_reconstruct(mat, dir, ga_idx, reconstruct, precision, param)`
(lines 1090-1098); the branch for the 8-parameter format is passed as the
function `su3Reconstruct8`. -/
def su3_reconstruct {K : Type} [Field K] (su3Reconstruct8 : (Nat → K) → (Nat → K)) (Z : Int4)
    (mat : Nat → K) (dir ga_idx : Int) (reconstruct : QudaReconstructType)
    (precision : QudaPrecision) (param : QudaGaugeParam K) : Nat → K :=
  if reconstruct = QudaReconstructType.QUDA_RECONSTRUCT_12 then
    if precision = QudaPrecision.QUDA_DOUBLE_PRECISION then
      su3Reconstruct12 Z mat dir ga_idx param
    else su3Reconstruct12 Z mat dir ga_idx param
  else
    if precision = QudaPrecision.QUDA_DOUBLE_PRECISION then su3Reconstruct8 mat
    else su3Reconstruct8 mat

/-- The complex number stored at the `k`-th pair of an array of reals:
`(mat[2k], mat[2k+1])`; entry `(r, j)` of a 3x3 matrix is pair `3 r + j`. -/
def cplx {K : Type} (mat : Nat → K) (k : Nat) : K × K := (mat (2 * k), mat (2 * k + 1))

/-- Product of two complex numbers given as (real, imaginary) pairs. -/
def cmul {K : Type} [Field K] (a b : K × K) : K × K :=
  (a.1 * b.1 - a.2 * b.2, a.1 * b.2 + a.2 * b.1)

/-- Complex conjugate of a pair. -/
def cconj {K : Type} [Field K] (a : K × K) : K × K := (a.1, -a.2)

/-- The claim's third row: component `j` of the complex cross product of the
conjugated rows `u` (row 0) and `v` (row 1),
`conj(u[j+1]) conj(v[j+2]) - conj(u[j+2]) conj(v[j+1])`, indices mod 3. -/
def crossConj {K : Type} [Field K] (mat : Nat → K) (j : Nat) : K × K :=
  cmul (cconj (cplx mat ((j + 1) % 3))) (cconj (cplx mat (3 + (j + 2) % 3)))
    - cmul (cconj (cplx mat ((j + 2) % 3))) (cconj (cplx mat (3 + (j + 1) % 3)))

/-- The Hermitian product of rows `r` and `s` of a 3x3 complex matrix:
`sum_j mat[r][j] * conj(mat[s][j])`. -/
def rowDot {K : Type} [Field K] (mat : Nat → K) (r s : Nat) : K × K :=
  cmul (cplx mat (3 * r + 0)) (cconj (cplx mat (3 * s + 0)))
    + cmul (cplx mat (3 * r + 1)) (cconj (cplx mat (3 * s + 1)))
    + cmul (cplx mat (3 * r + 2)) (cconj (cplx mat (3 * s + 2)))

/-- The determinant of a 3x3 complex matrix, expanded along the third row. -/
def det3 {K : Type} [Field K] (mat : Nat → K) : K × K :=
  cmul (cplx mat 6) (cmul (cplx mat 1) (cplx mat 5) - cmul (cplx mat 2) (cplx mat 4))
    + cmul (cplx mat 7) (cmul (cplx mat 2) (cplx mat 3) - cmul (cplx mat 0) (cplx mat 5))
    + cmul (cplx mat 8) (cmul (cplx mat 0) (cplx mat 4) - cmul (cplx mat 1) (cplx mat 3))

/-- A 3x3 complex matrix with orthonormal rows and determinant 1. -/
def IsSU3 {K : Type} [Field K] (mat : Nat → K) : Prop :=
  rowDot mat 0 0 = (1, 0) ∧ rowDot mat 1 1 = (1, 0) ∧ rowDot mat 2 2 = (1, 0) ∧
  rowDot mat 0 1 = (0, 0) ∧ rowDot mat 0 2 = (0, 0) ∧ rowDot mat 1 2 = (0, 0) ∧
  det3 mat = (1, 0)

/-- The matrix with rows `(0, i, 0)`, `(i, 0, 0)`, `(0, 0, 1)`, stored as 18
reals. -/
def demoSU3 : Nat → ℚ :=
  fun k => ([0, 0, 0, 1, 0, 0, 0, 1, 0, 0, 0, 0, 0, 0, 0, 0, 1, 0] : List ℚ).getD k 0

/-! ## Even-odd lattice indices (host_utils.cpp)

The C operators `/` and `%` on `int` truncate towards zero: `Int.tdiv` and
`Int.tmod`. For a two's complement `int`, `x & 1` is the remainder of the
floor division by 2 (`x % 2` in Lean) and `x >> 1` is the floor division by 2
(`x / 2` in Lean). A condition `if (x)` on an `int` tests `x ≠ 0`. -/

/-- Source: `getOddBit(Y)` (lines 924-931), with the globals passed as `g`. -/
def getOddBit (g : HostGlobals) (Y : Int) : Int :=
  let Z := g.Z
  let x4 := Int.tdiv Y (Z.i2 * Z.i1 * Z.i0)
  let x3 := Int.tmod (Int.tdiv Y (Z.i1 * Z.i0)) Z.i2
  let x2 := Int.tmod (Int.tdiv Y Z.i0) Z.i1
  let x1 := Int.tmod Y Z.i0
  Int.tmod (x4 + x3 + x2 + x1) 2

/-- Source: the overload `fullLatticeIndex(int dim[4], int index, int oddBit)`
(lines 1117-1126). -/
def fullLatticeIndex_dim (dim : Int4) (index oddBit : Int) : Int :=
  let za := Int.tdiv index (dim.i0 / 2)
  let zb := Int.tdiv za dim.i1
  let x2 := za - zb * dim.i1
  let x4 := Int.tdiv zb dim.i2
  let x3 := zb - x4 * dim.i2
  2 * index + ((x2 + x3 + x4 + oddBit) % 2)

/-- Source: `fullLatticeIndex(int i, int oddBit)` (lines 1130-1154), with the
globals passed as `g`. -/
def fullLatticeIndex (g : HostGlobals) (i oddBit : Int) : Int :=
  let X1 := g.Z.i0
  let X2 := g.Z.i1
  let X3 := g.Z.i2
  let X1h := Int.tdiv X1 2
  let sid := i
  let za := Int.tdiv sid X1h
  let zb := Int.tdiv za X2
  let x2 := za - zb * X2
  let x4 := Int.tdiv zb X3
  let x3 := zb - x4 * X3
  let x1odd := (x2 + x3 + x4 + oddBit) % 2
  let X := 2 * sid + x1odd
  X

/-- Source: `fullLatticeIndex_4d(int i, int oddBit)` (lines 1326-1351); `none`
stands for the `exit(-1)` on an index out of range. -/
def fullLatticeIndex_4d (g : HostGlobals) (i oddBit : Int) : Option Int :=
  if i ≥ g.Vh ∨ i < 0 then none
  else
    let X1 := g.Z.i0
    let X2 := g.Z.i1
    let X3 := g.Z.i2
    let X1h := Int.tdiv X1 2
    let sid := i
    let za := Int.tdiv sid X1h
    let zb := Int.tdiv za X2
    let x2 := za - zb * X2
    let x4 := Int.tdiv zb X3
    let x3 := zb - x4 * X3
    let x1odd := (x2 + x3 + x4 + oddBit) % 2
    let X := 2 * sid + x1odd
    some X

/-- Source: `neighborIndex(int i, int oddBit, int dx4, int dx3, int dx2, int dx1)`
(lines 1166-1181), with the globals passed as `g`. -/
def neighborIndex (g : HostGlobals) (i oddBit dx4 dx3 dx2 dx1 : Int) : Int :=
  let Z := g.Z
  let Y := fullLatticeIndex g i oddBit
  let x4 := Int.tdiv Y (Z.i2 * Z.i1 * Z.i0)
  let x3 := Int.tmod (Int.tdiv Y (Z.i1 * Z.i0)) Z.i2
  let x2 := Int.tmod (Int.tdiv Y Z.i0) Z.i1
  let x1 := Int.tmod Y Z.i0
  let x4 := Int.tmod (x4 + dx4 + Z.i3) Z.i3
  let x3 := Int.tmod (x3 + dx3 + Z.i2) Z.i2
  let x2 := Int.tmod (x2 + dx2 + Z.i1) Z.i1
  let x1 := Int.tmod (x1 + dx1 + Z.i0) Z.i0
  Int.tdiv (x4 * (Z.i2 * Z.i1 * Z.i0) + x3 * (Z.i1 * Z.i0) + x2 * Z.i0 + x1) 2

/-- Source: the overload `neighborIndex(int dim[4], int index, int oddBit, int dx[4])`
(lines 1184-1198). -/
def neighborIndex_dim (dim : Int4) (index oddBit : Int) (dx : Int4) : Int :=
  let fullIndex := fullLatticeIndex_dim dim index oddBit
  let x3 := Int.tdiv fullIndex (dim.i2 * dim.i1 * dim.i0)
  let x2 := Int.tmod (Int.tdiv fullIndex (dim.i1 * dim.i0)) dim.i2
  let x1 := Int.tmod (Int.tdiv fullIndex dim.i0) dim.i1
  let x0 := Int.tmod fullIndex dim.i0
  let x0 := Int.tmod (x0 + dx.i0 + dim.i0) dim.i0
  let x1 := Int.tmod (x1 + dx.i1 + dim.i1) dim.i1
  let x2 := Int.tmod (x2 + dx.i2 + dim.i2) dim.i2
  let x3 := Int.tmod (x3 + dx.i3 + dim.i3) dim.i3
  Int.tdiv (((x3 * dim.i2 + x2) * dim.i1 + x1) * dim.i0 + x0) 2

/-- Source: `neighborIndexFullLattice(int i, int dx4, int dx3, int dx2, int dx1)`
(lines 1234-1254), with the globals passed as `g`. -/
def neighborIndexFullLattice (g : HostGlobals) (i dx4 dx3 dx2 dx1 : Int) : Int :=
  let oddBit0 : Int := 0
  let half_idx0 := i
  let oddBit1 := if i ≥ g.Vh then 1 else oddBit0
  let half_idx := if i ≥ g.Vh then i - g.Vh else half_idx0
  let nbr_half_idx := neighborIndex g half_idx oddBit1 dx4 dx3 dx2 dx1
  let oddBitChanged := Int.tmod (dx4 + dx3 + dx2 + dx1) 2
  let oddBit := if oddBitChanged ≠ 0 then 1 - oddBit1 else oddBit1
  let ret := nbr_half_idx
  if oddBit ≠ 0 then g.Vh + nbr_half_idx else ret

/-- Source: the overload `neighborIndexFullLattice(int dim[4], int index, int dx[4])`
(lines 1257-1277). -/
def neighborIndexFullLattice_dim (dim : Int4) (index : Int) (dx : Int4) : Int :=
  let volume := dim.i0 * dim.i1 * dim.i2 * dim.i3
  let halfVolume := Int.tdiv volume 2
  let oddBit0 : Int := 0
  let halfIndex0 := index
  let oddBit1 := if index ≥ halfVolume then 1 else oddBit0
  let halfIndex := if index ≥ halfVolume then index - halfVolume else halfIndex0
  let neighborHalfIndex := neighborIndex_dim dim halfIndex oddBit1 dx
  let oddBitChanged := Int.tmod (dx.i0 + dx.i1 + dx.i2 + dx.i3) 2
  let oddBit := if oddBitChanged ≠ 0 then 1 - oddBit1 else oddBit1
  neighborHalfIndex + oddBit * halfVolume

/-- Every extent is positive. -/
def Int4.positive (Z : Int4) : Prop := 0 < Z.i0 ∧ 0 < Z.i1 ∧ 0 < Z.i2 ∧ 0 < Z.i3

instance (Z : Int4) : Decidable Z.positive := by
  unfold Int4.positive; exact inferInstance

/-- Every extent is even. -/
def Int4.allEven (Z : Int4) : Prop :=
  Z.i0 % 2 = 0 ∧ Z.i1 % 2 = 0 ∧ Z.i2 % 2 = 0 ∧ Z.i3 % 2 = 0

instance (Z : Int4) : Decidable Z.allEven := by
  unfold Int4.allEven; exact inferInstance

/-- The coordinate `x` lies in the lattice of extents `Z`. -/
def Int4.inBox (x Z : Int4) : Prop :=
  (0 ≤ x.i0 ∧ x.i0 < Z.i0) ∧ (0 ≤ x.i1 ∧ x.i1 < Z.i1) ∧ (0 ≤ x.i2 ∧ x.i2 < Z.i2) ∧
    (0 ≤ x.i3 ∧ x.i3 < Z.i3)

instance (x Z : Int4) : Decidable (x.inBox Z) := by
  unfold Int4.inBox; exact inferInstance

/-- The displacement `dx` is at most one lattice extent in every direction:
`|dx[d]| ≤ Z[d]`. -/
def Int4.within (dx Z : Int4) : Prop :=
  (-Z.i0 ≤ dx.i0 ∧ dx.i0 ≤ Z.i0) ∧ (-Z.i1 ≤ dx.i1 ∧ dx.i1 ≤ Z.i1) ∧
    (-Z.i2 ≤ dx.i2 ∧ dx.i2 ≤ Z.i2) ∧ (-Z.i3 ≤ dx.i3 ∧ dx.i3 ≤ Z.i3)

instance (dx Z : Int4) : Decidable (dx.within Z) := by
  unfold Int4.within; exact inferInstance

/-- The displacement is `+1` or `-1` in exactly one direction and `0` in the
other three. -/
def Int4.unitStep (dx : Int4) : Prop :=
  ((dx.i0 = 1 ∨ dx.i0 = -1) ∧ dx.i1 = 0 ∧ dx.i2 = 0 ∧ dx.i3 = 0) ∨
  (dx.i0 = 0 ∧ (dx.i1 = 1 ∨ dx.i1 = -1) ∧ dx.i2 = 0 ∧ dx.i3 = 0) ∨
  (dx.i0 = 0 ∧ dx.i1 = 0 ∧ (dx.i2 = 1 ∨ dx.i2 = -1) ∧ dx.i3 = 0) ∨
  (dx.i0 = 0 ∧ dx.i1 = 0 ∧ dx.i2 = 0 ∧ (dx.i3 = 1 ∨ dx.i3 = -1))

instance (dx : Int4) : Decidable dx.unitStep := by
  unfold Int4.unitStep; exact inferInstance

/-- The coordinates `(x1, x2, x3, x4)` of the site with lexicographic index
`Y`, in exact (floor) arithmetic. -/
def lexCoords (Z : Int4) (Y : Int) : Int4 :=
  ⟨Y % Z.i0, (Y / Z.i0) % Z.i1, (Y / (Z.i1 * Z.i0)) % Z.i2, Y / (Z.i2 * Z.i1 * Z.i0)⟩

/-- The lexicographic index of the site with coordinates `x`. -/
def lexIndex (Z : Int4) (x : Int4) : Int :=
  x.i3 * (Z.i2 * Z.i1 * Z.i0) + x.i2 * (Z.i1 * Z.i0) + x.i1 * Z.i0 + x.i0

/-- The coordinates displaced by `dx` on the periodic lattice. -/
def shiftCoords (Z : Int4) (x dx : Int4) : Int4 :=
  ⟨(x.i0 + dx.i0 + Z.i0) % Z.i0, (x.i1 + dx.i1 + Z.i1) % Z.i1,
    (x.i2 + dx.i2 + Z.i2) % Z.i2, (x.i3 + dx.i3 + Z.i3) % Z.i3⟩

/-- The parity of the coordinate sum. -/
def Int4.parity (x : Int4) : Int := (x.i0 + x.i1 + x.i2 + x.i3) % 2

/-- The lexicographic index of the site that the even-odd ordered index `i`
addresses: half index and parity are taken apart as
`neighborIndexFullLattice` does it, and handed to `fullLatticeIndex`. -/
def siteIndex (g : HostGlobals) (i : Int) : Int :=
  fullLatticeIndex g (if i ≥ g.Vh then i - g.Vh else i) (if i ≥ g.Vh then 1 else 0)

/-- The even-odd ordered index of the site with lexicographic index `Y`:
half index `Y / 2`, moved up by `Vh` on the odd half lattice. -/
def eoIndex (g : HostGlobals) (Y : Int) : Int :=
  Y / 2 + (lexCoords g.Z Y).parity * g.Vh

/-! # Theorems -/

/-! ## Componentwise arithmetic and the mixed-radix index maps -/

@[simp] theorem CommKey.add_c0 (a b : CommKey) : (a + b).c0 = a.c0 + b.c0 := rfl
@[simp] theorem CommKey.add_c1 (a b : CommKey) : (a + b).c1 = a.c1 + b.c1 := rfl
@[simp] theorem CommKey.add_c2 (a b : CommKey) : (a + b).c2 = a.c2 + b.c2 := rfl
@[simp] theorem CommKey.add_c3 (a b : CommKey) : (a + b).c3 = a.c3 + b.c3 := rfl
@[simp] theorem CommKey.mul_c0 (a b : CommKey) : (a * b).c0 = a.c0 * b.c0 := rfl
@[simp] theorem CommKey.mul_c1 (a b : CommKey) : (a * b).c1 = a.c1 * b.c1 := rfl
@[simp] theorem CommKey.mul_c2 (a b : CommKey) : (a * b).c2 = a.c2 * b.c2 := rfl
@[simp] theorem CommKey.mul_c3 (a b : CommKey) : (a * b).c3 = a.c3 * b.c3 := rfl
@[simp] theorem CommKey.div_c0 (a b : CommKey) : (a / b).c0 = a.c0 / b.c0 := rfl
@[simp] theorem CommKey.div_c1 (a b : CommKey) : (a / b).c1 = a.c1 / b.c1 := rfl
@[simp] theorem CommKey.div_c2 (a b : CommKey) : (a / b).c2 = a.c2 / b.c2 := rfl
@[simp] theorem CommKey.div_c3 (a b : CommKey) : (a / b).c3 = a.c3 / b.c3 := rfl
@[simp] theorem CommKey.mod_c0 (a b : CommKey) : (a % b).c0 = a.c0 % b.c0 := rfl
@[simp] theorem CommKey.mod_c1 (a b : CommKey) : (a % b).c1 = a.c1 % b.c1 := rfl
@[simp] theorem CommKey.mod_c2 (a b : CommKey) : (a % b).c2 = a.c2 % b.c2 := rfl
@[simp] theorem CommKey.mod_c3 (a b : CommKey) : (a % b).c3 = a.c3 % b.c3 := rfl

theorem CommKey.ext_iff4 (a b : CommKey) :
    a = b ↔ a.c0 = b.c0 ∧ a.c1 = b.c1 ∧ a.c2 = b.c2 ∧ a.c3 = b.c3 := by
  cases a; cases b; simp

/-- A mixed-radix digit step: `(q * d + r) % d = r` and `(q * d + r) / d = q`. -/
theorem digit_step (q d r : Nat) (h : r < d) : (q * d + r) % d = r ∧ (q * d + r) / d = q := by
  constructor
  · rw [Nat.add_comm, Nat.add_mul_mod_self_right]; exact Nat.mod_eq_of_lt h
  · rw [Nat.add_comm, Nat.add_mul_div_right _ _ (by omega : 0 < d), Nat.div_eq_of_lt h]; simp

theorem coordinate_from_index_inBox (i : Nat) (dim : CommKey) (h : dim.positive) :
    (coordinate_from_index i dim).inBox dim := by
  obtain ⟨h0, h1, h2, h3⟩ := h
  exact ⟨Nat.mod_lt _ h0, Nat.mod_lt _ h1, Nat.mod_lt _ h2, Nat.mod_lt _ h3⟩

theorem positive_of_inBox {c dim : CommKey} (h : c.inBox dim) : dim.positive := by
  obtain ⟨h0, h1, h2, h3⟩ := h
  exact ⟨by omega, by omega, by omega, by omega⟩

theorem product_pos {dim : CommKey} (h : dim.positive) : 0 < product dim := by
  obtain ⟨h0, h1, h2, h3⟩ := h
  unfold product
  positivity

theorem positive_of_product_pos {dim : CommKey} (h : 0 < product dim) : dim.positive := by
  unfold product at h
  refine ⟨?_, ?_, ?_, ?_⟩ <;> (apply Nat.pos_of_ne_zero; intro h0; simp [h0] at h)

theorem coordinate_index (c dim : CommKey) (h : c.inBox dim) :
    coordinate_from_index (index_from_coordinate c dim) dim = c := by
  obtain ⟨h0, h1, h2, h3⟩ := h
  cases c with
  | mk a0 a1 a2 a3 =>
  simp only at h0 h1 h2 h3
  simp only [coordinate_from_index, index_from_coordinate]
  have s0 := digit_step ((a3 * dim.c2 + a2) * dim.c1 + a1) dim.c0 a0 h0
  have s1 := digit_step (a3 * dim.c2 + a2) dim.c1 a1 h1
  have s2 := digit_step a3 dim.c2 a2 h2
  rw [s0.1, s0.2, s1.1, s1.2, s2.1, s2.2, Nat.mod_eq_of_lt h3]

theorem index_lt (c dim : CommKey) (h : c.inBox dim) :
    index_from_coordinate c dim < product dim := by
  obtain ⟨h0, h1, h2, h3⟩ := h
  unfold index_from_coordinate product
  have e1 : c.c3 * dim.c2 + c.c2 < dim.c3 * dim.c2 := by nlinarith
  have e2 : (c.c3 * dim.c2 + c.c2) * dim.c1 + c.c1 < dim.c3 * dim.c2 * dim.c1 := by nlinarith
  have e3 : ((c.c3 * dim.c2 + c.c2) * dim.c1 + c.c1) * dim.c0 + c.c0
      < dim.c3 * dim.c2 * dim.c1 * dim.c0 := by nlinarith
  calc _ < dim.c3 * dim.c2 * dim.c1 * dim.c0 := e3
    _ = _ := by ring

theorem index_coordinate (i : Nat) (dim : CommKey) (h : i < product dim) :
    index_from_coordinate (coordinate_from_index i dim) dim = i := by
  have hp := positive_of_product_pos (Nat.lt_of_le_of_lt (Nat.zero_le _) h)
  obtain ⟨h0, h1, h2, h3⟩ := hp
  simp only [coordinate_from_index, index_from_coordinate]
  have hlt : i / dim.c0 / dim.c1 / dim.c2 < dim.c3 := by
    rw [Nat.div_div_eq_div_mul, Nat.div_div_eq_div_mul]
    apply Nat.div_lt_of_lt_mul
    unfold product at h
    calc i < dim.c0 * dim.c1 * dim.c2 * dim.c3 := h
      _ = _ := by ring
  rw [Nat.mod_eq_of_lt hlt]
  have a2 := Nat.div_add_mod (i / dim.c0 / dim.c1) dim.c2
  have a1 := Nat.div_add_mod (i / dim.c0) dim.c1
  have a0 := Nat.div_add_mod i dim.c0
  rw [Nat.mul_comm (i / dim.c0 / dim.c1 / dim.c2), a2, Nat.mul_comm (i / dim.c0 / dim.c1), a1,
    Nat.mul_comm (i / dim.c0), a0]

/-! ## The process grid viewed as `grid_dim × block_dim` -/

theorem mem_ranks (P c : CommKey) : c ∈ ranks P ↔ c.inBox P := by
  unfold ranks
  constructor
  · intro h
    obtain ⟨r, hr, rfl⟩ := List.mem_map.1 h
    have hr2 : r < product P := List.mem_range.1 hr
    exact coordinate_from_index_inBox r P (positive_of_product_pos (by omega))
  · intro h
    exact List.mem_map.2 ⟨index_from_coordinate c P, List.mem_range.2 (index_lt c P h),
      coordinate_index c P h⟩

/-- Scalar form of `block_dim = full_dim / (full_dim / comm_key) = comm_key`. -/
theorem nat_block_dim {p k : Nat} (hk : 0 < k) (hp : 0 < p) (hdvd : k ∣ p) :
    p / (p / k) = k := by
  obtain ⟨m, rfl⟩ := hdvd
  have hm : 0 < m := by
    rcases Nat.eq_zero_or_pos m with h | h
    · subst h; simp at hp
    · exact h
  rw [Nat.mul_div_cancel_left m hk, Nat.mul_div_cancel k hm]

theorem nat_grid_mul {p k : Nat} (hdvd : k ∣ p) : p / k * k = p := Nat.div_mul_cancel hdvd

theorem block_dim_eq {P K : CommKey} (hK : K.positive) (hP : P.positive) (hdiv : K.divides P) :
    P / (P / K) = K := by
  obtain ⟨k0, k1, k2, k3⟩ := hK
  obtain ⟨p0, p1, p2, p3⟩ := hP
  obtain ⟨d0, d1, d2, d3⟩ := hdiv
  rw [CommKey.ext_iff4]
  exact ⟨nat_block_dim k0 p0 d0, nat_block_dim k1 p1 d1, nat_block_dim k2 p2 d2,
    nat_block_dim k3 p3 d3⟩

theorem grid_positive {P K : CommKey} (hK : K.positive) (hP : P.positive) (hdiv : K.divides P) :
    (P / K).positive := by
  obtain ⟨k0, k1, k2, k3⟩ := hK
  obtain ⟨p0, p1, p2, p3⟩ := hP
  obtain ⟨d0, d1, d2, d3⟩ := hdiv
  exact ⟨Nat.div_pos (Nat.le_of_dvd p0 d0) k0, Nat.div_pos (Nat.le_of_dvd p1 d1) k1,
    Nat.div_pos (Nat.le_of_dvd p2 d2) k2, Nat.div_pos (Nat.le_of_dvd p3 d3) k3⟩

/-- Scalar facts for a coordinate `t * g + b` with `t < k`, `b < g`, `p = g * k`. -/
theorem nat_hi_lo {p k t b : Nat} (hdvd : k ∣ p) (ht : t < k) (hb : b < p / k) :
    t * (p / k) + b < p ∧ (t * (p / k) + b) / (p / k) = t ∧ (t * (p / k) + b) % (p / k) = b := by
  have hs := digit_step t (p / k) b hb
  refine ⟨?_, hs.2, hs.1⟩
  have e : p / k * k = p := Nat.div_mul_cancel hdvd
  nlinarith

/-- Scalar facts for a coordinate `a * k + t` with `a < g`, `t < k`, `p = g * k`. -/
theorem nat_lo_hi {p k a t : Nat} (hdvd : k ∣ p) (ht : t < k) (ha : a < p / k) :
    a * k + t < p ∧ (a * k + t) / k = a ∧ (a * k + t) % k = t := by
  have hs := digit_step a k t ht
  refine ⟨?_, hs.2, hs.1⟩
  have e : p / k * k = p := Nat.div_mul_cancel hdvd
  nlinarith

theorem nat_div_lt_grid {p k d : Nat} (hdvd : k ∣ p) (hd : d < p) : d / k < p / k := by
  apply Nat.div_lt_of_lt_mul
  rw [Nat.mul_comm, Nat.div_mul_cancel hdvd]; exact hd

theorem nat_div_grid_lt {p k d : Nat} (hdvd : k ∣ p) (hd : d < p) : d / (p / k) < k := by
  apply Nat.div_lt_of_lt_mul
  rw [Nat.div_mul_cancel hdvd]; exact hd

/-- The destination `grid_idx * grid_dim + block_idx` of a split send lies in the
process grid, and is taken apart again by `/ grid_dim` and `% grid_dim`. -/
theorem hi_lo_coords {P K t b : CommKey} (hdiv : K.divides P) (ht : t.inBox K)
    (hb : b.inBox (P / K)) :
    (t * (P / K) + b).inBox P ∧ (t * (P / K) + b) / (P / K) = t ∧
      (t * (P / K) + b) % (P / K) = b := by
  obtain ⟨d0, d1, d2, d3⟩ := hdiv
  obtain ⟨t0, t1, t2, t3⟩ := ht
  obtain ⟨b0, b1, b2, b3⟩ := hb
  have e0 := nat_hi_lo d0 t0 b0
  have e1 := nat_hi_lo d1 t1 b1
  have e2 := nat_hi_lo d2 t2 b2
  have e3 := nat_hi_lo d3 t3 b3
  refine ⟨⟨e0.1, e1.1, e2.1, e3.1⟩, ?_, ?_⟩
  · rw [CommKey.ext_iff4]; exact ⟨e0.2.1, e1.2.1, e2.2.1, e3.2.1⟩
  · rw [CommKey.ext_iff4]; exact ⟨e0.2.2, e1.2.2, e2.2.2, e3.2.2⟩

/-- The coordinate `a * block_dim + thread_idx` lies in the process grid, and is
taken apart again by `/ block_dim` and `% block_dim` (with `block_dim = K`). -/
theorem lo_hi_coords {P K a t : CommKey} (hdiv : K.divides P) (ht : t.inBox K)
    (ha : a.inBox (P / K)) :
    (a * K + t).inBox P ∧ (a * K + t) / K = a ∧ (a * K + t) % K = t := by
  obtain ⟨d0, d1, d2, d3⟩ := hdiv
  obtain ⟨t0, t1, t2, t3⟩ := ht
  obtain ⟨a0, a1, a2, a3⟩ := ha
  have e0 := nat_lo_hi d0 t0 a0
  have e1 := nat_lo_hi d1 t1 a1
  have e2 := nat_lo_hi d2 t2 a2
  have e3 := nat_lo_hi d3 t3 a3
  refine ⟨⟨e0.1, e1.1, e2.1, e3.1⟩, ?_, ?_⟩
  · rw [CommKey.ext_iff4]; exact ⟨e0.2.1, e1.2.1, e2.2.1, e3.2.1⟩
  · rw [CommKey.ext_iff4]; exact ⟨e0.2.2, e1.2.2, e2.2.2, e3.2.2⟩

theorem div_block_inBox {P K d : CommKey} (hdiv : K.divides P)
    (hd : d.inBox P) : (d / K).inBox (P / K) := by
  obtain ⟨d0, d1, d2, d3⟩ := hdiv
  obtain ⟨h0, h1, h2, h3⟩ := hd
  exact ⟨nat_div_lt_grid d0 h0, nat_div_lt_grid d1 h1, nat_div_lt_grid d2 h2,
    nat_div_lt_grid d3 h3⟩

theorem div_grid_inBox {P K d : CommKey} (hdiv : K.divides P) (hd : d.inBox P) :
    (d / (P / K)).inBox K := by
  obtain ⟨d0, d1, d2, d3⟩ := hdiv
  obtain ⟨h0, h1, h2, h3⟩ := hd
  exact ⟨nat_div_grid_lt d0 h0, nat_div_grid_lt d1 h1, nat_div_grid_lt d2 h2,
    nat_div_grid_lt d3 h3⟩

theorem mod_inBox {d G : CommKey} (hG : G.positive) : (d % G).inBox G := by
  obtain ⟨g0, g1, g2, g3⟩ := hG
  exact ⟨Nat.mod_lt _ g0, Nat.mod_lt _ g1, Nat.mod_lt _ g2, Nat.mod_lt _ g3⟩

theorem div_mul_add_mod (d G : CommKey) : d / G * G + d % G = d := by
  rw [CommKey.ext_iff4]
  exact ⟨Nat.div_add_mod' _ _, Nat.div_add_mod' _ _, Nat.div_add_mod' _ _, Nat.div_add_mod' _ _⟩

/-! ## Source and destination coordinates of the split -/

theorem split_src_idx_eq {P K : CommKey} (hK : K.positive) (hP : P.positive)
    (hdiv : K.divides P) (d : CommKey) (i : Nat) :
    split_src_idx P d K i = (d % (P / K)) * K + coordinate_from_index i K := by
  unfold split_src_idx
  simp only [block_dim_eq hK hP hdiv]

theorem split_dst_idx_eq {P K : CommKey} (hK : K.positive) (hP : P.positive)
    (hdiv : K.divides P) (s : CommKey) (i : Nat) :
    split_dst_idx P s K i = coordinate_from_index i K * (P / K) + s / K := by
  unfold split_dst_idx
  simp only [block_dim_eq hK hP hdiv]

theorem split_src_idx_spec {P K : CommKey} (hK : K.positive) (hP : P.positive)
    (hdiv : K.divides P) (d : CommKey) (i : Nat) :
    (split_src_idx P d K i).inBox P ∧ split_src_idx P d K i / K = d % (P / K) ∧
      split_src_idx P d K i % K = coordinate_from_index i K := by
  rw [split_src_idx_eq hK hP hdiv]
  exact lo_hi_coords hdiv (coordinate_from_index_inBox i K hK)
    (mod_inBox (grid_positive hK hP hdiv))

theorem split_dst_idx_spec {P K : CommKey} (hK : K.positive)
    (hdiv : K.divides P) (s : CommKey) (hs : s.inBox P) (i : Nat) :
    (split_dst_idx P s K i).inBox P ∧ split_dst_idx P s K i / (P / K) = coordinate_from_index i K ∧
      split_dst_idx P s K i % (P / K) = s / K := by
  rw [split_dst_idx_eq hK (positive_of_inBox hs) hdiv]
  exact hi_lo_coords hdiv (coordinate_from_index_inBox i K hK) (div_block_inBox hdiv hs)

/-- The rank that `d` receives from in pass `i` sends to `d` in its pass
`index_from_coordinate (d / grid_dim)`. -/
theorem split_dst_of_src {P K : CommKey} (hK : K.positive) (hdiv : K.divides P)
    (d : CommKey) (hd : d.inBox P) (i : Nat) :
    split_dst_idx P (split_src_idx P d K i) K (index_from_coordinate (d / (P / K)) K) = d := by
  have hP := positive_of_inBox hd
  rw [split_dst_idx_eq hK hP hdiv, (split_src_idx_spec hK hP hdiv d i).2.1,
    coordinate_index _ _ (div_grid_inBox hdiv hd)]
  exact div_mul_add_mod d (P / K)

/-- The rank that `s` sends to in pass `i` receives from `s` in its pass
`index_from_coordinate (s mod block_dim)`. -/
theorem split_src_of_dst {P K : CommKey} (hK : K.positive) (hdiv : K.divides P)
    (s : CommKey) (hs : s.inBox P) (i : Nat) :
    split_src_idx P (split_dst_idx P s K i) K (index_from_coordinate (s % K) K) = s := by
  have hP := positive_of_inBox hs
  rw [split_src_idx_eq hK hP hdiv, (split_dst_idx_spec hK hdiv s hs i).2.2,
    coordinate_index _ _ (mod_inBox hK)]
  exact div_mul_add_mod s K

/-! ## Messages of the split -/

theorem mem_split_net {V : Type} (rankOf : CommKey → Nat) (P K : CommKey) (w : World V)
    (m : Msg V) :
    m ∈ split_net rankOf P K w ↔
      divisions_defined P K ∧
      ∃ c i meta rest, c.inBox P ∧ i < product K ∧ w.base c = meta :: rest ∧
        m = split_send rankOf (envOf rankOf P c) (w.base c) meta K i := by
  unfold split_net
  by_cases hdef : divisions_defined P K
  swap
  · rw [if_neg hdef]
    exact ⟨fun h => absurd h (List.not_mem_nil m), fun h => absurd h.1 hdef⟩
  rw [if_pos hdef, List.mem_flatMap]
  refine Iff.trans ?_ (and_iff_right hdef).symm
  constructor
  · rintro ⟨c, hc, hm⟩
    rw [mem_ranks] at hc
    unfold split_field_posts at hm
    cases hb : w.base c with
    | nil => rw [hb] at hm; simp at hm
    | cons meta rest =>
      rw [hb] at hm
      simp only [List.mem_map, List.mem_range] at hm
      obtain ⟨i, hi, rfl⟩ := hm
      exact ⟨c, i, meta, rest, hc, hi, hb, by rw [hb]⟩
  · rintro ⟨c, i, meta, rest, hc, hi, hb, rfl⟩
    refine ⟨c, (mem_ranks P c).2 hc, ?_⟩
    unfold split_field_posts
    rw [hb]
    simp only [List.mem_map, List.mem_range]
    exact ⟨i, hi, rfl⟩

/-- The receive of pass `i` of `split_field` on the rank at `d` completes, with
the buffer of base field `j mod n_fields` of the rank at `split_src_idx`, where
`j` is the index of `d / grid_dim`. -/
theorem split_wait {V : Type} (rankOf : CommKey → Nat) (P K : CommKey) (w : World V)
    (hK : K.positive) (hdiv : K.divides P) (hinj : RankInjective rankOf P)
    (hne : ∀ c, c.inBox P → w.base c ≠ [])
    (d : CommKey) (hd : d.inBox P) (i : Nat) :
    ∃ f, (w.base (split_src_idx P d K i))[index_from_coordinate (d / (P / K)) K %
            (w.base (split_src_idx P d K i)).length]? = some f ∧
      comm_wait (split_net rankOf P K w) (rankOf (split_src_idx P d K i)) (rankOf d)
        (rankOf (split_src_idx P d K i) * product P + rankOf d) = some f.copy_to_buffer := by
  have hP : P.positive := positive_of_inBox hd
  set s := split_src_idx P d K i with hs
  have hsP := split_src_idx_spec hK hP hdiv d i
  rw [← hs] at hsP
  have hjK : (d / (P / K)).inBox K := div_grid_inBox hdiv hd
  set j := index_from_coordinate (d / (P / K)) K with hj
  have hjlt : j < product K := index_lt _ _ hjK
  have hdst : split_dst_idx P s K j = d := split_dst_of_src hK hdiv d hd i
  obtain ⟨meta, rest, hbase⟩ : ∃ meta rest, w.base s = meta :: rest := by
    cases hb : w.base s with
    | nil => exact absurd hb (hne s hsP.1)
    | cons a l => exact ⟨a, l, rfl⟩
  have hlen : 0 < (w.base s).length := by rw [hbase]; simp
  have hk : j % (w.base s).length < (w.base s).length := Nat.mod_lt _ hlen
  refine ⟨(w.base s)[j % (w.base s).length], List.getElem?_eq_getElem hk, ?_⟩
  unfold comm_wait
  cases hfind : List.find? (fun m : Msg V => decide (m.src = rankOf s ∧ m.dst = rankOf d ∧
      m.tag = rankOf s * product P + rankOf d)) (split_net rankOf P K w) with
  | none =>
    exfalso
    rw [List.find?_eq_none] at hfind
    have hmem : split_send rankOf (envOf rankOf P s) (w.base s) meta K j
        ∈ split_net rankOf P K w :=
      (mem_split_net rankOf P K w _).2
        ⟨⟨hK, grid_positive hK hP hdiv⟩, s, j, meta, rest, hsP.1, hjlt, hbase, rfl⟩
    apply hfind _ hmem
    simp only [split_send, envOf, decide_eq_true_eq]
    rw [hdst]
    simp
  | some m =>
    have hp := List.find?_some hfind
    have hmem := List.mem_of_find?_eq_some hfind
    simp only [decide_eq_true_eq] at hp
    obtain ⟨_, c, i2, meta2, rest2, hc, hi2, hb2, rfl⟩ := (mem_split_net rankOf P K w m).1 hmem
    simp only [split_send, envOf] at hp
    have hcs : c = s := hinj c s hc hsP.1 hp.1
    subst hcs
    have hdec := split_dst_idx_spec hK hdiv s hsP.1 i2
    have hdd : split_dst_idx P s K i2 = d := hinj _ _ hdec.1 hd hp.2.1
    have hi2j : i2 = j := by
      have h1 : coordinate_from_index i2 K = d / (P / K) := by
        rw [← hdec.2.1, hdd]
      rw [hj, ← h1, index_coordinate i2 K hi2]
    subst hi2j
    simp only [Option.map_some', split_send]
    rw [List.getD_eq_getElem _ _ hk]

/-! ## Staging buffers and `copyFieldOffset` -/

@[simp] theorem copy_from_buffer_X {V : Type} (f : LatticeField V) (b : List V) :
    (f.copy_from_buffer b).X = f.X := rfl

@[simp] theorem copyFieldOffset_X {V : Type} (dst src : LatticeField V) (o : CommKey) :
    (copyFieldOffset dst src o).X = dst.X := by
  unfold copyFieldOffset
  split <;> rfl

/-- Deserialising the buffer of `f` into a field of the same geometry gives the
payload of `f` at every site. -/
theorem copy_roundtrip {V : Type} (g f : LatticeField V) (hX : g.X = f.X) (x : CommKey)
    (hx : x.inBox f.X) : (g.copy_from_buffer f.copy_to_buffer).data x = f.data x := by
  unfold LatticeField.copy_from_buffer LatticeField.copy_to_buffer LatticeField.TotalBytes
  simp only [hX, hx, if_true]
  have hlt := index_lt x f.X hx
  rw [List.getElem?_map, List.getElem?_range hlt]
  simp only [Option.map_some']
  rw [coordinate_index x f.X hx]

theorem product_mul (a b : CommKey) : product (a * b) = product a * product b := by
  unfold product
  simp only [CommKey.mul_c0, CommKey.mul_c1, CommKey.mul_c2, CommKey.mul_c3]
  ring

theorem eq_one_of_product_le_one {K : CommKey} (hK : K.positive) (h : product K ≤ 1) :
    K.c0 = 1 ∧ K.c1 = 1 ∧ K.c2 = 1 ∧ K.c3 = 1 := by
  have hp := product_pos hK
  have h1 : K.c0 * K.c1 * K.c2 * K.c3 = 1 := by unfold product at h hp; omega
  have a3 := Nat.eq_one_of_mul_eq_one_left h1
  have b3 := Nat.eq_one_of_mul_eq_one_right h1
  have a2 := Nat.eq_one_of_mul_eq_one_left b3
  have b2 := Nat.eq_one_of_mul_eq_one_right b3
  exact ⟨Nat.eq_one_of_mul_eq_one_right b2, Nat.eq_one_of_mul_eq_one_left b2, a2, a3⟩

/-- With a single replica the only thread index is the origin. -/
theorem inBox_unique_of_product_le_one {K t : CommKey} (hK : K.positive)
    (h : product K ≤ 1) (ht : t.inBox K) : t = ⟨0, 0, 0, 0⟩ := by
  obtain ⟨e0, e1, e2, e3⟩ := eq_one_of_product_le_one hK h
  obtain ⟨t0, t1, t2, t3⟩ := ht
  rw [CommKey.ext_iff4]
  simp only
  omega

/-- Scalar separation of two blocks along one axis. -/
theorem nat_block_sep {t t2 X x : Nat} (hx : x < X) (hne : t ≠ t2) :
    ¬ (t * X ≤ t2 * X + x ∧ t2 * X + x < t * X + X) := by
  rintro ⟨h1, h2⟩
  rcases Nat.lt_or_gt_of_ne hne with h | h
  · have : (t + 1) * X ≤ t2 * X := Nat.mul_le_mul_right X h
    have e : (t + 1) * X = t * X + X := by ring
    omega
  · have : (t2 + 1) * X ≤ t * X := Nat.mul_le_mul_right X h
    have e : (t2 + 1) * X = t2 * X + X := by ring
    omega

/-- Stitching `src` into the collect field at block `t` puts the payload of
`src` at the sites of that block. -/
theorem stitch_hit {V : Type} (dst src : LatticeField V) (K X t x : CommKey)
    (hdst : dst.X = K * X) (hsrc : src.X = X) (hK : K.positive) (ht : t.inBox K)
    (hx : x.inBox X) : (copyFieldOffset dst src (t * X)).data (t * X + x) = src.data x := by
  obtain ⟨x0, x1, x2, x3⟩ := hx
  unfold copyFieldOffset
  split
  · simp only [hsrc, CommKey.add_c0, CommKey.add_c1, CommKey.add_c2, CommKey.add_c3,
      CommKey.mul_c0, CommKey.mul_c1, CommKey.mul_c2, CommKey.mul_c3]
    rw [if_pos (by omega)]
    congr 1
    rw [CommKey.ext_iff4]
    simp only
    omega
  · rename_i hmode
    rw [hsrc, hdst, product_mul] at hmode
    have hXpos : 0 < product X := product_pos (positive_of_inBox ⟨x0, x1, x2, x3⟩)
    have hle : product K ≤ 1 := by
      by_contra hc
      have : 2 * product X ≤ product K * product X := Nat.mul_le_mul_right _ (by omega)
      omega
    have ht0 := inBox_unique_of_product_le_one hK hle ht
    obtain ⟨e0, e1, e2, e3⟩ := eq_one_of_product_le_one hK hle
    subst ht0
    have hin : ((⟨0, 0, 0, 0⟩ : CommKey) * X + x).inBox dst.X := by
      rw [hdst]
      simp only [CommKey.inBox, CommKey.add_c0, CommKey.add_c1, CommKey.add_c2, CommKey.add_c3,
        CommKey.mul_c0, CommKey.mul_c1, CommKey.mul_c2, CommKey.mul_c3, e0, e1, e2, e3]
      omega
    simp only [hin, if_true]
    congr 1
    rw [CommKey.ext_iff4]
    simp

/-- Stitching at block `t` leaves the sites of every other block untouched. -/
theorem stitch_miss {V : Type} (dst src : LatticeField V) (K X t t2 x : CommKey)
    (hdst : dst.X = K * X) (hsrc : src.X = X) (hK : K.positive) (ht : t.inBox K)
    (ht2 : t2.inBox K) (hne : t ≠ t2) (hx : x.inBox X) :
    (copyFieldOffset dst src (t * X)).data (t2 * X + x) = dst.data (t2 * X + x) := by
  obtain ⟨x0, x1, x2, x3⟩ := hx
  unfold copyFieldOffset
  split
  · simp only [hsrc, CommKey.add_c0, CommKey.add_c1, CommKey.add_c2, CommKey.add_c3,
      CommKey.mul_c0, CommKey.mul_c1, CommKey.mul_c2, CommKey.mul_c3]
    rw [if_neg]
    intro hc
    apply hne
    rw [CommKey.ext_iff4]
    refine ⟨?_, ?_, ?_, ?_⟩
    · by_contra h; exact nat_block_sep x0 h ⟨hc.1, hc.2.1⟩
    · by_contra h; exact nat_block_sep x1 h ⟨hc.2.2.1, hc.2.2.2.1⟩
    · by_contra h; exact nat_block_sep x2 h ⟨hc.2.2.2.2.1, hc.2.2.2.2.2.1⟩
    · by_contra h; exact nat_block_sep x3 h ⟨hc.2.2.2.2.2.2.1, hc.2.2.2.2.2.2.2⟩
  · rename_i hmode
    rw [hsrc, hdst, product_mul] at hmode
    have hXpos : 0 < product X := product_pos (positive_of_inBox ⟨x0, x1, x2, x3⟩)
    have hle : product K ≤ 1 := by
      by_contra hc
      have : 2 * product X ≤ product K * product X := Nat.mul_le_mul_right _ (by omega)
      omega
    exact absurd ((inBox_unique_of_product_le_one hK hle ht).trans
      (inBox_unique_of_product_le_one hK hle ht2).symm) hne

/-- Carving block `t` out of the collect field: the buffer field takes the
payload of the collect field at the sites of that block. -/
theorem carve {V : Type} (dst src : LatticeField V) (K X t x : CommKey)
    (hdst : dst.X = X) (hsrc : src.X = K * X) (hK : K.positive)
    (hx : x.inBox X) : (copyFieldOffset dst src (t * X)).data x = src.data (t * X + x) := by
  unfold copyFieldOffset
  have hKpos := product_pos hK
  have hmode : ¬ product src.X < product dst.X := by
    rw [hsrc, hdst, product_mul]
    have : 1 * product X ≤ product K * product X := Nat.mul_le_mul_right _ hKpos
    omega
  rw [if_neg hmode]
  simp only [hdst, hx, if_true]
  congr 1
  rw [CommKey.ext_iff4]
  simp only [CommKey.add_c0, CommKey.add_c1, CommKey.add_c2, CommKey.add_c3]
  omega

/-! ## The receive loop of the split -/

theorem coordinate_from_index_injective {K : CommKey} {i j : Nat} (hi : i < product K)
    (hj : j < product K) (h : coordinate_from_index i K = coordinate_from_index j K) : i = j := by
  rw [← index_coordinate i K hi, ← index_coordinate j K hj, h]

theorem wellFormed_ne_nil {V : Type} {P K X : CommKey} {n : Nat} {w : World V}
    (hw : WellFormed P K X n w) (hn : 1 ≤ n) : ∀ c, c.inBox P → w.base c ≠ [] := by
  intro c hc h
  have := (hw c hc).1
  rw [h] at this
  simp at this
  omega

/-- Invariant of the receive loop of `split_field` on the rank at `d`: after
`n` passes no wait has blocked, and block `i < n` of the collect field holds
base field `j mod n_fields` of the rank at `split_src_idx`. -/
theorem split_recv_cycles_inv {V : Type} (rankOf : CommKey → Nat) (P K X : CommKey)
    (nf : Nat) (w : World V) (hK : K.positive) (hdiv : K.divides P)
    (hinj : RankInjective rankOf P) (hnf : 1 ≤ nf) (hw : WellFormed P K X nf w)
    (d : CommKey) (hd : d.inBox P) (meta c0 b0 : LatticeField V) (hmeta : meta.X = X)
    (hc0 : c0.X = K * X) (hb0 : b0.X = X) (n : Nat) (hn : n ≤ product K) :
    ∃ st, split_recv_cycles rankOf (envOf rankOf P d) (split_net rankOf P K w) meta K
        (c0, b0) n = some st ∧ st.1.X = K * X ∧ st.2.X = X ∧
      ∀ i, i < n → ∃ f, (w.base (split_src_idx P d K i))[
          index_from_coordinate (d / (P / K)) K % (w.base (split_src_idx P d K i)).length]?
            = some f ∧
        ∀ x, x.inBox X → st.1.data (coordinate_from_index i K * X + x) = f.data x := by
  have hP := positive_of_inBox hd
  induction n with
  | zero => exact ⟨(c0, b0), rfl, hc0, hb0, fun i hi => absurd hi (Nat.not_lt_zero i)⟩
  | succ n ih =>
    obtain ⟨st, hst, hX1, hX2, hblocks⟩ := ih (by omega)
    obtain ⟨f, hf, hwait⟩ := split_wait rankOf P K w hK hdiv hinj (wellFormed_ne_nil hw hnf)
      d hd n
    have hfX : f.X = X := by
      have hs := (split_src_idx_spec hK hP hdiv d n).1
      exact (hw _ hs).2.1 f (List.getElem?_mem hf)
    have htn : (coordinate_from_index n K).inBox K := coordinate_from_index_inBox n K hK
    refine ⟨(copyFieldOffset st.1 (st.2.copy_from_buffer f.copy_to_buffer)
        (coordinate_from_index n K * meta.X), st.2.copy_from_buffer f.copy_to_buffer),
      ?_, ?_, ?_, ?_⟩
    · simp only [split_recv_cycles]
      rw [hst]
      simp only [split_recv, envOf, hwait]
    · simp [hX1]
    · simp [hX2]
    · intro i hi
      rcases Nat.lt_succ_iff_lt_or_eq.1 hi with hlt | heq
      · obtain ⟨g, hg, hdata⟩ := hblocks i hlt
        refine ⟨g, hg, fun x hx => ?_⟩
        simp only [hmeta]
        rw [stitch_miss st.1 _ K X _ _ x hX1 (by simp [hX2]) hK htn
          (coordinate_from_index_inBox i K hK) ?_ hx]
        · exact hdata x hx
        · intro hc
          have := coordinate_from_index_injective (by omega) (by omega) hc
          omega
      · subst heq
        refine ⟨f, hf, fun x hx => ?_⟩
        simp only [hmeta]
        rw [stitch_hit st.1 _ K X _ x hX1 (by simp [hX2]) hK htn hx]
        exact copy_roundtrip _ _ (by rw [hX2, hfX]) x (by rw [hfX]; exact hx)

/-! ## The rank layout of the test harness is injective -/

theorem lex_rank_from_coords_t_injective (P : CommKey) :
    RankInjective (lex_rank_from_coords_t P) P := by
  intro a b ha hb h
  obtain ⟨a0, a1, a2, a3⟩ := ha
  obtain ⟨b0, b1, b2, b3⟩ := hb
  simp only [lex_rank_from_coords_t] at h
  have s3a := digit_step (P.c2 * (P.c1 * a.c0 + a.c1) + a.c2) P.c3 a.c3 a3
  have s3b := digit_step (P.c2 * (P.c1 * b.c0 + b.c1) + b.c2) P.c3 b.c3 b3
  rw [Nat.mul_comm] at h
  rw [Nat.mul_comm P.c3] at h
  have e3 : a.c3 = b.c3 := by rw [← s3a.1, ← s3b.1, h]
  have h2 : P.c2 * (P.c1 * a.c0 + a.c1) + a.c2 = P.c2 * (P.c1 * b.c0 + b.c1) + b.c2 := by
    rw [← s3a.2, ← s3b.2, h]
  have s2a := digit_step (P.c1 * a.c0 + a.c1) P.c2 a.c2 a2
  have s2b := digit_step (P.c1 * b.c0 + b.c1) P.c2 b.c2 b2
  rw [Nat.mul_comm] at h2
  rw [Nat.mul_comm P.c2] at h2
  have e2 : a.c2 = b.c2 := by rw [← s2a.1, ← s2b.1, h2]
  have h1 : P.c1 * a.c0 + a.c1 = P.c1 * b.c0 + b.c1 := by rw [← s2a.2, ← s2b.2, h2]
  have s1a := digit_step a.c0 P.c1 a.c1 a1
  have s1b := digit_step b.c0 P.c1 b.c1 b1
  rw [Nat.mul_comm] at h1
  rw [Nat.mul_comm P.c1] at h1
  have e1 : a.c1 = b.c1 := by rw [← s1a.1, ← s1b.1, h1]
  have e0 : a.c0 = b.c0 := by rw [← s1a.2, ← s1b.2, h1]
  rw [CommKey.ext_iff4]
  exact ⟨e0, e1, e2, e3⟩

theorem demoWorld_wellFormed : WellFormed demoGrid demoKey demoExtent 2 demoWorld := by
  intro c _
  refine ⟨rfl, ?_, rfl⟩
  intro f hf
  simp only [demoWorld, List.mem_cons, List.mem_singleton, List.not_mem_nil, or_false] at hf
  rcases hf with rfl | rfl <;> rfl

/-! ## Split placement -/

/-- On a well-formed input every rank gets through its receive loop: it reaches
the barrier of `split_field` with the blocks of its collect field placed. -/
theorem split_to_barrier_ok {V : Type} [Inhabited V] (rankOf : CommKey → Nat) (P K X : CommKey)
    (n : Nat) (w : World V) (hK : K.positive) (hdiv : K.divides P)
    (hinj : RankInjective rankOf P) (hn : 1 ≤ n) (hw : WellFormed P K X n w)
    (d : CommKey) (hd : d.inBox P) :
    ∃ cf posts, split_field_to_barrier rankOf (envOf rankOf P d) (split_net rankOf P K w)
        (w.collect d) (w.base d) K = Outcome.ok (cf, posts) ∧ cf.X = K * X ∧
      ∀ i, i < product K →
        ∃ f, (w.base (split_src_idx P d K i))[index_from_coordinate (d / (P / K)) K % n]?
            = some f ∧
          ∀ x, x.inBox X → cf.data (coordinate_from_index i K * X + x) = f.data x := by
  have hP := positive_of_inBox hd
  have hdef : divisions_defined (envOf rankOf P d).comm_dim K := ⟨hK, grid_positive hK hP hdiv⟩
  obtain ⟨hlen, hgeo, hcol⟩ := hw d hd
  cases hb : w.base d with
  | nil => rw [hb] at hlen; simp at hlen; omega
  | cons meta rest =>
    have hmeta : meta.X = X := hgeo meta (by rw [hb]; simp)
    obtain ⟨st, hst, hX1, _, hblocks⟩ := split_recv_cycles_inv rankOf P K X n w hK hdiv hinj hn
      hw d hd meta (w.collect d) (LatticeField.Create meta) hmeta hcol hmeta (product K)
      (Nat.le_refl _)
    refine ⟨st.1, split_field_posts rankOf (envOf rankOf P d) (w.base d) K, ?_, hX1, ?_⟩
    · unfold split_field_to_barrier
      simp only [if_pos hdef]
      rw [hb]
      rw [hst]
    · intro i hi
      obtain ⟨f, hf, hdata⟩ := hblocks i hi
      have hs := (split_src_idx_spec hK hP hdiv d i).1
      rw [(hw _ hs).1] at hf
      exact ⟨f, hf, hdata⟩

/-- On a well-formed input every rank reaches the barrier of `split_field`. -/
theorem split_arrive_true {V : Type} [Inhabited V] (rankOf : CommKey → Nat) (P K X : CommKey)
    (n : Nat) (w : World V) (hK : K.positive) (hdiv : K.divides P)
    (hinj : RankInjective rankOf P) (hn : 1 ≤ n) (hw : WellFormed P K X n w) :
    split_arrive rankOf P K w = true := by
  unfold split_arrive
  rw [List.all_eq_true]
  intro c hc
  rw [mem_ranks] at hc
  obtain ⟨cf, posts, hok, _⟩ := split_to_barrier_ok rankOf P K X n w hK hdiv hinj hn hw c hc
  rw [hok]
  rfl

theorem split_all_ok {V : Type} [Inhabited V] (rankOf : CommKey → Nat) (P K X : CommKey)
    (n : Nat) (w : World V) (hK : K.positive) (hdiv : K.divides P)
    (hinj : RankInjective rankOf P) (hn : 1 ≤ n) (hw : WellFormed P K X n w)
    (d : CommKey) (hd : d.inBox P) :
    ∃ cf posts, split_all rankOf P K w d = Outcome.ok (cf, posts) ∧ cf.X = K * X ∧
      ∀ i, i < product K →
        ∃ f, (w.base (split_src_idx P d K i))[index_from_coordinate (d / (P / K)) K % n]?
            = some f ∧
          ∀ x, x.inBox X → cf.data (coordinate_from_index i K * X + x) = f.data x := by
  obtain ⟨cf, posts, hok, h2, h3⟩ :=
    split_to_barrier_ok rankOf P K X n w hK hdiv hinj hn hw d hd
  refine ⟨cf, posts, ?_, h2, h3⟩
  unfold split_all split_field
  rw [hok, split_arrive_true rankOf P K X n w hK hdiv hinj hn hw]
  rfl

/-! ## Messages of the join -/

theorem join_send_cycles_X {V : Type} (rankOf : CommKey → Nat) (env : CommEnv)
    (collect_field : LatticeField V) (thread_dim K : CommKey) (init : LatticeField V) (n : Nat) :
    (join_send_cycles rankOf env collect_field thread_dim K init n).1.X = init.X := by
  induction n with
  | zero => rfl
  | succ n ih =>
    simp only [join_send_cycles, join_send, copyFieldOffset_X]
    exact ih

theorem join_send_cycles_posts {V : Type} (rankOf : CommKey → Nat) (env : CommEnv)
    (collect_field : LatticeField V) (thread_dim K : CommKey) (init : LatticeField V) (n : Nat) :
    (join_send_cycles rankOf env collect_field thread_dim K init n).2 =
      (List.range n).map (fun i => (join_send rankOf env collect_field thread_dim K
        (join_send_cycles rankOf env collect_field thread_dim K init i).1 i).2) := by
  induction n with
  | zero => rfl
  | succ n ih =>
    rw [List.range_succ, List.map_append]
    simp only [join_send_cycles, List.map_cons, List.map_nil]
    rw [ih]

theorem mem_join_net {V : Type} [Inhabited V] (rankOf : CommKey → Nat) (P K : CommKey)
    (w : World V) (m : Msg V) :
    m ∈ join_net rankOf P K w ↔
      divisions_defined P K ∧
      ∃ c i meta rest, c.inBox P ∧ i < product K ∧ w.base c = meta :: rest ∧
        m = (join_send rankOf (envOf rankOf P c) (w.collect c) meta.X K
          (join_send_cycles rankOf (envOf rankOf P c) (w.collect c) meta.X K
            (LatticeField.Create meta) i).1 i).2 := by
  unfold join_net
  by_cases hdef : divisions_defined P K
  swap
  · rw [if_neg hdef]
    exact ⟨fun h => absurd h (List.not_mem_nil m), fun h => absurd h.1 hdef⟩
  rw [if_pos hdef, List.mem_flatMap]
  refine Iff.trans ?_ (and_iff_right hdef).symm
  constructor
  · rintro ⟨c, hc, hm⟩
    rw [mem_ranks] at hc
    unfold join_field_posts at hm
    cases hb : w.base c with
    | nil => rw [hb] at hm; simp at hm
    | cons meta rest =>
      rw [hb] at hm
      simp only [join_send_cycles_posts, List.mem_map, List.mem_range] at hm
      obtain ⟨i, hi, rfl⟩ := hm
      exact ⟨c, i, meta, rest, hc, hi, hb, rfl⟩
  · rintro ⟨c, i, meta, rest, hc, hi, hb, rfl⟩
    refine ⟨c, (mem_ranks P c).2 hc, ?_⟩
    unfold join_field_posts
    rw [hb]
    simp only [join_send_cycles_posts, List.mem_map, List.mem_range]
    exact ⟨i, hi, rfl⟩

/-- The receive of pass `i` of `join_field` on the rank at `s` completes, with
the buffer of a field that holds block `s mod block_dim` of the collect field
of the rank at `join_src_idx`. -/
theorem join_wait {V : Type} [Inhabited V] (rankOf : CommKey → Nat) (P K X : CommKey)
    (n : Nat) (w : World V) (hK : K.positive) (hdiv : K.divides P)
    (hinj : RankInjective rankOf P) (hn : 1 ≤ n) (hw : WellFormed P K X n w)
    (s : CommKey) (hs : s.inBox P) (i : Nat) :
    ∃ bf : LatticeField V, bf.X = X ∧
      comm_wait (join_net rankOf P K w) (rankOf (join_src_idx P s K i)) (rankOf s)
        (rankOf (join_src_idx P s K i) * product P + rankOf s) = some bf.copy_to_buffer ∧
      ∀ x, x.inBox X →
        bf.data x = (w.collect (join_src_idx P s K i)).data (s % K * X + x) := by
  have hP : P.positive := positive_of_inBox hs
  set r := join_src_idx P s K i with hr
  have hrP : r.inBox P := (split_dst_idx_spec hK hdiv s hs i).1
  have hjK : (s % K).inBox K := mod_inBox hK
  set j := index_from_coordinate (s % K) K with hj
  have hjlt : j < product K := index_lt _ _ hjK
  have hcj : coordinate_from_index j K = s % K := coordinate_index _ _ hjK
  have hdst : join_dst_idx P r K j = s := split_src_of_dst hK hdiv s hs i
  obtain ⟨hlen, hgeo, hcol⟩ := hw r hrP
  obtain ⟨meta, rest, hbase⟩ : ∃ meta rest, w.base r = meta :: rest := by
    cases hb : w.base r with
    | nil => rw [hb] at hlen; simp at hlen; omega
    | cons a l => exact ⟨a, l, rfl⟩
  have hmeta : meta.X = X := hgeo meta (by rw [hbase]; simp)
  set buf := (join_send_cycles rankOf (envOf rankOf P r) (w.collect r) meta.X K
    (LatticeField.Create meta) j).1 with hbuf
  have hbufX : buf.X = X := by
    rw [hbuf, join_send_cycles_X]; exact hmeta
  refine ⟨copyFieldOffset buf (w.collect r) (coordinate_from_index j K * meta.X), ?_, ?_, ?_⟩
  · rw [copyFieldOffset_X]; exact hbufX
  · unfold comm_wait
    cases hfind : List.find? (fun m : Msg V => decide (m.src = rankOf r ∧ m.dst = rankOf s ∧
        m.tag = rankOf r * product P + rankOf s)) (join_net rankOf P K w) with
    | none =>
      exfalso
      rw [List.find?_eq_none] at hfind
      have hmem := (mem_join_net rankOf P K w _).2
        ⟨⟨hK, grid_positive hK hP hdiv⟩, r, j, meta, rest, hrP, hjlt, hbase, rfl⟩
      apply hfind _ hmem
      simp only [join_send, envOf, decide_eq_true_eq]
      rw [hdst]
      simp
    | some m =>
      have hp := List.find?_some hfind
      have hmem := List.mem_of_find?_eq_some hfind
      simp only [decide_eq_true_eq] at hp
      obtain ⟨_, c, i2, meta2, rest2, hc, hi2, hb2, rfl⟩ := (mem_join_net rankOf P K w m).1 hmem
      simp only [join_send, envOf] at hp
      have hcr : c = r := hinj c r hc hrP hp.1
      subst hcr
      have hdec := split_src_idx_spec hK hP hdiv r i2
      have hdd : join_dst_idx P r K i2 = s := hinj _ _ hdec.1 hs hp.2.1
      have hi2j : i2 = j := by
        have h1 : coordinate_from_index i2 K = s % K := by
          rw [← hdec.2.2]
          exact congrArg (· % K) hdd
        rw [hj, ← h1, index_coordinate i2 K hi2]
      subst hi2j
      rw [hbase] at hb2
      obtain ⟨rfl, rfl⟩ := List.cons.inj hb2
      simp only [Option.map_some', join_send]
  · intro x hx
    rw [hmeta, hcj]
    exact carve buf (w.collect r) K X (s % K) x hbufX hcol hK hx

/-! ## The receive loop of the join -/

/-- Invariant of the receive loop of `join_field` on the rank at `s`, when the
collect fields are those a split of the same base fields has produced: after
`n` passes no wait has blocked and every base field still has its payload. -/
theorem join_recv_cycles_inv {V : Type} [Inhabited V] (rankOf : CommKey → Nat)
    (P K X : CommKey) (nf : Nat) (w : World V) (hK : K.positive) (hdiv : K.divides P)
    (hinj : RankInjective rankOf P) (hnf : 1 ≤ nf) (hw : WellFormed P K X nf w)
    (hpost : ∀ r, r.inBox P → ∀ i, i < product K →
      ∃ f, (w.base (split_src_idx P r K i))[index_from_coordinate (r / (P / K)) K % nf]?
          = some f ∧
        ∀ x, x.inBox X → (w.collect r).data (coordinate_from_index i K * X + x) = f.data x)
    (s : CommKey) (hs : s.inBox P) (n : Nat) (hn : n ≤ product K) :
    ∃ bs, join_recv_cycles rankOf (envOf rankOf P s) (join_net rankOf P K w) K (w.base s) n
        = some bs ∧ bs.length = nf ∧
      ∀ k, k < nf → ∃ g f, bs[k]? = some g ∧ (w.base s)[k]? = some f ∧ g.X = X ∧
        ∀ x, x.inBox X → g.data x = f.data x := by
  have hP := positive_of_inBox hs
  obtain ⟨hlen, hgeo, _⟩ := hw s hs
  induction n with
  | zero =>
    refine ⟨w.base s, rfl, hlen, fun k hk => ?_⟩
    have hk2 : k < (w.base s).length := by omega
    exact ⟨(w.base s)[k], (w.base s)[k], List.getElem?_eq_getElem hk2,
      List.getElem?_eq_getElem hk2, hgeo _ (List.getElem_mem hk2), fun _ _ => rfl⟩
  | succ n ih =>
    obtain ⟨bs, hbs, hbl, hfields⟩ := ih (by omega)
    obtain ⟨bf, hbfX, hwait, hbf⟩ := join_wait rankOf P K X nf w hK hdiv hinj hnf hw s hs n
    have hkn : n % nf < nf := Nat.mod_lt _ (by omega)
    obtain ⟨g0, f0, hg0, hf0, hg0X, _⟩ := hfields (n % nf) hkn
    -- the block received is base field `n mod n_fields` of this rank
    have hsK : (s % K).inBox K := mod_inBox hK
    have hrP : (join_src_idx P s K n).inBox P := (split_dst_idx_spec hK hdiv s hs n).1
    obtain ⟨f1, hf1, hdata1⟩ := hpost (join_src_idx P s K n) hrP
      (index_from_coordinate (s % K) K) (index_lt _ _ hsK)
    have hsrc : split_src_idx P (join_src_idx P s K n) K (index_from_coordinate (s % K) K) = s :=
      split_src_of_dst hK hdiv s hs n
    have hidx : index_from_coordinate (join_src_idx P s K n / (P / K)) K = n := by
      have h1 : join_src_idx P s K n / (P / K) = coordinate_from_index n K :=
        (split_dst_idx_spec hK hdiv s hs n).2.1
      rw [h1, index_coordinate n K (by omega)]
    rw [hsrc, hidx, hf0] at hf1
    have hf01 : f0 = f1 := Option.some.inj hf1
    subst hf01
    rw [coordinate_index _ _ hsK] at hdata1
    refine ⟨bs.set (n % nf) (g0.copy_from_buffer bf.copy_to_buffer), ?_, ?_, ?_⟩
    · simp only [join_recv_cycles]
      rw [hbs]
      simp only [join_recv, envOf, hwait, hbl, hg0]
    · rw [List.length_set]; exact hbl
    · intro k hk
      by_cases hkeq : n % nf = k
      · subst hkeq
        refine ⟨g0.copy_from_buffer bf.copy_to_buffer, f0, ?_, hf0, ?_, ?_⟩
        · exact List.getElem?_set_self (by omega)
        · rw [copy_from_buffer_X]; exact hg0X
        · intro x hx
          rw [copy_roundtrip g0 bf (by rw [hg0X, hbfX]) x (by rw [hbfX]; exact hx), hbf x hx]
          exact hdata1 x hx
      · obtain ⟨g, f, hg, hf, hgX, hgd⟩ := hfields k hk
        exact ⟨g, f, by rw [List.getElem?_set_ne hkeq]; exact hg, hf, hgX, hgd⟩

theorem wellFormed_after_split {V : Type} [Inhabited V] (rankOf : CommKey → Nat)
    (P K X : CommKey) (n : Nat) (w : World V) (hK : K.positive) (hdiv : K.divides P)
    (hinj : RankInjective rankOf P) (hn : 1 ≤ n) (hw : WellFormed P K X n w) :
    WellFormed P K X n (after_split rankOf P K w) := by
  intro c hc
  obtain ⟨cf, posts, hok, hX, _⟩ := split_all_ok rankOf P K X n w hK hdiv hinj hn hw c hc
  refine ⟨(hw c hc).1, (hw c hc).2.1, ?_⟩
  simp only [after_split, hok]
  exact hX

/-- Split followed by join: every rank gets through the receive loop of the
join and reaches its barrier, and every base field then has at every site the
payload it had before the split. -/
theorem split_join_to_barrier_ok {V : Type} [Inhabited V] (rankOf : CommKey → Nat)
    (P K X : CommKey) (n : Nat) (w : World V) (hK : K.positive) (hdiv : K.divides P)
    (hinj : RankInjective rankOf P) (hn : 1 ≤ n) (hw : WellFormed P K X n w)
    (d : CommKey) (hd : d.inBox P) :
    ∃ bs posts, join_field_to_barrier rankOf (envOf rankOf P d)
        (join_net rankOf P K (after_split rankOf P K w))
        ((after_split rankOf P K w).base d) ((after_split rankOf P K w).collect d) K
        = Outcome.ok (bs, posts) ∧
      bs.length = n ∧
      ∀ k, k < n → ∃ g f, bs[k]? = some g ∧ (w.base d)[k]? = some f ∧ g.X = f.X ∧
        ∀ x, x.inBox X → g.data x = f.data x := by
  have hdef : divisions_defined (envOf rankOf P d).comm_dim K :=
    ⟨hK, grid_positive hK (positive_of_inBox hd) hdiv⟩
  have hw2 := wellFormed_after_split rankOf P K X n w hK hdiv hinj hn hw
  have hpost : ∀ r, r.inBox P → ∀ i, i < product K →
      ∃ f, ((after_split rankOf P K w).base (split_src_idx P r K i))[
          index_from_coordinate (r / (P / K)) K % n]? = some f ∧
        ∀ x, x.inBox X → ((after_split rankOf P K w).collect r).data
          (coordinate_from_index i K * X + x) = f.data x := by
    intro r hr i hi
    obtain ⟨cf, posts, hok, _, hblocks⟩ := split_all_ok rankOf P K X n w hK hdiv hinj hn hw r hr
    obtain ⟨f, hf, hdata⟩ := hblocks i hi
    refine ⟨f, hf, ?_⟩
    simp only [after_split, hok]
    exact hdata
  obtain ⟨bs, hbs, hlen, hfields⟩ := join_recv_cycles_inv rankOf P K X n
    (after_split rankOf P K w) hK hdiv hinj hn hw2 hpost d hd (product K) (Nat.le_refl _)
  obtain ⟨hl, hgeo, _⟩ := hw d hd
  cases hb : w.base d with
  | nil => rw [hb] at hl; simp at hl; omega
  | cons meta rest =>
    have hb2 : (after_split rankOf P K w).base d = meta :: rest := hb
    refine ⟨bs, join_field_posts rankOf (envOf rankOf P d) (meta :: rest)
      ((after_split rankOf P K w).collect d) K, ?_, hlen, ?_⟩
    · unfold join_field_to_barrier
      simp only [if_pos hdef]
      rw [hb2] at hbs ⊢
      simp only
      rw [hbs]
    · intro k hk
      obtain ⟨g, f, hg, hf, hgX, hgd⟩ := hfields k hk
      have hf2 : (w.base d)[k]? = some f := hf
      rw [hb] at hf2
      refine ⟨g, f, hg, hf2, ?_, hgd⟩
      rw [hgX]
      exact (hgeo f (by rw [hb]; exact List.getElem?_mem hf2)).symm

/-- Split followed by join: every rank reaches the barrier of the join. -/
theorem split_join_arrive_true {V : Type} [Inhabited V] (rankOf : CommKey → Nat)
    (P K X : CommKey) (n : Nat) (w : World V) (hK : K.positive) (hdiv : K.divides P)
    (hinj : RankInjective rankOf P) (hn : 1 ≤ n) (hw : WellFormed P K X n w) :
    join_arrive rankOf P K (after_split rankOf P K w) = true := by
  unfold join_arrive
  rw [List.all_eq_true]
  intro c hc
  rw [mem_ranks] at hc
  obtain ⟨bs, posts, hok, _⟩ :=
    split_join_to_barrier_ok rankOf P K X n w hK hdiv hinj hn hw c hc
  rw [hok]
  rfl

/-- Split followed by join: on every rank the join returns, and every base field
has at every site the payload it had before the split. -/
theorem split_join_ok {V : Type} [Inhabited V] (rankOf : CommKey → Nat)
    (P K X : CommKey) (n : Nat) (w : World V) (hK : K.positive) (hdiv : K.divides P)
    (hinj : RankInjective rankOf P) (hn : 1 ≤ n) (hw : WellFormed P K X n w)
    (d : CommKey) (hd : d.inBox P) :
    ∃ bs posts, join_all rankOf P K (after_split rankOf P K w) d = Outcome.ok (bs, posts) ∧
      bs.length = n ∧
      ∀ k, k < n → ∃ g f, bs[k]? = some g ∧ (w.base d)[k]? = some f ∧ g.X = f.X ∧
        ∀ x, x.inBox X → g.data x = f.data x := by
  obtain ⟨bs, posts, hok, h2, h3⟩ :=
    split_join_to_barrier_ok rankOf P K X n w hK hdiv hinj hn hw d hd
  refine ⟨bs, posts, ?_, h2, h3⟩
  unfold join_all join_field
  rw [hok, split_join_arrive_true rankOf P K X n w hK hdiv hinj hn hw]
  rfl

/-! ## Claims on the reshape engine -/

/-- C1 (reshape round trip): for a process grid `P`, a key `K` with positive
components dividing `P`, an injective rank map and `n ≥ 1` base fields of the
same geometry on every rank, `split_field` returns on every rank, `join_field`
run afterwards with the same key returns on every rank, and every base field
then has, site by site, the payload it had before the split. -/
theorem split_join_roundtrip {V : Type} [Inhabited V] (rankOf : CommKey → Nat)
    (P K X : CommKey) (n : Nat) (w : World V) (hK : K.positive) (hdiv : K.divides P)
    (hinj : RankInjective rankOf P) (hn : 1 ≤ n) (hw : WellFormed P K X n w)
    (d : CommKey) (hd : d.inBox P) :
    (∃ r, split_all rankOf P K w d = Outcome.ok r) ∧
    ∃ bs posts, join_all rankOf P K (after_split rankOf P K w) d = Outcome.ok (bs, posts) ∧
      bs.length = n ∧
      ∀ k, k < n → ∃ g f, bs[k]? = some g ∧ (w.base d)[k]? = some f ∧ g.X = f.X ∧
        ∀ x, x.inBox X → g.data x = f.data x := by
  obtain ⟨cf, posts, hok, _⟩ := split_all_ok rankOf P K X n w hK hdiv hinj hn hw d hd
  exact ⟨⟨(cf, posts), hok⟩, split_join_ok rankOf P K X n w hK hdiv hinj hn hw d hd⟩

theorem split_join_roundtrip_witness :
    (∃ r, split_all (lex_rank_from_coords_t demoGrid) demoGrid demoKey demoWorld ⟨1, 0, 0, 0⟩
      = Outcome.ok r) ∧
    ∃ bs posts, join_all (lex_rank_from_coords_t demoGrid) demoGrid demoKey
        (after_split (lex_rank_from_coords_t demoGrid) demoGrid demoKey demoWorld) ⟨1, 0, 0, 0⟩
        = Outcome.ok (bs, posts) ∧
      bs.length = 2 ∧
      ∀ k, k < 2 → ∃ g f, bs[k]? = some g ∧ (demoWorld.base ⟨1, 0, 0, 0⟩)[k]? = some f ∧
        g.X = f.X ∧ ∀ x, x.inBox demoExtent → g.data x = f.data x :=
  split_join_roundtrip (lex_rank_from_coords_t demoGrid) demoGrid demoKey demoExtent 2 demoWorld
    (by decide) (by decide) (lex_rank_from_coords_t_injective demoGrid) (by decide)
    demoWorld_wellFormed ⟨1, 0, 0, 0⟩ (by decide)

/-- C2 (split placement): after `split_field` has run on all ranks, on the rank
at grid coordinate `d` and for every replica index `i < product K` with
`t = coordinate_from_index i K`, the block of the collect field at offset
`t * X` equals base field `j mod n_fields` of the rank at coordinate
`(d mod grid_dim) * block_dim + t`, where `j = index_from_coordinate (d / grid_dim) K`. -/
theorem split_placement {V : Type} [Inhabited V] (rankOf : CommKey → Nat)
    (P K X : CommKey) (n : Nat) (w : World V) (hK : K.positive) (hdiv : K.divides P)
    (hinj : RankInjective rankOf P) (hn : 1 ≤ n) (hw : WellFormed P K X n w)
    (d : CommKey) (hd : d.inBox P) (i : Nat) (hi : i < product K) :
    ∃ cf posts f, split_all rankOf P K w d = Outcome.ok (cf, posts) ∧
      (w.base ((d % (P / K)) * (P / (P / K)) + coordinate_from_index i K))[
        index_from_coordinate (d / (P / K)) K % n]? = some f ∧
      ∀ x, x.inBox X → cf.data (coordinate_from_index i K * X + x) = f.data x := by
  obtain ⟨cf, posts, hok, _, hblocks⟩ := split_all_ok rankOf P K X n w hK hdiv hinj hn hw d hd
  obtain ⟨f, hf, hdata⟩ := hblocks i hi
  exact ⟨cf, posts, f, hok, hf, hdata⟩

theorem split_placement_witness :
    ∃ cf posts f,
      split_all (lex_rank_from_coords_t demoGrid) demoGrid demoKey demoWorld ⟨0, 0, 0, 0⟩
        = Outcome.ok (cf, posts) ∧
      (demoWorld.base (((⟨0, 0, 0, 0⟩ : CommKey) % (demoGrid / demoKey))
          * (demoGrid / (demoGrid / demoKey)) + coordinate_from_index 1 demoKey))[
        index_from_coordinate ((⟨0, 0, 0, 0⟩ : CommKey) / (demoGrid / demoKey)) demoKey % 2]?
        = some f ∧
      ∀ x, x.inBox demoExtent → cf.data (coordinate_from_index 1 demoKey * demoExtent + x)
        = f.data x :=
  split_placement (lex_rank_from_coords_t demoGrid) demoGrid demoKey demoExtent 2 demoWorld
    (by decide) (by decide) (lex_rank_from_coords_t_injective demoGrid) (by decide)
    demoWorld_wellFormed ⟨0, 0, 0, 0⟩ (by decide) 1 (by decide)

/-- C3 (reshape byte preservation): with `n_fields = product K`, the routing of
`split_field` is a bijection between (source rank, base-field index) and
(destination rank, collect block index): every send has exactly one receiving
pass, every receiving pass has exactly one send, and the block written by a
receiving pass holds the payload of the base field of the matching send. -/
theorem split_bijection {V : Type} [Inhabited V] (rankOf : CommKey → Nat)
    (P K X : CommKey) (n : Nat) (w : World V) (hK : K.positive) (hdiv : K.divides P)
    (hinj : RankInjective rankOf P) (hn : n = product K) (hw : WellFormed P K X n w) :
    (∀ s i, s.inBox P → i < product K →
      ∃! di : CommKey × Nat, di.1.inBox P ∧ di.2 < product K ∧ SplitRoute P K s i di.1 di.2) ∧
    (∀ d i2, d.inBox P → i2 < product K →
      ∃! si : CommKey × Nat, si.1.inBox P ∧ si.2 < product K ∧ SplitRoute P K si.1 si.2 d i2) ∧
    (∀ s i d i2, s.inBox P → i < product K → d.inBox P → i2 < product K →
      SplitRoute P K s i d i2 →
      ∃ cf posts f, split_all rankOf P K w d = Outcome.ok (cf, posts) ∧
        (w.base s)[i]? = some f ∧
        ∀ x, x.inBox X → cf.data (coordinate_from_index i2 K * X + x) = f.data x) := by
  refine ⟨?_, ?_, ?_⟩
  · intro s i hs hi
    have hspec := split_dst_idx_spec hK hdiv s hs i
    have hsK : (s % K).inBox K := mod_inBox hK
    refine ⟨(split_dst_idx P s K i, index_from_coordinate (s % K) K),
      ⟨hspec.1, index_lt _ _ hsK, rfl, split_src_of_dst hK hdiv s hs i⟩, ?_⟩
    rintro ⟨d, i2⟩ ⟨hd, hi2, h1, h2⟩
    simp only at hd hi2 h1 h2
    subst h1
    have h3 := (split_src_idx_spec hK (positive_of_inBox hs) hdiv (split_dst_idx P s K i) i2).2.2
    rw [h2] at h3
    rw [h3, index_coordinate i2 K hi2]
  · intro d i2 hd hi2
    have hP := positive_of_inBox hd
    have hspec := split_src_idx_spec hK hP hdiv d i2
    have hdK : (d / (P / K)).inBox K := div_grid_inBox hdiv hd
    refine ⟨(split_src_idx P d K i2, index_from_coordinate (d / (P / K)) K),
      ⟨hspec.1, index_lt _ _ hdK, split_dst_of_src hK hdiv d hd i2, rfl⟩, ?_⟩
    rintro ⟨s, i⟩ ⟨hs, hi, h1, h2⟩
    simp only at hs hi h1 h2
    subst h2
    have h3 := (split_dst_idx_spec hK hdiv (split_src_idx P d K i2) hs i).2.1
    rw [h1] at h3
    rw [h3, index_coordinate i K hi]
  · intro s i d i2 hs hi hd hi2 hroute
    obtain ⟨h1, h2⟩ := hroute
    have hn1 : 1 ≤ n := by rw [hn]; exact product_pos hK
    obtain ⟨cf, posts, hok, _, hblocks⟩ :=
      split_all_ok rankOf P K X n w hK hdiv hinj hn1 hw d hd
    obtain ⟨f, hf, hdata⟩ := hblocks i2 hi2
    have h3 := (split_dst_idx_spec hK hdiv s hs i).2.1
    rw [h1] at h3
    rw [h2, h3, index_coordinate i K hi, Nat.mod_eq_of_lt (by omega)] at hf
    exact ⟨cf, posts, f, hok, hf, hdata⟩

theorem split_bijection_witness :
    (∀ s i, s.inBox demoGrid → i < product demoKey →
      ∃! di : CommKey × Nat, di.1.inBox demoGrid ∧ di.2 < product demoKey ∧
        SplitRoute demoGrid demoKey s i di.1 di.2) ∧
    (∀ d i2, d.inBox demoGrid → i2 < product demoKey →
      ∃! si : CommKey × Nat, si.1.inBox demoGrid ∧ si.2 < product demoKey ∧
        SplitRoute demoGrid demoKey si.1 si.2 d i2) ∧
    (∀ s i d i2, s.inBox demoGrid → i < product demoKey → d.inBox demoGrid →
      i2 < product demoKey → SplitRoute demoGrid demoKey s i d i2 →
      ∃ cf posts f, split_all (lex_rank_from_coords_t demoGrid) demoGrid demoKey demoWorld d
          = Outcome.ok (cf, posts) ∧
        (demoWorld.base s)[i]? = some f ∧
        ∀ x, x.inBox demoExtent → cf.data (coordinate_from_index i2 demoKey * demoExtent + x)
          = f.data x) :=
  split_bijection (lex_rank_from_coords_t demoGrid) demoGrid demoKey demoExtent 2 demoWorld
    (by decide) (by decide) (lex_rank_from_coords_t_injective demoGrid) (by decide)
    demoWorld_wellFormed

/-! ## Tags -/

theorem lex_rank_from_coords_t_bounded (P : CommKey) :
    RankBounded (lex_rank_from_coords_t P) P := by
  intro a ha
  obtain ⟨a0, a1, a2, a3⟩ := ha
  simp only [lex_rank_from_coords_t, product]
  have e1 : P.c1 * a.c0 + a.c1 < P.c0 * P.c1 := by nlinarith
  have e2 : P.c2 * (P.c1 * a.c0 + a.c1) + a.c2 < P.c0 * P.c1 * P.c2 := by nlinarith
  nlinarith

theorem ranks_nodup (P : CommKey) : (ranks P).Nodup := by
  unfold ranks
  apply List.Nodup.map_on _ (List.nodup_range _)
  intro x hx y hy h
  exact coordinate_from_index_injective (List.mem_range.1 hx) (List.mem_range.1 hy) h

/-- The tag `src * total + dst` determines `src` and `dst` below `total`. -/
theorem tag_injective {T a b c d : Nat} (hb : b < T) (hd : d < T)
    (h : a * T + b = c * T + d) : a = c ∧ b = d := by
  have s1 := digit_step a T b hb
  have s2 := digit_step c T d hd
  constructor
  · rw [← s1.2, ← s2.2, h]
  · rw [← s1.1, ← s2.1, h]

/-- Tags of a collective in which the rank at `c` posts, in pass `i`, one
message to the rank at `dstf c i`: they are pairwise distinct. -/
theorem tag_family_nodup (rankOf : CommKey → Nat) (P : CommKey) (nK : Nat)
    (dstf : CommKey → Nat → CommKey) (hinj : RankInjective rankOf P)
    (hb : RankBounded rankOf P)
    (hbox : ∀ c, c.inBox P → ∀ i, i < nK → (dstf c i).inBox P)
    (hdi : ∀ c, c.inBox P → ∀ i j, i < nK → j < nK → dstf c i = dstf c j → i = j)
    (tags : CommKey → List Nat)
    (htags : ∀ c, c.inBox P → tags c = [] ∨
      tags c = (List.range nK).map (fun i => rankOf c * product P + rankOf (dstf c i))) :
    ((ranks P).flatMap tags).Nodup := by
  rw [List.nodup_flatMap]
  constructor
  · intro c hc
    rw [mem_ranks] at hc
    rcases htags c hc with h | h
    · rw [h]; exact List.nodup_nil
    · rw [h]
      apply List.Nodup.map_on _ (List.nodup_range _)
      intro i hi j hj hij
      rw [List.mem_range] at hi hj
      have h2 : rankOf (dstf c i) = rankOf (dstf c j) := by omega
      exact hdi c hc i j hi hj (hinj _ _ (hbox c hc i hi) (hbox c hc j hj) h2)
  · apply (ranks_nodup P).pairwise_of_forall_ne
    intro a ha b hb2 hne
    rw [mem_ranks] at ha hb2
    show List.Disjoint (tags a) (tags b)
    intro x hxa hxb
    rcases htags a ha with h | h
    · rw [h] at hxa; simp at hxa
    · rcases htags b hb2 with h2 | h2
      · rw [h2] at hxb; simp at hxb
      · rw [h] at hxa; rw [h2] at hxb
        simp only [List.mem_map, List.mem_range] at hxa hxb
        obtain ⟨i, hi, rfl⟩ := hxa
        obtain ⟨j, hj, hx⟩ := hxb
        have := tag_injective (hb _ (hbox b hb2 j hj)) (hb _ (hbox a ha i hi)) hx
        exact hne (hinj a b ha hb2 this.1.symm)

theorem split_dst_idx_injective {P K : CommKey} (hK : K.positive) (hdiv : K.divides P)
    (s : CommKey) (hs : s.inBox P) (i j : Nat) (hi : i < product K) (hj : j < product K)
    (h : split_dst_idx P s K i = split_dst_idx P s K j) : i = j := by
  have h1 := (split_dst_idx_spec hK hdiv s hs i).2.1
  have h2 := (split_dst_idx_spec hK hdiv s hs j).2.1
  rw [h] at h1
  exact coordinate_from_index_injective hi hj (h1.symm.trans h2)

theorem split_src_idx_injective {P K : CommKey} (hK : K.positive) (hdiv : K.divides P)
    (d : CommKey) (hd : d.inBox P) (i j : Nat) (hi : i < product K) (hj : j < product K)
    (h : split_src_idx P d K i = split_src_idx P d K j) : i = j := by
  have hP := positive_of_inBox hd
  have h1 := (split_src_idx_spec hK hP hdiv d i).2.2
  have h2 := (split_src_idx_spec hK hP hdiv d j).2.2
  rw [h] at h1
  exact coordinate_from_index_injective hi hj (h1.symm.trans h2)

theorem split_posts_tags {V : Type} (rankOf : CommKey → Nat) (P K : CommKey) (w : World V)
    (c : CommKey) :
    (split_field_posts rankOf (envOf rankOf P c) (w.base c) K).map Msg.tag = [] ∨
    (split_field_posts rankOf (envOf rankOf P c) (w.base c) K).map Msg.tag =
      (List.range (product K)).map
        (fun i => rankOf c * product P + rankOf (split_dst_idx P c K i)) := by
  unfold split_field_posts
  cases w.base c with
  | nil => left; rfl
  | cons meta rest =>
    right
    simp only [List.map_map]
    rfl

theorem join_posts_tags {V : Type} [Inhabited V] (rankOf : CommKey → Nat) (P K : CommKey)
    (w : World V) (c : CommKey) :
    (join_field_posts rankOf (envOf rankOf P c) (w.base c) (w.collect c) K).map Msg.tag = [] ∨
    (join_field_posts rankOf (envOf rankOf P c) (w.base c) (w.collect c) K).map Msg.tag =
      (List.range (product K)).map
        (fun i => rankOf c * product P + rankOf (join_dst_idx P c K i)) := by
  unfold join_field_posts
  cases w.base c with
  | nil => left; rfl
  | cons meta rest =>
    right
    simp only [join_send_cycles_posts, List.map_map]
    rfl

theorem split_posts_dsts {V : Type} (rankOf : CommKey → Nat) (P K : CommKey) (w : World V)
    (c : CommKey) :
    (split_field_posts rankOf (envOf rankOf P c) (w.base c) K).map Msg.dst = [] ∨
    (split_field_posts rankOf (envOf rankOf P c) (w.base c) K).map Msg.dst =
      (List.range (product K)).map (fun i => rankOf (split_dst_idx P c K i)) := by
  unfold split_field_posts
  cases w.base c with
  | nil => left; rfl
  | cons meta rest =>
    right
    simp only [List.map_map]
    rfl

theorem join_posts_dsts {V : Type} [Inhabited V] (rankOf : CommKey → Nat) (P K : CommKey)
    (w : World V) (c : CommKey) :
    (join_field_posts rankOf (envOf rankOf P c) (w.base c) (w.collect c) K).map Msg.dst = [] ∨
    (join_field_posts rankOf (envOf rankOf P c) (w.base c) (w.collect c) K).map Msg.dst =
      (List.range (product K)).map (fun i => rankOf (join_dst_idx P c K i)) := by
  unfold join_field_posts
  cases w.base c with
  | nil => left; rfl
  | cons meta rest =>
    right
    simp only [join_send_cycles_posts, List.map_map]
    rfl

theorem dsts_nodup (rankOf : CommKey → Nat) (P : CommKey) (nK : Nat)
    (dstf : Nat → CommKey) (hinj : RankInjective rankOf P)
    (hbox : ∀ i, i < nK → (dstf i).inBox P)
    (hdi : ∀ i j, i < nK → j < nK → dstf i = dstf j → i = j) (l : List Nat)
    (hl : l = [] ∨ l = (List.range nK).map (fun i => rankOf (dstf i))) : l.Nodup := by
  rcases hl with h | h
  · rw [h]; exact List.nodup_nil
  · rw [h]
    apply List.Nodup.map_on _ (List.nodup_range _)
    intro i hi j hj hij
    rw [List.mem_range] at hi hj
    exact hdi i j hi hj (hinj _ _ (hbox i hi) (hbox j hj) hij)

/-- C4 (tag uniqueness): in one collective call of `split_field`, and likewise
of `join_field`, the sends of a rank go to pairwise distinct destination ranks,
the tag `src_rank * total_rank + dst_rank` determines the pair of ranks below
`total_rank`, every posted message carries that tag with both ranks below
`total_rank`, and no two messages posted by any ranks carry the same tag. -/
theorem tag_uniqueness {V : Type} [Inhabited V] (rankOf : CommKey → Nat) (P K : CommKey)
    (w : World V) (hK : K.positive) (hdiv : K.divides P) (hinj : RankInjective rankOf P)
    (hb : RankBounded rankOf P) :
    (∀ s, s.inBox P →
      ((split_field_posts rankOf (envOf rankOf P s) (w.base s) K).map Msg.dst).Nodup ∧
      ((join_field_posts rankOf (envOf rankOf P s) (w.base s) (w.collect s) K).map
        Msg.dst).Nodup) ∧
    (∀ a b c d : Nat, b < product P → d < product P →
      a * product P + b = c * product P + d → a = c ∧ b = d) ∧
    (∀ m, m ∈ split_net rankOf P K w →
      m.tag = m.src * product P + m.dst ∧ m.src < product P ∧ m.dst < product P) ∧
    (∀ m, m ∈ join_net rankOf P K w →
      m.tag = m.src * product P + m.dst ∧ m.src < product P ∧ m.dst < product P) ∧
    ((split_net rankOf P K w).map Msg.tag).Nodup ∧
    ((join_net rankOf P K w).map Msg.tag).Nodup := by
  have hsplit_box : ∀ c, c.inBox P → ∀ i, i < product K → (split_dst_idx P c K i).inBox P :=
    fun c hc i _ => (split_dst_idx_spec hK hdiv c hc i).1
  have hjoin_box : ∀ c, c.inBox P → ∀ i, i < product K → (join_dst_idx P c K i).inBox P :=
    fun c hc i _ => (split_src_idx_spec hK (positive_of_inBox hc) hdiv c i).1
  have hsplit_inj : ∀ c, c.inBox P → ∀ i j, i < product K → j < product K →
      split_dst_idx P c K i = split_dst_idx P c K j → i = j :=
    fun c hc i j hi hj h => split_dst_idx_injective hK hdiv c hc i j hi hj h
  have hjoin_inj : ∀ c, c.inBox P → ∀ i j, i < product K → j < product K →
      join_dst_idx P c K i = join_dst_idx P c K j → i = j :=
    fun c hc i j hi hj h => split_src_idx_injective hK hdiv c hc i j hi hj h
  refine ⟨?_, ?_, ?_, ?_, ?_, ?_⟩
  · intro s hs
    exact ⟨dsts_nodup rankOf P (product K) (split_dst_idx P s K) hinj (hsplit_box s hs)
        (hsplit_inj s hs) _ (split_posts_dsts rankOf P K w s),
      dsts_nodup rankOf P (product K) (join_dst_idx P s K) hinj (hjoin_box s hs)
        (hjoin_inj s hs) _ (join_posts_dsts rankOf P K w s)⟩
  · intro a b c d hb2 hd h
    exact tag_injective hb2 hd h
  · intro m hm
    obtain ⟨_, c, i, meta, rest, hc, hi, _, rfl⟩ := (mem_split_net rankOf P K w m).1 hm
    exact ⟨rfl, hb c hc, hb _ (hsplit_box c hc i hi)⟩
  · intro m hm
    obtain ⟨_, c, i, meta, rest, hc, hi, _, rfl⟩ := (mem_join_net rankOf P K w m).1 hm
    exact ⟨rfl, hb c hc, hb _ (hjoin_box c hc i hi)⟩
  · unfold split_net
    split
    · rw [List.map_flatMap]
      exact tag_family_nodup rankOf P (product K) (fun c i => split_dst_idx P c K i) hinj hb
        hsplit_box hsplit_inj _ (fun c _ => split_posts_tags rankOf P K w c)
    · exact List.nodup_nil
  · unfold join_net
    split
    · rw [List.map_flatMap]
      exact tag_family_nodup rankOf P (product K) (fun c i => join_dst_idx P c K i) hinj hb
        hjoin_box hjoin_inj _ (fun c _ => join_posts_tags rankOf P K w c)
    · exact List.nodup_nil

theorem tag_uniqueness_witness :
    (∀ s, s.inBox demoGrid →
      ((split_field_posts (lex_rank_from_coords_t demoGrid)
        (envOf (lex_rank_from_coords_t demoGrid) demoGrid s) (demoWorld.base s) demoKey).map
          Msg.dst).Nodup ∧
      ((join_field_posts (lex_rank_from_coords_t demoGrid)
        (envOf (lex_rank_from_coords_t demoGrid) demoGrid s) (demoWorld.base s)
          (demoWorld.collect s) demoKey).map Msg.dst).Nodup) ∧
    (∀ a b c d : Nat, b < product demoGrid → d < product demoGrid →
      a * product demoGrid + b = c * product demoGrid + d → a = c ∧ b = d) ∧
    (∀ m, m ∈ split_net (lex_rank_from_coords_t demoGrid) demoGrid demoKey demoWorld →
      m.tag = m.src * product demoGrid + m.dst ∧ m.src < product demoGrid ∧
        m.dst < product demoGrid) ∧
    (∀ m, m ∈ join_net (lex_rank_from_coords_t demoGrid) demoGrid demoKey demoWorld →
      m.tag = m.src * product demoGrid + m.dst ∧ m.src < product demoGrid ∧
        m.dst < product demoGrid) ∧
    ((split_net (lex_rank_from_coords_t demoGrid) demoGrid demoKey demoWorld).map
      Msg.tag).Nodup ∧
    ((join_net (lex_rank_from_coords_t demoGrid) demoGrid demoKey demoWorld).map
      Msg.tag).Nodup :=
  tag_uniqueness (lex_rank_from_coords_t demoGrid) demoGrid demoKey demoWorld (by decide)
    (by decide) (lex_rank_from_coords_t_injective demoGrid)
    (lex_rank_from_coords_t_bounded demoGrid)

/-! ## Chebyshev polynomials -/

theorem chebT_eq_eval {K : Type} [Field K] (u : K) (k : Nat) :
    chebT k u = (Polynomial.Chebyshev.T K (k : ℤ)).eval u ∧
      chebT (k + 1) u = (Polynomial.Chebyshev.T K ((k : ℤ) + 1)).eval u := by
  induction k with
  | zero => simp [chebT]
  | succ k ih =>
    refine ⟨by push_cast; exact ih.2, ?_⟩
    have h := Polynomial.Chebyshev.T_add_two K (k : ℤ)
    have e : ((k + 1 : ℕ) : ℤ) + 1 = (k : ℤ) + 2 := by push_cast; ring
    rw [e, h]
    simp only [chebT, Polynomial.eval_sub, Polynomial.eval_mul, Polynomial.eval_ofNat,
      Polynomial.eval_X]
    rw [ih.1, ih.2]

theorem chebT_neg {K : Type} [Field K] (u : K) (k : Nat) :
    chebT k (-u) = (-1) ^ k * chebT k u ∧
      chebT (k + 1) (-u) = (-1) ^ (k + 1) * chebT (k + 1) u := by
  induction k with
  | zero => simp [chebT]
  | succ k ih =>
    refine ⟨ih.2, ?_⟩
    simp only [chebT]
    rw [ih.1, ih.2]
    ring

theorem chebT_mono {K : Type} [LinearOrderedField K] (u : K) (hu : 1 ≤ u) (k : Nat) :
    1 ≤ chebT k u ∧ chebT k u ≤ chebT (k + 1) u := by
  induction k with
  | zero => simp [chebT, hu]
  | succ k ih =>
    refine ⟨le_trans ih.1 ih.2, ?_⟩
    simp only [chebT]
    have h1 : 1 ≤ chebT (k + 1) u := le_trans ih.1 ih.2
    nlinarith [mul_nonneg (sub_nonneg.2 hu) (le_trans zero_le_one h1)]

theorem chebT_pos {K : Type} [LinearOrderedField K] (u : K) (hu : 1 ≤ u) (k : Nat) :
    0 < chebT k u := lt_of_lt_of_le zero_lt_one (chebT_mono u hu k).1

/-- For `1 ≤ v < u` the gap `T_k(u) - T_k(v)` is non-negative and grows with `k`. -/
theorem chebT_gap {K : Type} [LinearOrderedField K] (u v : K) (hv : 1 ≤ v) (huv : v < u)
    (k : Nat) :
    0 ≤ chebT k u - chebT k v ∧
      chebT k u - chebT k v < chebT (k + 1) u - chebT (k + 1) v := by
  have hu : 1 ≤ u := le_trans hv (le_of_lt huv)
  induction k with
  | zero => simp [chebT, huv]
  | succ k ih =>
    refine ⟨le_trans ih.1 (le_of_lt ih.2), ?_⟩
    simp only [chebT]
    have hD : 0 ≤ chebT (k + 1) u - chebT (k + 1) v := le_trans ih.1 (le_of_lt ih.2)
    have hT : 0 < chebT (k + 1) v := chebT_pos v hv (k + 1)
    have h1 : 0 ≤ (u - 1) * (chebT (k + 1) u - chebT (k + 1) v) :=
      mul_nonneg (sub_nonneg.2 hu) hD
    have h2 : 0 < (u - v) * chebT (k + 1) v := mul_pos (sub_pos.2 huv) hT
    have h3 := ih.2
    linarith

theorem chebT_strictMono {K : Type} [LinearOrderedField K] (u v : K) (hv : 1 ≤ v)
    (huv : v < u) (k : Nat) (hk : 1 ≤ k) : chebT k v < chebT k u := by
  obtain ⟨j, rfl⟩ : ∃ j, k = j + 1 := ⟨k - 1, by omega⟩
  have h := chebT_gap u v hv huv j
  linarith [h.1, h.2]

theorem chebT_ne_zero_of_lt {K : Type} [LinearOrderedField K] (c : K) (hc : c ≤ -1) (k : Nat) :
    chebT k c ≠ 0 := by
  have h := (chebT_neg (-c) k).1
  rw [neg_neg] at h
  rw [h]
  have hp := chebT_pos (-c) (by linarith) k
  exact mul_ne_zero (pow_ne_zero _ (by norm_num)) (ne_of_gt hp)

/-! ## The accelerator on an eigenvector -/

/-- Scalar form of the update of `sigma` in one pass of the accelerator, with
`theta = -(c * delta)`. -/
theorem cheb_sigma_scalar {K : Type} [Field K] (delta c a b : K) (hd : delta ≠ 0)
    (hb : b ≠ 0) :
    1 / (2 / (-delta / (-(c * delta))) - a / b) = b / (2 * c * b - a) := by
  have h1 : 2 / (-delta / (-(c * delta))) = 2 * c := by
    field_simp
    ring
  rw [h1]
  have h2 : 2 * c - a / b = (2 * c * b - a) / b := by
    field_simp
  rw [h2, one_div, inv_div]

/-- Scalar form of the update of the output in one pass of the accelerator, with
`theta = -(c * delta)`, `lam = (z - c) * delta` and `E = 2 c b - a`. -/
theorem cheb_step_scalar {K : Type} [Field K] (delta c z a b a2 b2 E : K) (hd : delta ≠ 0)
    (ha : a ≠ 0) (hb : b ≠ 0) (he : E ≠ 0) :
    -(b / E) * (a / b) * (a2 / a)
      + -(2 * (b / E) / delta) * (-(c * delta)) * (b2 / b)
      + 2 * (b / E) / delta * (b2 / b * ((z - c) * delta))
      = (2 * z * b2 - a2) / E := by
  have t1 : -(b / E) * (a / b) * (a2 / a) = -a2 / E := by
    field_simp
    ring
  have t2 : -(2 * (b / E) / delta) * (-(c * delta)) * (b2 / b) = 2 * c * b2 / E := by
    field_simp
    ring
  have t3 : 2 * (b / E) / delta * (b2 / b * ((z - c) * delta)) = 2 * (z - c) * b2 / E := by
    field_simp
    ring
  rw [t1, t2, t3]
  ring

/-- Invariant of the loop of `polyOp` on an eigenvector `x` of eigenvalue
`(z - c) * delta`, with `theta = -(c * delta)`: after `n` passes `tm1` and `tm2`
are the Chebyshev ratios of degree `n` and `n + 1` times `x`, and
`sigma_old = T_n(c) / T_{n+1}(c)`. -/
theorem polyOp_loop_eigen {K V : Type} [Field K] [AddCommGroup V] [Module K V]
    (H : V → V) (hsmul : ∀ (a : K) (v : V), H (a • v) = a • H v) (x : V) (delta c z : K)
    (hx : H x = ((z - c) * delta) • x) (hd : delta ≠ 0) (hT : ∀ k, chebT k c ≠ 0)
    (st0 : PolyState K V) (h0 : st0.tm1 = x) (h1 : st0.tm2 = (z / c) • x)
    (h2 : st0.out = st0.tm2) (h3 : st0.sigma_old = 1 / c) (n : Nat) :
    (polyOp_loop H delta (-(c * delta)) (-delta / (-(c * delta))) st0 n).tm1
      = (chebT n z / chebT n c) • x ∧
    (polyOp_loop H delta (-(c * delta)) (-delta / (-(c * delta))) st0 n).tm2
      = (chebT (n + 1) z / chebT (n + 1) c) • x ∧
    (polyOp_loop H delta (-(c * delta)) (-delta / (-(c * delta))) st0 n).out
      = (chebT (n + 1) z / chebT (n + 1) c) • x ∧
    (polyOp_loop H delta (-(c * delta)) (-delta / (-(c * delta))) st0 n).sigma_old
      = chebT n c / chebT (n + 1) c := by
  induction n with
  | zero =>
    refine ⟨?_, ?_, ?_, ?_⟩
    · simp [polyOp_loop, chebT, h0]
    · simp [polyOp_loop, chebT, h1]
    · simp [polyOp_loop, chebT, h1, h2]
    · simp [polyOp_loop, chebT, h3]
  | succ n ih =>
    obtain ⟨e1, e2, _, e4⟩ := ih
    have ha := hT n
    have hb := hT (n + 1)
    have he : 2 * c * chebT (n + 1) c - chebT n c ≠ 0 := hT (n + 2)
    have hsig := cheb_sigma_scalar delta c (chebT n c) (chebT (n + 1) c) hd hb
    have hnew : (polyOp_step H delta (-(c * delta)) (-delta / (-(c * delta)))
        (polyOp_loop H delta (-(c * delta)) (-delta / (-(c * delta))) st0 n)).out
        = (chebT (n + 2) z / chebT (n + 2) c) • x := by
      simp only [polyOp_step, e1, e2, e4, hsig, blas_cxpaypbz, blas_ax, hsmul, hx, smul_smul,
        ← add_smul]
      congr 1
      exact cheb_step_scalar delta c z (chebT n c) (chebT (n + 1) c) (chebT n z)
        (chebT (n + 1) z) _ hd ha hb he
    refine ⟨?_, ?_, ?_, ?_⟩
    · simp only [polyOp_loop, polyOp_step]
      exact e2
    · simp only [polyOp_loop]
      exact hnew
    · simp only [polyOp_loop]
      exact hnew
    · simp only [polyOp_loop, polyOp_step, e4, hsig]
      rfl

theorem poly_init_scalar {K : Type} [Field K] (delta c z : K) (hd : delta ≠ 0) (hc : c ≠ 0) :
    1 + -delta / (-(c * delta)) / delta * ((z - c) * delta) = z / c ∧
      -delta / (-(c * delta)) = 1 / c := by
  constructor
  · field_simp
    ring
  · field_simp
    ring

/-- The output of `polyOp` on an eigenvector, in terms of `chebT`, with
`theta = -(c * delta)` and eigenvalue `(z - c) * delta`. -/
theorem polyOp_eigen {K V : Type} [Field K] [AddCommGroup V] [Module K V]
    (H : V → V) (hsmul : ∀ (a : K) (v : V), H (a • v) = a • H v) (x : V) (lam : K)
    (hx : H x = lam • x) (p : QudaArpackParam K) (c z : K)
    (hd : (p.amax - p.amin) / 2 ≠ 0)
    (hc : (p.amax + p.amin) / 2 = -(c * ((p.amax - p.amin) / 2)))
    (hz : lam = (z - c) * ((p.amax - p.amin) / 2))
    (hT : ∀ k, chebT k c ≠ 0)
    (d : Nat) (hd1 : 1 ≤ d) (hdeg : p.polyDeg = (d : ℤ)) :
    (polyOp H x p).out = (chebT d z / chebT d c) • x := by
  obtain ⟨j, rfl⟩ : ∃ j, d = j + 1 := ⟨d - 1, by omega⟩
  have hc0 : c ≠ 0 := hT 1
  have hy1 : blas_axpby 1 x (-((p.amax - p.amin) / 2) / (-(c * ((p.amax - p.amin) / 2)))
      / ((p.amax - p.amin) / 2)) (H x) = (z / c) • x := by
    simp only [blas_axpby, hx, hz, smul_smul, ← add_smul]
    congr 1
    exact (poly_init_scalar _ c z hd hc0).1
  have hs1 : -((p.amax - p.amin) / 2) / (-(c * ((p.amax - p.amin) / 2))) = 1 / c :=
    (poly_init_scalar _ c z hd hc0).2
  have hinv := polyOp_loop_eigen H hsmul x ((p.amax - p.amin) / 2) c z (hz ▸ hx) hd hT
    { out := blas_axpby 1 x (-((p.amax - p.amin) / 2) / (-(c * ((p.amax - p.amin) / 2)))
        / ((p.amax - p.amin) / 2)) (H x),
      tm1 := x,
      tm2 := blas_axpby 1 x (-((p.amax - p.amin) / 2) / (-(c * ((p.amax - p.amin) / 2)))
        / ((p.amax - p.amin) / 2)) (H x),
      sigma_old := -((p.amax - p.amin) / 2) / (-(c * ((p.amax - p.amin) / 2))) }
    rfl hy1 rfl hs1
  unfold polyOp
  simp only [hdeg, hc]
  by_cases hj : j = 0
  · subst hj
    simp only [Nat.zero_add, Nat.cast_one, if_true]
    rw [hy1]
    simp [chebT]
  · have hne : ((j + 1 : ℕ) : ℤ) ≠ 1 := by
      intro h; apply hj; omega
    rw [if_neg hne]
    have hcnt : (((j + 1 : ℕ) : ℤ) - 1).toNat = j := by omega
    simp only [hcnt]
    exact (hinv j).2.2.1

/-- For `amax > amin > 0` the accelerator constants are well defined:
`delta > 0`, `theta > 0` and `c = -theta/delta < -1`. -/
theorem poly_constants {K : Type} [LinearOrderedField K] (amin amax : K) (hmin : 0 < amin)
    (hmax : amin < amax) :
    0 < (amax - amin) / 2 ∧ 0 < (amax + amin) / 2 ∧
      -((amax + amin) / 2) / ((amax - amin) / 2) < -1 := by
  have hd : 0 < (amax - amin) / 2 := by linarith
  have ht : 0 < (amax + amin) / 2 := by linarith
  refine ⟨hd, ht, ?_⟩
  rw [div_lt_iff₀ hd]
  linarith

/-- The output of `polyOp` on an eigenvector for `amax > amin > 0`, in terms of
`chebT` at `z = (lam - theta)/delta` and `c = -theta/delta`. -/
theorem polyOp_eigen_ordered {K V : Type} [LinearOrderedField K] [AddCommGroup V] [Module K V]
    (H : V → V) (hsmul : ∀ (a : K) (v : V), H (a • v) = a • H v) (x : V) (lam : K)
    (hx : H x = lam • x) (p : QudaArpackParam K) (hmin : 0 < p.amin) (hmax : p.amin < p.amax)
    (d : Nat) (hd : 1 ≤ d) (hdeg : p.polyDeg = (d : ℤ)) :
    (polyOp H x p).out =
      (chebT d ((lam - (p.amax + p.amin) / 2) / ((p.amax - p.amin) / 2))
        / chebT d (-((p.amax + p.amin) / 2) / ((p.amax - p.amin) / 2))) • x := by
  obtain ⟨hdl, _, hc1⟩ := poly_constants p.amin p.amax hmin hmax
  have hd0 : (p.amax - p.amin) / 2 ≠ 0 := ne_of_gt hdl
  apply polyOp_eigen H hsmul x lam hx p _ _ hd0 _ _
    (fun k => chebT_ne_zero_of_lt _ (le_of_lt hc1) k) d hd hdeg
  · rw [div_mul_cancel₀ _ hd0]; ring
  · rw [← sub_div, div_mul_cancel₀ _ hd0]; ring

/-! ## Claims on the Chebyshev accelerator -/

theorem diagH_smul (a : ℚ) (v : ℚ × ℚ) : diagH (a • v) = a • diagH v := by
  simp only [diagH, Prod.smul_fst, Prod.smul_snd, smul_eq_mul, Prod.smul_mk]
  refine Prod.ext ?_ ?_ <;> ring

/-- C5 (Chebyshev closed form): for `amax > amin > 0`, degree `d ≥ 1` and an
eigenvector `x` of the linear operator `H` with eigenvalue `lam`, `polyOp`
returns `T_d((lam - theta)/delta) / T_d(-theta/delta)` times `x`, with `T_d`
the Chebyshev polynomial of the first kind; the denominator is not zero and
the factor is `1` at `lam = 0`. -/
theorem polyOp_closed_form {K V : Type} [LinearOrderedField K] [AddCommGroup V] [Module K V]
    (H : V → V) (hsmul : ∀ (a : K) (v : V), H (a • v) = a • H v) (x : V) (lam : K)
    (hx : H x = lam • x) (p : QudaArpackParam K) (hmin : 0 < p.amin) (hmax : p.amin < p.amax)
    (d : Nat) (hd : 1 ≤ d) (hdeg : p.polyDeg = (d : ℤ)) :
    (Polynomial.Chebyshev.T K (d : ℤ)).eval
        (-((p.amax + p.amin) / 2) / ((p.amax - p.amin) / 2)) ≠ 0 ∧
    (polyOp H x p).out =
      ((Polynomial.Chebyshev.T K (d : ℤ)).eval
          ((lam - (p.amax + p.amin) / 2) / ((p.amax - p.amin) / 2))
        / (Polynomial.Chebyshev.T K (d : ℤ)).eval
          (-((p.amax + p.amin) / 2) / ((p.amax - p.amin) / 2))) • x ∧
    (Polynomial.Chebyshev.T K (d : ℤ)).eval
          ((0 - (p.amax + p.amin) / 2) / ((p.amax - p.amin) / 2))
        / (Polynomial.Chebyshev.T K (d : ℤ)).eval
          (-((p.amax + p.amin) / 2) / ((p.amax - p.amin) / 2)) = 1 := by
  obtain ⟨_, _, hc1⟩ := poly_constants p.amin p.amax hmin hmax
  have hne := chebT_ne_zero_of_lt _ (le_of_lt hc1) d
  rw [(chebT_eq_eval _ d).1] at hne
  refine ⟨hne, ?_, ?_⟩
  · rw [polyOp_eigen_ordered H hsmul x lam hx p hmin hmax d hd hdeg, (chebT_eq_eval _ d).1,
      (chebT_eq_eval _ d).1]
  · rw [zero_sub]
    exact div_self hne

theorem polyOp_closed_form_witness :
    (Polynomial.Chebyshev.T ℚ ((3 : ℕ) : ℤ)).eval
        (-(((demoParam 3).amax + (demoParam 3).amin) / 2)
          / (((demoParam 3).amax - (demoParam 3).amin) / 2)) ≠ 0 ∧
    (polyOp diagH (0, 1) (demoParam 3)).out =
      ((Polynomial.Chebyshev.T ℚ ((3 : ℕ) : ℤ)).eval
          ((4 - ((demoParam 3).amax + (demoParam 3).amin) / 2)
            / (((demoParam 3).amax - (demoParam 3).amin) / 2))
        / (Polynomial.Chebyshev.T ℚ ((3 : ℕ) : ℤ)).eval
          (-(((demoParam 3).amax + (demoParam 3).amin) / 2)
            / (((demoParam 3).amax - (demoParam 3).amin) / 2))) • ((0, 1) : ℚ × ℚ) ∧
    (Polynomial.Chebyshev.T ℚ ((3 : ℕ) : ℤ)).eval
          ((0 - ((demoParam 3).amax + (demoParam 3).amin) / 2)
            / (((demoParam 3).amax - (demoParam 3).amin) / 2))
        / (Polynomial.Chebyshev.T ℚ ((3 : ℕ) : ℤ)).eval
          (-(((demoParam 3).amax + (demoParam 3).amin) / 2)
            / (((demoParam 3).amax - (demoParam 3).amin) / 2)) = 1 :=
  polyOp_closed_form diagH diagH_smul (0, 1) 4 (by simp [diagH]) (demoParam 3)
    (by norm_num [demoParam]) (by norm_num [demoParam]) 3 (by decide) rfl

/-! ### Refinement of the specified recurrence -/

theorem polyOp_loop_spec {K V : Type} [Field K] [AddCommGroup V] [Module K V]
    (H : V → V) (delta theta : K) (x : V) (n : Nat) :
    (polyOp_loop H delta theta (-delta / theta)
        { out := blas_axpby 1 x (-delta / theta / delta) (H x), tm1 := x,
          tm2 := blas_axpby 1 x (-delta / theta / delta) (H x),
          sigma_old := -delta / theta } n).tm1 = specY H delta theta x n ∧
    (polyOp_loop H delta theta (-delta / theta)
        { out := blas_axpby 1 x (-delta / theta / delta) (H x), tm1 := x,
          tm2 := blas_axpby 1 x (-delta / theta / delta) (H x),
          sigma_old := -delta / theta } n).tm2 = specY H delta theta x (n + 1) ∧
    (polyOp_loop H delta theta (-delta / theta)
        { out := blas_axpby 1 x (-delta / theta / delta) (H x), tm1 := x,
          tm2 := blas_axpby 1 x (-delta / theta / delta) (H x),
          sigma_old := -delta / theta } n).out = specY H delta theta x (n + 1) ∧
    (polyOp_loop H delta theta (-delta / theta)
        { out := blas_axpby 1 x (-delta / theta / delta) (H x), tm1 := x,
          tm2 := blas_axpby 1 x (-delta / theta / delta) (H x),
          sigma_old := -delta / theta } n).sigma_old = specSigma delta theta n := by
  have hy1 : blas_axpby 1 x (-delta / theta / delta) (H x) = specY H delta theta x 1 := by
    simp only [blas_axpby, specY, one_smul]
    exact add_comm _ _
  induction n with
  | zero => exact ⟨rfl, hy1, hy1, rfl⟩
  | succ n ih =>
    obtain ⟨e1, e2, _, e4⟩ := ih
    have hnew : (polyOp_step H delta theta (-delta / theta)
        (polyOp_loop H delta theta (-delta / theta)
          { out := blas_axpby 1 x (-delta / theta / delta) (H x), tm1 := x,
            tm2 := blas_axpby 1 x (-delta / theta / delta) (H x),
            sigma_old := -delta / theta } n)).out = specY H delta theta x (n + 2) := by
      simp only [polyOp_step, e1, e2, e4, blas_cxpaypbz, blas_ax, specY, specSigma]
      abel
    refine ⟨?_, ?_, ?_, ?_⟩
    · simp only [polyOp_loop, polyOp_step]; exact e2
    · simp only [polyOp_loop]; exact hnew
    · simp only [polyOp_loop]; exact hnew
    · simp only [polyOp_loop, polyOp_step, e4]; rfl

/-- C6 (Chebyshev recurrence): for `polyDeg = d ≥ 2`, `polyOp` returns `y_d` of
the recurrence `y_0 = in`, `y_1 = (sigma_1/delta) H y_0 + y_0`,
`y_k = d1 H y_{k-1} + d2 y_{k-1} + d3 y_{k-2}` with `sigma_k = 1/(2/sigma_1 - sigma_{k-1})`,
`d1 = 2 sigma_k/delta`, `d2 = -d1 theta`, `d3 = -sigma_k sigma_{k-1}`. -/
theorem polyOp_recurrence {K V : Type} [Field K] [AddCommGroup V] [Module K V]
    (H : V → V) (x : V) (p : QudaArpackParam K) (d : Nat) (hd : 2 ≤ d)
    (hdeg : p.polyDeg = (d : ℤ)) :
    (polyOp H x p).out = specY H ((p.amax - p.amin) / 2) ((p.amax + p.amin) / 2) x d := by
  obtain ⟨j, rfl⟩ : ∃ j, d = j + 2 := ⟨d - 2, by omega⟩
  unfold polyOp
  simp only [hdeg]
  have hne : ((j + 2 : ℕ) : ℤ) ≠ 1 := by omega
  rw [if_neg hne]
  have hcnt : (((j + 2 : ℕ) : ℤ) - 1).toNat = j + 1 := by omega
  simp only [hcnt]
  exact (polyOp_loop_spec H _ _ x (j + 1)).2.2.1

theorem polyOp_recurrence_witness :
    (polyOp diagH (1, 1) (demoParam 3)).out = (27 / 365, -27 / 365) ∧
    specY diagH (((demoParam 3).amax - (demoParam 3).amin) / 2)
        (((demoParam 3).amax + (demoParam 3).amin) / 2) (1, 1) 1 = (3 / 5, -3 / 5) ∧
    specY diagH (((demoParam 3).amax - (demoParam 3).amin) / 2)
        (((demoParam 3).amax + (demoParam 3).amin) / 2) (1, 1) 2 = (9 / 41, 9 / 41) ∧
    specY diagH (((demoParam 3).amax - (demoParam 3).amin) / 2)
        (((demoParam 3).amax + (demoParam 3).amin) / 2) (1, 1) 3 = (27 / 365, -27 / 365) := by
  have h3 : specY diagH (((demoParam 3).amax - (demoParam 3).amin) / 2)
      (((demoParam 3).amax + (demoParam 3).amin) / 2) (1, 1) 3 = (27 / 365, -27 / 365) := by
    refine Prod.ext ?_ ?_ <;>
      norm_num [specY, specSigma, demoParam, diagH]
  refine ⟨?_, ?_, ?_, h3⟩
  · rw [polyOp_recurrence diagH (1, 1) (demoParam 3) 3 (by decide) rfl]
    exact h3
  · refine Prod.ext ?_ ?_ <;> norm_num [specY, specSigma, demoParam, diagH]
  · refine Prod.ext ?_ ?_ <;> norm_num [specY, specSigma, demoParam, diagH]

/-- C7 (Chebyshev degree 1): for `polyDeg = 1` and `amax > amin > 0`, `polyOp`
returns `(sigma_1/delta) H in + in`, which equals `sigma_1 (H - theta) in / delta`;
no scratch vector is created and the input vector is unchanged. -/
theorem polyOp_degree_one {K V : Type} [LinearOrderedField K] [AddCommGroup V] [Module K V]
    (H : V → V) (x : V) (p : QudaArpackParam K) (hmin : 0 < p.amin) (hmax : p.amin < p.amax)
    (hdeg : p.polyDeg = 1) :
    (polyOp H x p).out =
      ((-((p.amax - p.amin) / 2) / ((p.amax + p.amin) / 2)) / ((p.amax - p.amin) / 2)) • H x
        + x ∧
    (polyOp H x p).out =
      ((-((p.amax - p.amin) / 2) / ((p.amax + p.amin) / 2)) / ((p.amax - p.amin) / 2)) •
        (H x - ((p.amax + p.amin) / 2) • x) ∧
    (polyOp H x p).scratch = 0 ∧ (polyOp H x p).inp = x := by
  obtain ⟨hdl, hth, _⟩ := poly_constants p.amin p.amax hmin hmax
  have hout : (polyOp H x p).out =
      ((-((p.amax - p.amin) / 2) / ((p.amax + p.amin) / 2)) / ((p.amax - p.amin) / 2)) • H x
        + x := by
    simp only [polyOp, hdeg, if_true, blas_axpby, one_smul]
    exact add_comm _ _
  refine ⟨hout, ?_, ?_, ?_⟩
  · rw [hout, smul_sub, smul_smul]
    have hs : -((p.amax - p.amin) / 2) / ((p.amax + p.amin) / 2) / ((p.amax - p.amin) / 2)
        * ((p.amax + p.amin) / 2) = -1 := by
      generalize (p.amax - p.amin) / 2 = delta at hdl ⊢
      generalize (p.amax + p.amin) / 2 = theta at hth ⊢
      have h1 : delta ≠ 0 := ne_of_gt hdl
      have h2 : theta ≠ 0 := ne_of_gt hth
      field_simp
      ring
    rw [hs, neg_one_smul, sub_neg_eq_add]
  · simp only [polyOp, hdeg, if_true]
  · simp only [polyOp, hdeg, if_true]

theorem polyOp_degree_one_witness :
    (polyOp diagH (1, 1) (demoParam 1)).out =
      ((-(((demoParam 1).amax - (demoParam 1).amin) / 2)
          / (((demoParam 1).amax + (demoParam 1).amin) / 2))
        / (((demoParam 1).amax - (demoParam 1).amin) / 2)) • diagH (1, 1) + (1, 1) ∧
    (polyOp diagH (1, 1) (demoParam 1)).out =
      ((-(((demoParam 1).amax - (demoParam 1).amin) / 2)
          / (((demoParam 1).amax + (demoParam 1).amin) / 2))
        / (((demoParam 1).amax - (demoParam 1).amin) / 2)) •
        (diagH (1, 1) - (((demoParam 1).amax + (demoParam 1).amin) / 2) • ((1, 1) : ℚ × ℚ)) ∧
    (polyOp diagH (1, 1) (demoParam 1)).scratch = 0 ∧
    (polyOp diagH (1, 1) (demoParam 1)).inp = (1, 1) :=
  polyOp_degree_one diagH (1, 1) (demoParam 1) (by norm_num [demoParam])
    (by norm_num [demoParam]) rfl

/-! ### The accelerator on the low end of the spectrum -/

/-- For `amax > amin > 0` and `lam ≤ amin` the scalar factor of `polyOp` is a
ratio of Chebyshev values at arguments `≥ 1`. -/
theorem polyFactor_eq {K : Type} [LinearOrderedField K] (p : QudaArpackParam K)
    (hmin : 0 < p.amin) (hmax : p.amin < p.amax) (d : Nat) (hd : 1 ≤ d)
    (hdeg : p.polyDeg = (d : ℤ)) (lam : K) :
    polyFactor p lam =
      chebT d (((p.amax + p.amin) / 2 - lam) / ((p.amax - p.amin) / 2))
        / chebT d (((p.amax + p.amin) / 2) / ((p.amax - p.amin) / 2)) := by
  unfold polyFactor
  rw [polyOp_eigen_ordered (fun v : K => lam * v)
    (fun a v => by simp only [smul_eq_mul]; ring) (1 : K) lam (by simp) p hmin hmax d hd hdeg]
  have e1 : (lam - (p.amax + p.amin) / 2) / ((p.amax - p.amin) / 2)
      = -(((p.amax + p.amin) / 2 - lam) / ((p.amax - p.amin) / 2)) := by
    rw [← neg_div, neg_sub]
  have e2 : -((p.amax + p.amin) / 2) / ((p.amax - p.amin) / 2)
      = -(((p.amax + p.amin) / 2) / ((p.amax - p.amin) / 2)) := neg_div _ _
  rw [e1, e2, (chebT_neg _ d).1, (chebT_neg _ d).1, smul_eq_mul, mul_one]
  have hne : ((-1 : K)) ^ d ≠ 0 := pow_ne_zero _ (by norm_num)
  rw [mul_div_mul_left _ _ hne]

/-- C8 (the accelerator reorders the low spectrum): with `P_d(lam)` the scalar
by which `polyOp` multiplies an eigenvector of eigenvalue `lam`, for
`amax > amin > 0`, `d ≥ 1` and `0 ≤ lam1 < lam2 ≤ amin`:
`P_d(lam1) > P_d(lam2) > 0`. -/
theorem polyOp_reorders_low_spectrum {K V : Type} [LinearOrderedField K] [AddCommGroup V]
    [Module K V] (H : V → V) (hsmul : ∀ (a : K) (v : V), H (a • v) = a • H v) (x : V)
    (lam : K) (hx : H x = lam • x) (p : QudaArpackParam K) (hmin : 0 < p.amin)
    (hmax : p.amin < p.amax) (d : Nat) (hd : 1 ≤ d) (hdeg : p.polyDeg = (d : ℤ))
    (lam1 lam2 : K) (_h0 : 0 ≤ lam1) (h12 : lam1 < lam2) (h2 : lam2 ≤ p.amin) :
    (polyOp H x p).out = polyFactor p lam • x ∧
      polyFactor p lam2 < polyFactor p lam1 ∧ 0 < polyFactor p lam2 := by
  obtain ⟨hdl, hth, _⟩ := poly_constants p.amin p.amax hmin hmax
  have hw : 1 ≤ ((p.amax + p.amin) / 2) / ((p.amax - p.amin) / 2) := by
    rw [le_div_iff₀ hdl]; linarith
  have hu2 : 1 ≤ ((p.amax + p.amin) / 2 - lam2) / ((p.amax - p.amin) / 2) := by
    rw [le_div_iff₀ hdl]; linarith
  have hu12 : ((p.amax + p.amin) / 2 - lam2) / ((p.amax - p.amin) / 2)
      < ((p.amax + p.amin) / 2 - lam1) / ((p.amax - p.amin) / 2) := by
    apply div_lt_div_of_pos_right _ hdl
    linarith
  have hden := chebT_pos _ hw d
  refine ⟨?_, ?_, ?_⟩
  · rw [polyOp_eigen_ordered H hsmul x lam hx p hmin hmax d hd hdeg]
    unfold polyFactor
    rw [polyOp_eigen_ordered (fun v : K => lam * v)
      (fun a v => by simp only [smul_eq_mul]; ring) (1 : K) lam (by simp) p hmin hmax d hd hdeg]
    simp
  · rw [polyFactor_eq p hmin hmax d hd hdeg, polyFactor_eq p hmin hmax d hd hdeg]
    exact div_lt_div_of_pos_right (chebT_strictMono _ _ hu2 hu12 d hd) hden
  · rw [polyFactor_eq p hmin hmax d hd hdeg]
    exact div_pos (chebT_pos _ hu2 d) hden

theorem polyOp_reorders_low_spectrum_witness :
    (polyOp diagH (0, 1) (demoParam 3)).out = polyFactor (demoParam 3) 4 • ((0, 1) : ℚ × ℚ) ∧
      polyFactor (demoParam 3) 1 < polyFactor (demoParam 3) (1 / 2) ∧
      0 < polyFactor (demoParam 3) 1 :=
  polyOp_reorders_low_spectrum diagH diagH_smul (0, 1) 4 (by simp [diagH]) (demoParam 3)
    (by norm_num [demoParam]) (by norm_num [demoParam]) 3 (by decide) rfl (1 / 2) 1
    (by norm_num) (by norm_num) (by norm_num [demoParam])

/-! ## Claims on the ARPACK drivers -/

open QudaArpackSpectrumType in
/-- C9 (spectrum selector table): without polynomial acceleration the selector
string is the requested tag itself, with polynomial acceleration it is the
opposite end; the map with acceleration is an involution on the six tags
(if the accelerated selector of `s` names `t`, the accelerated selector of `t`
names `s`), and the single- and double-precision drivers compute the same
selector for every input. -/
theorem spectrum_selector_table :
    (spectrum_float false QUDA_SR_SPECTRUM = "SR" ∧ spectrum_float false QUDA_LR_SPECTRUM = "LR" ∧
      spectrum_float false QUDA_SM_SPECTRUM = "SM" ∧ spectrum_float false QUDA_LM_SPECTRUM = "LM" ∧
      spectrum_float false QUDA_SI_SPECTRUM = "SI" ∧ spectrum_float false QUDA_LI_SPECTRUM = "LI") ∧
    (spectrum_float true QUDA_SR_SPECTRUM = "LR" ∧ spectrum_float true QUDA_LR_SPECTRUM = "SR" ∧
      spectrum_float true QUDA_SM_SPECTRUM = "LM" ∧ spectrum_float true QUDA_LM_SPECTRUM = "SM" ∧
      spectrum_float true QUDA_SI_SPECTRUM = "LI" ∧ spectrum_float true QUDA_LI_SPECTRUM = "SI") ∧
    (∀ s t : QudaArpackSpectrumType, s.isTag = true → t.isTag = true →
      spectrum_float true s = spectrum_float false t →
      spectrum_float true t = spectrum_float false s) ∧
    (∀ (usePolyAcc : Bool) (s : QudaArpackSpectrumType),
      spectrum_double usePolyAcc s = spectrum_float usePolyAcc s) := by
  refine ⟨⟨rfl, rfl, rfl, rfl, rfl, rfl⟩, ⟨rfl, rfl, rfl, rfl, rfl, rfl⟩, ?_, ?_⟩
  · intro s t hs ht h
    cases s <;> cases t <;> first
      | rfl
      | exact Bool.noConfusion hs
      | exact Bool.noConfusion ht
      | exact absurd h (by decide)
  · intro b s
    rfl

theorem spectrum_selector_table_witness :
    spectrum_float true QudaArpackSpectrumType.QUDA_LR_SPECTRUM
      = spectrum_float false QudaArpackSpectrumType.QUDA_SR_SPECTRUM :=
  spectrum_selector_table.2.2.1 QudaArpackSpectrumType.QUDA_SR_SPECTRUM
    QudaArpackSpectrumType.QUDA_LR_SPECTRUM rfl rfl rfl

theorem readVec_writeVec {C : Type} (n : Nat) (workd : Int → C) (off : Int) (v : Fin n → C) :
    readVec n (writeVec n workd off v) off = v := by
  funext i
  have hi := i.isLt
  simp only [readVec, writeVec]
  rw [dif_pos (by omega)]
  congr 1
  apply Fin.ext
  simp

theorem arpack_allocate_spec {C L : Type} {n : Nat} [AddCommGroup C] (arp : ArpackState C L)
    (st : DriverState C L n) :
    (arpack_allocate arp st).arp = arp ∧ (arpack_allocate arp st).calls = st.calls ∧
      (arpack_allocate arp st).iter_cnt = st.iter_cnt ∧
      (arpack_allocate arp st).allocate = false ∧
      (arpack_allocate arp st).h_v = (if st.allocate then arp.ipntr 0 - 1 else st.h_v) ∧
      (arpack_allocate arp st).h_v2 = (if st.allocate then arp.ipntr 1 - 1 else st.h_v2) := by
  unfold arpack_allocate
  cases h : st.allocate <;> simp [h]

theorem arpack_apply_spec {K C L : Type} {n : Nat} [Field K] [AddCommGroup C] [Module K C]
    (MdagM : (Fin n → C) → (Fin n → C)) (arpack_param : QudaArpackParam K)
    (st : DriverState C L n) :
    (arpack_apply MdagM arpack_param st).calls = st.calls ++
        [if arpack_param.usePolyAcc then OpCall.polyOp (readVec n st.arp.workd st.h_v)
          else OpCall.MdagM (readVec n st.arp.workd st.h_v)] ∧
      (arpack_apply MdagM arpack_param st).arp.workd = writeVec n st.arp.workd st.h_v2
        (if arpack_param.usePolyAcc then
          (polyOp MdagM (readVec n st.arp.workd st.h_v) arpack_param).out
        else MdagM (readVec n st.arp.workd st.h_v)) ∧
      (arpack_apply MdagM arpack_param st).iter_cnt = st.iter_cnt ∧
      (arpack_apply MdagM arpack_param st).h_v = st.h_v ∧
      (arpack_apply MdagM arpack_param st).h_v2 = st.h_v2 ∧
      (arpack_apply MdagM arpack_param st).allocate = st.allocate ∧
      (arpack_apply MdagM arpack_param st).arp.ido = st.arp.ido ∧
      (arpack_apply MdagM arpack_param st).arp.info = st.arp.info := by
  unfold arpack_apply
  cases h : arpack_param.usePolyAcc <;> simp [h]

/-- C10 (driver dispatch on `ido`): in a pass of the driver loop in which the
library step returns `info = 0`: if `ido` is `-1` or `1` the operator is applied
exactly once (`polyOp` when `usePolyAcc` is set, the bare `MdagM` otherwise) to
the vector the input field aliases, and its result is copied to the vector the
output field aliases; if `ido` is `99` the loop ends without an application;
for any other `ido` no operator is applied and the work array is not written. -/
theorem driver_dispatch {K C L : Type} {n : Nat} [Field K] [AddCommGroup C] [Module K C]
    (naupd : ArpackState C L → ArpackState C L) (MdagM : (Fin n → C) → (Fin n → C))
    (arpack_param : QudaArpackParam K) (st : DriverState C L n)
    (hinfo : (naupd st.arp).info = 0) :
    ((naupd st.arp).ido = -1 ∨ (naupd st.arp).ido = 1 →
      ∃ st1, arpack_pass naupd MdagM arpack_param st = PassResult.next st1 ∧
        st1.calls = st.calls ++
          [if arpack_param.usePolyAcc then
            OpCall.polyOp (readVec n (naupd st.arp).workd
              (if st.allocate then (naupd st.arp).ipntr 0 - 1 else st.h_v))
          else
            OpCall.MdagM (readVec n (naupd st.arp).workd
              (if st.allocate then (naupd st.arp).ipntr 0 - 1 else st.h_v))] ∧
        st1.arp.workd = writeVec n (naupd st.arp).workd
          (if st.allocate then (naupd st.arp).ipntr 1 - 1 else st.h_v2)
          (if arpack_param.usePolyAcc then
            (polyOp MdagM (readVec n (naupd st.arp).workd
              (if st.allocate then (naupd st.arp).ipntr 0 - 1 else st.h_v)) arpack_param).out
          else
            MdagM (readVec n (naupd st.arp).workd
              (if st.allocate then (naupd st.arp).ipntr 0 - 1 else st.h_v))) ∧
        readVec n st1.arp.workd (if st.allocate then (naupd st.arp).ipntr 1 - 1 else st.h_v2)
          = (if arpack_param.usePolyAcc then
            (polyOp MdagM (readVec n (naupd st.arp).workd
              (if st.allocate then (naupd st.arp).ipntr 0 - 1 else st.h_v)) arpack_param).out
          else
            MdagM (readVec n (naupd st.arp).workd
              (if st.allocate then (naupd st.arp).ipntr 0 - 1 else st.h_v)))) ∧
    ((naupd st.arp).ido = 99 →
      ∃ st1, arpack_pass naupd MdagM arpack_param st = PassResult.brk st1 ∧
        st1.calls = st.calls ∧ st1.arp.workd = (naupd st.arp).workd ∧
        ∀ fuel, arpack_loop naupd MdagM arpack_param (fuel + 1) st = LoopResult.finished st1) ∧
    ((naupd st.arp).ido ≠ -1 → (naupd st.arp).ido ≠ 1 → (naupd st.arp).ido ≠ 99 →
      ∃ st1, arpack_pass naupd MdagM arpack_param st = PassResult.next st1 ∧
        st1.calls = st.calls ∧ st1.arp.workd = (naupd st.arp).workd) := by
  have hnf : ¬ (naupd st.arp).info ≠ 0 := not_not.mpr hinfo
  obtain ⟨ha1, ha2, _, _, ha5, ha6⟩ := arpack_allocate_spec (n := n) (naupd st.arp) st
  refine ⟨?_, ?_, ?_⟩
  · intro hido
    have h99 : ¬ ((naupd st.arp).ido = 99 ∨ (naupd st.arp).info = 1) := by
      rw [hinfo]; omega
    obtain ⟨hb1, hb2, _⟩ := arpack_apply_spec MdagM arpack_param
      (arpack_allocate (naupd st.arp) st)
    rw [ha1, ha5] at hb1
    rw [ha1, ha5, ha6] at hb2
    refine ⟨_, by unfold arpack_pass; rw [if_neg hnf, if_neg h99, if_pos hido], ?_, ?_, ?_⟩
    · rw [← ha2]; exact hb1
    · exact hb2
    · show readVec n (arpack_apply MdagM arpack_param
        (arpack_allocate (naupd st.arp) st)).arp.workd _ = _
      rw [hb2]
      exact readVec_writeVec _ _ _ _
  · intro hido
    have h99 : (naupd st.arp).ido = 99 ∨ (naupd st.arp).info = 1 := Or.inl hido
    have hpass : arpack_pass naupd MdagM arpack_param st
        = PassResult.brk (arpack_allocate (naupd st.arp) st) := by
      unfold arpack_pass; rw [if_neg hnf, if_pos h99]
    refine ⟨_, hpass, ha2, by rw [ha1], ?_⟩
    intro fuel
    simp only [arpack_loop, hpass]
  · intro h1 h2 h3
    have h99 : ¬ ((naupd st.arp).ido = 99 ∨ (naupd st.arp).info = 1) := by
      rw [hinfo]; omega
    have hido : ¬ ((naupd st.arp).ido = -1 ∨ (naupd st.arp).ido = 1) := by omega
    refine ⟨_, by unfold arpack_pass; rw [if_neg hnf, if_neg h99, if_neg hido], ?_, ?_⟩
    · exact ha2
    · show (arpack_allocate (naupd st.arp) st).arp.workd = _
      rw [ha1]

theorem driver_dispatch_witness :
    (demoNaupd demoDriver.arp).info = 0 ∧
    ∃ st1, arpack_pass demoNaupd diagH2 (demoParam 3) demoDriver = PassResult.next st1 ∧
      st1.calls = demoDriver.calls ++
        [if (demoParam 3).usePolyAcc then
          OpCall.polyOp (readVec 2 (demoNaupd demoDriver.arp).workd
            (if demoDriver.allocate then (demoNaupd demoDriver.arp).ipntr 0 - 1
              else demoDriver.h_v))
        else
          OpCall.MdagM (readVec 2 (demoNaupd demoDriver.arp).workd
            (if demoDriver.allocate then (demoNaupd demoDriver.arp).ipntr 0 - 1
              else demoDriver.h_v))] ∧
      readVec 2 st1.arp.workd
          (if demoDriver.allocate then (demoNaupd demoDriver.arp).ipntr 1 - 1
            else demoDriver.h_v2)
        = (if (demoParam 3).usePolyAcc then
          (polyOp diagH2 (readVec 2 (demoNaupd demoDriver.arp).workd
            (if demoDriver.allocate then (demoNaupd demoDriver.arp).ipntr 0 - 1
              else demoDriver.h_v)) (demoParam 3)).out
        else
          diagH2 (readVec 2 (demoNaupd demoDriver.arp).workd
            (if demoDriver.allocate then (demoNaupd demoDriver.arp).ipntr 0 - 1
              else demoDriver.h_v))) := by
  refine ⟨rfl, ?_⟩
  obtain ⟨st1, h1, h2, _, h4⟩ :=
    (driver_dispatch demoNaupd diagH2 (demoParam 3) demoDriver rfl).1 (Or.inr rfl)
  exact ⟨st1, h1, h2, h4⟩

/-! ## The driver loop: termination and the iteration cap -/

/-- A pass in which the library step returns `info = 0` either breaks on
`ido = 99` or runs to the end of the body with `iter_cnt` increased by one and
`ido` as the library returned it. -/
theorem arpack_pass_info_zero {K C L : Type} {n : Nat} [Field K] [AddCommGroup C]
    [Module K C] (naupd : ArpackState C L → ArpackState C L)
    (MdagM : (Fin n → C) → (Fin n → C)) (arpack_param : QudaArpackParam K)
    (st : DriverState C L n) (hinfo : (naupd st.arp).info = 0) :
    ((naupd st.arp).ido = 99 ∧
      ∃ st1, arpack_pass naupd MdagM arpack_param st = PassResult.brk st1) ∨
    ((naupd st.arp).ido ≠ 99 ∧
      ∃ st1, arpack_pass naupd MdagM arpack_param st = PassResult.next st1 ∧
        st1.iter_cnt = st.iter_cnt + 1 ∧ st1.arp.ido = (naupd st.arp).ido) := by
  have hnf : ¬ (naupd st.arp).info ≠ 0 := not_not.mpr hinfo
  obtain ⟨ha1, _, ha3, _⟩ := arpack_allocate_spec (n := n) (naupd st.arp) st
  by_cases h99 : (naupd st.arp).ido = 99
  · left
    refine ⟨h99, arpack_allocate (naupd st.arp) st, ?_⟩
    unfold arpack_pass
    rw [if_neg hnf, if_pos (Or.inl h99)]
  · right
    have h99b : ¬ ((naupd st.arp).ido = 99 ∨ (naupd st.arp).info = 1) := by
      rw [hinfo]; omega
    refine ⟨h99, ?_⟩
    by_cases hido : (naupd st.arp).ido = -1 ∨ (naupd st.arp).ido = 1
    · obtain ⟨_, _, hb3, _, _, _, hb7, _⟩ := arpack_apply_spec MdagM arpack_param
        (arpack_allocate (naupd st.arp) st)
      refine ⟨_, by unfold arpack_pass; rw [if_neg hnf, if_neg h99b, if_pos hido], ?_, ?_⟩
      · show (arpack_apply MdagM arpack_param (arpack_allocate (naupd st.arp) st)).iter_cnt + 1
          = _
        rw [hb3, ha3]
      · show (arpack_apply MdagM arpack_param (arpack_allocate (naupd st.arp) st)).arp.ido = _
        rw [hb7, ha1]
    · refine ⟨_, by unfold arpack_pass; rw [if_neg hnf, if_neg h99b, if_neg hido], ?_, ?_⟩
      · show (arpack_allocate (naupd st.arp) st).iter_cnt + 1 = _
        rw [ha3]
      · show (arpack_allocate (naupd st.arp) st).arp.ido = _
        rw [ha1]

/-- The loop with `info = 0` throughout, started with `iter_cnt = c` and enough
fuel: it finishes, makes between one and `max(1, max_iter - c)` calls of the
library step, no call but the last returns `ido = 99`, and when the last call
does not return `ido = 99` the number of calls is `max(1, max_iter - c)`. -/
theorem arpack_loop_cap {K C L : Type} {n : Nat} [Field K] [AddCommGroup C] [Module K C]
    (naupd : ArpackState C L → ArpackState C L) (MdagM : (Fin n → C) → (Fin n → C))
    (arpack_param : QudaArpackParam K) (hinfo : ∀ a, (naupd a).info = 0) (fuel : Nat) :
    ∀ st : DriverState C L n,
      (arpack_param.arpackMaxiter - st.iter_cnt).toNat ≤ fuel → 1 ≤ fuel →
      (∃ st1, arpack_loop naupd MdagM arpack_param fuel st = LoopResult.finished st1) ∧
      1 ≤ (arpack_loop_trace naupd MdagM arpack_param fuel st).length ∧
      (arpack_loop_trace naupd MdagM arpack_param fuel st).length
        ≤ max 1 (arpack_param.arpackMaxiter - st.iter_cnt).toNat ∧
      (∀ i a, i + 1 < (arpack_loop_trace naupd MdagM arpack_param fuel st).length →
        (arpack_loop_trace naupd MdagM arpack_param fuel st)[i]? = some a → a.ido ≠ 99) ∧
      (∀ a, (arpack_loop_trace naupd MdagM arpack_param fuel st).getLast? = some a →
        a.ido ≠ 99 →
        (arpack_loop_trace naupd MdagM arpack_param fuel st).length
          = max 1 (arpack_param.arpackMaxiter - st.iter_cnt).toNat) := by
  induction fuel with
  | zero => intro st _ h; omega
  | succ fuel ih =>
    intro st hfuel _
    rcases arpack_pass_info_zero naupd MdagM arpack_param st (hinfo st.arp) with
      ⟨h99, st1, hpass⟩ | ⟨h99, st1, hpass, hcnt, hido⟩
    · -- the library reports convergence: break
      simp only [arpack_loop, arpack_loop_trace, hpass]
      refine ⟨⟨st1, rfl⟩, by simp, by simp, ?_, ?_⟩
      · intro i a hi; simp at hi
      · intro a ha hne
        simp at ha
        rw [← ha] at hne
        exact absurd h99 hne
    · by_cases hcond : 99 ≠ st1.arp.ido ∧ st1.iter_cnt < arpack_param.arpackMaxiter
      · -- another pass follows
        have hlt : st.iter_cnt + 1 < arpack_param.arpackMaxiter := by
          rw [← hcnt]; exact hcond.2
        obtain ⟨hfin, hlen1, hlen2, hmid, hlast⟩ := ih st1 (by rw [hcnt]; omega) (by omega)
        simp only [arpack_loop, arpack_loop_trace, hpass, if_pos hcond]
        refine ⟨hfin, by simp, ?_, ?_, ?_⟩
        · simp only [List.length_cons]
          rw [hcnt] at hlen2
          omega
        · intro i a hi hget
          cases i with
          | zero =>
            simp at hget
            rw [← hget]; exact h99
          | succ j =>
            simp only [List.length_cons] at hi
            simp only [List.getElem?_cons_succ] at hget
            exact hmid j a (by omega) hget
        · intro a ha hne
          obtain ⟨b, l, hbl⟩ : ∃ b l, arpack_loop_trace naupd MdagM arpack_param fuel st1
              = b :: l := by
            cases htr : arpack_loop_trace naupd MdagM arpack_param fuel st1 with
            | nil => rw [htr] at hlen1; simp at hlen1
            | cons b l => exact ⟨b, l, rfl⟩
          rw [hbl, List.getLast?_cons_cons] at ha
          rw [← hbl] at ha
          have := hlast a ha hne
          simp only [List.length_cons]
          rw [hcnt] at this
          omega
      · -- the loop condition fails: this was the last pass
        have hge : arpack_param.arpackMaxiter ≤ st.iter_cnt + 1 := by
          rw [← hcnt]
          by_contra hc
          apply hcond
          refine ⟨?_, by omega⟩
          rw [hido]; exact fun h => h99 h.symm
        simp only [arpack_loop, arpack_loop_trace, hpass, if_neg hcond]
        refine ⟨⟨st1, rfl⟩, by simp, by simp, ?_, ?_⟩
        · intro i a hi; simp at hi
        · intro a _ _
          simp only [List.length_cons, List.length_nil]
          omega

/-- C15 (iteration cap): when every library step returns `info = 0` and the loop
starts with `iter_cnt = 0`: for `max_iter ≥ 1` the loop finishes after at least
one and at most `max_iter` calls of the library step, no call but the last
returns `ido = 99`, and when it stops before the cap the last call returned
`ido = 99`; for `max_iter ≤ 0` the step is called exactly once. -/
theorem iteration_cap {K C L : Type} {n : Nat} [Field K] [AddCommGroup C] [Module K C]
    (naupd : ArpackState C L → ArpackState C L) (MdagM : (Fin n → C) → (Fin n → C))
    (arpack_param : QudaArpackParam K) (hinfo : ∀ a, (naupd a).info = 0)
    (st0 : DriverState C L n) (h0 : st0.iter_cnt = 0) :
    (1 ≤ arpack_param.arpackMaxiter → ∀ fuel, arpack_param.arpackMaxiter.toNat ≤ fuel →
      (∃ st1, arpack_loop naupd MdagM arpack_param fuel st0 = LoopResult.finished st1) ∧
      1 ≤ (arpack_loop_trace naupd MdagM arpack_param fuel st0).length ∧
      (arpack_loop_trace naupd MdagM arpack_param fuel st0).length
        ≤ arpack_param.arpackMaxiter.toNat ∧
      (∀ i a, i + 1 < (arpack_loop_trace naupd MdagM arpack_param fuel st0).length →
        (arpack_loop_trace naupd MdagM arpack_param fuel st0)[i]? = some a → a.ido ≠ 99) ∧
      (∀ a, (arpack_loop_trace naupd MdagM arpack_param fuel st0).getLast? = some a →
        (arpack_loop_trace naupd MdagM arpack_param fuel st0).length
          < arpack_param.arpackMaxiter.toNat → a.ido = 99)) ∧
    (arpack_param.arpackMaxiter ≤ 0 → ∀ fuel, 1 ≤ fuel →
      (∃ st1, arpack_loop naupd MdagM arpack_param fuel st0 = LoopResult.finished st1) ∧
      (arpack_loop_trace naupd MdagM arpack_param fuel st0).length = 1) := by
  constructor
  · intro hm fuel hfuel
    have hmax : max 1 (arpack_param.arpackMaxiter - st0.iter_cnt).toNat
        = arpack_param.arpackMaxiter.toNat := by
      rw [h0, sub_zero]; omega
    obtain ⟨hfin, hlen1, hlen2, hmid, hlast⟩ :=
      arpack_loop_cap naupd MdagM arpack_param hinfo fuel st0
        (by rw [h0, sub_zero]; exact hfuel) (by omega)
    rw [hmax] at hlen2 hlast
    refine ⟨hfin, hlen1, hlen2, hmid, ?_⟩
    intro a ha hlt
    by_contra hne
    have := hlast a ha hne
    omega
  · intro hm fuel hfuel
    have hmax : max 1 (arpack_param.arpackMaxiter - st0.iter_cnt).toNat = 1 := by
      rw [h0, sub_zero]; omega
    obtain ⟨hfin, hlen1, hlen2, _, _⟩ :=
      arpack_loop_cap naupd MdagM arpack_param hinfo fuel st0
        (by rw [h0, sub_zero]; omega) hfuel
    rw [hmax] at hlen2
    exact ⟨hfin, by omega⟩

theorem iteration_cap_witness :
    (∃ st1, arpack_loop demoNaupd diagH2 (demoParam 3) 10 demoDriver
      = LoopResult.finished st1) ∧
    (arpack_loop_trace demoNaupd diagH2 (demoParam 3) 10 demoDriver).length ≤ 10 :=
  ⟨((iteration_cap demoNaupd diagH2 (demoParam 3) (fun _ => rfl) demoDriver rfl).1
      (by decide) 10 (by decide)).1,
   ((iteration_cap demoNaupd diagH2 (demoParam 3) (fun _ => rfl) demoDriver rfl).1
      (by decide) 10 (by decide)).2.2.1⟩

/-! ## Which buffers the driver hands to the operator -/

/-- A pass that runs to the end of the loop body leaves `allocate` cleared and
the host fields on the offsets fixed by `arpack_allocate`. -/
theorem arpack_pass_next_fields {K C L : Type} {n : Nat} [Field K] [AddCommGroup C]
    [Module K C] (naupd : ArpackState C L → ArpackState C L)
    (MdagM : (Fin n → C) → (Fin n → C)) (arpack_param : QudaArpackParam K)
    (st st1 : DriverState C L n)
    (h : arpack_pass naupd MdagM arpack_param st = PassResult.next st1) :
    st1.allocate = false ∧
      st1.h_v = (if st.allocate then (naupd st.arp).ipntr 0 - 1 else st.h_v) ∧
      st1.h_v2 = (if st.allocate then (naupd st.arp).ipntr 1 - 1 else st.h_v2) := by
  obtain ⟨_, _, _, ha4, ha5, ha6⟩ := arpack_allocate_spec (n := n) (naupd st.arp) st
  obtain ⟨_, _, _, hb4, hb5, hb6, _, _⟩ := arpack_apply_spec MdagM arpack_param
    (arpack_allocate (naupd st.arp) st)
  unfold arpack_pass at h
  split at h
  · exact PassResult.noConfusion h
  · split at h
    · exact PassResult.noConfusion h
    · split at h
      · have e := PassResult.next.inj h
        rw [← e]
        exact ⟨hb6.trans ha4, hb4.trans ha5, hb5.trans ha6⟩
      · have e := PassResult.next.inj h
        rw [← e]
        exact ⟨ha4, ha5, ha6⟩

/-- After at least one complete pass the host fields sit on the offsets that
the first library step of the run returned, whatever later steps return. -/
theorem arpack_passes_fields {K C L : Type} {n : Nat} [Field K] [AddCommGroup C]
    [Module K C] (naupd : ArpackState C L → ArpackState C L)
    (MdagM : (Fin n → C) → (Fin n → C)) (arpack_param : QudaArpackParam K)
    (st0 : DriverState C L n) (hal : st0.allocate = true) (k : Nat) :
    ∀ st, arpack_passes naupd MdagM arpack_param st0 (k + 1) = some st →
      st.allocate = false ∧ st.h_v = (naupd st0.arp).ipntr 0 - 1 ∧
        st.h_v2 = (naupd st0.arp).ipntr 1 - 1 := by
  induction k with
  | zero =>
    intro st h
    simp only [arpack_passes] at h
    cases hp : arpack_pass naupd MdagM arpack_param st0 with
    | fatal msg s => rw [hp] at h; simp at h
    | brk s => rw [hp] at h; simp at h
    | next s =>
      rw [hp] at h
      have e : s = st := Option.some.inj h
      subst e
      have := arpack_pass_next_fields naupd MdagM arpack_param st0 s hp
      simpa [hal] using this
  | succ k ih =>
    intro st h
    rw [arpack_passes] at h
    cases hprev : arpack_passes naupd MdagM arpack_param st0 (k + 1) with
    | none => rw [hprev] at h; simp at h
    | some sp =>
      rw [hprev] at h
      simp only at h
      obtain ⟨i1, i2, i3⟩ := ih sp hprev
      cases hp : arpack_pass naupd MdagM arpack_param sp with
      | fatal msg s => rw [hp] at h; simp at h
      | brk s => rw [hp] at h; simp at h
      | next s =>
        rw [hp] at h
        have e : s = st := Option.some.inj h
        subst e
        have := arpack_pass_next_fields naupd MdagM arpack_param sp s hp
        simpa [i1, i2, i3] using this

/-- A pass with `info = 0` and `ido` in `{-1, 1}` reads the operator input and
writes its output through the host fields as `arpack_allocate` leaves them. -/
theorem arpack_pass_addressed {K C L : Type} {n : Nat} [Field K] [AddCommGroup C]
    [Module K C] (naupd : ArpackState C L → ArpackState C L)
    (MdagM : (Fin n → C) → (Fin n → C)) (arpack_param : QudaArpackParam K)
    (st : DriverState C L n) (hinfo : (naupd st.arp).info = 0)
    (hido : (naupd st.arp).ido = -1 ∨ (naupd st.arp).ido = 1) :
    AddressedBy naupd MdagM arpack_param
      (if st.allocate then (naupd st.arp).ipntr 0 - 1 else st.h_v)
      (if st.allocate then (naupd st.arp).ipntr 1 - 1 else st.h_v2) st := by
  have hnf : ¬ (naupd st.arp).info ≠ 0 := not_not.mpr hinfo
  have h99 : ¬ ((naupd st.arp).ido = 99 ∨ (naupd st.arp).info = 1) := by
    rw [hinfo]; omega
  obtain ⟨ha1, ha2, _, _, ha5, ha6⟩ := arpack_allocate_spec (n := n) (naupd st.arp) st
  obtain ⟨hb1, hb2, _⟩ := arpack_apply_spec MdagM arpack_param
    (arpack_allocate (naupd st.arp) st)
  rw [ha1, ha5] at hb1
  rw [ha1, ha5, ha6] at hb2
  refine ⟨_, by unfold arpack_pass; rw [if_neg hnf, if_neg h99, if_pos hido], ?_, ?_⟩
  · rw [← ha2]; exact hb1
  · exact hb2

/-- C11, amended (driver buffer addressing): in a run that starts with
`allocate` set, at every pass where the library returns `info = 0` and `ido` in
`{-1, 1}`, the vector handed to the operator is the segment of the work array
at the (1-based) position `ipntr[0]` and the result is written to the segment
at position `ipntr[1]`, where `ipntr` is the one returned by the first library
step of the run; these are the values of the same step whenever that step
returns the same `ipntr[0]` and `ipntr[1]` as the first one. -/
theorem driver_addressing_first_step {K C L : Type} {n : Nat} [Field K] [AddCommGroup C]
    [Module K C] (naupd : ArpackState C L → ArpackState C L)
    (MdagM : (Fin n → C) → (Fin n → C)) (arpack_param : QudaArpackParam K)
    (st0 : DriverState C L n) (hal : st0.allocate = true) (k : Nat) (st : DriverState C L n)
    (hreach : arpack_passes naupd MdagM arpack_param st0 k = some st)
    (hinfo : (naupd st.arp).info = 0)
    (hido : (naupd st.arp).ido = -1 ∨ (naupd st.arp).ido = 1) :
    AddressedBy naupd MdagM arpack_param ((naupd st0.arp).ipntr 0 - 1)
      ((naupd st0.arp).ipntr 1 - 1) st ∧
    ((naupd st.arp).ipntr 0 = (naupd st0.arp).ipntr 0 →
      (naupd st.arp).ipntr 1 = (naupd st0.arp).ipntr 1 →
      AddressedBy naupd MdagM arpack_param ((naupd st.arp).ipntr 0 - 1)
        ((naupd st.arp).ipntr 1 - 1) st) := by
  have hmain : AddressedBy naupd MdagM arpack_param ((naupd st0.arp).ipntr 0 - 1)
      ((naupd st0.arp).ipntr 1 - 1) st := by
    have h := arpack_pass_addressed naupd MdagM arpack_param st hinfo hido
    cases k with
    | zero =>
      have e : st0 = st := Option.some.inj hreach
      subst e
      simpa [hal] using h
    | succ j =>
      obtain ⟨i1, i2, i3⟩ := arpack_passes_fields naupd MdagM arpack_param st0 hal j st hreach
      simpa [i1, i2, i3] using h
  refine ⟨hmain, ?_⟩
  intro e0 e1
  rw [e0, e1]
  exact hmain

theorem driver_addressing_first_step_witness :
    AddressedBy flipNaupd diagH2 plainParam ((flipNaupd flipDriver.arp).ipntr 0 - 1)
      ((flipNaupd flipDriver.arp).ipntr 1 - 1) flipDriver :=
  (driver_addressing_first_step flipNaupd diagH2 plainParam flipDriver rfl 0 flipDriver rfl
    rfl (Or.inr rfl)).1

/-- C11 as stated fails: with a library that moves its buffers after the first
step (`flipNaupd`), the second pass has `info = 0` and `ido = 1`, yet the
operator is not applied to the segment at the position `ipntr[0]` returned by
that step. -/
theorem driver_addressing_counterexample :
    ∃ st, arpack_passes flipNaupd diagH2 plainParam flipDriver 1 = some st ∧
      (flipNaupd st.arp).info = 0 ∧ (flipNaupd st.arp).ido = 1 ∧
      ¬ AddressedBy flipNaupd diagH2 plainParam ((flipNaupd st.arp).ipntr 0 - 1)
        ((flipNaupd st.arp).ipntr 1 - 1) st := by
  -- the first pass
  obtain ⟨st, hpass, _, hw⟩ := arpack_pass_addressed flipNaupd diagH2 plainParam flipDriver
    rfl (Or.inr rfl)
  have hreach : arpack_passes flipNaupd diagH2 plainParam flipDriver 1 = some st := by
    simp only [arpack_passes, hpass]
  have hfields := arpack_passes_fields flipNaupd diagH2 plainParam flipDriver rfl 0 st hreach
  have hlib : st.arp.lib = 1 := by
    have h1 := arpack_pass_next_fields flipNaupd diagH2 plainParam flipDriver st hpass
    unfold arpack_pass at hpass
    simp only [flipNaupd, flipDriver, arpack_init, plainParam, demoParam] at hpass
    have e := PassResult.next.inj hpass
    rw [← e]
    rfl
  refine ⟨st, hreach, rfl, rfl, ?_⟩
  intro hbad
  -- what the second pass does according to the code
  obtain ⟨s2, hp2, hc2, _⟩ := arpack_pass_addressed flipNaupd diagH2 plainParam st rfl
    (Or.inr rfl)
  obtain ⟨s3, hp3, hc3, _⟩ := hbad
  have es : s2 = s3 := PassResult.next.inj (hp2.symm.trans hp3)
  subst es
  rw [hc2] at hc3
  have hcall := List.append_cancel_left hc3
  simp only [hfields.1, Bool.false_eq_true, if_false, plainParam, hfields.2.1,
    List.cons.injEq, and_true, OpCall.MdagM.injEq] at hcall
  have h1 := congrFun hcall ⟨1, by decide⟩
  have hwd : (flipNaupd st.arp).workd = st.arp.workd := rfl
  simp only [readVec, hwd, hw] at h1
  simp [flipNaupd, hlib, writeVec, readVec, flipDriver, arpack_init, diagH2, plainParam] at h1

/-! ## Failure semantics, results and the sort of the drivers -/

/-- Whatever non-zero `info` the library step returns, the pass ends in
`errorQuda` right after the step. -/
theorem arpack_pass_info_nonzero {K C L : Type} {n : Nat} [Field K] [AddCommGroup C]
    [Module K C] (naupd : ArpackState C L → ArpackState C L)
    (MdagM : (Fin n → C) → (Fin n → C)) (arpack_param : QudaArpackParam K)
    (st : DriverState C L n) (hinfo : (naupd st.arp).info ≠ 0) :
    arpack_pass naupd MdagM arpack_param st
      = PassResult.fatal "Error in naupd" { st with arp := naupd st.arp } := by
  unfold arpack_pass
  rw [if_pos hinfo]

/-- A driver whose first library step returns a non-zero `info` aborts. -/
theorem arpack_solve_driver_info_nonzero {K C L : Type} {n : Nat} [Field K] [AddCommGroup C]
    [Module K C] (lib : ArpackLib C L) (MdagM : (Fin n → C) → (Fin n → C)) (cabs : C → K)
    (arpack_param : QudaArpackParam K) (selector : String) (freed : Bool)
    (h_evecs h_evals : Nat → C) (st0 : DriverState C L n)
    (hinfo : (lib.naupd selector st0.arp).info ≠ 0) :
    arpack_solve_driver lib MdagM cabs arpack_param selector freed h_evecs h_evals st0
      = SolveOutcome.fatal "Error in naupd" := by
  obtain ⟨f, hf⟩ : ∃ f, max 1 arpack_param.arpackMaxiter.toNat = f + 1 :=
    ⟨max 1 arpack_param.arpackMaxiter.toNat - 1, by omega⟩
  unfold arpack_solve_driver
  rw [hf]
  simp only [arpack_loop, arpack_pass_info_nonzero _ MdagM arpack_param st0 hinfo]

/-- C12, the code at the failing inputs: a library step that reports `info = 1`
(maximum number of iterations) or `info = 3` (no shifts applied) makes both
drivers abort through `errorQuda` right after the step; they do not reach the
extraction. -/
theorem info_one_and_three_abort :
    arpack_solve_float demoLibMaxIter diagH2 (fun x => |x|) (demoParam 3) callerBuffer
        callerBuffer (demoEntry (demoParam 3)) = SolveOutcome.fatal "Error in naupd" ∧
    arpack_solve_double demoLibMaxIter diagH2 (fun x => |x|) (demoParam 3) callerBuffer
        callerBuffer (demoEntry (demoParam 3)) = SolveOutcome.fatal "Error in naupd" ∧
    arpack_solve_float demoLibNoShifts diagH2 (fun x => |x|) (demoParam 3) callerBuffer
        callerBuffer (demoEntry (demoParam 3)) = SolveOutcome.fatal "Error in naupd" ∧
    arpack_solve_double demoLibNoShifts diagH2 (fun x => |x|) (demoParam 3) callerBuffer
        callerBuffer (demoEntry (demoParam 3)) = SolveOutcome.fatal "Error in naupd" := by
  refine ⟨?_, ?_, ?_, ?_⟩ <;>
    exact arpack_solve_driver_info_nonzero _ _ _ _ _ _ _ _ _ (by decide)

/-- Whenever a driver returns, the caller's buffers are as they were on entry
and the index array is `0, 1, ..., nconv - 1`. -/
theorem arpack_solve_driver_returned {K C L : Type} {n : Nat} [Field K] [AddCommGroup C]
    [Module K C] (lib : ArpackLib C L) (MdagM : (Fin n → C) → (Fin n → C)) (cabs : C → K)
    (arpack_param : QudaArpackParam K) (selector : String) (freed : Bool)
    (h_evecs h_evals : Nat → C) (st0 : DriverState C L n) (r : SolveReturn K C L n)
    (h : arpack_solve_driver lib MdagM cabs arpack_param selector freed h_evecs h_evals st0
      = SolveOutcome.returned r) :
    r.h_evecs = h_evecs ∧ r.h_evals = h_evals ∧
      r.h_evals_sorted_idx = List.range r.nconv.toNat := by
  unfold arpack_solve_driver at h
  split at h
  · exact SolveOutcome.noConfusion h
  · exact SolveOutcome.noConfusion h
  · unfold arpack_finish at h
    split at h
    · exact SolveOutcome.noConfusion h
    · simp only at h
      split at h
      · exact SolveOutcome.noConfusion h
      · have e := SolveOutcome.returned.inj h
        rw [← e]
        simp

/-- The run of both drivers on `demoLib`: the library converges at once and the
extraction reports the eigenvalues `2, 1`. -/
theorem demoLib_run (p : QudaArpackParam ℚ) (selector : String) (freed : Bool) :
    ∃ r, arpack_solve_driver demoLib diagH2 (fun x => |x|) p selector freed callerBuffer
        callerBuffer (demoEntry p) = SolveOutcome.returned r ∧
      r.nconv = 2 ∧ r.h_evals_ 0 = 2 ∧ r.h_evals_ 1 = 1 ∧ r.st.arp.lib = [selector] ∧
      r.lc_freed = freed := by
  obtain ⟨f, hf⟩ : ∃ f, max 1 p.arpackMaxiter.toNat = f + 1 :=
    ⟨max 1 p.arpackMaxiter.toNat - 1, by omega⟩
  have hpass : arpack_pass (demoLib.naupd selector) diagH2 p (demoEntry p)
      = PassResult.brk (arpack_allocate (demoLib.naupd selector (demoEntry p).arp)
          (demoEntry p)) := by
    unfold arpack_pass
    rw [if_neg (by simp [demoLib]), if_pos (by simp [demoLib])]
  unfold arpack_solve_driver
  rw [hf]
  simp only [arpack_loop, hpass]
  unfold arpack_finish
  rw [if_neg (by simp [arpack_allocate, demoEntry, arpack_init, demoLib]),
    if_neg (by simp [demoLib])]
  exact ⟨_, rfl, by simp [demoLib, arpack_allocate, demoEntry, arpack_init]⟩

/-- C13, the code at the failing input: on a run whose extraction succeeds with
`nconv = 2` and eigenvalues `2, 1`, `arpackSolve` returns with the caller's
buffers `h_evals` and `h_evecs` exactly as they were on entry (filled with
`-1`), in the double-precision driver (which keeps its local result buffers)
and in the single-precision driver (which frees them). -/
theorem results_do_not_reach_caller :
    (∃ r, arpackSolve demoLib diagH2 (fun x => |x|) (demoParam 3) callerBuffer callerBuffer
        (demoEntry (demoParam 3)) = SolveOutcome.returned r ∧
      r.nconv = 2 ∧ r.h_evals_ 0 = 2 ∧ r.h_evals_ 1 = 1 ∧
      r.h_evals = callerBuffer ∧ r.h_evecs = callerBuffer ∧ r.h_evals 0 = -1 ∧
      r.lc_freed = false) ∧
    (∃ r, arpackSolve demoLib diagH2 (fun x => |x|)
        { demoParam 3 with arpackPrec := QudaPrecision.QUDA_SINGLE_PRECISION } callerBuffer
        callerBuffer (demoEntry (demoParam 3)) = SolveOutcome.returned r ∧
      r.nconv = 2 ∧ r.h_evals_ 0 = 2 ∧ r.h_evals_ 1 = 1 ∧
      r.h_evals = callerBuffer ∧ r.h_evecs = callerBuffer ∧ r.h_evals 0 = -1 ∧
      r.lc_freed = true) := by
  constructor
  · obtain ⟨r, hr, h1, h2, h3, _, h5⟩ := demoLib_run (demoParam 3)
      (spectrum_double (demoParam 3).usePolyAcc (demoParam 3).spectrum) false
    obtain ⟨e1, e2, _⟩ := arpack_solve_driver_returned _ _ _ _ _ _ _ _ _ r hr
    refine ⟨r, hr, h1, h2, h3, e2, e1, ?_, h5⟩
    rw [e2]; rfl
  · obtain ⟨r, hr, h1, h2, h3, _, h5⟩ := demoLib_run
      { demoParam 3 with arpackPrec := QudaPrecision.QUDA_SINGLE_PRECISION }
      (spectrum_float (demoParam 3).usePolyAcc (demoParam 3).spectrum) true
    obtain ⟨e1, e2, _⟩ := arpack_solve_driver_returned _ _ _ _ _ _ _ _ _ r hr
    refine ⟨r, hr, h1, h2, h3, e2, e1, ?_, h5⟩
    rw [e2]; rfl

/-- C14, the code at the failing input: when the extraction returns the
eigenvalues `2, 1` (`nconv = 2`), both drivers leave the index array as
`0, 1`, so that the eigenvalue listed first has the larger absolute value. -/
theorem sorted_idx_is_identity :
    (∃ r, arpack_solve_float demoLib diagH2 (fun x => |x|) (demoParam 3) callerBuffer
        callerBuffer (demoEntry (demoParam 3)) = SolveOutcome.returned r ∧
      r.nconv = 2 ∧ r.h_evals_sorted_idx = [0, 1] ∧
      ¬ (|r.h_evals_ 0| ≤ |r.h_evals_ 1|)) ∧
    (∃ r, arpack_solve_double demoLib diagH2 (fun x => |x|) (demoParam 3) callerBuffer
        callerBuffer (demoEntry (demoParam 3)) = SolveOutcome.returned r ∧
      r.nconv = 2 ∧ r.h_evals_sorted_idx = [0, 1] ∧
      ¬ (|r.h_evals_ 0| ≤ |r.h_evals_ 1|)) := by
  constructor
  · obtain ⟨r, hr, h1, h2, h3, _⟩ := demoLib_run (demoParam 3)
      (spectrum_float (demoParam 3).usePolyAcc (demoParam 3).spectrum) true
    obtain ⟨_, _, e3⟩ := arpack_solve_driver_returned _ _ _ _ _ _ _ _ _ r hr
    refine ⟨r, hr, h1, ?_, ?_⟩
    · rw [e3, h1]; rfl
    · rw [h2, h3]; norm_num
  · obtain ⟨r, hr, h1, h2, h3, _⟩ := demoLib_run (demoParam 3)
      (spectrum_double (demoParam 3).usePolyAcc (demoParam 3).spectrum) false
    obtain ⟨_, _, e3⟩ := arpack_solve_driver_returned _ _ _ _ _ _ _ _ _ r hr
    refine ⟨r, hr, h1, ?_, ?_⟩
    · rw [e3, h1]; rfl
    · rw [h2, h3]; norm_num

/-! ## The spectrum tag is not validated -/

theorem spectrum_not_tag (usePolyAcc : Bool) (s : QudaArpackSpectrumType)
    (hs : s.isTag = false) :
    spectrum_float usePolyAcc s = "SR" ∧ spectrum_double usePolyAcc s = "SR" := by
  cases s with
  | other c => cases usePolyAcc <;> exact ⟨rfl, rfl⟩
  | _ => exact Bool.noConfusion hs

/-- C18, amended (invalid spectrum tag): when `arpack_param->spectrum` is not
one of the six tags, neither driver aborts on that account, with or without
polynomial acceleration: the selector keeps its initial value `"SR"`, the run
is that of the driver with the selector `"SR"`, and the first thing it does
is to call the library step with this selector. -/
theorem invalid_spectrum_runs_as_SR {K C L : Type} {n : Nat} [Field K] [AddCommGroup C]
    [Module K C] (lib : ArpackLib C L) (MdagM : (Fin n → C) → (Fin n → C)) (cabs : C → K)
    (arpack_param : QudaArpackParam K) (h_evecs h_evals : Nat → C)
    (st0 : DriverState C L n) (htag : arpack_param.spectrum.isTag = false) :
    spectrum_float arpack_param.usePolyAcc arpack_param.spectrum = "SR" ∧
    spectrum_double arpack_param.usePolyAcc arpack_param.spectrum = "SR" ∧
    arpack_solve_float lib MdagM cabs arpack_param h_evecs h_evals st0
      = arpack_solve_driver lib MdagM cabs arpack_param "SR" true h_evecs h_evals st0 ∧
    arpack_solve_double lib MdagM cabs arpack_param h_evecs h_evals st0
      = arpack_solve_driver lib MdagM cabs arpack_param "SR" false h_evecs h_evals st0 ∧
    (arpack_loop_trace (lib.naupd "SR") MdagM arpack_param
      (max 1 arpack_param.arpackMaxiter.toNat) st0).head? = some (lib.naupd "SR" st0.arp) := by
  obtain ⟨h1, h2⟩ := spectrum_not_tag arpack_param.usePolyAcc arpack_param.spectrum htag
  refine ⟨h1, h2, ?_, ?_, ?_⟩
  · unfold arpack_solve_float; rw [h1]
  · unfold arpack_solve_double; rw [h2]
  · obtain ⟨f, hf⟩ : ∃ f, max 1 arpack_param.arpackMaxiter.toNat = f + 1 :=
      ⟨max 1 arpack_param.arpackMaxiter.toNat - 1, by omega⟩
    rw [hf]
    simp [arpack_loop_trace]

theorem invalid_spectrum_runs_as_SR_witness :
    spectrum_float true (QudaArpackSpectrumType.other 7) = "SR" ∧
    arpack_solve_float demoLib diagH2 (fun x => |x|)
        { demoParam 3 with spectrum := QudaArpackSpectrumType.other 7 } callerBuffer
        callerBuffer (demoEntry (demoParam 3))
      = arpack_solve_driver demoLib diagH2 (fun x => |x|)
        { demoParam 3 with spectrum := QudaArpackSpectrumType.other 7 } "SR" true
        callerBuffer callerBuffer (demoEntry (demoParam 3)) :=
  ⟨(invalid_spectrum_runs_as_SR demoLib diagH2 (fun x => |x|)
      { demoParam 3 with spectrum := QudaArpackSpectrumType.other 7 } callerBuffer
      callerBuffer (demoEntry (demoParam 3)) rfl).1,
   (invalid_spectrum_runs_as_SR demoLib diagH2 (fun x => |x|)
      { demoParam 3 with spectrum := QudaArpackSpectrumType.other 7 } callerBuffer
      callerBuffer (demoEntry (demoParam 3)) rfl).2.2.1⟩

/-- C18 as stated fails: with a spectrum tag outside the six tags, the
single- and the double-precision driver, with polynomial acceleration and
without, do not abort; they call the library (with the selector `"SR"`) and
return normally. -/
theorem invalid_spectrum_counterexample :
    (∃ r, arpack_solve_float demoLib diagH2 (fun x => |x|)
        { demoParam 3 with spectrum := QudaArpackSpectrumType.other 7 } callerBuffer
        callerBuffer (demoEntry (demoParam 3)) = SolveOutcome.returned r ∧
      r.st.arp.lib = ["SR"]) ∧
    (∃ r, arpack_solve_double demoLib diagH2 (fun x => |x|)
        { demoParam 3 with spectrum := QudaArpackSpectrumType.other 7 } callerBuffer
        callerBuffer (demoEntry (demoParam 3)) = SolveOutcome.returned r ∧
      r.st.arp.lib = ["SR"]) ∧
    (∃ r, arpack_solve_float demoLib diagH2 (fun x => |x|)
        { demoParam 3 with spectrum := QudaArpackSpectrumType.other 7, usePolyAcc := false }
        callerBuffer callerBuffer (demoEntry (demoParam 3)) = SolveOutcome.returned r ∧
      r.st.arp.lib = ["SR"]) ∧
    (∃ r, arpack_solve_double demoLib diagH2 (fun x => |x|)
        { demoParam 3 with spectrum := QudaArpackSpectrumType.other 7, usePolyAcc := false }
        callerBuffer callerBuffer (demoEntry (demoParam 3)) = SolveOutcome.returned r ∧
      r.st.arp.lib = ["SR"]) := by
  refine ⟨?_, ?_, ?_, ?_⟩
  · obtain ⟨r, hr, _, _, _, h4, _⟩ := demoLib_run
      { demoParam 3 with spectrum := QudaArpackSpectrumType.other 7 } "SR" true
    exact ⟨r, hr, h4⟩
  · obtain ⟨r, hr, _, _, _, h4, _⟩ := demoLib_run
      { demoParam 3 with spectrum := QudaArpackSpectrumType.other 7 } "SR" false
    exact ⟨r, hr, h4⟩
  · obtain ⟨r, hr, _, _, _, h4, _⟩ := demoLib_run
      { demoParam 3 with spectrum := QudaArpackSpectrumType.other 7, usePolyAcc := false }
      "SR" true
    exact ⟨r, hr, h4⟩
  · obtain ⟨r, hr, _, _, _, h4, _⟩ := demoLib_run
      { demoParam 3 with spectrum := QudaArpackSpectrumType.other 7, usePolyAcc := false }
      "SR" false
    exact ⟨r, hr, h4⟩

/-! ## Empty field vector, and keys that do not divide the grid -/

/-- C16, amended (empty input is fatal and atomic once the divisions at the
head of the call are defined): `split_field` and `join_field` called with an
empty vector of base fields first divide by `comm_key` and by `grid_dim`
(lines 85-86 and 171-172). With a key whose components are positive and not
larger than those of the process grid (no component of `comm_key` and of
`grid_dim = full_dim / comm_key` is zero) they end in the fatal error
`"Empty vector!"`; with any other key they end in the division by zero and
the check is not reached. This holds whatever the communicator, the transport,
the barrier and the collect field; in both cases the send loop has posted no
message (no staging buffer was filled) and no field comes back changed. -/
theorem empty_vector_fatal {V : Type} [Inhabited V] (rankOf : CommKey → Nat) (env : CommEnv)
    (net : List (Msg V)) (all_arrive : Bool) (collect_field : LatticeField V)
    (comm_key : CommKey) :
    split_field rankOf env net all_arrive collect_field [] comm_key
      = (if comm_key.positive ∧ (env.comm_dim / comm_key).positive
          then Outcome.fatal "Empty vector!" else Outcome.trap) ∧
    split_field_posts rankOf env ([] : List (LatticeField V)) comm_key = [] ∧
    join_field rankOf env net all_arrive [] collect_field comm_key
      = (if comm_key.positive ∧ (env.comm_dim / comm_key).positive
          then Outcome.fatal "Empty vector!" else Outcome.trap) ∧
    join_field_posts rankOf env [] collect_field comm_key = [] := by
  refine ⟨?_, rfl, ?_, rfl⟩
  · unfold split_field split_field_to_barrier divisions_defined
    by_cases h : comm_key.positive ∧ (env.comm_dim / comm_key).positive
    · simp only [if_pos h]
    · simp only [if_neg h]
  · unfold join_field join_field_to_barrier divisions_defined
    by_cases h : comm_key.positive ∧ (env.comm_dim / comm_key).positive
    · simp only [if_pos h]
    · simp only [if_neg h]

theorem empty_vector_fatal_witness :
    (demoKey.positive ∧ (demoGrid / demoKey).positive) ∧
    split_field (lex_rank_from_coords_t demoGrid)
        (envOf (lex_rank_from_coords_t demoGrid) demoGrid ⟨0, 0, 0, 0⟩) [] true
        (demoWorld.collect ⟨0, 0, 0, 0⟩) [] demoKey = Outcome.fatal "Empty vector!" ∧
    split_field_posts (lex_rank_from_coords_t demoGrid)
        (envOf (lex_rank_from_coords_t demoGrid) demoGrid ⟨0, 0, 0, 0⟩)
        ([] : List (LatticeField Nat)) demoKey = [] ∧
    join_field (lex_rank_from_coords_t demoGrid)
        (envOf (lex_rank_from_coords_t demoGrid) demoGrid ⟨0, 0, 0, 0⟩) [] true
        [] (demoWorld.collect ⟨0, 0, 0, 0⟩) demoKey = Outcome.fatal "Empty vector!" ∧
    join_field_posts (lex_rank_from_coords_t demoGrid)
        (envOf (lex_rank_from_coords_t demoGrid) demoGrid ⟨0, 0, 0, 0⟩) []
        (demoWorld.collect ⟨0, 0, 0, 0⟩) demoKey = [] :=
  ⟨by decide,
   (empty_vector_fatal (lex_rank_from_coords_t demoGrid)
      (envOf (lex_rank_from_coords_t demoGrid) demoGrid ⟨0, 0, 0, 0⟩) [] true
      (demoWorld.collect ⟨0, 0, 0, 0⟩) demoKey).1.trans (if_pos (by decide)),
   (empty_vector_fatal (lex_rank_from_coords_t demoGrid)
      (envOf (lex_rank_from_coords_t demoGrid) demoGrid ⟨0, 0, 0, 0⟩) [] true
      (demoWorld.collect ⟨0, 0, 0, 0⟩) demoKey).2.1,
   (empty_vector_fatal (lex_rank_from_coords_t demoGrid)
      (envOf (lex_rank_from_coords_t demoGrid) demoGrid ⟨0, 0, 0, 0⟩) [] true
      (demoWorld.collect ⟨0, 0, 0, 0⟩) demoKey).2.2.1.trans (if_pos (by decide)),
   (empty_vector_fatal (lex_rank_from_coords_t demoGrid)
      (envOf (lex_rank_from_coords_t demoGrid) demoGrid ⟨0, 0, 0, 0⟩) [] true
      (demoWorld.collect ⟨0, 0, 0, 0⟩) demoKey).2.2.2⟩

/-- C16 as stated fails when a divisor of lines 85-86 (171-172) is zero. On
the grid `(2,1,1,1)`, with an empty vector of base fields: the key `(0,1,1,1)`
makes `full_dim / comm_key` a division by zero, and the key `(3,1,1,1)`,
larger than the grid, gives `grid_dim = (0,1,1,1)` and makes
`full_dim / grid_dim` a division by zero. `split_field` and `join_field` end
there, whatever the transport and the barrier, and not in the fatal error of
the empty check. -/
theorem empty_vector_counterexample :
    (∀ (net : List (Msg Nat)) (all_arrive : Bool),
      split_field (lex_rank_from_coords_t demoGrid)
        (envOf (lex_rank_from_coords_t demoGrid) demoGrid ⟨0, 0, 0, 0⟩) net all_arrive
        (demoWorld.collect ⟨0, 0, 0, 0⟩) [] ⟨0, 1, 1, 1⟩ = Outcome.trap ∧
      join_field (lex_rank_from_coords_t demoGrid)
        (envOf (lex_rank_from_coords_t demoGrid) demoGrid ⟨0, 0, 0, 0⟩) net all_arrive
        [] (demoWorld.collect ⟨0, 0, 0, 0⟩) ⟨0, 1, 1, 1⟩ = Outcome.trap) ∧
    demoGrid / (⟨3, 1, 1, 1⟩ : CommKey) = ⟨0, 1, 1, 1⟩ ∧
    (∀ (net : List (Msg Nat)) (all_arrive : Bool),
      split_field (lex_rank_from_coords_t demoGrid)
        (envOf (lex_rank_from_coords_t demoGrid) demoGrid ⟨0, 0, 0, 0⟩) net all_arrive
        (demoWorld.collect ⟨0, 0, 0, 0⟩) [] ⟨3, 1, 1, 1⟩ = Outcome.trap ∧
      join_field (lex_rank_from_coords_t demoGrid)
        (envOf (lex_rank_from_coords_t demoGrid) demoGrid ⟨0, 0, 0, 0⟩) net all_arrive
        [] (demoWorld.collect ⟨0, 0, 0, 0⟩) ⟨3, 1, 1, 1⟩ = Outcome.trap) ∧
    (Outcome.trap : Outcome (LatticeField Nat × List (Msg Nat)))
      ≠ Outcome.fatal "Empty vector!" :=
  ⟨fun _ _ => ⟨rfl, rfl⟩, rfl, fun _ _ => ⟨rfl, rfl⟩, fun h => Outcome.noConfusion h⟩

theorem join_send_cycles_length {V : Type} (rankOf : CommKey → Nat) (env : CommEnv)
    (collect_field : LatticeField V) (thread_dim K : CommKey) (init : LatticeField V) (n : Nat) :
    (join_send_cycles rankOf env collect_field thread_dim K init n).2.length = n := by
  rw [join_send_cycles_posts, List.length_map, List.length_range]

/-- Past the divisions and the check of the empty vector, the call of
`split_field` up to its barrier either gets through the receive loop or stays
in a wait of that loop. -/
theorem split_to_barrier_cases {V : Type} [Inhabited V] (rankOf : CommKey → Nat)
    (env : CommEnv) (net : List (Msg V)) (collect_field : LatticeField V)
    (v_base_field : List (LatticeField V)) (comm_key : CommKey)
    (hdef : divisions_defined env.comm_dim comm_key) (hne : v_base_field ≠ []) :
    (∃ r, split_field_to_barrier rankOf env net collect_field v_base_field comm_key
      = Outcome.ok r) ∨
    split_field_to_barrier rankOf env net collect_field v_base_field comm_key
      = Outcome.blocked := by
  cases v_base_field with
  | nil => exact absurd rfl hne
  | cons meta rest =>
    unfold split_field_to_barrier
    simp only [if_pos hdef]
    split
    · right; rfl
    · left; exact ⟨_, rfl⟩

/-- Past the divisions and the check of the empty vector, the call of
`join_field` up to its barrier either gets through the receive loop or stays
in a wait of that loop. -/
theorem join_to_barrier_cases {V : Type} [Inhabited V] (rankOf : CommKey → Nat)
    (env : CommEnv) (net : List (Msg V)) (collect_field : LatticeField V)
    (v_base_field : List (LatticeField V)) (comm_key : CommKey)
    (hdef : divisions_defined env.comm_dim comm_key) (hne : v_base_field ≠ []) :
    (∃ r, join_field_to_barrier rankOf env net v_base_field collect_field comm_key
      = Outcome.ok r) ∨
    join_field_to_barrier rankOf env net v_base_field collect_field comm_key
      = Outcome.blocked := by
  cases v_base_field with
  | nil => exact absurd rfl hne
  | cons meta rest =>
    unfold join_field_to_barrier
    simp only [if_pos hdef]
    split
    · right; rfl
    · left; exact ⟨_, rfl⟩

/-- C17, amended (no divisibility check): `split_field` and `join_field` do
not compare the key with the process grid. For every non-empty vector of base
fields and every key with positive components not larger than those of the
grid (so that the integer divisions `full_dim / comm_key` and
`full_dim / grid_dim` are defined), whether it divides the grid or not, the
send loop of each of the two posts `product(K)` messages and the call does not
end in a fatal error: it returns, or it never returns; and it never returns
when some rank does not reach the closing barrier. -/
theorem no_divisibility_check {V : Type} [Inhabited V] (rankOf : CommKey → Nat) (env : CommEnv)
    (collect_field : LatticeField V) (v_base_field : List (LatticeField V))
    (comm_key : CommKey) (hK : comm_key.positive)
    (hgrid : (env.comm_dim / comm_key).positive) (hne : v_base_field ≠ []) :
    (split_field_posts rankOf env v_base_field comm_key).length = product comm_key ∧
    (∀ net all_arrive,
      (∃ r, split_field rankOf env net all_arrive collect_field v_base_field comm_key
        = Outcome.ok r) ∨
      split_field rankOf env net all_arrive collect_field v_base_field comm_key
        = Outcome.blocked) ∧
    (∀ net all_arrive msg,
      split_field rankOf env net all_arrive collect_field v_base_field comm_key
        ≠ Outcome.fatal msg) ∧
    (∀ net, split_field rankOf env net false collect_field v_base_field comm_key
      = Outcome.blocked) ∧
    (join_field_posts rankOf env v_base_field collect_field comm_key).length
      = product comm_key ∧
    (∀ net all_arrive,
      (∃ r, join_field rankOf env net all_arrive v_base_field collect_field comm_key
        = Outcome.ok r) ∨
      join_field rankOf env net all_arrive v_base_field collect_field comm_key
        = Outcome.blocked) ∧
    (∀ net all_arrive msg,
      join_field rankOf env net all_arrive v_base_field collect_field comm_key
        ≠ Outcome.fatal msg) ∧
    (∀ net, join_field rankOf env net false v_base_field collect_field comm_key
      = Outcome.blocked) := by
  have hdef : divisions_defined env.comm_dim comm_key := ⟨hK, hgrid⟩
  have hs : ∀ net all_arrive,
      (∃ r, split_field rankOf env net all_arrive collect_field v_base_field comm_key
        = Outcome.ok r ∧ all_arrive = true) ∨
      split_field rankOf env net all_arrive collect_field v_base_field comm_key
        = Outcome.blocked := by
    intro net all_arrive
    unfold split_field
    rcases split_to_barrier_cases rankOf env net collect_field v_base_field comm_key hdef hne
      with ⟨r, hr⟩ | hb
    · rw [hr]
      cases all_arrive
      · right; rfl
      · left; exact ⟨r, rfl, rfl⟩
    · rw [hb]
      right; rfl
  have hj : ∀ net all_arrive,
      (∃ r, join_field rankOf env net all_arrive v_base_field collect_field comm_key
        = Outcome.ok r ∧ all_arrive = true) ∨
      join_field rankOf env net all_arrive v_base_field collect_field comm_key
        = Outcome.blocked := by
    intro net all_arrive
    unfold join_field
    rcases join_to_barrier_cases rankOf env net collect_field v_base_field comm_key hdef hne
      with ⟨r, hr⟩ | hb
    · rw [hr]
      cases all_arrive
      · right; rfl
      · left; exact ⟨r, rfl, rfl⟩
    · rw [hb]
      right; rfl
  refine ⟨?_, ?_, ?_, ?_, ?_, ?_, ?_, ?_⟩
  · cases v_base_field with
    | nil => exact absurd rfl hne
    | cons meta rest => simp [split_field_posts]
  · intro net all_arrive
    rcases hs net all_arrive with ⟨r, hr, _⟩ | hb
    · exact Or.inl ⟨r, hr⟩
    · exact Or.inr hb
  · intro net all_arrive msg h
    rcases hs net all_arrive with ⟨r, hr, _⟩ | hb
    · rw [hr] at h; exact Outcome.noConfusion h
    · rw [hb] at h; exact Outcome.noConfusion h
  · intro net
    rcases hs net false with ⟨r, _, hr⟩ | hb
    · exact Bool.noConfusion hr
    · exact hb
  · cases v_base_field with
    | nil => exact absurd rfl hne
    | cons meta rest =>
      simp only [join_field_posts]
      exact join_send_cycles_length _ _ _ _ _ _ _
  · intro net all_arrive
    rcases hj net all_arrive with ⟨r, hr, _⟩ | hb
    · exact Or.inl ⟨r, hr⟩
    · exact Or.inr hb
  · intro net all_arrive msg h
    rcases hj net all_arrive with ⟨r, hr, _⟩ | hb
    · rw [hr] at h; exact Outcome.noConfusion h
    · rw [hb] at h; exact Outcome.noConfusion h
  · intro net
    rcases hj net false with ⟨r, _, hr⟩ | hb
    · exact Bool.noConfusion hr
    · exact hb

theorem no_divisibility_check_witness :
    (¬ oddKey.divides oddGrid ∧ oddKey.positive ∧
      ((envOf (lex_rank_from_coords_t oddGrid) oddGrid ⟨3, 0, 0, 0⟩).comm_dim
        / oddKey).positive ∧ oddWorld.base ⟨3, 0, 0, 0⟩ ≠ []) ∧
    ((split_field_posts (lex_rank_from_coords_t oddGrid)
      (envOf (lex_rank_from_coords_t oddGrid) oddGrid ⟨3, 0, 0, 0⟩)
      (oddWorld.base ⟨3, 0, 0, 0⟩) oddKey).length = product oddKey ∧
    (∀ net all_arrive,
      (∃ r, split_field (lex_rank_from_coords_t oddGrid)
        (envOf (lex_rank_from_coords_t oddGrid) oddGrid ⟨3, 0, 0, 0⟩) net all_arrive
        (oddWorld.collect ⟨3, 0, 0, 0⟩) (oddWorld.base ⟨3, 0, 0, 0⟩) oddKey = Outcome.ok r) ∨
      split_field (lex_rank_from_coords_t oddGrid)
        (envOf (lex_rank_from_coords_t oddGrid) oddGrid ⟨3, 0, 0, 0⟩) net all_arrive
        (oddWorld.collect ⟨3, 0, 0, 0⟩) (oddWorld.base ⟨3, 0, 0, 0⟩) oddKey
        = Outcome.blocked) ∧
    (∀ net all_arrive msg, split_field (lex_rank_from_coords_t oddGrid)
      (envOf (lex_rank_from_coords_t oddGrid) oddGrid ⟨3, 0, 0, 0⟩) net all_arrive
      (oddWorld.collect ⟨3, 0, 0, 0⟩) (oddWorld.base ⟨3, 0, 0, 0⟩) oddKey
      ≠ Outcome.fatal msg) ∧
    (∀ net, split_field (lex_rank_from_coords_t oddGrid)
      (envOf (lex_rank_from_coords_t oddGrid) oddGrid ⟨3, 0, 0, 0⟩) net false
      (oddWorld.collect ⟨3, 0, 0, 0⟩) (oddWorld.base ⟨3, 0, 0, 0⟩) oddKey
      = Outcome.blocked) ∧
    (join_field_posts (lex_rank_from_coords_t oddGrid)
      (envOf (lex_rank_from_coords_t oddGrid) oddGrid ⟨3, 0, 0, 0⟩)
      (oddWorld.base ⟨3, 0, 0, 0⟩) (oddWorld.collect ⟨3, 0, 0, 0⟩) oddKey).length
      = product oddKey ∧
    (∀ net all_arrive,
      (∃ r, join_field (lex_rank_from_coords_t oddGrid)
        (envOf (lex_rank_from_coords_t oddGrid) oddGrid ⟨3, 0, 0, 0⟩) net all_arrive
        (oddWorld.base ⟨3, 0, 0, 0⟩) (oddWorld.collect ⟨3, 0, 0, 0⟩) oddKey = Outcome.ok r) ∨
      join_field (lex_rank_from_coords_t oddGrid)
        (envOf (lex_rank_from_coords_t oddGrid) oddGrid ⟨3, 0, 0, 0⟩) net all_arrive
        (oddWorld.base ⟨3, 0, 0, 0⟩) (oddWorld.collect ⟨3, 0, 0, 0⟩) oddKey
        = Outcome.blocked) ∧
    (∀ net all_arrive msg, join_field (lex_rank_from_coords_t oddGrid)
      (envOf (lex_rank_from_coords_t oddGrid) oddGrid ⟨3, 0, 0, 0⟩) net all_arrive
      (oddWorld.base ⟨3, 0, 0, 0⟩) (oddWorld.collect ⟨3, 0, 0, 0⟩) oddKey
      ≠ Outcome.fatal msg) ∧
    (∀ net, join_field (lex_rank_from_coords_t oddGrid)
      (envOf (lex_rank_from_coords_t oddGrid) oddGrid ⟨3, 0, 0, 0⟩) net false
      (oddWorld.base ⟨3, 0, 0, 0⟩) (oddWorld.collect ⟨3, 0, 0, 0⟩) oddKey
      = Outcome.blocked)) :=
  ⟨⟨by decide, by decide, by decide, by simp [oddWorld]⟩,
   no_divisibility_check (lex_rank_from_coords_t oddGrid)
    (envOf (lex_rank_from_coords_t oddGrid) oddGrid ⟨3, 0, 0, 0⟩)
    (oddWorld.collect ⟨3, 0, 0, 0⟩) (oddWorld.base ⟨3, 0, 0, 0⟩) oddKey
    (by decide) (by decide) (by simp [oddWorld])⟩

/-- C17 as stated fails: on a grid of four ranks with the key `(3,1,1,1)`,
whose first component does not divide `4`, no rank ends `split_field` or
`join_field` in a fatal error, messages are posted and fields are written.
Every rank posts its three messages. Rank 0 gets through its receive loop and
reaches the barrier with its fields written (the collect field now holds `11`
at site `(1,0,0,0)` instead of `7`; in the join the base field holds `7`
instead of `10`). Rank 3 waits in its receive loop for a message that is
never sent, so the barrier never opens and the call returns on no rank: the
outcome is a wait that never ends on each of the four ranks. -/
theorem nondivisible_key_counterexample :
    ¬ oddKey.divides oddGrid ∧
    (∃ r, split_field_to_barrier (lex_rank_from_coords_t oddGrid)
        (envOf (lex_rank_from_coords_t oddGrid) oddGrid ⟨0, 0, 0, 0⟩)
        (split_net (lex_rank_from_coords_t oddGrid) oddGrid oddKey oddWorld)
        (oddWorld.collect ⟨0, 0, 0, 0⟩) (oddWorld.base ⟨0, 0, 0, 0⟩) oddKey
        = Outcome.ok r ∧ r.2.length = 3 ∧ r.1.data ⟨1, 0, 0, 0⟩ = 11 ∧
      (oddWorld.collect ⟨0, 0, 0, 0⟩).data ⟨1, 0, 0, 0⟩ = 7) ∧
    split_field_to_barrier (lex_rank_from_coords_t oddGrid)
        (envOf (lex_rank_from_coords_t oddGrid) oddGrid ⟨3, 0, 0, 0⟩)
        (split_net (lex_rank_from_coords_t oddGrid) oddGrid oddKey oddWorld)
        (oddWorld.collect ⟨3, 0, 0, 0⟩) (oddWorld.base ⟨3, 0, 0, 0⟩) oddKey
      = Outcome.blocked ∧
    (split_field_posts (lex_rank_from_coords_t oddGrid)
      (envOf (lex_rank_from_coords_t oddGrid) oddGrid ⟨3, 0, 0, 0⟩)
      (oddWorld.base ⟨3, 0, 0, 0⟩) oddKey).length = 3 ∧
    split_arrive (lex_rank_from_coords_t oddGrid) oddGrid oddKey oddWorld = false ∧
    (ranks oddGrid).map (split_all (lex_rank_from_coords_t oddGrid) oddGrid oddKey oddWorld)
      = [Outcome.blocked, Outcome.blocked, Outcome.blocked, Outcome.blocked] ∧
    (∃ r, join_field_to_barrier (lex_rank_from_coords_t oddGrid)
        (envOf (lex_rank_from_coords_t oddGrid) oddGrid ⟨0, 0, 0, 0⟩)
        (join_net (lex_rank_from_coords_t oddGrid) oddGrid oddKey oddWorld)
        (oddWorld.base ⟨0, 0, 0, 0⟩) (oddWorld.collect ⟨0, 0, 0, 0⟩) oddKey
        = Outcome.ok r ∧ r.2.length = 3 ∧
      r.1.map (fun f => f.data ⟨0, 0, 0, 0⟩) = [7] ∧
      (oddWorld.base ⟨0, 0, 0, 0⟩).map (fun f => f.data ⟨0, 0, 0, 0⟩) = [10]) ∧
    join_field_to_barrier (lex_rank_from_coords_t oddGrid)
        (envOf (lex_rank_from_coords_t oddGrid) oddGrid ⟨3, 0, 0, 0⟩)
        (join_net (lex_rank_from_coords_t oddGrid) oddGrid oddKey oddWorld)
        (oddWorld.base ⟨3, 0, 0, 0⟩) (oddWorld.collect ⟨3, 0, 0, 0⟩) oddKey
      = Outcome.blocked ∧
    (join_field_posts (lex_rank_from_coords_t oddGrid)
      (envOf (lex_rank_from_coords_t oddGrid) oddGrid ⟨3, 0, 0, 0⟩)
      (oddWorld.base ⟨3, 0, 0, 0⟩) (oddWorld.collect ⟨3, 0, 0, 0⟩) oddKey).length = 3 ∧
    join_arrive (lex_rank_from_coords_t oddGrid) oddGrid oddKey oddWorld = false ∧
    (ranks oddGrid).map (join_all (lex_rank_from_coords_t oddGrid) oddGrid oddKey oddWorld)
      = [Outcome.blocked, Outcome.blocked, Outcome.blocked, Outcome.blocked] :=
  ⟨by decide, ⟨_, rfl, rfl, rfl, rfl⟩, rfl, rfl, rfl, rfl, ⟨_, rfl, rfl, rfl, rfl⟩, rfl, rfl,
    rfl, rfl⟩

/-! ## Surplus base fields -/

theorem split_send_take {V : Type} (rankOf : CommKey → Nat) (env : CommEnv)
    (v_base_field : List (LatticeField V)) (meta : LatticeField V) (comm_key : CommKey)
    (n i : Nat) (hi : i < n) (hn : n ≤ v_base_field.length) :
    split_send rankOf env (v_base_field.take n) meta comm_key i
      = split_send rankOf env v_base_field meta comm_key i ∧
    (split_send rankOf env v_base_field meta comm_key i).payload
      = ((v_base_field.take n).getD i meta).copy_to_buffer := by
  have h1 : (v_base_field.take n).length = n := by rw [List.length_take]; omega
  have h2 : i % n = i := Nat.mod_eq_of_lt hi
  have h3 : i % v_base_field.length = i := Nat.mod_eq_of_lt (by omega)
  have h4 : (v_base_field.take n).getD i meta = v_base_field.getD i meta := by
    simp [List.getD, List.getElem?_take, hi]
  simp only [split_send, h1, h2, h3, h4, and_self]

theorem join_recv_length {V : Type} (rankOf : CommKey → Nat) (env : CommEnv)
    (net : List (Msg V)) (comm_key : CommKey) (bs bs2 : List (LatticeField V)) (i : Nat)
    (h : join_recv rankOf env net comm_key bs i = some bs2) : bs2.length = bs.length := by
  simp only [join_recv] at h
  split at h
  · exact Option.noConfusion h
  · split at h
    · exact Option.noConfusion h
    · rw [← Option.some.inj h, List.length_set]

theorem join_recv_append {V : Type} (rankOf : CommKey → Nat) (env : CommEnv)
    (net : List (Msg V)) (comm_key : CommKey) (bs rest : List (LatticeField V)) (i : Nat)
    (hi : i < bs.length) :
    join_recv rankOf env net comm_key (bs ++ rest) i
      = (join_recv rankOf env net comm_key bs i).map (fun l => l ++ rest) := by
  have h1 : i % (bs ++ rest).length = i := Nat.mod_eq_of_lt (by rw [List.length_append]; omega)
  have h2 : i % bs.length = i := Nat.mod_eq_of_lt hi
  have h3 : (bs ++ rest)[i]? = bs[i]? := List.getElem?_append_left hi
  simp only [join_recv, h1, h2, h3]
  split
  · rfl
  · rw [List.getElem?_eq_getElem hi]
    simp [List.set_append, hi]

theorem join_recv_cycles_take {V : Type} (rankOf : CommKey → Nat) (env : CommEnv)
    (net : List (Msg V)) (comm_key : CommKey) (v_base_field : List (LatticeField V))
    (n : Nat) (hn : n ≤ v_base_field.length) (m : Nat) (hm : m ≤ n) :
    join_recv_cycles rankOf env net comm_key v_base_field m
      = (join_recv_cycles rankOf env net comm_key (v_base_field.take n) m).map
          (fun l => l ++ v_base_field.drop n) ∧
    ∀ bs, join_recv_cycles rankOf env net comm_key (v_base_field.take n) m = some bs →
      bs.length = n := by
  induction m with
  | zero =>
    refine ⟨?_, ?_⟩
    · simp [join_recv_cycles]
    · intro bs h
      simp only [join_recv_cycles] at h
      rw [← Option.some.inj h, List.length_take]
      omega
  | succ m ih =>
    obtain ⟨ih1, ih2⟩ := ih (by omega)
    simp only [join_recv_cycles]
    rw [ih1]
    cases hc : join_recv_cycles rankOf env net comm_key (v_base_field.take n) m with
    | none => exact ⟨rfl, fun bs h => Option.noConfusion h⟩
    | some bs =>
      have hl := ih2 bs hc
      refine ⟨?_, ?_⟩
      · simp only [Option.map_some']
        exact join_recv_append rankOf env net comm_key bs _ m (by omega)
      · intro bs2 h
        simp only at h
        rw [join_recv_length rankOf env net comm_key bs bs2 m h, hl]

/-- C19 (surplus base fields are untouched): when the vector has more base
fields than `product(K)` (and `K` has positive components), `split_field`
sends exactly the base fields `0 .. product(K)-1`, pass `i` sending field `i`,
and its posts and its outcome are those of the call on the first `product(K)`
fields alone; `join_field` posts what the call on the first `product(K)`
fields posts, ends as that call ends, and when it returns the fields are
those the shorter call returns followed by the surplus fields as they were:
the vector keeps its length and every base field of index `≥ product(K)` is
left as it was. -/
theorem surplus_fields_untouched {V : Type} [Inhabited V] (rankOf : CommKey → Nat)
    (env : CommEnv) (collect_field : LatticeField V)
    (v_base_field : List (LatticeField V)) (comm_key : CommKey) (hK : comm_key.positive)
    (hn : product comm_key < v_base_field.length) :
    (split_field_posts rankOf env v_base_field comm_key).map Msg.payload
      = (v_base_field.take (product comm_key)).map LatticeField.copy_to_buffer ∧
    split_field_posts rankOf env v_base_field comm_key
      = split_field_posts rankOf env (v_base_field.take (product comm_key)) comm_key ∧
    (∀ net all_arrive,
      split_field rankOf env net all_arrive collect_field v_base_field comm_key
      = split_field rankOf env net all_arrive collect_field
          (v_base_field.take (product comm_key)) comm_key) ∧
    join_field_posts rankOf env v_base_field collect_field comm_key
      = join_field_posts rankOf env (v_base_field.take (product comm_key)) collect_field
          comm_key ∧
    (∀ net all_arrive,
      join_field rankOf env net all_arrive v_base_field collect_field comm_key
      = (join_field rankOf env net all_arrive (v_base_field.take (product comm_key))
            collect_field comm_key).map
          (fun r => (r.1 ++ v_base_field.drop (product comm_key), r.2))) ∧
    (∀ net all_arrive bs posts,
      join_field rankOf env net all_arrive v_base_field collect_field comm_key
        = Outcome.ok (bs, posts) →
      bs.length = v_base_field.length ∧
      ∀ k, product comm_key ≤ k → bs[k]? = v_base_field[k]?) := by
  have hpos := product_pos hK
  obtain ⟨p, hp⟩ := Nat.exists_eq_succ_of_ne_zero (Nat.ne_of_gt hpos)
  have hposts : split_field_posts rankOf env v_base_field comm_key
      = split_field_posts rankOf env (v_base_field.take (product comm_key)) comm_key := by
    cases v_base_field with
    | nil => simp at hn
    | cons meta rest =>
      have ht : (meta :: rest).take (product comm_key) = meta :: rest.take p := by
        rw [hp, List.take_succ_cons]
      rw [ht]
      simp only [split_field_posts]
      apply List.map_congr_left
      intro i hi
      rw [List.mem_range] at hi
      have := (split_send_take rankOf env (meta :: rest) meta comm_key (product comm_key) i hi
        (Nat.le_of_lt hn)).1
      rw [ht] at this
      exact this.symm
  have hjposts : join_field_posts rankOf env v_base_field collect_field comm_key
      = join_field_posts rankOf env (v_base_field.take (product comm_key)) collect_field
          comm_key := by
    cases v_base_field with
    | nil => simp at hn
    | cons meta rest =>
      rw [hp, List.take_succ_cons]
      simp only [join_field_posts]
  have hjoin : ∀ net all_arrive,
      join_field rankOf env net all_arrive v_base_field collect_field comm_key
      = (join_field rankOf env net all_arrive (v_base_field.take (product comm_key))
            collect_field comm_key).map
          (fun r => (r.1 ++ v_base_field.drop (product comm_key), r.2)) := by
    intro net all_arrive
    obtain ⟨h1, _⟩ := join_recv_cycles_take rankOf env net comm_key v_base_field
      (product comm_key) (Nat.le_of_lt hn) (product comm_key) (Nat.le_refl _)
    cases hb : v_base_field with
    | nil => rw [hb] at hn; simp at hn
    | cons meta rest =>
      have hj := hjposts
      rw [hb] at h1 hj
      have ht : (meta :: rest).take (product comm_key) = meta :: rest.take p := by
        rw [hp, List.take_succ_cons]
      rw [ht] at h1 hj ⊢
      simp only [join_field, join_field_to_barrier]
      by_cases hdef : divisions_defined env.comm_dim comm_key
      · simp only [if_pos hdef]
        rw [h1, hj]
        cases join_recv_cycles rankOf env net comm_key (meta :: rest.take p)
          (product comm_key) with
        | none => rfl
        | some l => cases all_arrive <;> rfl
      · simp only [if_neg hdef]
        rfl
  refine ⟨?_, hposts, ?_, hjposts, hjoin, ?_⟩
  · cases v_base_field with
    | nil => simp at hn
    | cons meta rest =>
      simp only [split_field_posts, List.map_map]
      apply List.ext_getElem?
      intro i
      simp only [List.getElem?_map, List.getElem?_range]
      by_cases hi : i < product comm_key
      · have h2 := (split_send_take rankOf env (meta :: rest) meta comm_key
          (product comm_key) i hi (Nat.le_of_lt hn)).2
        have h3 : i < ((meta :: rest).take (product comm_key)).length := by
          rw [List.length_take]; omega
        rw [List.getElem?_range hi, List.getElem?_eq_getElem h3]
        simp only [Option.map_some', Function.comp_apply, h2, List.getD,
          List.get?_eq_getElem?, List.getElem?_eq_getElem h3, Option.getD_some]
      · have h3 : ((meta :: rest).take (product comm_key)).length ≤ i := by
          rw [List.length_take]; omega
        rw [List.getElem?_eq_none h3]
        have h4 : (List.range (product comm_key))[i]? = none :=
          List.getElem?_eq_none (by rw [List.length_range]; omega)
        rw [h4]
        rfl
  · intro net all_arrive
    cases hb : v_base_field with
    | nil => rw [hb] at hn; simp at hn
    | cons meta rest =>
      have hps := hposts
      rw [hb] at hps
      have ht : (meta :: rest).take (product comm_key) = meta :: rest.take p := by
        rw [hp, List.take_succ_cons]
      rw [ht] at hps ⊢
      simp only [split_field, split_field_to_barrier]
      rw [hps]
  · intro net all_arrive bs posts hok
    rw [hjoin net all_arrive] at hok
    obtain ⟨_, h2⟩ := join_recv_cycles_take rankOf env net comm_key v_base_field
      (product comm_key) (Nat.le_of_lt hn) (product comm_key) (Nat.le_refl _)
    cases hj : join_field rankOf env net all_arrive (v_base_field.take (product comm_key))
        collect_field comm_key with
    | fatal msg => rw [hj] at hok; simp only [Outcome.map] at hok; exact Outcome.noConfusion hok
    | blocked => rw [hj] at hok; simp only [Outcome.map] at hok; exact Outcome.noConfusion hok
    | trap => rw [hj] at hok; simp only [Outcome.map] at hok; exact Outcome.noConfusion hok
    | ok r =>
      rw [hj] at hok
      simp only [Outcome.map] at hok
      have hbs : bs = r.1 ++ v_base_field.drop (product comm_key) :=
        (congrArg Prod.fst (Outcome.ok.inj hok)).symm
      have hr : r.1.length = product comm_key := by
        cases hb : v_base_field with
        | nil => rw [hb] at hn; simp at hn
        | cons meta rest =>
          have ht : (meta :: rest).take (product comm_key) = meta :: rest.take p := by
            rw [hp, List.take_succ_cons]
          rw [hb, ht] at hj h2
          simp only [join_field, join_field_to_barrier] at hj
          by_cases hdef : divisions_defined env.comm_dim comm_key
          swap
          · simp only [if_neg hdef] at hj
            exact Outcome.noConfusion hj
          simp only [if_pos hdef] at hj
          cases hc : join_recv_cycles rankOf env net comm_key (meta :: rest.take p)
              (product comm_key) with
          | none => rw [hc] at hj; exact Outcome.noConfusion hj
          | some l =>
            rw [hc] at hj
            simp only at hj
            cases all_arrive with
            | false => exact Outcome.noConfusion hj
            | true =>
              have hj2 : Outcome.ok (l, join_field_posts rankOf env (meta :: rest.take p)
                  collect_field comm_key) = Outcome.ok r := hj
              rw [← Outcome.ok.inj hj2]
              exact h2 l hc
      subst hbs
      refine ⟨?_, ?_⟩
      · rw [List.length_append, List.length_drop, hr]; omega
      · intro k hk
        rw [List.getElem?_append_right (by omega), hr, List.getElem?_drop]
        congr 1
        omega

theorem surplus_fields_untouched_witness :
    (demoKey.positive ∧ product demoKey < (surplusWorld.base ⟨0, 0, 0, 0⟩).length) ∧
    (∃ r, join_all (lex_rank_from_coords_t demoGrid) demoGrid demoKey
        (after_split (lex_rank_from_coords_t demoGrid) demoGrid demoKey surplusWorld)
        ⟨0, 0, 0, 0⟩ = Outcome.ok r ∧ r.1.length = 3) ∧
    ((split_field_posts (lex_rank_from_coords_t demoGrid)
        (envOf (lex_rank_from_coords_t demoGrid) demoGrid ⟨0, 0, 0, 0⟩)
        (surplusWorld.base ⟨0, 0, 0, 0⟩) demoKey).map Msg.payload
      = ((surplusWorld.base ⟨0, 0, 0, 0⟩).take (product demoKey)).map
          LatticeField.copy_to_buffer ∧
    split_field_posts (lex_rank_from_coords_t demoGrid)
        (envOf (lex_rank_from_coords_t demoGrid) demoGrid ⟨0, 0, 0, 0⟩)
        (surplusWorld.base ⟨0, 0, 0, 0⟩) demoKey
      = split_field_posts (lex_rank_from_coords_t demoGrid)
        (envOf (lex_rank_from_coords_t demoGrid) demoGrid ⟨0, 0, 0, 0⟩)
        ((surplusWorld.base ⟨0, 0, 0, 0⟩).take (product demoKey)) demoKey ∧
    (∀ net all_arrive, split_field (lex_rank_from_coords_t demoGrid)
        (envOf (lex_rank_from_coords_t demoGrid) demoGrid ⟨0, 0, 0, 0⟩) net all_arrive
        (surplusWorld.collect ⟨0, 0, 0, 0⟩) (surplusWorld.base ⟨0, 0, 0, 0⟩) demoKey
      = split_field (lex_rank_from_coords_t demoGrid)
        (envOf (lex_rank_from_coords_t demoGrid) demoGrid ⟨0, 0, 0, 0⟩) net all_arrive
        (surplusWorld.collect ⟨0, 0, 0, 0⟩)
        ((surplusWorld.base ⟨0, 0, 0, 0⟩).take (product demoKey)) demoKey) ∧
    join_field_posts (lex_rank_from_coords_t demoGrid)
        (envOf (lex_rank_from_coords_t demoGrid) demoGrid ⟨0, 0, 0, 0⟩)
        (surplusWorld.base ⟨0, 0, 0, 0⟩) (surplusWorld.collect ⟨0, 0, 0, 0⟩) demoKey
      = join_field_posts (lex_rank_from_coords_t demoGrid)
        (envOf (lex_rank_from_coords_t demoGrid) demoGrid ⟨0, 0, 0, 0⟩)
        ((surplusWorld.base ⟨0, 0, 0, 0⟩).take (product demoKey))
        (surplusWorld.collect ⟨0, 0, 0, 0⟩) demoKey ∧
    (∀ net all_arrive, join_field (lex_rank_from_coords_t demoGrid)
        (envOf (lex_rank_from_coords_t demoGrid) demoGrid ⟨0, 0, 0, 0⟩) net all_arrive
        (surplusWorld.base ⟨0, 0, 0, 0⟩) (surplusWorld.collect ⟨0, 0, 0, 0⟩) demoKey
      = (join_field (lex_rank_from_coords_t demoGrid)
            (envOf (lex_rank_from_coords_t demoGrid) demoGrid ⟨0, 0, 0, 0⟩) net all_arrive
            ((surplusWorld.base ⟨0, 0, 0, 0⟩).take (product demoKey))
            (surplusWorld.collect ⟨0, 0, 0, 0⟩) demoKey).map
          (fun r => (r.1 ++ (surplusWorld.base ⟨0, 0, 0, 0⟩).drop (product demoKey), r.2))) ∧
    (∀ net all_arrive bs posts, join_field (lex_rank_from_coords_t demoGrid)
        (envOf (lex_rank_from_coords_t demoGrid) demoGrid ⟨0, 0, 0, 0⟩) net all_arrive
        (surplusWorld.base ⟨0, 0, 0, 0⟩) (surplusWorld.collect ⟨0, 0, 0, 0⟩) demoKey
        = Outcome.ok (bs, posts) →
      bs.length = (surplusWorld.base ⟨0, 0, 0, 0⟩).length ∧
      ∀ k, product demoKey ≤ k → bs[k]? = (surplusWorld.base ⟨0, 0, 0, 0⟩)[k]?)) :=
  ⟨⟨by decide, by decide⟩, ⟨_, rfl, rfl⟩,
   surplus_fields_untouched (lex_rank_from_coords_t demoGrid)
    (envOf (lex_rank_from_coords_t demoGrid) demoGrid ⟨0, 0, 0, 0⟩)
    (surplusWorld.collect ⟨0, 0, 0, 0⟩) (surplusWorld.base ⟨0, 0, 0, 0⟩) demoKey
    (by decide) (by decide)⟩

/-! ## The second scenario of the spec -/

theorem rankIdWorld_wellFormed (X : CommKey) :
    WellFormed demoGrid demoKey X 2 (rankIdWorld X) := by
  intro c _
  refine ⟨rfl, ?_, rfl⟩
  intro f hf
  simp only [rankIdWorld, List.mem_cons, List.mem_singleton, List.not_mem_nil, or_false] at hf
  rcases hf with rfl | rfl <;> rfl

/-- C20, amended (second scenario of the spec): on the `2x1x1x1` process grid
with `K = (2,1,1,1)` and two base fields per rank of local extents `X`, each
holding the rank id at every site, `split_field` returns on rank 0 with a
collect field of extents `K * X` whose lower-x half (sites with `x < X[0]`,
the block at offset 0) is filled with `0` and whose upper-x half (sites with
`x ≥ X[0]`, the block at x-offset `X[0]`) is filled with `1`. -/
theorem scenario_two_halves (X : CommKey) :
    ∃ cf posts, split_all (lex_rank_from_coords_t demoGrid) demoGrid demoKey (rankIdWorld X)
        ⟨0, 0, 0, 0⟩ = Outcome.ok (cf, posts) ∧ cf.X = demoKey * X ∧
      ∀ x : CommKey, x.inBox (demoKey * X) →
        (x.c0 < X.c0 → cf.data x = 0) ∧ (X.c0 ≤ x.c0 → cf.data x = 1) := by
  obtain ⟨cf, posts, hok, hcX, hblocks⟩ := split_all_ok (lex_rank_from_coords_t demoGrid)
    demoGrid demoKey X 2 (rankIdWorld X) (by decide) (by decide)
    (lex_rank_from_coords_t_injective demoGrid) (by decide) (rankIdWorld_wellFormed X)
    ⟨0, 0, 0, 0⟩ (by decide)
  refine ⟨cf, posts, hok, hcX, ?_⟩
  intro x hx
  obtain ⟨h0, h1, h2, h3⟩ := hx
  simp only [CommKey.mul_c0, CommKey.mul_c1, CommKey.mul_c2, CommKey.mul_c3, demoKey] at h0 h1 h2 h3
  constructor
  · intro hlt
    obtain ⟨f, hf, hdata⟩ := hblocks 0 (by decide)
    have hfd : ∀ y, f.data y = 0 := by
      have e : f = ⟨X, fun _ => lex_rank_from_coords_t demoGrid
          (split_src_idx demoGrid ⟨0, 0, 0, 0⟩ demoKey 0)⟩ := by
        simp only [rankIdWorld] at hf
        exact (Option.some.inj hf).symm
      intro y
      rw [e]
      rfl
    have hxin : x.inBox X := ⟨hlt, by omega, by omega, by omega⟩
    have := hdata x hxin
    rw [hfd] at this
    rw [← this]
    congr 1
    rw [CommKey.ext_iff4]
    simp [coordinate_from_index, demoKey]
  · intro hge
    obtain ⟨f, hf, hdata⟩ := hblocks 1 (by decide)
    have hfd : ∀ y, f.data y = 1 := by
      have e : f = ⟨X, fun _ => lex_rank_from_coords_t demoGrid
          (split_src_idx demoGrid ⟨0, 0, 0, 0⟩ demoKey 1)⟩ := by
        simp only [rankIdWorld] at hf
        exact (Option.some.inj hf).symm
      intro y
      rw [e]
      rfl
    have hxin : (⟨x.c0 - X.c0, x.c1, x.c2, x.c3⟩ : CommKey).inBox X :=
      ⟨by show x.c0 - X.c0 < X.c0; omega, by show x.c1 < X.c1; omega,
       by show x.c2 < X.c2; omega, by show x.c3 < X.c3; omega⟩
    have := hdata _ hxin
    rw [hfd] at this
    rw [← this]
    congr 1
    rw [CommKey.ext_iff4]
    simp [coordinate_from_index, demoKey]
    omega

theorem scenario_two_halves_witness :
    ∃ cf posts, split_all (lex_rank_from_coords_t demoGrid) demoGrid demoKey
        (rankIdWorld ⟨2, 2, 2, 2⟩) ⟨0, 0, 0, 0⟩ = Outcome.ok (cf, posts) ∧
      cf.X = demoKey * ⟨2, 2, 2, 2⟩ ∧
      ∀ x : CommKey, x.inBox (demoKey * ⟨2, 2, 2, 2⟩) →
        (x.c0 < (⟨2, 2, 2, 2⟩ : CommKey).c0 → cf.data x = 0) ∧
        ((⟨2, 2, 2, 2⟩ : CommKey).c0 ≤ x.c0 → cf.data x = 1) :=
  scenario_two_halves ⟨2, 2, 2, 2⟩

/-- C20 as stated fails: with local extents `X = (2,2,2,2)`, after
`split_field` the collect field on rank 0 holds `0`, not `1`, at the site
`(0,0,0,0)` of its lower-x half, and `1`, not `0`, at the site `(2,0,0,0)` of
its upper-x half. -/
theorem scenario_two_counterexample :
    ∃ cf posts, split_all (lex_rank_from_coords_t demoGrid) demoGrid demoKey
        (rankIdWorld ⟨2, 2, 2, 2⟩) ⟨0, 0, 0, 0⟩ = Outcome.ok (cf, posts) ∧
      (cf.data ⟨0, 0, 0, 0⟩ = 0 ∧ cf.data ⟨0, 0, 0, 0⟩ ≠ 1) ∧
      (cf.data ⟨2, 0, 0, 0⟩ = 1 ∧ cf.data ⟨2, 0, 0, 0⟩ ≠ 0) := by
  refine ⟨_, _, rfl, ⟨?_, ?_⟩, ⟨?_, ?_⟩⟩ <;> decide

/-! ## Index maps, derived grids and rank layouts -/

theorem coordinate_from_index_weights (i : Nat) (dim : CommKey) (h : i < product dim) :
    i = (coordinate_from_index i dim).c0 + dim.c0 * ((coordinate_from_index i dim).c1
      + dim.c1 * ((coordinate_from_index i dim).c2
        + dim.c2 * (coordinate_from_index i dim).c3)) := by
  have e := index_coordinate i dim h
  unfold index_from_coordinate at e
  calc i = _ := e.symm
    _ = _ := by ring

theorem coordinate_from_index_succ (i : Nat) (dim : CommKey)
    (h0 : (coordinate_from_index i dim).c0 + 1 < dim.c0) :
    coordinate_from_index (i + 1) dim
      = ⟨(coordinate_from_index i dim).c0 + 1, (coordinate_from_index i dim).c1,
          (coordinate_from_index i dim).c2, (coordinate_from_index i dim).c3⟩ := by
  simp only [coordinate_from_index] at h0 ⊢
  have e := Nat.div_add_mod i dim.c0
  have e1 : i + 1 = (i / dim.c0) * dim.c0 + (i % dim.c0 + 1) := by
    rw [Nat.mul_comm]; omega
  have s := digit_step (i / dim.c0) dim.c0 (i % dim.c0 + 1) h0
  rw [e1, s.1, s.2]

/-- C21 (mixed-radix unravel): for `dim` with positive components and
`i < product(dim)`, `coordinate_from_index(i, dim)` lies in the box `dim`,
axis 0 varies fastest (it has weight 1 in
`i = c0 + dim0 * (c1 + dim1 * (c2 + dim2 * c3))`, and stepping `i` by one steps
`c0` by one as long as `c0 + 1 < dim0`), and `index_from_coordinate` takes the
coordinate back to `i`; conversely `coordinate_from_index` takes the index of a
coordinate `c` of the box back to `c`. -/
theorem mixed_radix_unravel (dim : CommKey) (hdim : dim.positive) :
    (∀ i, i < product dim →
      (coordinate_from_index i dim).inBox dim ∧
      index_from_coordinate (coordinate_from_index i dim) dim = i ∧
      i = (coordinate_from_index i dim).c0 + dim.c0 * ((coordinate_from_index i dim).c1
        + dim.c1 * ((coordinate_from_index i dim).c2
          + dim.c2 * (coordinate_from_index i dim).c3)) ∧
      ((coordinate_from_index i dim).c0 + 1 < dim.c0 →
        coordinate_from_index (i + 1) dim
          = ⟨(coordinate_from_index i dim).c0 + 1, (coordinate_from_index i dim).c1,
              (coordinate_from_index i dim).c2, (coordinate_from_index i dim).c3⟩)) ∧
    (∀ c : CommKey, c.inBox dim →
      index_from_coordinate c dim < product dim ∧
      coordinate_from_index (index_from_coordinate c dim) dim = c) :=
  ⟨fun i hi => ⟨coordinate_from_index_inBox i dim hdim, index_coordinate i dim hi,
      coordinate_from_index_weights i dim hi, coordinate_from_index_succ i dim⟩,
   fun c hc => ⟨index_lt c dim hc, coordinate_index c dim hc⟩⟩

theorem mixed_radix_unravel_witness :
    (⟨2, 3, 2, 2⟩ : CommKey).positive ∧
    ((∀ i, i < product ⟨2, 3, 2, 2⟩ →
      (coordinate_from_index i ⟨2, 3, 2, 2⟩).inBox ⟨2, 3, 2, 2⟩ ∧
      index_from_coordinate (coordinate_from_index i ⟨2, 3, 2, 2⟩) ⟨2, 3, 2, 2⟩ = i ∧
      i = (coordinate_from_index i ⟨2, 3, 2, 2⟩).c0
        + (⟨2, 3, 2, 2⟩ : CommKey).c0 * ((coordinate_from_index i ⟨2, 3, 2, 2⟩).c1
        + (⟨2, 3, 2, 2⟩ : CommKey).c1 * ((coordinate_from_index i ⟨2, 3, 2, 2⟩).c2
          + (⟨2, 3, 2, 2⟩ : CommKey).c2 * (coordinate_from_index i ⟨2, 3, 2, 2⟩).c3)) ∧
      ((coordinate_from_index i ⟨2, 3, 2, 2⟩).c0 + 1 < (⟨2, 3, 2, 2⟩ : CommKey).c0 →
        coordinate_from_index (i + 1) ⟨2, 3, 2, 2⟩
          = ⟨(coordinate_from_index i ⟨2, 3, 2, 2⟩).c0 + 1,
              (coordinate_from_index i ⟨2, 3, 2, 2⟩).c1,
              (coordinate_from_index i ⟨2, 3, 2, 2⟩).c2,
              (coordinate_from_index i ⟨2, 3, 2, 2⟩).c3⟩)) ∧
    (∀ c : CommKey, c.inBox ⟨2, 3, 2, 2⟩ →
      index_from_coordinate c ⟨2, 3, 2, 2⟩ < product ⟨2, 3, 2, 2⟩ ∧
      coordinate_from_index (index_from_coordinate c ⟨2, 3, 2, 2⟩) ⟨2, 3, 2, 2⟩ = c)) ∧
    coordinate_from_index 7 ⟨2, 3, 2, 2⟩ = ⟨1, 0, 1, 0⟩ :=
  ⟨by decide, mixed_radix_unravel ⟨2, 3, 2, 2⟩ (by decide), by decide⟩

theorem split_field_posts_length {V : Type} (rankOf : CommKey → Nat) (env : CommEnv)
    (v_base_field : List (LatticeField V)) (comm_key : CommKey) (hne : v_base_field ≠ []) :
    (split_field_posts rankOf env v_base_field comm_key).length = product comm_key := by
  cases v_base_field with
  | nil => exact absurd rfl hne
  | cons meta rest => simp [split_field_posts]

theorem join_field_posts_length {V : Type} [Inhabited V] (rankOf : CommKey → Nat)
    (env : CommEnv) (v_base_field : List (LatticeField V)) (collect_field : LatticeField V)
    (comm_key : CommKey) (hne : v_base_field ≠ []) :
    (join_field_posts rankOf env v_base_field collect_field comm_key).length
      = product comm_key := by
  cases v_base_field with
  | nil => exact absurd rfl hne
  | cons meta rest =>
    simp only [join_field_posts]
    exact join_send_cycles_length _ _ _ _ _ _ _

theorem field_recvs_length {V : Type} (rankOf : CommKey → Nat) (env : CommEnv)
    (v_base_field : List (LatticeField V)) (comm_key : CommKey) (hne : v_base_field ≠ []) :
    (split_field_recvs rankOf env v_base_field comm_key).length = product comm_key ∧
    (join_field_recvs rankOf env v_base_field comm_key).length = product comm_key := by
  cases v_base_field with
  | nil => exact absurd rfl hne
  | cons meta rest => simp [split_field_recvs, join_field_recvs]

/-- The wait of pass `i` of the receive loop of `split_field` is the wait for
the receive that `split_recv_decl` gives. -/
theorem split_recv_uses_decl {V : Type} (rankOf : CommKey → Nat) (env : CommEnv)
    (net : List (Msg V)) (meta : LatticeField V) (comm_key : CommKey)
    (st : LatticeField V × LatticeField V) (i : Nat) :
    split_recv rankOf env net meta comm_key st i
      = (comm_wait net (split_recv_decl rankOf env comm_key i).1 env.comm_rank
          (split_recv_decl rankOf env comm_key i).2).map
        (fun recv_buffer_h =>
          (copyFieldOffset st.1 (st.2.copy_from_buffer recv_buffer_h)
            (coordinate_from_index i comm_key * meta.X),
           st.2.copy_from_buffer recv_buffer_h)) := by
  simp only [split_recv, split_recv_decl]
  cases comm_wait net (rankOf (split_src_idx env.comm_dim env.comm_coord comm_key i))
    env.comm_rank (rankOf (split_src_idx env.comm_dim env.comm_coord comm_key i)
      * product env.comm_dim + env.comm_rank) <;> rfl

/-- The wait of pass `i` of the receive loop of `join_field` is the wait for
the receive that `join_recv_decl` gives. -/
theorem join_recv_uses_decl {V : Type} (rankOf : CommKey → Nat) (env : CommEnv)
    (net : List (Msg V)) (comm_key : CommKey) (v_base_field : List (LatticeField V)) (i : Nat) :
    join_recv rankOf env net comm_key v_base_field i
      = (comm_wait net (join_recv_decl rankOf env comm_key i).1 env.comm_rank
          (join_recv_decl rankOf env comm_key i).2).bind
        (fun recv_buffer_h =>
          (v_base_field[i % v_base_field.length]?).map
            (fun f => v_base_field.set (i % v_base_field.length)
              (f.copy_from_buffer recv_buffer_h))) := by
  simp only [join_recv, join_recv_decl]
  cases comm_wait net (rankOf (join_src_idx env.comm_dim env.comm_coord comm_key i))
    env.comm_rank (rankOf (join_src_idx env.comm_dim env.comm_coord comm_key i)
      * product env.comm_dim + env.comm_rank) with
  | none => rfl
  | some b =>
    simp only [Option.some_bind]
    cases v_base_field[i % v_base_field.length]? <;> rfl

/-- C22 (derived grids): for a process grid `P` (positive dimensions) and a key
`K` with positive components dividing `P` componentwise,
`block_dim = P / (P / K)` equals `K`, `grid_dim * block_dim = P`, and a call
with a non-empty field vector makes `product(K)` send passes and declares
`product(K)` receives, in `split_field` and in `join_field`. -/
theorem derived_grids {V : Type} [Inhabited V] (rankOf : CommKey → Nat) (P K : CommKey)
    (c : CommKey) (v_base_field : List (LatticeField V)) (collect_field : LatticeField V)
    (hK : K.positive) (hP : P.positive) (hdiv : K.divides P) (hne : v_base_field ≠ []) :
    P / (P / K) = K ∧ (P / K) * (P / (P / K)) = P ∧
    (split_field_posts rankOf (envOf rankOf P c) v_base_field K).length = product K ∧
    (split_field_recvs rankOf (envOf rankOf P c) v_base_field K).length = product K ∧
    (join_field_posts rankOf (envOf rankOf P c) v_base_field collect_field K).length
      = product K ∧
    (join_field_recvs rankOf (envOf rankOf P c) v_base_field K).length = product K ∧
    product K = product (P / (P / K)) := by
  have hb := block_dim_eq hK hP hdiv
  have hr := field_recvs_length rankOf (envOf rankOf P c) v_base_field K hne
  refine ⟨hb, ?_, split_field_posts_length _ _ _ _ hne, hr.1,
    join_field_posts_length _ _ _ _ _ hne, hr.2, by rw [hb]⟩
  rw [hb, CommKey.ext_iff4]
  obtain ⟨d0, d1, d2, d3⟩ := hdiv
  exact ⟨nat_grid_mul d0, nat_grid_mul d1, nat_grid_mul d2, nat_grid_mul d3⟩

theorem derived_grids_witness :
    (demoKey.positive ∧ demoGrid.positive ∧ demoKey.divides demoGrid ∧
      demoWorld.base ⟨1, 0, 0, 0⟩ ≠ []) ∧
    (demoGrid / (demoGrid / demoKey) = demoKey ∧
    (demoGrid / demoKey) * (demoGrid / (demoGrid / demoKey)) = demoGrid ∧
    (split_field_posts (lex_rank_from_coords_t demoGrid)
      (envOf (lex_rank_from_coords_t demoGrid) demoGrid ⟨1, 0, 0, 0⟩)
      (demoWorld.base ⟨1, 0, 0, 0⟩) demoKey).length = product demoKey ∧
    (split_field_recvs (lex_rank_from_coords_t demoGrid)
      (envOf (lex_rank_from_coords_t demoGrid) demoGrid ⟨1, 0, 0, 0⟩)
      (demoWorld.base ⟨1, 0, 0, 0⟩) demoKey).length = product demoKey ∧
    (join_field_posts (lex_rank_from_coords_t demoGrid)
      (envOf (lex_rank_from_coords_t demoGrid) demoGrid ⟨1, 0, 0, 0⟩)
      (demoWorld.base ⟨1, 0, 0, 0⟩) (demoWorld.collect ⟨1, 0, 0, 0⟩) demoKey).length
      = product demoKey ∧
    (join_field_recvs (lex_rank_from_coords_t demoGrid)
      (envOf (lex_rank_from_coords_t demoGrid) demoGrid ⟨1, 0, 0, 0⟩)
      (demoWorld.base ⟨1, 0, 0, 0⟩) demoKey).length = product demoKey ∧
    product demoKey = product (demoGrid / (demoGrid / demoKey))) :=
  ⟨⟨by decide, by decide, by decide, by simp [demoWorld]⟩,
   derived_grids (lex_rank_from_coords_t demoGrid) demoGrid demoKey ⟨1, 0, 0, 0⟩
    (demoWorld.base ⟨1, 0, 0, 0⟩) (demoWorld.collect ⟨1, 0, 0, 0⟩)
    (by decide) (by decide) (by decide) (by simp [demoWorld])⟩

/-! ## The two rank layouts of the test harness -/

theorem lex_rank_from_coords_t_eq_index (g c : CommKey) :
    lex_rank_from_coords_t g c
      = index_from_coordinate ⟨c.c3, c.c2, c.c1, c.c0⟩ ⟨g.c3, g.c2, g.c1, g.c0⟩ := by
  simp only [lex_rank_from_coords_t, index_from_coordinate]
  ring

theorem lex_rank_from_coords_x_eq_index (g c : CommKey) :
    lex_rank_from_coords_x g c = index_from_coordinate c g := by
  simp only [lex_rank_from_coords_x, index_from_coordinate]
  ring

theorem product_reverse (g : CommKey) : product ⟨g.c3, g.c2, g.c1, g.c0⟩ = product g := by
  simp only [product]
  ring

/-- C23 (rank layout): `lex_rank_from_coords_t` computes
`((c0*g1 + c1)*g2 + c2)*g3 + c3` (last axis fastest) and, on the coordinates of
the box of a grid `g` with positive sizes, is injective with values below
`g0*g1*g2*g3` and reaches every such value; `lex_rank_from_coords_x` computes
`((c3*g2 + c2)*g1 + c1)*g0 + c0` (axis 0 fastest, the inverse of
`coordinate_from_index`) and is a bijection between the same sets. -/
theorem rank_layout (g : CommKey) (hg : g.positive) :
    (∀ c : CommKey, lex_rank_from_coords_t g c
      = ((c.c0 * g.c1 + c.c1) * g.c2 + c.c2) * g.c3 + c.c3) ∧
    (∀ c : CommKey, c.inBox g → lex_rank_from_coords_t g c < g.c0 * g.c1 * g.c2 * g.c3) ∧
    (∀ a b : CommKey, a.inBox g → b.inBox g →
      lex_rank_from_coords_t g a = lex_rank_from_coords_t g b → a = b) ∧
    (∀ r, r < g.c0 * g.c1 * g.c2 * g.c3 →
      ∃ c : CommKey, c.inBox g ∧ lex_rank_from_coords_t g c = r) ∧
    (∀ c : CommKey, lex_rank_from_coords_x g c
      = ((c.c3 * g.c2 + c.c2) * g.c1 + c.c1) * g.c0 + c.c0) ∧
    (∀ c : CommKey, c.inBox g → lex_rank_from_coords_x g c < g.c0 * g.c1 * g.c2 * g.c3) ∧
    (∀ a b : CommKey, a.inBox g → b.inBox g →
      lex_rank_from_coords_x g a = lex_rank_from_coords_x g b → a = b) ∧
    (∀ r, r < g.c0 * g.c1 * g.c2 * g.c3 →
      ∃ c : CommKey, c.inBox g ∧ lex_rank_from_coords_x g c = r) ∧
    (∀ r, r < g.c0 * g.c1 * g.c2 * g.c3 →
      lex_rank_from_coords_x g (coordinate_from_index r g) = r) := by
  obtain ⟨g0, g1, g2, g3⟩ := hg
  have hrev : (⟨g.c3, g.c2, g.c1, g.c0⟩ : CommKey).positive := ⟨g3, g2, g1, g0⟩
  have hprod : product g = g.c0 * g.c1 * g.c2 * g.c3 := rfl
  refine ⟨?_, ?_, ?_, ?_, ?_, ?_, ?_, ?_, ?_⟩
  · intro c
    simp only [lex_rank_from_coords_t]
    ring
  · intro c hc
    rw [← hprod]
    exact lex_rank_from_coords_t_bounded g c hc
  · exact lex_rank_from_coords_t_injective g
  · intro r hr
    rw [← hprod, ← product_reverse g] at hr
    have hin := coordinate_from_index_inBox r ⟨g.c3, g.c2, g.c1, g.c0⟩ hrev
    obtain ⟨h0, h1, h2, h3⟩ := hin
    refine ⟨⟨(coordinate_from_index r ⟨g.c3, g.c2, g.c1, g.c0⟩).c3,
      (coordinate_from_index r ⟨g.c3, g.c2, g.c1, g.c0⟩).c2,
      (coordinate_from_index r ⟨g.c3, g.c2, g.c1, g.c0⟩).c1,
      (coordinate_from_index r ⟨g.c3, g.c2, g.c1, g.c0⟩).c0⟩, ⟨h3, h2, h1, h0⟩, ?_⟩
    rw [lex_rank_from_coords_t_eq_index]
    exact index_coordinate r _ hr
  · intro c
    simp only [lex_rank_from_coords_x]
    ring
  · intro c hc
    rw [← hprod, lex_rank_from_coords_x_eq_index]
    exact index_lt c g hc
  · intro a b ha hb h
    rw [lex_rank_from_coords_x_eq_index, lex_rank_from_coords_x_eq_index] at h
    rw [← coordinate_index a g ha, ← coordinate_index b g hb, h]
  · intro r hr
    rw [← hprod] at hr
    exact ⟨coordinate_from_index r g, coordinate_from_index_inBox r g ⟨g0, g1, g2, g3⟩,
      by rw [lex_rank_from_coords_x_eq_index]; exact index_coordinate r g hr⟩
  · intro r hr
    rw [← hprod] at hr
    rw [lex_rank_from_coords_x_eq_index]
    exact index_coordinate r g hr

theorem rank_layout_witness :
    (⟨2, 3, 2, 2⟩ : CommKey).positive ∧
    lex_rank_from_coords_t ⟨2, 3, 2, 2⟩ ⟨1, 2, 0, 1⟩ = 21 ∧
    lex_rank_from_coords_x ⟨2, 3, 2, 2⟩ ⟨1, 2, 0, 1⟩ = 17 ∧
    (∀ a b : CommKey, a.inBox ⟨2, 3, 2, 2⟩ → b.inBox ⟨2, 3, 2, 2⟩ →
      lex_rank_from_coords_t ⟨2, 3, 2, 2⟩ a = lex_rank_from_coords_t ⟨2, 3, 2, 2⟩ b → a = b) :=
  ⟨by decide, by decide, by decide, (rank_layout ⟨2, 3, 2, 2⟩ (by decide)).2.2.1⟩

/-! ## Matching of sends and receives -/

theorem join_src_idx_eq_split_dst (P d K : CommKey) (i : Nat) :
    join_src_idx P d K i = split_dst_idx P d K i := rfl

theorem join_dst_idx_eq_split_src (P s K : CommKey) (i : Nat) :
    join_dst_idx P s K i = split_src_idx P s K i := rfl

theorem split_matched (rankOf : CommKey → Nat) (P K : CommKey) (hK : K.positive)
    (hdiv : K.divides P) (hinj : RankInjective rankOf P) :
    SendRecvMatched rankOf P (product K)
      (fun d i => (rankOf (split_src_idx P d K i),
        rankOf (split_src_idx P d K i) * product P + rankOf d))
      (fun s j => (rankOf (split_dst_idx P s K j),
        rankOf s * product P + rankOf (split_dst_idx P s K j))) := by
  intro s d hs hd
  have hP := positive_of_inBox hd
  refine ⟨⟨?_, ?_⟩, ?_, ?_, ?_, ?_⟩
  · rintro ⟨i, _, hi⟩
    have hsrc : split_src_idx P d K i = s :=
      hinj _ _ (split_src_idx_spec hK hP hdiv d i).1 hs hi
    refine ⟨index_from_coordinate (d / (P / K)) K, index_lt _ _ (div_grid_inBox hdiv hd), ?_⟩
    simp only
    rw [← hsrc, split_dst_of_src hK hdiv d hd i]
  · rintro ⟨j, _, hj⟩
    have hdst : split_dst_idx P s K j = d :=
      hinj _ _ (split_dst_idx_spec hK hdiv s hs j).1 hd hj
    refine ⟨index_from_coordinate (s % K) K, index_lt _ _ (mod_inBox hK), ?_⟩
    simp only
    rw [← hdst, split_src_of_dst hK hdiv s hs j]
  · intro i i2 hi hi2 h1 h2
    have e1 := hinj _ _ (split_src_idx_spec hK hP hdiv d i).1 hs h1
    have e2 := hinj _ _ (split_src_idx_spec hK hP hdiv d i2).1 hs h2
    exact split_src_idx_injective hK hdiv d hd i i2 hi hi2 (e1.trans e2.symm)
  · intro j j2 hj hj2 h1 h2
    have e1 := hinj _ _ (split_dst_idx_spec hK hdiv s hs j).1 hd h1
    have e2 := hinj _ _ (split_dst_idx_spec hK hdiv s hs j2).1 hd h2
    exact split_dst_idx_injective hK hdiv s hs j j2 hj hj2 (e1.trans e2.symm)
  · intro i _ h
    simp only at h ⊢
    rw [h]
  · intro j _ h
    simp only at h ⊢
    rw [h]

theorem join_matched (rankOf : CommKey → Nat) (P K : CommKey) (hK : K.positive)
    (hdiv : K.divides P) (hinj : RankInjective rankOf P) :
    SendRecvMatched rankOf P (product K)
      (fun d i => (rankOf (join_src_idx P d K i),
        rankOf (join_src_idx P d K i) * product P + rankOf d))
      (fun s j => (rankOf (join_dst_idx P s K j),
        rankOf s * product P + rankOf (join_dst_idx P s K j))) := by
  intro s d hs hd
  have hP := positive_of_inBox hd
  simp only [join_src_idx_eq_split_dst, join_dst_idx_eq_split_src]
  refine ⟨⟨?_, ?_⟩, ?_, ?_, ?_, ?_⟩
  · rintro ⟨i, _, hi⟩
    have hsrc : split_dst_idx P d K i = s :=
      hinj _ _ (split_dst_idx_spec hK hdiv d hd i).1 hs hi
    refine ⟨index_from_coordinate (d % K) K, index_lt _ _ (mod_inBox hK), ?_⟩
    rw [← hsrc, split_src_of_dst hK hdiv d hd i]
  · rintro ⟨j, _, hj⟩
    have hdst : split_src_idx P s K j = d :=
      hinj _ _ (split_src_idx_spec hK hP hdiv s j).1 hd hj
    refine ⟨index_from_coordinate (s / (P / K)) K, index_lt _ _ (div_grid_inBox hdiv hs), ?_⟩
    rw [← hdst, split_dst_of_src hK hdiv s hs j]
  · intro i i2 hi hi2 h1 h2
    have e1 := hinj _ _ (split_dst_idx_spec hK hdiv d hd i).1 hs h1
    have e2 := hinj _ _ (split_dst_idx_spec hK hdiv d hd i2).1 hs h2
    exact split_dst_idx_injective hK hdiv d hd i i2 hi hi2 (e1.trans e2.symm)
  · intro j j2 hj hj2 h1 h2
    have e1 := hinj _ _ (split_src_idx_spec hK hP hdiv s j).1 hd h1
    have e2 := hinj _ _ (split_src_idx_spec hK hP hdiv s j2).1 hd h2
    exact split_src_idx_injective hK hdiv s hs j j2 hj hj2 (e1.trans e2.symm)
  · intro i _ h
    rw [h]
  · intro j _ h
    rw [h]

/-- Every message posted by a split is the one that some receive of its
destination rank is declared for. -/
theorem split_net_received {V : Type} (rankOf : CommKey → Nat) (P K : CommKey) (w : World V)
    (hK : K.positive) (hdiv : K.divides P) (m : Msg V) (hm : m ∈ split_net rankOf P K w) :
    ∃ d i, d.inBox P ∧ i < product K ∧ rankOf d = m.dst ∧
      split_recv_decl rankOf (envOf rankOf P d) K i = (m.src, m.tag) := by
  obtain ⟨_, c, j, meta, rest, hc, _, _, rfl⟩ := (mem_split_net rankOf P K w m).1 hm
  have hspec := split_dst_idx_spec hK hdiv c hc j
  refine ⟨split_dst_idx P c K j, index_from_coordinate (c % K) K, hspec.1,
    index_lt _ _ (mod_inBox hK), rfl, ?_⟩
  simp only [split_recv_decl, envOf, split_send]
  rw [split_src_of_dst hK hdiv c hc j]

/-- Every message posted by a join is the one that some receive of its
destination rank is declared for. -/
theorem join_net_received {V : Type} [Inhabited V] (rankOf : CommKey → Nat) (P K : CommKey)
    (w : World V) (hK : K.positive) (hdiv : K.divides P) (m : Msg V)
    (hm : m ∈ join_net rankOf P K w) :
    ∃ d i, d.inBox P ∧ i < product K ∧ rankOf d = m.dst ∧
      join_recv_decl rankOf (envOf rankOf P d) K i = (m.src, m.tag) := by
  obtain ⟨_, c, j, meta, rest, hc, _, _, rfl⟩ := (mem_join_net rankOf P K w m).1 hm
  have hP := positive_of_inBox hc
  have hspec := split_src_idx_spec hK hP hdiv c j
  refine ⟨join_dst_idx P c K j, index_from_coordinate (c / (P / K)) K, hspec.1,
    index_lt _ _ (div_grid_inBox hdiv hc), rfl, ?_⟩
  simp only [join_recv_decl, envOf, join_send, join_src_idx_eq_split_dst,
    join_dst_idx_eq_split_src]
  rw [split_dst_of_src hK hdiv c hc j]

/-- C28 (send/receive matching): with `K` positive and dividing `P` and an
injective rank map, in `split_field` the rank at `d` declares a receive from
the rank at `s` if and only if the rank at `s` posts a send to the rank at
`d`, each in exactly one pass, and both sides use the tag
`rank(s) * total_rank + rank(d)`; the same holds in `join_field`. When every
rank holds `n ≥ 1` base fields of the same geometry, every declared receive
completes (its message is in the transport) and every posted message is the
one some receive of its destination rank is declared for, in both
collectives. -/
theorem send_receive_matching {V : Type} [Inhabited V] (rankOf : CommKey → Nat)
    (P K X : CommKey) (n : Nat) (w : World V) (vb : List (LatticeField V))
    (meta collect buffer : LatticeField V) (thread_dim : CommKey)
    (hK : K.positive) (hdiv : K.divides P) (hinj : RankInjective rankOf P) (hn : 1 ≤ n)
    (hw : WellFormed P K X n w) :
    SendRecvMatched rankOf P (product K)
      (fun d i => split_recv_decl rankOf (envOf rankOf P d) K i)
      (fun s j => ((split_send rankOf (envOf rankOf P s) vb meta K j).dst,
        (split_send rankOf (envOf rankOf P s) vb meta K j).tag)) ∧
    SendRecvMatched rankOf P (product K)
      (fun d i => join_recv_decl rankOf (envOf rankOf P d) K i)
      (fun s j => ((join_send rankOf (envOf rankOf P s) collect thread_dim K buffer j).2.dst,
        (join_send rankOf (envOf rankOf P s) collect thread_dim K buffer j).2.tag)) ∧
    (∀ d : CommKey, d.inBox P → ∀ i, i < product K →
      comm_wait (split_net rankOf P K w) (split_recv_decl rankOf (envOf rankOf P d) K i).1
        (rankOf d) (split_recv_decl rankOf (envOf rankOf P d) K i).2 ≠ none) ∧
    (∀ m ∈ split_net rankOf P K w, ∃ d i, d.inBox P ∧ i < product K ∧ rankOf d = m.dst ∧
      split_recv_decl rankOf (envOf rankOf P d) K i = (m.src, m.tag)) ∧
    (∀ d : CommKey, d.inBox P → ∀ i, i < product K →
      comm_wait (join_net rankOf P K w) (join_recv_decl rankOf (envOf rankOf P d) K i).1
        (rankOf d) (join_recv_decl rankOf (envOf rankOf P d) K i).2 ≠ none) ∧
    (∀ m ∈ join_net rankOf P K w, ∃ d i, d.inBox P ∧ i < product K ∧ rankOf d = m.dst ∧
      join_recv_decl rankOf (envOf rankOf P d) K i = (m.src, m.tag)) := by
  refine ⟨split_matched rankOf P K hK hdiv hinj, join_matched rankOf P K hK hdiv hinj,
    ?_, fun m hm => split_net_received rankOf P K w hK hdiv m hm,
    ?_, fun m hm => join_net_received rankOf P K w hK hdiv m hm⟩
  · intro d hd i _
    obtain ⟨f, _, hwait⟩ := split_wait rankOf P K w hK hdiv hinj (wellFormed_ne_nil hw hn) d hd i
    simp only [split_recv_decl, envOf]
    rw [hwait]
    exact fun h => Option.noConfusion h
  · intro d hd i _
    obtain ⟨bf, _, hwait, _⟩ := join_wait rankOf P K X n w hK hdiv hinj hn hw d hd i
    simp only [join_recv_decl, envOf]
    rw [hwait]
    exact fun h => Option.noConfusion h

theorem send_receive_matching_witness :
    (demoKey.positive ∧ demoKey.divides demoGrid ∧ 1 ≤ 2) ∧
    (split_recv_decl (lex_rank_from_coords_t demoGrid)
      (envOf (lex_rank_from_coords_t demoGrid) demoGrid ⟨0, 0, 0, 0⟩) demoKey 1 = (1, 2) ∧
    (split_send (lex_rank_from_coords_t demoGrid)
      (envOf (lex_rank_from_coords_t demoGrid) demoGrid ⟨1, 0, 0, 0⟩)
      (demoWorld.base ⟨1, 0, 0, 0⟩) (demoWorld.collect ⟨1, 0, 0, 0⟩) demoKey 0).tag = 2) ∧
    (∀ m ∈ split_net (lex_rank_from_coords_t demoGrid) demoGrid demoKey demoWorld,
      ∃ d i, d.inBox demoGrid ∧ i < product demoKey ∧
        lex_rank_from_coords_t demoGrid d = m.dst ∧
        split_recv_decl (lex_rank_from_coords_t demoGrid)
          (envOf (lex_rank_from_coords_t demoGrid) demoGrid d) demoKey i = (m.src, m.tag)) ∧
    (∀ d : CommKey, d.inBox demoGrid → ∀ i, i < product demoKey →
      comm_wait (join_net (lex_rank_from_coords_t demoGrid) demoGrid demoKey demoWorld)
        (join_recv_decl (lex_rank_from_coords_t demoGrid)
          (envOf (lex_rank_from_coords_t demoGrid) demoGrid d) demoKey i).1
        (lex_rank_from_coords_t demoGrid d)
        (join_recv_decl (lex_rank_from_coords_t demoGrid)
          (envOf (lex_rank_from_coords_t demoGrid) demoGrid d) demoKey i).2 ≠ none) :=
  ⟨⟨by decide, by decide, by decide⟩, ⟨by decide, by decide⟩,
   (send_receive_matching (lex_rank_from_coords_t demoGrid) demoGrid demoKey demoExtent 2
      demoWorld (demoWorld.base ⟨1, 0, 0, 0⟩) (demoWorld.collect ⟨1, 0, 0, 0⟩)
      (demoWorld.collect ⟨1, 0, 0, 0⟩) (demoWorld.collect ⟨1, 0, 0, 0⟩) demoExtent
      (by decide) (by decide) (lex_rank_from_coords_t_injective demoGrid) (by decide)
      demoWorld_wellFormed).2.2.2.1,
   (send_receive_matching (lex_rank_from_coords_t demoGrid) demoGrid demoKey demoExtent 2
      demoWorld (demoWorld.base ⟨1, 0, 0, 0⟩) (demoWorld.collect ⟨1, 0, 0, 0⟩)
      (demoWorld.collect ⟨1, 0, 0, 0⟩) (demoWorld.collect ⟨1, 0, 0, 0⟩) demoExtent
      (by decide) (by decide) (lex_rank_from_coords_t_injective demoGrid) (by decide)
      demoWorld_wellFormed).2.2.2.2.1⟩

/-! ## The divisions of the accelerator -/

theorem sigma_step_bounds {K : Type} [LinearOrderedField K] (s1 s : K) (h1 : -1 < s1)
    (h1n : s1 < 0) (hs : -1 < s) :
    2 / s1 - s < -1 ∧ -1 < 1 / (2 / s1 - s) ∧ 1 / (2 / s1 - s) < 0 := by
  have h2 : 2 / s1 < -2 := by
    rw [div_lt_iff_of_neg h1n]
    linarith
  have hden : 2 / s1 - s < -1 := by linarith
  have hden0 : 2 / s1 - s < 0 := by linarith
  refine ⟨hden, ?_, ?_⟩
  · rw [lt_div_iff_of_neg hden0]
    linarith
  · exact one_div_neg.2 hden0

theorem sigma1_bounds {K : Type} [LinearOrderedField K] (amin amax : K) (hmin : 0 < amin)
    (hmax : amin < amax) :
    -1 < -((amax - amin) / 2) / ((amax + amin) / 2) ∧
      -((amax - amin) / 2) / ((amax + amin) / 2) < 0 := by
  have ht : 0 < (amax + amin) / 2 := by linarith
  constructor
  · rw [lt_div_iff₀ ht]
    linarith
  · apply div_neg_of_neg_of_pos _ ht
    linarith

theorem polyOp_loop_sigma_bounds {K V : Type} [LinearOrderedField K] [AddCommGroup V]
    [Module K V] (MdagM : V → V) (delta theta sigma1 : K) (st : PolyState K V)
    (h1 : -1 < sigma1) (h1n : sigma1 < 0) (hs : -1 < st.sigma_old) (hsn : st.sigma_old < 0)
    (k : Nat) :
    -1 < (polyOp_loop MdagM delta theta sigma1 st k).sigma_old ∧
      (polyOp_loop MdagM delta theta sigma1 st k).sigma_old < 0 := by
  induction k with
  | zero => exact ⟨hs, hsn⟩
  | succ k ih =>
    have hb := sigma_step_bounds sigma1 _ h1 h1n ih.1
    simp only [polyOp_loop, polyOp_step]
    exact ⟨hb.2.1, hb.2.2⟩

/-- C29 (no division by zero in the accelerator): for `amax > amin > 0` and
degree `d ≥ 1`, `delta > 0`, `theta > 0`, `sigma_1 = -delta/theta` lies in
`(-1, 0)`; in every pass of the loop (`sigma_old` is `sigma_{k-1}`, the pass
computes `sigma_k`, `k = 2..d`) the denominator `2/sigma_1 - sigma_{k-1}` is
below `-1` and `sigma_k` lies in `(-1, 0)`; and every denominator of a
division that `polyOp` evaluates is non-zero. -/
theorem polyOp_no_division_by_zero {K V : Type} [LinearOrderedField K] [AddCommGroup V]
    [Module K V] (MdagM : V → V) (inp : V) (p : QudaArpackParam K) (hmin : 0 < p.amin)
    (hmax : p.amin < p.amax) (_hdeg : 1 ≤ p.polyDeg) :
    0 < (p.amax - p.amin) / 2 ∧ 0 < (p.amax + p.amin) / 2 ∧
    -1 < -((p.amax - p.amin) / 2) / ((p.amax + p.amin) / 2) ∧
    -((p.amax - p.amin) / 2) / ((p.amax + p.amin) / 2) < 0 ∧
    (∀ k, k < (p.polyDeg - 1).toNat →
      2 / (-((p.amax - p.amin) / 2) / ((p.amax + p.amin) / 2))
        - (polyOp_loop MdagM ((p.amax - p.amin) / 2) ((p.amax + p.amin) / 2)
            (-((p.amax - p.amin) / 2) / ((p.amax + p.amin) / 2))
            { out := blas_axpby 1 inp
                (-((p.amax - p.amin) / 2) / ((p.amax + p.amin) / 2) / ((p.amax - p.amin) / 2))
                (MdagM inp),
              tm1 := inp,
              tm2 := blas_axpby 1 inp
                (-((p.amax - p.amin) / 2) / ((p.amax + p.amin) / 2) / ((p.amax - p.amin) / 2))
                (MdagM inp),
              sigma_old := -((p.amax - p.amin) / 2) / ((p.amax + p.amin) / 2) } k).sigma_old
        < -1 ∧
      -1 < (polyOp_loop MdagM ((p.amax - p.amin) / 2) ((p.amax + p.amin) / 2)
            (-((p.amax - p.amin) / 2) / ((p.amax + p.amin) / 2))
            { out := blas_axpby 1 inp
                (-((p.amax - p.amin) / 2) / ((p.amax + p.amin) / 2) / ((p.amax - p.amin) / 2))
                (MdagM inp),
              tm1 := inp,
              tm2 := blas_axpby 1 inp
                (-((p.amax - p.amin) / 2) / ((p.amax + p.amin) / 2) / ((p.amax - p.amin) / 2))
                (MdagM inp),
              sigma_old := -((p.amax - p.amin) / 2) / ((p.amax + p.amin) / 2) }
            (k + 1)).sigma_old ∧
      (polyOp_loop MdagM ((p.amax - p.amin) / 2) ((p.amax + p.amin) / 2)
            (-((p.amax - p.amin) / 2) / ((p.amax + p.amin) / 2))
            { out := blas_axpby 1 inp
                (-((p.amax - p.amin) / 2) / ((p.amax + p.amin) / 2) / ((p.amax - p.amin) / 2))
                (MdagM inp),
              tm1 := inp,
              tm2 := blas_axpby 1 inp
                (-((p.amax - p.amin) / 2) / ((p.amax + p.amin) / 2) / ((p.amax - p.amin) / 2))
                (MdagM inp),
              sigma_old := -((p.amax - p.amin) / 2) / ((p.amax + p.amin) / 2) }
            (k + 1)).sigma_old < 0) ∧
    (∀ x ∈ polyOp_denominators MdagM inp p, x ≠ 0) := by
  obtain ⟨hd, ht, _⟩ := poly_constants p.amin p.amax hmin hmax
  obtain ⟨hs1, hs1n⟩ := sigma1_bounds p.amin p.amax hmin hmax
  have hloop : ∀ k,
      -1 < (polyOp_loop MdagM ((p.amax - p.amin) / 2) ((p.amax + p.amin) / 2)
            (-((p.amax - p.amin) / 2) / ((p.amax + p.amin) / 2))
            { out := blas_axpby 1 inp
                (-((p.amax - p.amin) / 2) / ((p.amax + p.amin) / 2) / ((p.amax - p.amin) / 2))
                (MdagM inp),
              tm1 := inp,
              tm2 := blas_axpby 1 inp
                (-((p.amax - p.amin) / 2) / ((p.amax + p.amin) / 2) / ((p.amax - p.amin) / 2))
                (MdagM inp),
              sigma_old := -((p.amax - p.amin) / 2) / ((p.amax + p.amin) / 2) } k).sigma_old ∧
      (polyOp_loop MdagM ((p.amax - p.amin) / 2) ((p.amax + p.amin) / 2)
            (-((p.amax - p.amin) / 2) / ((p.amax + p.amin) / 2))
            { out := blas_axpby 1 inp
                (-((p.amax - p.amin) / 2) / ((p.amax + p.amin) / 2) / ((p.amax - p.amin) / 2))
                (MdagM inp),
              tm1 := inp,
              tm2 := blas_axpby 1 inp
                (-((p.amax - p.amin) / 2) / ((p.amax + p.amin) / 2) / ((p.amax - p.amin) / 2))
                (MdagM inp),
              sigma_old := -((p.amax - p.amin) / 2) / ((p.amax + p.amin) / 2) } k).sigma_old
        < 0 :=
    fun k => polyOp_loop_sigma_bounds MdagM _ _ _ _ hs1 hs1n hs1 hs1n k
  refine ⟨hd, ht, hs1, hs1n, ?_, ?_⟩
  · intro k _
    have hk := hloop k
    have hk1 := hloop (k + 1)
    exact ⟨(sigma_step_bounds _ _ hs1 hs1n hk.1).1, hk1.1, hk1.2⟩
  · intro x hx
    simp only [polyOp_denominators, List.mem_append, List.mem_cons, List.mem_singleton,
      List.not_mem_nil, or_false] at hx
    rcases hx with (rfl | rfl | rfl | rfl) | hx
    · norm_num
    · norm_num
    · exact ne_of_gt ht
    · exact ne_of_gt hd
    · split at hx
      · simp at hx
      · simp only [List.mem_flatMap, List.mem_range, polyOp_step_denominators, List.mem_cons,
          List.mem_singleton, List.not_mem_nil, or_false] at hx
        obtain ⟨k, _, rfl | rfl | rfl⟩ := hx
        · exact ne_of_lt hs1n
        · have hk := hloop k
          have := (sigma_step_bounds _ _ hs1 hs1n hk.1).1
          exact ne_of_lt (by linarith)
        · exact ne_of_gt hd

theorem polyOp_no_division_by_zero_witness :
    ((0 : ℚ) < (demoParam 3).amin ∧ (demoParam 3).amin < (demoParam 3).amax ∧
      1 ≤ (demoParam 3).polyDeg) ∧
    polyOp_denominators diagH (1, 1) (demoParam 3)
      = [2, 2, 5 / 2, 3 / 2, -3 / 5, -41 / 15, 3 / 2, -3 / 5, -365 / 123, 3 / 2] ∧
    (∀ x ∈ polyOp_denominators diagH (1, 1) (demoParam 3), x ≠ 0) :=
  ⟨⟨by norm_num [demoParam], by norm_num [demoParam], by decide⟩,
   by
    have e0 : ∀ (st : PolyState ℚ (ℚ × ℚ)) (d t s : ℚ), polyOp_loop diagH d t s st 0 = st :=
      fun _ _ _ _ => rfl
    have e1 : ∀ (st : PolyState ℚ (ℚ × ℚ)) (d t s : ℚ),
        polyOp_loop diagH d t s st 1 = polyOp_step diagH d t s st := fun _ _ _ _ => rfl
    simp only [polyOp_denominators, polyOp_step_denominators, demoParam]
    norm_num [List.range, List.range.loop, List.flatMap, e0, e1, polyOp_step],
   (polyOp_no_division_by_zero diagH (1, 1) (demoParam 3) (by norm_num [demoParam])
      (by norm_num [demoParam]) (by decide)).2.2.2.2.2⟩

/-! ## The basis rotation -/

theorem forLoop_succ {σ : Type} (n : Nat) (body : Nat → σ → σ) (s : σ) :
    forLoop (n + 1) body s = body n (forLoop n body s) := by
  simp [forLoop, List.range_succ, List.foldl_append]

theorem forLoop_zero {σ : Type} (body : Nat → σ → σ) (s : σ) : forLoop 0 body s = s := rfl

/-- A loop whose pass `i` overwrites the entries selected by `keys i` with the
values of one fixed function `g` and leaves all others alone overwrites the
entries selected by some pass and leaves all others alone. -/
theorem forLoop_writes {C : Type} (n : Nat)
    (body : Nat → (Nat → Nat → C) → (Nat → Nat → C)) (keys : Nat → Nat → Nat → Prop)
    (g : Nat → Nat → C)
    (h : ∀ i, i < n → ∀ res p q, (keys i p q → body i res p q = g p q) ∧
      (¬ keys i p q → body i res p q = res p q)) :
    ∀ res p q, ((∃ i, i < n ∧ keys i p q) → forLoop n body res p q = g p q) ∧
      ((¬ ∃ i, i < n ∧ keys i p q) → forLoop n body res p q = res p q) := by
  induction n with
  | zero =>
    intro res p q
    exact ⟨fun ⟨i, hi, _⟩ => absurd hi (Nat.not_lt_zero i), fun _ => rfl⟩
  | succ n ih =>
    intro res p q
    have ih2 := ih (fun i hi => h i (Nat.lt_succ_of_lt hi)) res p q
    have hn := h n (Nat.lt_succ_self n) (forLoop n body res) p q
    rw [forLoop_succ]
    constructor
    · rintro ⟨i, hi, hk⟩
      by_cases hkn : keys n p q
      · exact hn.1 hkn
      · rw [hn.2 hkn]
        apply ih2.1
        refine ⟨i, ?_, hk⟩
        rcases Nat.lt_succ_iff_lt_or_eq.1 hi with hlt | heq
        · exact hlt
        · subst heq; exact absurd hk hkn
    · intro hno
      have hkn : ¬ keys n p q := fun hk => hno ⟨n, Nat.lt_succ_self n, hk⟩
      rw [hn.2 hkn]
      exact ih2.2 (fun ⟨i, hi, hk⟩ => hno ⟨i, Nat.lt_succ_of_lt hi, hk⟩)

/-- The innermost statement block of `rotateVectorBasis`: the entry
`res[iv].data[id]` is zeroed and the four products are accumulated into it. -/
theorem rotate_accumulate {C : Type} [CommRing C] (A : List (List C)) ( vecIO : Nat → Nat → C)
    (ic jc is js : Nat) (hic : ic < 3) (res : Nat → Nat → C) (p q : Nat) :
    (p = js + 4 * jc ∧ q = ic + 3 * is →
      forLoop 4 (fun a res =>
        setData res (js + 4 * jc) (ic + 3 * is)
          (res (js + 4 * jc) (ic + 3 * is) + matEntry A is a * vecIO (js + 4 * jc)
            (ic + 3 * a))) (setData res (js + 4 * jc) (ic + 3 * is) 0) p q
        = spinRotate A vecIO p q) ∧
    (¬ (p = js + 4 * jc ∧ q = ic + 3 * is) →
      forLoop 4 (fun a res =>
        setData res (js + 4 * jc) (ic + 3 * is)
          (res (js + 4 * jc) (ic + 3 * is) + matEntry A is a * vecIO (js + 4 * jc)
            (ic + 3 * a))) (setData res (js + 4 * jc) (ic + 3 * is) 0) p q
        = res p q) := by
  constructor
  · rintro ⟨rfl, rfl⟩
    have e1 : (ic + 3 * is) / 3 = is := by omega
    have e2 : (ic + 3 * is) % 3 = ic := by omega
    simp only [forLoop_succ, forLoop_zero, setData, spinRotate, QUDA_Ns, QUDA_Nc, e1, e2,
      and_self, if_true, List.range, List.range.loop, List.map, List.sum_cons, List.sum_nil]
    ring
  · intro hne
    simp only [forLoop_succ, forLoop_zero, setData, hne, if_false]

/-- The four nested loops of `rotateVectorBasis` fill every entry
`res[iv].data[id]`, `iv < 12`, `id < 12`, with the rotated component. -/
theorem rotate_loops {C : Type} [CommRing C] (A : List (List C)) ( vecIO : Nat → Nat → C)
    (res0 : Nat → Nat → C) (p q : Nat) (hp : p < 12) (hq : q < 12) :
    forLoop 3 (fun ic => forLoop 3 (fun jc => forLoop 4 (fun is => forLoop 4
      (fun js res =>
        forLoop 4 (fun a res =>
          setData res (js + 4 * jc) (ic + 3 * is)
            (res (js + 4 * jc) (ic + 3 * is) + matEntry A is a * vecIO (js + 4 * jc)
              (ic + 3 * a))) (setData res (js + 4 * jc) (ic + 3 * is) 0))))) res0 p q
      = spinRotate A vecIO p q := by
  have h := forLoop_writes 3
    (fun ic => forLoop 3 (fun jc => forLoop 4 (fun is => forLoop 4
      (fun js res =>
        forLoop 4 (fun a res =>
          setData res (js + 4 * jc) (ic + 3 * is)
            (res (js + 4 * jc) (ic + 3 * is) + matEntry A is a * vecIO (js + 4 * jc)
              (ic + 3 * a))) (setData res (js + 4 * jc) (ic + 3 * is) 0)))))
    (fun ic p q => ∃ jc, jc < 3 ∧ ∃ is, is < 4 ∧ ∃ js, js < 4 ∧
      (p = js + 4 * jc ∧ q = ic + 3 * is))
    (spinRotate A vecIO)
    (fun ic hic => forLoop_writes 3 _
      (fun jc p q => ∃ is, is < 4 ∧ ∃ js, js < 4 ∧ (p = js + 4 * jc ∧ q = ic + 3 * is))
      (spinRotate A vecIO)
      (fun jc _ => forLoop_writes 4 _
        (fun is p q => ∃ js, js < 4 ∧ (p = js + 4 * jc ∧ q = ic + 3 * is))
        (spinRotate A vecIO)
        (fun is _ => forLoop_writes 4 _
          (fun js p q => p = js + 4 * jc ∧ q = ic + 3 * is)
          (spinRotate A vecIO)
          (fun js _ res p q => rotate_accumulate A vecIO ic jc is js hic res p q))))
    res0 p q
  exact h.1 ⟨q % 3, Nat.mod_lt _ (by decide), p / 4, by omega, q / 3, by omega, p % 4,
    Nat.mod_lt _ (by decide), by omega, by omega⟩

/-- Closed form of `rotateVectorBasis` with the tag `QLUA_quda2qdp`. -/
theorem rotateVectorBasis_quda2qdp {C : Type} [CommRing C] (val : C) ( vecIO : Nat → Nat → C) :
    rotateVectorBasis val vecIO RotateType.QLUA_quda2qdp
      = some (fun v id => if v < 12 ∧ id < 12 then spinRotate (rotateM val) vecIO v id
          else vecIO v id) := by
  simp only [rotateVectorBasis, QUDA_Ns, QUDA_Nc, QUDA_PROP_NVEC, if_true]
  congr 1
  funext v id
  by_cases h : v < 12 ∧ id < 3 * 4
  · rw [if_pos h, if_pos (by omega)]
    exact rotate_loops _ vecIO _ v id h.1 (by omega)
  · rw [if_neg h, if_neg (by omega)]

/-- Closed form of `rotateVectorBasis` with the tag `QLUA_qdp2quda`. -/
theorem rotateVectorBasis_qdp2quda {C : Type} [CommRing C] (val : C) ( vecIO : Nat → Nat → C) :
    rotateVectorBasis val vecIO RotateType.QLUA_qdp2quda
      = some (fun v id => if v < 12 ∧ id < 12 then spinRotate (rotateM_Trans val) vecIO v id
          else vecIO v id) := by
  simp only [rotateVectorBasis, QUDA_Ns, QUDA_Nc, QUDA_PROP_NVEC,
    show ¬ (RotateType.QLUA_qdp2quda = RotateType.QLUA_quda2qdp) from by decide, if_false,
    if_true]
  congr 1
  funext v id
  by_cases h : v < 12 ∧ id < 3 * 4
  · rw [if_pos h, if_pos (by omega)]
    exact rotate_loops _ vecIO _ v id h.1 (by omega)
  · rw [if_neg h, if_neg (by omega)]

theorem rotate_roundtrip_entry {C : Type} [CommRing C] (val : C) (hval : 2 * (val * val) = 1)
    (F : Nat → Nat → C) (iv c s : Nat) (hiv : iv < 12) (hc : c < 3) (hs : s < 4) :
    spinRotate (rotateM_Trans val)
      (fun v id => if v < 12 ∧ id < 12 then spinRotate (rotateM val) F v id else F v id)
      iv (c + 3 * s) = F iv (c + 3 * s) := by
  have e1 : ∀ a, (c + 3 * a) / 3 = a := fun a => by omega
  have e2 : ∀ a, (c + 3 * a) % 3 = c := fun a => by omega
  have e3 : c + 3 * 0 < 12 := by omega
  have e4 : c + 3 * 1 < 12 := by omega
  have e5 : c + 3 * 2 < 12 := by omega
  have e6 : c + 3 * 3 < 12 := by omega
  interval_cases s
  · simp only [spinRotate, QUDA_Ns, QUDA_Nc, e1, e2, e3, e4, e5, e6, hiv, and_self, if_true,
      List.range, List.range.loop, List.map, List.sum_cons, List.sum_nil, matEntry,
      rotateM, rotateM_Trans, List.getD_cons_zero, List.getD_cons_succ]
    linear_combination (F iv (c + 3 * 0)) * hval
  · simp only [spinRotate, QUDA_Ns, QUDA_Nc, e1, e2, e3, e4, e5, e6, hiv, and_self, if_true,
      List.range, List.range.loop, List.map, List.sum_cons, List.sum_nil, matEntry,
      rotateM, rotateM_Trans, List.getD_cons_zero, List.getD_cons_succ]
    linear_combination (F iv (c + 3 * 1)) * hval
  · simp only [spinRotate, QUDA_Ns, QUDA_Nc, e1, e2, e3, e4, e5, e6, hiv, and_self, if_true,
      List.range, List.range.loop, List.map, List.sum_cons, List.sum_nil, matEntry,
      rotateM, rotateM_Trans, List.getD_cons_zero, List.getD_cons_succ]
    linear_combination (F iv (c + 3 * 2)) * hval
  · simp only [spinRotate, QUDA_Ns, QUDA_Nc, e1, e2, e3, e4, e5, e6, hiv, and_self, if_true,
      List.range, List.range.loop, List.map, List.sum_cons, List.sum_nil, matEntry,
      rotateM, rotateM_Trans, List.getD_cons_zero, List.getD_cons_succ]
    linear_combination (F iv (c + 3 * 3)) * hval

theorem rotateM_orthogonal {C : Type} [CommRing C] (val : C) (hval : 2 * (val * val) = 1)
    (i j : Nat) (hi : i < 4) (hj : j < 4) :
    ((List.range QUDA_Ns).map (fun a =>
      matEntry (rotateM_Trans val) i a * matEntry (rotateM val) a j)).sum
      = if i = j then 1 else 0 := by
  interval_cases i <;> interval_cases j <;>
    simp only [QUDA_Ns, List.range, List.range.loop, List.map, List.sum_cons, List.sum_nil,
      matEntry, rotateM, rotateM_Trans, List.getD_cons_zero, List.getD_cons_succ] <;>
    first
    | (rw [if_pos trivial]; linear_combination hval)
    | (rw [if_neg (by decide)]; ring)

/-- C26 (basis rotation round trip): with `val * val = 1/2` (stated as
`2 * (val * val) = 1`), `rotateVectorBasis` with `QLUA_quda2qdp` followed by
`rotateVectorBasis` with `QLUA_qdp2quda` returns, and every component of every
vector has its original value; `M^T M` is the identity; and each call acts on
the spin index only: the component of colour `id mod 3` and spin `id / 3` of
vector `iv` of the result is `sum_a A[id / 3][a] * in[iv].data[id mod 3 + 3 a]`,
with `A = M` in the first call and `A = M^T` in the second. -/
theorem rotate_round_trip {C : Type} [CommRing C] (val : C) (hval : 2 * (val * val) = 1)
    ( vecIO : Nat → Nat → C) :
    ∃ v1 v2, rotateVectorBasis val vecIO RotateType.QLUA_quda2qdp = some v1 ∧
      rotateVectorBasis val v1 RotateType.QLUA_qdp2quda = some v2 ∧
      (∀ iv id, v2 iv id = vecIO iv id) ∧
      (∀ iv id, iv < QUDA_PROP_NVEC → id < QUDA_Nc * QUDA_Ns →
        v1 iv id = spinRotate (rotateM val) vecIO iv id) ∧
      (∀ iv id, iv < QUDA_PROP_NVEC → id < QUDA_Nc * QUDA_Ns →
        v2 iv id = spinRotate (rotateM_Trans val) v1 iv id) ∧
      (∀ i j, i < QUDA_Ns → j < QUDA_Ns →
        ((List.range QUDA_Ns).map (fun a =>
          matEntry (rotateM_Trans val) i a * matEntry (rotateM val) a j)).sum
          = if i = j then 1 else 0) := by
  refine ⟨_, _, rotateVectorBasis_quda2qdp val vecIO, rotateVectorBasis_qdp2quda val _,
    ?_, ?_, ?_, fun i j hi hj => rotateM_orthogonal val hval i j hi hj⟩
  · intro iv id
    by_cases h : iv < 12 ∧ id < 12
    · simp only [if_pos h]
      have hid : id = id % 3 + 3 * (id / 3) := by omega
      rw [hid]
      exact rotate_roundtrip_entry val hval vecIO iv (id % 3) (id / 3) h.1
        (Nat.mod_lt _ (by decide)) (by omega)
    · simp only [if_neg h]
  · intro iv id hiv hid
    simp only [QUDA_PROP_NVEC, QUDA_Nc, QUDA_Ns] at hiv hid
    simp only [if_pos (show iv < 12 ∧ id < 12 from ⟨hiv, by omega⟩)]
  · intro iv id hiv hid
    simp only [QUDA_PROP_NVEC, QUDA_Nc, QUDA_Ns] at hiv hid
    simp only [if_pos (show iv < 12 ∧ id < 12 from ⟨hiv, by omega⟩)]

theorem rotate_round_trip_witness :
    2 * (Real.sqrt (1 / 2) * Real.sqrt (1 / 2)) = 1 ∧
    ∃ v1 v2,
      rotateVectorBasis (Real.sqrt (1 / 2)) (fun iv id => ((iv + 2 * id : Nat) : ℝ))
        RotateType.QLUA_quda2qdp = some v1 ∧
      rotateVectorBasis (Real.sqrt (1 / 2)) v1 RotateType.QLUA_qdp2quda = some v2 ∧
      (∀ iv id, v2 iv id = ((iv + 2 * id : Nat) : ℝ)) ∧
      (∀ iv id, iv < QUDA_PROP_NVEC → id < QUDA_Nc * QUDA_Ns →
        v1 iv id = spinRotate (rotateM (Real.sqrt (1 / 2)))
          (fun iv id => ((iv + 2 * id : Nat) : ℝ)) iv id) ∧
      (∀ iv id, iv < QUDA_PROP_NVEC → id < QUDA_Nc * QUDA_Ns →
        v2 iv id = spinRotate (rotateM_Trans (Real.sqrt (1 / 2))) v1 iv id) ∧
      (∀ i j, i < QUDA_Ns → j < QUDA_Ns →
        ((List.range QUDA_Ns).map (fun a =>
          matEntry (rotateM_Trans (Real.sqrt (1 / 2))) i a
            * matEntry (rotateM (Real.sqrt (1 / 2))) a j)).sum
          = if i = j then 1 else 0) :=
  ⟨by rw [Real.mul_self_sqrt (by norm_num)]; norm_num,
   rotate_round_trip (Real.sqrt (1 / 2))
    (by rw [Real.mul_self_sqrt (by norm_num)]; norm_num)
    (fun iv id => ((iv + 2 * id : Nat) : ℝ))⟩

/-! ## The 12-parameter reconstruction -/

theorem accumulateConjugateProduct_apply {K : Type} [Field K] (mat : Nat → K) (a b c : Nat)
    (sign : Int) (hb0 : b ≠ a) (hb1 : b + 1 ≠ a) (hc0 : c ≠ a) (hc1 : c + 1 ≠ a) (i : Nat) :
    accumulateConjugateProduct mat a b c sign i
      = if i = a + 1 then mat (a + 1) - sign * (mat b * mat (c + 1) + mat (b + 1) * mat c)
        else if i = a then mat a + sign * (mat b * mat c - mat (b + 1) * mat (c + 1))
        else mat i := by
  simp only [accumulateConjugateProduct, Function.update_apply, Nat.add_zero]
  have ha : a + 1 ≠ a := by omega
  simp only [hb0, hb1, hc0, hc1, ha, if_false]

/-- The entries of the matrix after `su3Reconstruct12`: the first two rows are
those of the input, the third row is `u0` times the cross product of the
conjugated rows. -/
theorem su3Reconstruct12_apply {K : Type} [Field K] (Z : Int4) (mat : Nat → K)
    (dir ga_idx : Int) (param : QudaGaugeParam K) :
    (∀ i, i < 12 → su3Reconstruct12 Z mat dir ga_idx param i = mat i) ∧
    (∀ j, j < 3 →
      su3Reconstruct12 Z mat dir ga_idx param (12 + 2 * j)
        = su3_u0 Z dir ga_idx param * (crossConj mat j).1 ∧
      su3Reconstruct12 Z mat dir ga_idx param (12 + 2 * j + 1)
        = su3_u0 Z dir ga_idx param * (crossConj mat j).2) ∧
    (∀ i, 18 ≤ i → su3Reconstruct12 Z mat dir ga_idx param i = mat i) := by
  refine ⟨?_, ?_, ?_⟩
  · intro i hi
    simp only [su3Reconstruct12]
    rw [Function.update_noteq (by omega), Function.update_noteq (by omega),
      Function.update_noteq (by omega), Function.update_noteq (by omega),
      Function.update_noteq (by omega), Function.update_noteq (by omega)]
    rw [accumulateConjugateProduct_apply _ _ _ _ _ (by decide) (by decide) (by decide)
        (by decide), if_neg (by omega), if_neg (by omega),
      accumulateConjugateProduct_apply _ _ _ _ _ (by decide) (by decide) (by decide)
        (by decide), if_neg (by omega), if_neg (by omega),
      accumulateConjugateProduct_apply _ _ _ _ _ (by decide) (by decide) (by decide)
        (by decide), if_neg (by omega), if_neg (by omega),
      accumulateConjugateProduct_apply _ _ _ _ _ (by decide) (by decide) (by decide)
        (by decide), if_neg (by omega), if_neg (by omega),
      accumulateConjugateProduct_apply _ _ _ _ _ (by decide) (by decide) (by decide)
        (by decide), if_neg (by omega), if_neg (by omega),
      accumulateConjugateProduct_apply _ _ _ _ _ (by decide) (by decide) (by decide)
        (by decide), if_neg (by omega), if_neg (by omega)]
    rw [Function.update_noteq (by omega), Function.update_noteq (by omega),
      Function.update_noteq (by omega), Function.update_noteq (by omega),
      Function.update_noteq (by omega), Function.update_noteq (by omega)]
  · intro j hj
    interval_cases j <;>
      simp [su3Reconstruct12, accumulateConjugateProduct, Function.update_apply, crossConj,
        cmul, cconj, cplx] <;> constructor <;> ring
  · intro i hi
    simp only [su3Reconstruct12]
    rw [Function.update_noteq (by omega), Function.update_noteq (by omega),
      Function.update_noteq (by omega), Function.update_noteq (by omega),
      Function.update_noteq (by omega), Function.update_noteq (by omega)]
    rw [accumulateConjugateProduct_apply _ _ _ _ _ (by decide) (by decide) (by decide)
        (by decide), if_neg (by omega), if_neg (by omega),
      accumulateConjugateProduct_apply _ _ _ _ _ (by decide) (by decide) (by decide)
        (by decide), if_neg (by omega), if_neg (by omega),
      accumulateConjugateProduct_apply _ _ _ _ _ (by decide) (by decide) (by decide)
        (by decide), if_neg (by omega), if_neg (by omega),
      accumulateConjugateProduct_apply _ _ _ _ _ (by decide) (by decide) (by decide)
        (by decide), if_neg (by omega), if_neg (by omega),
      accumulateConjugateProduct_apply _ _ _ _ _ (by decide) (by decide) (by decide)
        (by decide), if_neg (by omega), if_neg (by omega),
      accumulateConjugateProduct_apply _ _ _ _ _ (by decide) (by decide) (by decide)
        (by decide), if_neg (by omega), if_neg (by omega)]
    rw [Function.update_noteq (by omega), Function.update_noteq (by omega),
      Function.update_noteq (by omega), Function.update_noteq (by omega),
      Function.update_noteq (by omega), Function.update_noteq (by omega)]


/-- The last step of the reconstruction argument, with the cross product as
atoms `p`: if `(p0, p1, p2)` has norm 1, `w` is parallel to `conj p` and
`w . p = 1`, then `w = conj p`. -/
theorem su3_row_of_parallel {K : Type} [Field K] (w0r w0i w1r w1i w2r w2i p0r p0i p1r p1i p2r p2i
    : K)
    (N : p0r * p0r + p0i * p0i + p1r * p1r + p1i * p1i + p2r * p2r + p2i * p2i = 1)
    (X0r : (w1r * p2r + w1i * p2i) - (w2r * p1r + w2i * p1i) = 0)
    (X0i : (w1i * p2r - w1r * p2i) - (w2i * p1r - w2r * p1i) = 0)
    (X1r : (w2r * p0r + w2i * p0i) - (w0r * p2r + w0i * p2i) = 0)
    (X1i : (w2i * p0r - w2r * p0i) - (w0i * p2r - w0r * p2i) = 0)
    (X2r : (w0r * p1r + w0i * p1i) - (w1r * p0r + w1i * p0i) = 0)
    (X2i : (w0i * p1r - w0r * p1i) - (w1i * p0r - w1r * p0i) = 0)
    (Dr : (w0r * p0r - w0i * p0i) + (w1r * p1r - w1i * p1i) + (w2r * p2r - w2i * p2i) = 1)
    (Di : (w0r * p0i + w0i * p0r) + (w1r * p1i + w1i * p1r) + (w2r * p2i + w2i * p2r) = 0) :
    w0r = p0r ∧ w0i = -p0i ∧ w1r = p1r ∧ w1i = -p1i ∧ w2r = p2r ∧ w2i = -p2i := by
  refine ⟨?_, ?_, ?_, ?_, ?_, ?_⟩
  · linear_combination (-w0r) * N + p1r * X2r - p1i * X2i - p2r * X1r + p2i * X1i
      + p0r * Dr + p0i * Di
  · linear_combination (-w0i) * N + p1i * X2r + p1r * X2i - p2i * X1r - p2r * X1i
      + p0r * Di - p0i * Dr
  · linear_combination (-w1r) * N - p0r * X2r + p0i * X2i + p2r * X0r - p2i * X0i
      + p1r * Dr + p1i * Di
  · linear_combination (-w1i) * N - p0i * X2r - p0r * X2i + p2i * X0r + p2r * X0i
      + p1r * Di - p1i * Dr
  · linear_combination (-w2r) * N + p0r * X1r - p0i * X1i - p1r * X0r + p1i * X0i
      + p2r * Dr + p2i * Di
  · linear_combination (-w2i) * N + p0i * X1r + p0r * X1i - p1i * X0r - p1r * X0i
      + p2r * Di - p2i * Dr

/-- For a 3x3 complex matrix with rows `u`, `v`, `w` (given by real and
imaginary parts) such that `u`, `v` are orthonormal, `w` is orthogonal to both
and the determinant is 1, the row `w` is the cross product of the conjugated
rows `u` and `v`. -/
theorem su3_third_row {K : Type} [Field K] (u0r u0i u1r u1i u2r u2i v0r v0i v1r v1i v2r v2i w0r
    w0i w1r w1i w2r w2i : K)
    (Huu : u0r * u0r + u0i * u0i + u1r * u1r + u1i * u1i + u2r * u2r + u2i * u2i = 1)
    (Hvv : v0r * v0r + v0i * v0i + v1r * v1r + v1i * v1i + v2r * v2r + v2i * v2i = 1)
    (Huv_re : u0r * v0r + u0i * v0i + u1r * v1r + u1i * v1i + u2r * v2r + u2i * v2i = 0)
    (Huv_im : (u0i * v0r - u0r * v0i) + (u1i * v1r - u1r * v1i) + (u2i * v2r - u2r * v2i) = 0)
    (Huw_re : u0r * w0r + u0i * w0i + u1r * w1r + u1i * w1i + u2r * w2r + u2i * w2i = 0)
    (Huw_im : (u0i * w0r - u0r * w0i) + (u1i * w1r - u1r * w1i) + (u2i * w2r - u2r * w2i) = 0)
    (Hvw_re : v0r * w0r + v0i * w0i + v1r * w1r + v1i * w1i + v2r * w2r + v2i * w2i = 0)
    (Hvw_im : (v0i * w0r - v0r * w0i) + (v1i * w1r - v1r * w1i) + (v2i * w2r - v2r * w2i) = 0)
    (Hdet_re : (w0r * ((u1r * v2r - u1i * v2i) - (u2r * v1r - u2i * v1i)) - w0i * ((u1r * v2i +
        u1i * v2r) - (u2r * v1i + u2i * v1r)))
      + (w1r * ((u2r * v0r - u2i * v0i) - (u0r * v2r - u0i * v2i)) - w1i * ((u2r * v0i + u2i *
          v0r) - (u0r * v2i + u0i * v2r)))
      + (w2r * ((u0r * v1r - u0i * v1i) - (u1r * v0r - u1i * v0i)) - w2i * ((u0r * v1i + u0i *
          v1r) - (u1r * v0i + u1i * v0r))) = 1)
    (Hdet_im : (w0r * ((u1r * v2i + u1i * v2r) - (u2r * v1i + u2i * v1r)) + w0i * ((u1r * v2r -
        u1i * v2i) - (u2r * v1r - u2i * v1i)))
      + (w1r * ((u2r * v0i + u2i * v0r) - (u0r * v2i + u0i * v2r)) + w1i * ((u2r * v0r - u2i *
          v0i) - (u0r * v2r - u0i * v2i)))
      + (w2r * ((u0r * v1i + u0i * v1r) - (u1r * v0i + u1i * v0r)) + w2i * ((u0r * v1r - u0i *
          v1i) - (u1r * v0r - u1i * v0i))) = 0) :
    w0r = ((u1r * v2r - u1i * v2i) - (u2r * v1r - u2i * v1i)) ∧
    w0i = -((u1r * v2i + u1i * v2r) - (u2r * v1i + u2i * v1r)) ∧
    w1r = ((u2r * v0r - u2i * v0i) - (u0r * v2r - u0i * v2i)) ∧
    w1i = -((u2r * v0i + u2i * v0r) - (u0r * v2i + u0i * v2r)) ∧
    w2r = ((u0r * v1r - u0i * v1i) - (u1r * v0r - u1i * v0i)) ∧
    w2i = -((u0r * v1i + u0i * v1r) - (u1r * v0i + u1i * v0r)) := by
  have N : ((u1r * v2r - u1i * v2i) - (u2r * v1r - u2i * v1i)) * ((u1r * v2r - u1i * v2i) - (u2r *
      v1r - u2i * v1i)) + ((u1r * v2i + u1i * v2r) - (u2r * v1i + u2i * v1r)) * ((u1r * v2i + u1i
      * v2r) - (u2r * v1i + u2i * v1r)) + ((u2r * v0r - u2i * v0i) - (u0r * v2r - u0i * v2i)) *
      ((u2r * v0r - u2i * v0i) - (u0r * v2r - u0i * v2i)) + ((u2r * v0i + u2i * v0r) - (u0r * v2i
      + u0i * v2r)) * ((u2r * v0i + u2i * v0r) - (u0r * v2i + u0i * v2r)) + ((u0r * v1r - u0i *
      v1i) - (u1r * v0r - u1i * v0i)) * ((u0r * v1r - u0i * v1i) - (u1r * v0r - u1i * v0i)) +
      ((u0r * v1i + u0i * v1r) - (u1r * v0i + u1i * v0r)) * ((u0r * v1i + u0i * v1r) - (u1r * v0i
      + u1i * v0r)) = 1 := by
    linear_combination (v0r * v0r + v0i * v0i + v1r * v1r + v1i * v1i + v2r * v2r + v2i * v2i) *
        Huu + Hvv
      - (u0r * v0r + u0i * v0i + u1r * v1r + u1i * v1i + u2r * v2r + u2i * v2i) * Huv_re
      - ((u0i * v0r - u0r * v0i) + (u1i * v1r - u1r * v1i) + (u2i * v2r - u2r * v2i)) * Huv_im

  have X0r : (w1r * ((u0r * v1r - u0i * v1i) - (u1r * v0r - u1i * v0i)) + w1i * ((u0r * v1i + u0i
      * v1r) - (u1r * v0i + u1i * v0r))) - (w2r * ((u2r * v0r - u2i * v0i) - (u0r * v2r - u0i *
      v2i)) + w2i * ((u2r * v0i + u2i * v0r) - (u0r * v2i + u0i * v2r))) = 0 := by
    linear_combination u0r * Hvw_re - u0i * Hvw_im - v0r * Huw_re + v0i * Huw_im
  have X0i : (w1i * ((u0r * v1r - u0i * v1i) - (u1r * v0r - u1i * v0i)) - w1r * ((u0r * v1i + u0i
      * v1r) - (u1r * v0i + u1i * v0r))) - (w2i * ((u2r * v0r - u2i * v0i) - (u0r * v2r - u0i *
      v2i)) - w2r * ((u2r * v0i + u2i * v0r) - (u0r * v2i + u0i * v2r))) = 0 := by
    linear_combination (-u0r) * Hvw_im - u0i * Hvw_re + v0r * Huw_im + v0i * Huw_re

  have X1r : (w2r * ((u1r * v2r - u1i * v2i) - (u2r * v1r - u2i * v1i)) + w2i * ((u1r * v2i + u1i
      * v2r) - (u2r * v1i + u2i * v1r))) - (w0r * ((u0r * v1r - u0i * v1i) - (u1r * v0r - u1i *
      v0i)) + w0i * ((u0r * v1i + u0i * v1r) - (u1r * v0i + u1i * v0r))) = 0 := by
    linear_combination u1r * Hvw_re - u1i * Hvw_im - v1r * Huw_re + v1i * Huw_im
  have X1i : (w2i * ((u1r * v2r - u1i * v2i) - (u2r * v1r - u2i * v1i)) - w2r * ((u1r * v2i + u1i
      * v2r) - (u2r * v1i + u2i * v1r))) - (w0i * ((u0r * v1r - u0i * v1i) - (u1r * v0r - u1i *
      v0i)) - w0r * ((u0r * v1i + u0i * v1r) - (u1r * v0i + u1i * v0r))) = 0 := by
    linear_combination (-u1r) * Hvw_im - u1i * Hvw_re + v1r * Huw_im + v1i * Huw_re

  have X2r : (w0r * ((u2r * v0r - u2i * v0i) - (u0r * v2r - u0i * v2i)) + w0i * ((u2r * v0i + u2i
      * v0r) - (u0r * v2i + u0i * v2r))) - (w1r * ((u1r * v2r - u1i * v2i) - (u2r * v1r - u2i *
      v1i)) + w1i * ((u1r * v2i + u1i * v2r) - (u2r * v1i + u2i * v1r))) = 0 := by
    linear_combination u2r * Hvw_re - u2i * Hvw_im - v2r * Huw_re + v2i * Huw_im
  have X2i : (w0i * ((u2r * v0r - u2i * v0i) - (u0r * v2r - u0i * v2i)) - w0r * ((u2r * v0i + u2i
      * v0r) - (u0r * v2i + u0i * v2r))) - (w1i * ((u1r * v2r - u1i * v2i) - (u2r * v1r - u2i *
      v1i)) - w1r * ((u1r * v2i + u1i * v2r) - (u2r * v1i + u2i * v1r))) = 0 := by
    linear_combination (-u2r) * Hvw_im - u2i * Hvw_re + v2r * Huw_im + v2i * Huw_re

  exact su3_row_of_parallel w0r w0i w1r w1i w2r w2i
    ((u1r * v2r - u1i * v2i) - (u2r * v1r - u2i * v1i)) ((u1r * v2i + u1i * v2r) - (u2r * v1i +
        u2i * v1r)) ((u2r * v0r - u2i * v0i) - (u0r * v2r - u0i * v2i)) ((u2r * v0i + u2i * v0r) -
        (u0r * v2i + u0i * v2r)) ((u0r * v1r - u0i * v1i) - (u1r * v0r - u1i * v0i)) ((u0r * v1i +
        u0i * v1r) - (u1r * v0i + u1i * v0r))
    N X0r X0i X1r X1i X2r X2i Hdet_re Hdet_im

theorem crossConj_su3Construct12 {K : Type} [Field K] (mat : Nat → K) (j : Nat) (hj : j < 3) :
    crossConj (su3Construct12 mat) j = crossConj mat j := by
  interval_cases j <;>
    simp [crossConj, cplx, su3Construct12, Function.update_apply]

/-- C27 (SU(3) 12-parameter reconstruction): `su3Reconstruct12` leaves the
first two rows `u`, `v` (the entries `0..11`) as they are and sets the third
row to `u0` times the cross product of the conjugated rows, where `u0` is
`param->anisotropy` for `dir < 3`, `param->t_boundary` for the other
directions when `ga_idx >= (Z[3]-1)*Z[0]*Z[1]*Z[2]/2`, and `1` otherwise;
and for a matrix with orthonormal rows and determinant 1 and `u0 = 1`,
`su3_reconstruct` after `su3_construct`, both with `QUDA_RECONSTRUCT_12`,
gives back every entry of the matrix. -/
theorem su3_reconstruct12_spec {K : Type} [Field K] (Z : Int4) (mat : Nat → K)
    (dir ga_idx : Int) (param : QudaGaugeParam K) (su3Construct8 su3Reconstruct8 :
      (Nat → K) → (Nat → K)) (precision precision2 : QudaPrecision) :
    (∀ i, i < 12 → su3Reconstruct12 Z mat dir ga_idx param i = mat i) ∧
    (∀ j, j < 3 →
      su3Reconstruct12 Z mat dir ga_idx param (12 + 2 * j)
        = su3_u0 Z dir ga_idx param * (crossConj mat j).1 ∧
      su3Reconstruct12 Z mat dir ga_idx param (12 + 2 * j + 1)
        = su3_u0 Z dir ga_idx param * (crossConj mat j).2) ∧
    (dir < 3 → su3_u0 Z dir ga_idx param = param.anisotropy) ∧
    (¬ dir < 3 → ga_idx ≥ Int.tdiv ((Z.i3 - 1) * Z.i0 * Z.i1 * Z.i2) 2 →
      su3_u0 Z dir ga_idx param = param.t_boundary) ∧
    (¬ dir < 3 → ¬ ga_idx ≥ Int.tdiv ((Z.i3 - 1) * Z.i0 * Z.i1 * Z.i2) 2 →
      su3_u0 Z dir ga_idx param = 1) ∧
    (IsSU3 mat → su3_u0 Z dir ga_idx param = 1 →
      ∀ i, su3_reconstruct su3Reconstruct8 Z
          (su3_construct su3Construct8 mat QudaReconstructType.QUDA_RECONSTRUCT_12 precision)
          dir ga_idx QudaReconstructType.QUDA_RECONSTRUCT_12 precision2 param i = mat i) := by
  obtain ⟨h1, h2, h3⟩ := su3Reconstruct12_apply Z mat dir ga_idx param
  refine ⟨h1, h2, fun h => by simp [su3_u0, h], fun h h2 => by simp [su3_u0, h, h2],
    fun h h2 => by simp only [su3_u0, if_neg h, if_neg h2], ?_⟩
  intro hsu3 hu0 i
  have hc : su3_construct su3Construct8 mat QudaReconstructType.QUDA_RECONSTRUCT_12 precision
      = su3Construct12 mat := by
    simp [su3_construct]
  have hr : ∀ m, su3_reconstruct su3Reconstruct8 Z m dir ga_idx
      QudaReconstructType.QUDA_RECONSTRUCT_12 precision2 param
        = su3Reconstruct12 Z m dir ga_idx param := by
    intro m
    simp [su3_reconstruct]
  rw [hc, hr]
  obtain ⟨g1, g2, g3⟩ := su3Reconstruct12_apply Z (su3Construct12 mat) dir ga_idx param
  have hlow : ∀ k, k < 12 → su3Construct12 mat k = mat k := by
    intro k hk
    simp only [su3Construct12]
    rw [Function.update_noteq (by omega), Function.update_noteq (by omega),
      Function.update_noteq (by omega), Function.update_noteq (by omega),
      Function.update_noteq (by omega), Function.update_noteq (by omega)]
  have hhigh : ∀ k, 18 ≤ k → su3Construct12 mat k = mat k := by
    intro k hk
    simp only [su3Construct12]
    rw [Function.update_noteq (by omega), Function.update_noteq (by omega),
      Function.update_noteq (by omega), Function.update_noteq (by omega),
      Function.update_noteq (by omega), Function.update_noteq (by omega)]
  obtain ⟨e00, e11, _, e01, e02, e12, edet⟩ := hsu3
  have row := su3_third_row (mat 0) (mat 1) (mat 2) (mat 3) (mat 4) (mat 5) (mat 6) (mat 7) (mat
      8) (mat 9) (mat 10) (mat 11) (mat 12) (mat 13) (mat 14) (mat 15) (mat 16) (mat 17)
    (by have := congrArg Prod.fst e00
        simp [rowDot, cmul, cconj, cplx] at this
        linear_combination this)
    (by have := congrArg Prod.fst e11
        simp [rowDot, cmul, cconj, cplx] at this
        linear_combination this)
    (by have := congrArg Prod.fst e01
        simp [rowDot, cmul, cconj, cplx] at this
        linear_combination this)
    (by have := congrArg Prod.snd e01
        simp [rowDot, cmul, cconj, cplx] at this
        linear_combination this)
    (by have := congrArg Prod.fst e02
        simp [rowDot, cmul, cconj, cplx] at this
        linear_combination this)
    (by have := congrArg Prod.snd e02
        simp [rowDot, cmul, cconj, cplx] at this
        linear_combination this)
    (by have := congrArg Prod.fst e12
        simp [rowDot, cmul, cconj, cplx] at this
        linear_combination this)
    (by have := congrArg Prod.snd e12
        simp [rowDot, cmul, cconj, cplx] at this
        linear_combination this)
    (by have := congrArg Prod.fst edet
        simp [det3, cmul, cplx] at this
        linear_combination this)
    (by have := congrArg Prod.snd edet
        simp [det3, cmul, cplx] at this
        linear_combination this)
  obtain ⟨r0, r1, r2, r3, r4, r5⟩ := row
  by_cases hi : i < 12
  · rw [g1 i hi, hlow i hi]
  · by_cases hi2 : 18 ≤ i
    · rw [g3 i hi2, hhigh i hi2]
    · have hcases : i = 12 ∨ i = 13 ∨ i = 14 ∨ i = 15 ∨ i = 16 ∨ i = 17 := by omega
      have c0 := crossConj_su3Construct12 mat 0 (by decide)
      have c1 := crossConj_su3Construct12 mat 1 (by decide)
      have c2 := crossConj_su3Construct12 mat 2 (by decide)
      have q0 := g2 0 (by decide)
      have q1 := g2 1 (by decide)
      have q2 := g2 2 (by decide)
      rw [hu0, one_mul, one_mul] at q0 q1 q2
      rw [c0] at q0
      rw [c1] at q1
      rw [c2] at q2
      rcases hcases with rfl | rfl | rfl | rfl | rfl | rfl
      · rw [q0.1, r0]; simp [crossConj, cmul, cconj, cplx]
      · rw [q0.2, r1]; simp [crossConj, cmul, cconj, cplx]; ring
      · rw [q1.1, r2]; simp [crossConj, cmul, cconj, cplx]
      · rw [q1.2, r3]; simp [crossConj, cmul, cconj, cplx]; ring
      · rw [q2.1, r4]; simp [crossConj, cmul, cconj, cplx]
      · rw [q2.2, r5]; simp [crossConj, cmul, cconj, cplx]; ring

theorem su3_reconstruct12_spec_witness :
    IsSU3 demoSU3 ∧ su3_u0 ⟨4, 4, 4, 4⟩ 3 0 (⟨2, -1⟩ : QudaGaugeParam ℚ) = 1 ∧
    (∀ i, su3_reconstruct id ⟨4, 4, 4, 4⟩
        (su3_construct id demoSU3 QudaReconstructType.QUDA_RECONSTRUCT_12
          QudaPrecision.QUDA_DOUBLE_PRECISION)
        3 0 QudaReconstructType.QUDA_RECONSTRUCT_12 QudaPrecision.QUDA_DOUBLE_PRECISION
        (⟨2, -1⟩ : QudaGaugeParam ℚ) i = demoSU3 i) ∧
    su3Reconstruct12 ⟨4, 4, 4, 4⟩ (su3Construct12 demoSU3) 3 0 (⟨2, -1⟩ : QudaGaugeParam ℚ) 16
      = 1 :=
  ⟨by norm_num [IsSU3, rowDot, det3, cmul, cconj, cplx, demoSU3, Prod.ext_iff],
   by decide,
   (su3_reconstruct12_spec ⟨4, 4, 4, 4⟩ demoSU3 3 0 (⟨2, -1⟩ : QudaGaugeParam ℚ) id id
      QudaPrecision.QUDA_DOUBLE_PRECISION QudaPrecision.QUDA_DOUBLE_PRECISION).2.2.2.2.2
      (by norm_num [IsSU3, rowDot, det3, cmul, cconj, cplx, demoSU3, Prod.ext_iff])
      (by decide),
   by
    have h96 : Int.tdiv 192 2 = 96 := by decide
    norm_num [su3Reconstruct12, su3Construct12, accumulateConjugateProduct,
      Function.update_apply, demoSU3, su3_u0, h96]⟩

/-! ## Integer division on non-negative values -/

theorem int_div_div (m n k : Int) (hm : 0 ≤ m) (hn : 0 ≤ n) (hk : 0 ≤ k) :
    m / n / k = m / (n * k) := by
  lift m to ℕ using hm
  lift n to ℕ using hn
  lift k to ℕ using hk
  norm_cast
  exact Nat.div_div_eq_div_mul _ _ _

/-- A mixed-radix digit step on integers. -/
theorem int_digit_step (q d r : Int) (h0 : 0 ≤ r) (h : r < d) :
    (q * d + r) / d = q ∧ (q * d + r) % d = r := by
  have hd : d ≠ 0 := by omega
  constructor
  · rw [Int.add_comm, Int.add_mul_ediv_right _ _ hd, Int.ediv_eq_zero_of_lt h0 h]
    simp
  · rw [Int.add_comm, Int.add_mul_emod_self, Int.emod_eq_of_lt h0 h]

theorem tmod_two_ne_zero (a : Int) : Int.tmod a 2 ≠ 0 ↔ a % 2 = 1 := by
  rcases Int.emod_two_eq_zero_or_one a with h | h
  · have : (2 : Int) ∣ a := Int.dvd_of_emod_eq_zero h
    obtain ⟨k, rfl⟩ := this
    simp
  · constructor
    · intro _; exact h
    · intro _ h0
      have : (2 : Int) ∣ a := Int.dvd_of_tmod_eq_zero h0
      omega

/-- The periodic shift of a coordinate and its inverse. -/
theorem int_shift_range (x dx Z : Int) (hZ : 0 < Z) :
    0 ≤ (x + dx + Z) % Z ∧ (x + dx + Z) % Z < Z :=
  ⟨Int.emod_nonneg _ (by omega), Int.emod_lt_of_pos _ hZ⟩

theorem int_shift_back (x dx Z : Int) (hx0 : 0 ≤ x) (hx : x < Z) :
    ((x + dx + Z) % Z + -dx + Z) % Z = x := by
  have e : (x + dx + Z) % Z + -dx + Z = x + (2 - (x + dx + Z) / Z) * Z := by
    rw [Int.emod_def]
    ring
  rw [e, Int.add_mul_emod_self, Int.emod_eq_of_lt hx0 hx]

theorem int_shift_parity (x dx Z : Int) (hZ : Z % 2 = 0) :
    ((x + dx + Z) % Z) % 2 = (x + dx) % 2 := by
  rw [Int.emod_emod_of_dvd _ (Int.dvd_of_emod_eq_zero hZ)]
  omega

/-! ## Lexicographic indices and coordinates -/

theorem lexIndex_eq (Z x : Int4) :
    lexIndex Z x = ((x.i3 * Z.i2 + x.i2) * Z.i1 + x.i1) * Z.i0 + x.i0 := by
  simp only [lexIndex]
  ring

theorem lexIndex_bounds (Z x : Int4) (hx : x.inBox Z) :
    0 ≤ lexIndex Z x ∧ lexIndex Z x < Z.i0 * Z.i1 * Z.i2 * Z.i3 := by
  obtain ⟨⟨a0, b0⟩, ⟨a1, b1⟩, ⟨a2, b2⟩, ⟨a3, b3⟩⟩ := hx
  rw [lexIndex_eq]
  have e1l : 0 ≤ x.i3 * Z.i2 + x.i2 := by nlinarith
  have e1 : x.i3 * Z.i2 + x.i2 + 1 ≤ Z.i3 * Z.i2 := by nlinarith
  have e2l : 0 ≤ (x.i3 * Z.i2 + x.i2) * Z.i1 + x.i1 := by nlinarith
  have e2 : (x.i3 * Z.i2 + x.i2) * Z.i1 + x.i1 + 1 ≤ Z.i3 * Z.i2 * Z.i1 := by nlinarith
  constructor
  · nlinarith
  · have e3 : ((x.i3 * Z.i2 + x.i2) * Z.i1 + x.i1) * Z.i0 + x.i0 + 1
        ≤ Z.i3 * Z.i2 * Z.i1 * Z.i0 := by nlinarith
    have e4 : Z.i3 * Z.i2 * Z.i1 * Z.i0 = Z.i0 * Z.i1 * Z.i2 * Z.i3 := by ring
    omega

/-- The digits of a non-negative index, taken off one after the other, are
the coordinates that `lexCoords` computes with the products of extents. -/
theorem lexCoords_eq (Z : Int4) (hZ : Z.positive) (Y : Int) (hY : 0 ≤ Y) :
    lexCoords Z Y = ⟨Y % Z.i0, Y / Z.i0 % Z.i1, Y / Z.i0 / Z.i1 % Z.i2,
      Y / Z.i0 / Z.i1 / Z.i2⟩ := by
  obtain ⟨z0, z1, z2, _⟩ := hZ
  have h1 : Y / (Z.i1 * Z.i0) = Y / Z.i0 / Z.i1 := by
    rw [int_div_div Y _ _ hY (by omega) (by omega), Int.mul_comm]
  have h2 : Y / (Z.i2 * Z.i1 * Z.i0) = Y / Z.i0 / Z.i1 / Z.i2 := by
    rw [int_div_div (Y / Z.i0) _ _ (Int.ediv_nonneg hY (by omega)) (by omega) (by omega),
      int_div_div Y _ _ hY (by omega) (by positivity)]
    congr 1
    ring
  simp only [lexCoords, h1, h2]

theorem lexCoords_lexIndex (Z x : Int4) (hZ : Z.positive) (hx : x.inBox Z) :
    lexCoords Z (lexIndex Z x) = x := by
  have hb := lexIndex_bounds Z x hx
  rw [lexCoords_eq Z hZ _ hb.1, lexIndex_eq]
  obtain ⟨⟨a0, b0⟩, ⟨a1, b1⟩, ⟨a2, b2⟩, ⟨a3, b3⟩⟩ := hx
  have s0 := int_digit_step ((x.i3 * Z.i2 + x.i2) * Z.i1 + x.i1) Z.i0 x.i0 a0 b0
  have s1 := int_digit_step (x.i3 * Z.i2 + x.i2) Z.i1 x.i1 a1 b1
  have s2 := int_digit_step x.i3 Z.i2 x.i2 a2 b2
  rw [s0.1, s0.2, s1.1, s1.2, s2.1, s2.2]

theorem lexIndex_lexCoords (Z : Int4) (hZ : Z.positive) (Y : Int) (hY : 0 ≤ Y)
    (hV : Y < Z.i0 * Z.i1 * Z.i2 * Z.i3) :
    (lexCoords Z Y).inBox Z ∧ lexIndex Z (lexCoords Z Y) = Y := by
  rw [lexCoords_eq Z hZ Y hY, lexIndex_eq]
  obtain ⟨z0, z1, z2, z3⟩ := hZ
  have q0 : 0 ≤ Y / Z.i0 := Int.ediv_nonneg hY (by omega)
  have q1 : 0 ≤ Y / Z.i0 / Z.i1 := Int.ediv_nonneg q0 (by omega)
  have q2 : 0 ≤ Y / Z.i0 / Z.i1 / Z.i2 := Int.ediv_nonneg q1 (by omega)
  have hlt : Y / Z.i0 / Z.i1 / Z.i2 < Z.i3 := by
    rw [int_div_div _ _ _ q0 (by omega) (by omega), int_div_div _ _ _ hY (by omega)
      (by positivity)]
    apply Int.ediv_lt_of_lt_mul (by positivity)
    calc Y < Z.i0 * Z.i1 * Z.i2 * Z.i3 := hV
      _ = Z.i3 * (Z.i0 * (Z.i1 * Z.i2)) := by ring
  refine ⟨⟨⟨Int.emod_nonneg _ (by omega), Int.emod_lt_of_pos _ z0⟩,
    ⟨Int.emod_nonneg _ (by omega), Int.emod_lt_of_pos _ z1⟩,
    ⟨Int.emod_nonneg _ (by omega), Int.emod_lt_of_pos _ z2⟩, ⟨q2, hlt⟩⟩, ?_⟩
  simp only
  have a2 := Int.ediv_add_emod (Y / Z.i0 / Z.i1) Z.i2
  have a1 := Int.ediv_add_emod (Y / Z.i0) Z.i1
  have a0 := Int.ediv_add_emod Y Z.i0
  rw [Int.mul_comm (Y / Z.i0 / Z.i1 / Z.i2), a2, Int.mul_comm (Y / Z.i0 / Z.i1), a1,
    Int.mul_comm (Y / Z.i0), a0]

theorem shiftCoords_inBox (Z x dx : Int4) (hZ : Z.positive) : (shiftCoords Z x dx).inBox Z := by
  obtain ⟨z0, z1, z2, z3⟩ := hZ
  exact ⟨int_shift_range _ _ _ z0, int_shift_range _ _ _ z1, int_shift_range _ _ _ z2,
    int_shift_range _ _ _ z3⟩

theorem shiftCoords_back (Z x dx : Int4) (hx : x.inBox Z) :
    shiftCoords Z (shiftCoords Z x dx) ⟨-dx.i0, -dx.i1, -dx.i2, -dx.i3⟩ = x := by
  obtain ⟨⟨a0, b0⟩, ⟨a1, b1⟩, ⟨a2, b2⟩, ⟨a3, b3⟩⟩ := hx
  cases x with
  | mk x0 x1 x2 x3 =>
    simp only [shiftCoords]
    simp only at a0 b0 a1 b1 a2 b2 a3 b3
    rw [int_shift_back x0 _ _ a0 b0, int_shift_back x1 _ _ a1 b1, int_shift_back x2 _ _ a2 b2,
      int_shift_back x3 _ _ a3 b3]

theorem shiftCoords_parity (Z x dx : Int4) (hE : Z.allEven) :
    (shiftCoords Z x dx).parity = (x.parity + (dx.i0 + dx.i1 + dx.i2 + dx.i3)) % 2 := by
  obtain ⟨e0, e1, e2, e3⟩ := hE
  have p0 := int_shift_parity x.i0 dx.i0 Z.i0 e0
  have p1 := int_shift_parity x.i1 dx.i1 Z.i1 e1
  have p2 := int_shift_parity x.i2 dx.i2 Z.i2 e2
  have p3 := int_shift_parity x.i3 dx.i3 Z.i3 e3
  simp only [Int4.parity, shiftCoords]
  omega


/-! ## The globals after `setDims` -/

theorem setDims_Z (Z : Int4) : (setDims Z).Z = Z := rfl

theorem setDims_V (Z : Int4) : (setDims Z).V = Z.i0 * Z.i1 * Z.i2 * Z.i3 := by
  simp only [setDims]
  ring

theorem setDims_V_pos (Z : Int4) (hZ : Z.positive) : 0 < (setDims Z).V := by
  obtain ⟨z0, z1, z2, z3⟩ := hZ
  rw [setDims_V]
  positivity

theorem setDims_Vh (Z : Int4) (hZ : Z.positive) (h0 : Z.i0 % 2 = 0) :
    (setDims Z).V = 2 * (setDims Z).Vh ∧ 0 < (setDims Z).Vh := by
  have hV := setDims_V_pos Z hZ
  have hVh : (setDims Z).Vh = (setDims Z).V / 2 := by
    show Int.tdiv (setDims Z).V 2 = (setDims Z).V / 2
    exact Int.tdiv_eq_ediv (by omega) (by omega)
  have heven : (setDims Z).V % 2 = 0 := by
    rw [setDims_V]
    have : (2 : Int) ∣ Z.i0 * Z.i1 * Z.i2 * Z.i3 :=
      Dvd.dvd.mul_right (Dvd.dvd.mul_right (Dvd.dvd.mul_right (Int.dvd_of_emod_eq_zero h0) _) _) _
    exact Int.emod_eq_zero_of_dvd this
  constructor <;> omega

/-! ## The source functions on non-negative arguments, in floor arithmetic -/

theorem getOddBit_eq (g : HostGlobals) (hZ : g.Z.positive) (Y : Int) (hY : 0 ≤ Y) :
    getOddBit g Y = (lexCoords g.Z Y).parity := by
  obtain ⟨z0, z1, z2, z3⟩ := hZ
  have p10 : 0 ≤ g.Z.i1 * g.Z.i0 := by positivity
  have p210 : 0 ≤ g.Z.i2 * g.Z.i1 * g.Z.i0 := by positivity
  have e4 : Int.tdiv Y (g.Z.i2 * g.Z.i1 * g.Z.i0) = Y / (g.Z.i2 * g.Z.i1 * g.Z.i0) :=
    Int.tdiv_eq_ediv hY p210
  have e3a : Int.tdiv Y (g.Z.i1 * g.Z.i0) = Y / (g.Z.i1 * g.Z.i0) := Int.tdiv_eq_ediv hY p10
  have e2a : Int.tdiv Y g.Z.i0 = Y / g.Z.i0 := Int.tdiv_eq_ediv hY (by omega)
  have n4 : 0 ≤ Y / (g.Z.i2 * g.Z.i1 * g.Z.i0) := Int.ediv_nonneg hY p210
  have n3 : 0 ≤ Y / (g.Z.i1 * g.Z.i0) := Int.ediv_nonneg hY p10
  have n2 : 0 ≤ Y / g.Z.i0 := Int.ediv_nonneg hY (by omega)
  have e3 : Int.tmod (Y / (g.Z.i1 * g.Z.i0)) g.Z.i2 = (Y / (g.Z.i1 * g.Z.i0)) % g.Z.i2 :=
    Int.tmod_eq_emod n3 (by omega)
  have e2 : Int.tmod (Y / g.Z.i0) g.Z.i1 = (Y / g.Z.i0) % g.Z.i1 :=
    Int.tmod_eq_emod n2 (by omega)
  have e1 : Int.tmod Y g.Z.i0 = Y % g.Z.i0 := Int.tmod_eq_emod hY (by omega)
  have m3 : 0 ≤ (Y / (g.Z.i1 * g.Z.i0)) % g.Z.i2 := Int.emod_nonneg _ (by omega)
  have m2 : 0 ≤ (Y / g.Z.i0) % g.Z.i1 := Int.emod_nonneg _ (by omega)
  have m1 : 0 ≤ Y % g.Z.i0 := Int.emod_nonneg _ (by omega)
  simp only [getOddBit, e4, e3a, e2a, e3, e2, e1, Int4.parity, lexCoords]
  rw [Int.tmod_eq_emod (by omega) (by omega)]
  congr 1
  ring

theorem fullLatticeIndex_eq (g : HostGlobals) (hZ : g.Z.positive) (i oddBit : Int)
    (hi : 0 ≤ i) :
    fullLatticeIndex g i oddBit
      = 2 * i + (i / (g.Z.i0 / 2) % g.Z.i1 + i / (g.Z.i0 / 2) / g.Z.i1 % g.Z.i2
          + i / (g.Z.i0 / 2) / g.Z.i1 / g.Z.i2 + oddBit) % 2 := by
  obtain ⟨z0, z1, z2, z3⟩ := hZ
  have eh : Int.tdiv g.Z.i0 2 = g.Z.i0 / 2 := Int.tdiv_eq_ediv (by omega) (by omega)
  have ea : Int.tdiv i (g.Z.i0 / 2) = i / (g.Z.i0 / 2) := Int.tdiv_eq_ediv hi (by omega)
  have na : 0 ≤ i / (g.Z.i0 / 2) := Int.ediv_nonneg hi (by omega)
  have eb : Int.tdiv (i / (g.Z.i0 / 2)) g.Z.i1 = i / (g.Z.i0 / 2) / g.Z.i1 :=
    Int.tdiv_eq_ediv na (by omega)
  have nb : 0 ≤ i / (g.Z.i0 / 2) / g.Z.i1 := Int.ediv_nonneg na (by omega)
  have e4 : Int.tdiv (i / (g.Z.i0 / 2) / g.Z.i1) g.Z.i2 = i / (g.Z.i0 / 2) / g.Z.i1 / g.Z.i2 :=
    Int.tdiv_eq_ediv nb (by omega)
  have x2 : i / (g.Z.i0 / 2) - i / (g.Z.i0 / 2) / g.Z.i1 * g.Z.i1
      = i / (g.Z.i0 / 2) % g.Z.i1 := by
    rw [Int.emod_def]; ring
  have x3 : i / (g.Z.i0 / 2) / g.Z.i1 - i / (g.Z.i0 / 2) / g.Z.i1 / g.Z.i2 * g.Z.i2
      = i / (g.Z.i0 / 2) / g.Z.i1 % g.Z.i2 := by
    rw [Int.emod_def]; ring
  simp only [fullLatticeIndex, eh, ea, eb, e4, x2, x3]

theorem fullLatticeIndex_dim_eq (Z : Int4) (h0 : 0 ≤ Z.i0) (i oddBit : Int) :
    fullLatticeIndex_dim Z i oddBit = fullLatticeIndex (setDims Z) i oddBit := by
  have eh : Int.tdiv Z.i0 2 = Z.i0 / 2 := Int.tdiv_eq_ediv h0 (by omega)
  simp only [fullLatticeIndex_dim, fullLatticeIndex, setDims, eh]

theorem fullLatticeIndex_4d_eq (g : HostGlobals) (i oddBit : Int) (hi : 0 ≤ i)
    (hi2 : i < g.Vh) :
    fullLatticeIndex_4d g i oddBit = some (fullLatticeIndex g i oddBit) := by
  simp only [fullLatticeIndex_4d, fullLatticeIndex]
  rw [if_neg (by omega)]

/-- With `Z[0]` even, the index `2 i + c` (`c` a bit) has the digits of
`i / (Z[0]/2)` above its lowest digit, and its lowest digit has the parity
`c`. -/
theorem lexCoords_double (Z : Int4) (hZ : Z.positive) (h0 : Z.i0 % 2 = 0) (i c : Int)
    (hi : 0 ≤ i) (hc : c = 0 ∨ c = 1) :
    lexCoords Z (2 * i + c)
      = ⟨(2 * i + c) % Z.i0, i / (Z.i0 / 2) % Z.i1, i / (Z.i0 / 2) / Z.i1 % Z.i2,
          i / (Z.i0 / 2) / Z.i1 / Z.i2⟩ ∧
    ((2 * i + c) % Z.i0) % 2 = c := by
  have hY : 0 ≤ 2 * i + c := by omega
  rw [lexCoords_eq Z hZ _ hY]
  obtain ⟨z0, z1, z2, z3⟩ := hZ
  have hz : Z.i0 = 2 * (Z.i0 / 2) := by omega
  have e : (2 * i + c) / Z.i0 = i / (Z.i0 / 2) := by
    have h1 : (2 * i + c) / (2 * (Z.i0 / 2)) = (2 * i + c) / 2 / (Z.i0 / 2) :=
      (int_div_div _ _ _ hY (by omega) (by omega)).symm
    have h2 : (2 * i + c) / 2 = i := by omega
    calc (2 * i + c) / Z.i0 = (2 * i + c) / (2 * (Z.i0 / 2)) := by rw [← hz]
      _ = (2 * i + c) / 2 / (Z.i0 / 2) := h1
      _ = i / (Z.i0 / 2) := by rw [h2]
  rw [e]
  refine ⟨rfl, ?_⟩
  rw [Int.emod_emod_of_dvd _ (Int.dvd_of_emod_eq_zero h0)]
  omega

/-! ## Half index and full index -/

/-- The full index that `fullLatticeIndex` returns, for `Z[0]` even: twice the
half index plus a bit, at a site of the requested parity. -/
theorem fullLatticeIndex_facts (Z : Int4) (hZ : Z.positive) (h0 : Z.i0 % 2 = 0)
    (i oddBit : Int) (hi : 0 ≤ i) (hb : oddBit = 0 ∨ oddBit = 1) :
    fullLatticeIndex (setDims Z) i oddBit / 2 = i ∧
    0 ≤ fullLatticeIndex (setDims Z) i oddBit ∧
    fullLatticeIndex (setDims Z) i oddBit ≤ 2 * i + 1 ∧
    (lexCoords Z (fullLatticeIndex (setDims Z) i oddBit)).parity = oddBit := by
  rw [fullLatticeIndex_eq (setDims Z) hZ i oddBit hi]
  simp only [setDims_Z]
  generalize hc : (i / (Z.i0 / 2) % Z.i1 + i / (Z.i0 / 2) / Z.i1 % Z.i2
    + i / (Z.i0 / 2) / Z.i1 / Z.i2 + oddBit) % 2 = c
  have hc01 : c = 0 ∨ c = 1 := by omega
  obtain ⟨hl, hp⟩ := lexCoords_double Z hZ h0 i c hi hc01
  refine ⟨by omega, by omega, by omega, ?_⟩
  rw [hl]
  simp only [Int4.parity]
  omega

/-- For `Z[0]` even, a lexicographic index is what `fullLatticeIndex` returns
for its half and the parity of its site. -/
theorem fullLatticeIndex_of_site (Z : Int4) (hZ : Z.positive) (h0 : Z.i0 % 2 = 0) (Y : Int)
    (hY : 0 ≤ Y) :
    fullLatticeIndex (setDims Z) (Y / 2) (lexCoords Z Y).parity = Y := by
  rw [fullLatticeIndex_eq (setDims Z) hZ _ _ (by omega)]
  simp only [setDims_Z]
  have hc01 : Y % 2 = 0 ∨ Y % 2 = 1 := by omega
  obtain ⟨hl, hp⟩ := lexCoords_double Z hZ h0 (Y / 2) (Y % 2) (by omega) hc01
  have e : 2 * (Y / 2) + Y % 2 = Y := by omega
  rw [e] at hl hp
  rw [hl]
  simp only [Int4.parity]
  omega

/-- C24 (half index to full index): with positive extents `Z` and `Z[0]`
even, for a half index `0 ≤ i < Vh` and `oddBit` in `{0, 1}`,
`fullLatticeIndex(i, oddBit)` returns `Y` with `Y / 2 = i`, `0 ≤ Y < V` and
`getOddBit(Y) = oddBit`; and the overload `fullLatticeIndex(Z, i, oddBit)` and
`fullLatticeIndex_4d(i, oddBit)` return the same value. -/
theorem half_to_full_index (Z : Int4) (hZ : Z.positive) (h0 : Z.i0 % 2 = 0) (i oddBit : Int)
    (hi : 0 ≤ i) (hi2 : i < (setDims Z).Vh) (hb : oddBit = 0 ∨ oddBit = 1) :
    Int.tdiv (fullLatticeIndex (setDims Z) i oddBit) 2 = i ∧
    0 ≤ fullLatticeIndex (setDims Z) i oddBit ∧
    fullLatticeIndex (setDims Z) i oddBit < (setDims Z).V ∧
    getOddBit (setDims Z) (fullLatticeIndex (setDims Z) i oddBit) = oddBit ∧
    fullLatticeIndex_dim Z i oddBit = fullLatticeIndex (setDims Z) i oddBit ∧
    fullLatticeIndex_4d (setDims Z) i oddBit = some (fullLatticeIndex (setDims Z) i oddBit) := by
  obtain ⟨f1, f2, f3, f4⟩ := fullLatticeIndex_facts Z hZ h0 i oddBit hi hb
  obtain ⟨v1, _⟩ := setDims_Vh Z hZ h0
  refine ⟨?_, f2, by omega, ?_, fullLatticeIndex_dim_eq Z (le_of_lt hZ.1) i oddBit,
    fullLatticeIndex_4d_eq (setDims Z) i oddBit hi hi2⟩
  · rw [Int.tdiv_eq_ediv f2 (by omega)]
    exact f1
  · rw [getOddBit_eq (setDims Z) hZ _ f2]
    exact f4

theorem half_to_full_index_witness :
    ((⟨4, 3, 2, 2⟩ : Int4).positive ∧ (⟨4, 3, 2, 2⟩ : Int4).i0 % 2 = 0 ∧ (0 : Int) ≤ 7 ∧
      7 < (setDims ⟨4, 3, 2, 2⟩).Vh ∧ ((1 : Int) = 0 ∨ (1 : Int) = 1)) ∧
    fullLatticeIndex (setDims ⟨4, 3, 2, 2⟩) 7 1 = 14 ∧
    (Int.tdiv (fullLatticeIndex (setDims ⟨4, 3, 2, 2⟩) 7 1) 2 = 7 ∧
    0 ≤ fullLatticeIndex (setDims ⟨4, 3, 2, 2⟩) 7 1 ∧
    fullLatticeIndex (setDims ⟨4, 3, 2, 2⟩) 7 1 < (setDims ⟨4, 3, 2, 2⟩).V ∧
    getOddBit (setDims ⟨4, 3, 2, 2⟩) (fullLatticeIndex (setDims ⟨4, 3, 2, 2⟩) 7 1) = 1 ∧
    fullLatticeIndex_dim ⟨4, 3, 2, 2⟩ 7 1 = fullLatticeIndex (setDims ⟨4, 3, 2, 2⟩) 7 1 ∧
    fullLatticeIndex_4d (setDims ⟨4, 3, 2, 2⟩) 7 1
      = some (fullLatticeIndex (setDims ⟨4, 3, 2, 2⟩) 7 1)) :=
  ⟨⟨by decide, by decide, by decide, by decide, by decide⟩, by decide,
   half_to_full_index ⟨4, 3, 2, 2⟩ (by decide) (by decide) 7 1 (by decide) (by decide)
    (by decide)⟩

/-! ## Neighbours on the even-odd ordered lattice -/

/-- `neighborIndex` on a half index `i ≥ 0` with a parity bit, for a
displacement not below `-Z`: half the lexicographic index of the displaced
coordinates. -/
theorem neighborIndex_eq (Z : Int4) (hZ : Z.positive) (h0 : Z.i0 % 2 = 0) (i oddBit : Int)
    (hi : 0 ≤ i) (hb : oddBit = 0 ∨ oddBit = 1) (dx : Int4)
    (hdx : -Z.i0 ≤ dx.i0 ∧ -Z.i1 ≤ dx.i1 ∧ -Z.i2 ≤ dx.i2 ∧ -Z.i3 ≤ dx.i3) :
    neighborIndex (setDims Z) i oddBit dx.i3 dx.i2 dx.i1 dx.i0
      = lexIndex Z (shiftCoords Z (lexCoords Z (fullLatticeIndex (setDims Z) i oddBit)) dx)
          / 2 := by
  obtain ⟨_, hY, _, _⟩ := fullLatticeIndex_facts Z hZ h0 i oddBit hi hb
  obtain ⟨z0, z1, z2, z3⟩ := hZ
  obtain ⟨d0, d1, d2, d3⟩ := hdx
  simp only [neighborIndex, setDims_Z]
  generalize fullLatticeIndex (setDims Z) i oddBit = Y at hY ⊢
  have p10 : 0 ≤ Z.i1 * Z.i0 := by positivity
  have p210 : 0 ≤ Z.i2 * Z.i1 * Z.i0 := by positivity
  have e4 : Int.tdiv Y (Z.i2 * Z.i1 * Z.i0) = Y / (Z.i2 * Z.i1 * Z.i0) :=
    Int.tdiv_eq_ediv hY p210
  have e3a : Int.tdiv Y (Z.i1 * Z.i0) = Y / (Z.i1 * Z.i0) := Int.tdiv_eq_ediv hY p10
  have e2a : Int.tdiv Y Z.i0 = Y / Z.i0 := Int.tdiv_eq_ediv hY (by omega)
  have n4 : 0 ≤ Y / (Z.i2 * Z.i1 * Z.i0) := Int.ediv_nonneg hY p210
  have n3 : 0 ≤ Y / (Z.i1 * Z.i0) := Int.ediv_nonneg hY p10
  have n2 : 0 ≤ Y / Z.i0 := Int.ediv_nonneg hY (by omega)
  have e3 : Int.tmod (Y / (Z.i1 * Z.i0)) Z.i2 = (Y / (Z.i1 * Z.i0)) % Z.i2 :=
    Int.tmod_eq_emod n3 (by omega)
  have e2 : Int.tmod (Y / Z.i0) Z.i1 = (Y / Z.i0) % Z.i1 := Int.tmod_eq_emod n2 (by omega)
  have e1 : Int.tmod Y Z.i0 = Y % Z.i0 := Int.tmod_eq_emod hY (by omega)
  have m3 : 0 ≤ (Y / (Z.i1 * Z.i0)) % Z.i2 := Int.emod_nonneg _ (by omega)
  have m2 : 0 ≤ (Y / Z.i0) % Z.i1 := Int.emod_nonneg _ (by omega)
  have m1 : 0 ≤ Y % Z.i0 := Int.emod_nonneg _ (by omega)
  have s4 : Int.tmod (Y / (Z.i2 * Z.i1 * Z.i0) + dx.i3 + Z.i3) Z.i3
      = (Y / (Z.i2 * Z.i1 * Z.i0) + dx.i3 + Z.i3) % Z.i3 :=
    Int.tmod_eq_emod (by omega) (by omega)
  have s3 : Int.tmod ((Y / (Z.i1 * Z.i0)) % Z.i2 + dx.i2 + Z.i2) Z.i2
      = ((Y / (Z.i1 * Z.i0)) % Z.i2 + dx.i2 + Z.i2) % Z.i2 :=
    Int.tmod_eq_emod (by omega) (by omega)
  have s2 : Int.tmod ((Y / Z.i0) % Z.i1 + dx.i1 + Z.i1) Z.i1
      = ((Y / Z.i0) % Z.i1 + dx.i1 + Z.i1) % Z.i1 :=
    Int.tmod_eq_emod (by omega) (by omega)
  have s1 : Int.tmod (Y % Z.i0 + dx.i0 + Z.i0) Z.i0 = (Y % Z.i0 + dx.i0 + Z.i0) % Z.i0 :=
    Int.tmod_eq_emod (by omega) (by omega)
  have hin := shiftCoords_inBox Z (lexCoords Z Y) dx ⟨z0, z1, z2, z3⟩
  have hlex := (lexIndex_bounds Z _ hin).1
  simp only [e4, e3a, e2a, e3, e2, e1, s4, s3, s2, s1]
  simp only [lexIndex, shiftCoords, lexCoords] at hlex ⊢
  exact @Int.tdiv_eq_ediv _ 2 hlex (by decide)

/-- The half index and the parity that `neighborIndexFullLattice` takes an
even-odd ordered index apart into. -/
theorem eo_split (Z : Int4) (hZ : Z.positive) (h0 : Z.i0 % 2 = 0) (i : Int) (hi : 0 ≤ i)
    (hV : i < (setDims Z).V) :
    (0 ≤ (if i ≥ (setDims Z).Vh then i - (setDims Z).Vh else i)) ∧
    ((if i ≥ (setDims Z).Vh then i - (setDims Z).Vh else i) < (setDims Z).Vh) ∧
    (((if i ≥ (setDims Z).Vh then (1 : Int) else 0) = 0) ∨
      ((if i ≥ (setDims Z).Vh then (1 : Int) else 0) = 1)) ∧
    (if i ≥ (setDims Z).Vh then i - (setDims Z).Vh else i)
      + (if i ≥ (setDims Z).Vh then (1 : Int) else 0) * (setDims Z).Vh = i := by
  obtain ⟨v1, v2⟩ := setDims_Vh Z hZ h0
  by_cases h : i ≥ (setDims Z).Vh
  · simp only [if_pos h]
    refine ⟨by omega, by omega, by simp, by omega⟩
  · simp only [if_neg h]
    refine ⟨by omega, by omega, by simp, by omega⟩

/-- The site of an even-odd ordered index, and back. -/
theorem siteIndex_facts (Z : Int4) (hZ : Z.positive) (h0 : Z.i0 % 2 = 0) (i : Int)
    (hi : 0 ≤ i) (hV : i < (setDims Z).V) :
    0 ≤ siteIndex (setDims Z) i ∧ siteIndex (setDims Z) i < (setDims Z).V ∧
    eoIndex (setDims Z) (siteIndex (setDims Z) i) = i ∧
    (lexCoords Z (siteIndex (setDims Z) i)).parity
      = (if i ≥ (setDims Z).Vh then 1 else 0) := by
  obtain ⟨s1, s2, s3, s4⟩ := eo_split Z hZ h0 i hi hV
  obtain ⟨f1, f2, f3, f4⟩ := fullLatticeIndex_facts Z hZ h0 _ _ s1 s3
  obtain ⟨v1, v2⟩ := setDims_Vh Z hZ h0
  refine ⟨f2, ?_, ?_, f4⟩
  · simp only [siteIndex]
    omega
  · simp only [eoIndex, siteIndex, setDims_Z]
    rw [f1, f4]
    exact s4

theorem parity_bit (x : Int4) : x.parity = 0 ∨ x.parity = 1 := by
  simp only [Int4.parity]
  omega

theorem eoIndex_facts (Z : Int4) (hZ : Z.positive) (h0 : Z.i0 % 2 = 0) (Y : Int)
    (hY : 0 ≤ Y) (hV : Y < (setDims Z).V) :
    0 ≤ eoIndex (setDims Z) Y ∧ eoIndex (setDims Z) Y < (setDims Z).V ∧
    siteIndex (setDims Z) (eoIndex (setDims Z) Y) = Y ∧
    ((setDims Z).Vh ≤ eoIndex (setDims Z) Y ↔ (lexCoords Z Y).parity = 1) := by
  obtain ⟨v1, v2⟩ := setDims_Vh Z hZ h0
  have hsite := fullLatticeIndex_of_site Z hZ h0 Y hY
  rcases parity_bit (lexCoords Z Y) with hp | hp
  · have he : eoIndex (setDims Z) Y = Y / 2 := by
      simp only [eoIndex, setDims_Z, hp, zero_mul, add_zero]
    rw [he, hp]
    refine ⟨by omega, by omega, ?_, ⟨fun h => by omega, fun h => by omega⟩⟩
    have hlt : ¬ (Y / 2 ≥ (setDims Z).Vh) := by omega
    simp only [siteIndex, if_neg hlt]
    rw [hp] at hsite
    exact hsite
  · have he : eoIndex (setDims Z) Y = Y / 2 + (setDims Z).Vh := by
      simp only [eoIndex, setDims_Z, hp, one_mul]
    rw [he]
    refine ⟨by omega, by omega, ?_, ⟨fun _ => hp, fun _ => by omega⟩⟩
    have hge : Y / 2 + (setDims Z).Vh ≥ (setDims Z).Vh := by omega
    simp only [siteIndex, if_pos hge]
    have e : Y / 2 + (setDims Z).Vh - (setDims Z).Vh = Y / 2 := by omega
    rw [e]
    rw [hp] at hsite
    exact hsite

/-- `neighborIndexFullLattice` in terms of sites: the even-odd ordered index
of the site whose coordinates are those of the site of `i`, displaced by `dx`
on the periodic lattice. -/
theorem neighborIndexFullLattice_eq (Z : Int4) (hZ : Z.positive) (hE : Z.allEven) (i : Int)
    (hi : 0 ≤ i) (hV : i < (setDims Z).V) (dx : Int4)
    (hdx : -Z.i0 ≤ dx.i0 ∧ -Z.i1 ≤ dx.i1 ∧ -Z.i2 ≤ dx.i2 ∧ -Z.i3 ≤ dx.i3) :
    neighborIndexFullLattice (setDims Z) i dx.i3 dx.i2 dx.i1 dx.i0
      = eoIndex (setDims Z)
          (lexIndex Z (shiftCoords Z (lexCoords Z (siteIndex (setDims Z) i)) dx)) := by
  obtain ⟨s1, s2, s3, s4⟩ := eo_split Z hZ hE.1 i hi hV
  obtain ⟨t1, t2, t3, t4⟩ := siteIndex_facts Z hZ hE.1 i hi hV
  have hnb := neighborIndex_eq Z hZ hE.1 _ _ s1 s3 dx hdx
  have hin := shiftCoords_inBox Z (lexCoords Z (siteIndex (setDims Z) i)) dx hZ
  have hcl := lexCoords_lexIndex Z _ hZ hin
  have hpar := shiftCoords_parity Z (lexCoords Z (siteIndex (setDims Z) i)) dx hE
  have hflip := tmod_two_ne_zero (dx.i3 + dx.i2 + dx.i1 + dx.i0)
  simp only [neighborIndexFullLattice]
  rw [hnb]
  simp only [eoIndex, setDims_Z]
  rw [hcl, hpar, t4]
  simp only [siteIndex]
  generalize lexIndex Z (shiftCoords Z (lexCoords Z (fullLatticeIndex (setDims Z)
    (if i ≥ (setDims Z).Vh then i - (setDims Z).Vh else i)
    (if i ≥ (setDims Z).Vh then 1 else 0))) dx) / 2 = nbr
  rcases s3 with hp | hp
  · rw [hp]
    by_cases hodd : (dx.i3 + dx.i2 + dx.i1 + dx.i0) % 2 = 1
    · have e : (0 + (dx.i0 + dx.i1 + dx.i2 + dx.i3)) % 2 = 1 := by omega
      rw [if_pos (hflip.2 hodd), e]
      simp only [sub_zero, ne_eq, one_ne_zero, not_false_eq_true, if_true, one_mul]
      omega
    · have e : (0 + (dx.i0 + dx.i1 + dx.i2 + dx.i3)) % 2 = 0 := by omega
      rw [if_neg (fun h => hodd (hflip.1 h)), e]
      simp
  · rw [hp]
    by_cases hodd : (dx.i3 + dx.i2 + dx.i1 + dx.i0) % 2 = 1
    · have e : (1 + (dx.i0 + dx.i1 + dx.i2 + dx.i3)) % 2 = 0 := by omega
      rw [if_pos (hflip.2 hodd), e]
      simp
    · have e : (1 + (dx.i0 + dx.i1 + dx.i2 + dx.i3)) % 2 = 1 := by omega
      rw [if_neg (fun h => hodd (hflip.1 h)), e]
      simp only [ne_eq, one_ne_zero, not_false_eq_true, if_true, one_mul]
      omega

theorem neighborIndex_dim_eq (Z : Int4) (h0 : 0 ≤ Z.i0) (i oddBit : Int) (dx : Int4) :
    neighborIndex_dim Z i oddBit dx
      = neighborIndex (setDims Z) i oddBit dx.i3 dx.i2 dx.i1 dx.i0 := by
  simp only [neighborIndex_dim, neighborIndex, fullLatticeIndex_dim_eq Z h0, setDims_Z]
  congr 1
  ring

theorem neighborIndexFullLattice_dim_eq (Z : Int4) (h0 : 0 ≤ Z.i0) (i : Int) (dx : Int4) :
    neighborIndexFullLattice_dim Z i dx
      = neighborIndexFullLattice (setDims Z) i dx.i3 dx.i2 dx.i1 dx.i0 := by
  have hVh : Int.tdiv (Z.i0 * Z.i1 * Z.i2 * Z.i3) 2 = (setDims Z).Vh := by
    simp only [setDims, one_mul]
  have hsum : dx.i0 + dx.i1 + dx.i2 + dx.i3 = dx.i3 + dx.i2 + dx.i1 + dx.i0 := by ring
  simp only [neighborIndexFullLattice_dim, neighborIndexFullLattice, hVh, hsum,
    neighborIndex_dim_eq Z h0]
  by_cases hc : Int.tmod (dx.i3 + dx.i2 + dx.i1 + dx.i0) 2 ≠ 0 <;>
    by_cases hi : i ≥ (setDims Z).Vh <;>
    simp only [hc, hi, if_true, if_false, ne_eq, not_true_eq_false, not_false_eq_true,
      sub_self, sub_zero, one_ne_zero, zero_mul, one_mul, add_zero] <;>
    ring

theorem shiftCoords_zero (Z x : Int4) (hx : x.inBox Z) : shiftCoords Z x ⟨0, 0, 0, 0⟩ = x := by
  obtain ⟨⟨a0, b0⟩, ⟨a1, b1⟩, ⟨a2, b2⟩, ⟨a3, b3⟩⟩ := hx
  cases x with
  | mk x0 x1 x2 x3 =>
    simp only at a0 b0 a1 b1 a2 b2 a3 b3
    simp only [shiftCoords, add_zero, Int.add_emod_self, Int.emod_eq_of_lt a0 b0,
      Int.emod_eq_of_lt a1 b1, Int.emod_eq_of_lt a2 b2, Int.emod_eq_of_lt a3 b3]

/-- The neighbour is an index of the lattice, and the opposite displacement
leads back. -/
theorem neighbor_back (Z : Int4) (hZ : Z.positive) (hE : Z.allEven) (i : Int) (hi : 0 ≤ i)
    (hV : i < (setDims Z).V) (dx : Int4) (hdx : dx.within Z) :
    0 ≤ neighborIndexFullLattice (setDims Z) i dx.i3 dx.i2 dx.i1 dx.i0 ∧
    neighborIndexFullLattice (setDims Z) i dx.i3 dx.i2 dx.i1 dx.i0 < (setDims Z).V ∧
    neighborIndexFullLattice (setDims Z)
        (neighborIndexFullLattice (setDims Z) i dx.i3 dx.i2 dx.i1 dx.i0)
        (-dx.i3) (-dx.i2) (-dx.i1) (-dx.i0) = i := by
  obtain ⟨⟨l0, u0⟩, ⟨l1, u1⟩, ⟨l2, u2⟩, ⟨l3, u3⟩⟩ := hdx
  obtain ⟨t1, t2, t3, _⟩ := siteIndex_facts Z hZ hE.1 i hi hV
  have hV2 := setDims_V Z
  rw [hV2] at t2
  obtain ⟨hxin, hxlex⟩ := lexIndex_lexCoords Z hZ _ t1 t2
  have hin := shiftCoords_inBox Z (lexCoords Z (siteIndex (setDims Z) i)) dx hZ
  obtain ⟨b1, b2⟩ := lexIndex_bounds Z _ hin
  rw [← hV2] at b2
  obtain ⟨e1, e2, e3, _⟩ := eoIndex_facts Z hZ hE.1 _ b1 b2
  have hN := neighborIndexFullLattice_eq Z hZ hE i hi hV dx ⟨l0, l1, l2, l3⟩
  rw [hN]
  refine ⟨e1, e2, ?_⟩
  have hN2 := neighborIndexFullLattice_eq Z hZ hE _ e1 e2 ⟨-dx.i0, -dx.i1, -dx.i2, -dx.i3⟩
    ⟨by show -Z.i0 ≤ -dx.i0; omega, by show -Z.i1 ≤ -dx.i1; omega,
     by show -Z.i2 ≤ -dx.i2; omega, by show -Z.i3 ≤ -dx.i3; omega⟩
  simp only at hN2
  rw [hN2, e3, lexCoords_lexIndex Z _ hZ hin, shiftCoords_back Z _ dx hxin, hxlex, t3]

/-- C25 (unit displacements swap parity): for all-even positive extents `Z`
and an even-odd ordered full index `0 ≤ i < V`, a displacement of `+1` or `-1`
in exactly one direction leads to the other half lattice:
`neighborIndexFullLattice(i, dx4, dx3, dx2, dx1) ≥ Vh` if and only if
`i < Vh`; and the result lies in `[0, V)`. -/
theorem unit_step_swaps_parity (Z : Int4) (hZ : Z.positive) (hE : Z.allEven) (i : Int)
    (hi : 0 ≤ i) (hV : i < (setDims Z).V) (dx4 dx3 dx2 dx1 : Int)
    (hstep : (⟨dx1, dx2, dx3, dx4⟩ : Int4).unitStep) :
    ((setDims Z).Vh ≤ neighborIndexFullLattice (setDims Z) i dx4 dx3 dx2 dx1 ↔
      i < (setDims Z).Vh) ∧
    0 ≤ neighborIndexFullLattice (setDims Z) i dx4 dx3 dx2 dx1 ∧
    neighborIndexFullLattice (setDims Z) i dx4 dx3 dx2 dx1 < (setDims Z).V := by
  obtain ⟨z0, z1, z2, z3⟩ := hZ
  have hZ : Z.positive := ⟨z0, z1, z2, z3⟩
  have hsum : (dx1 + dx2 + dx3 + dx4) % 2 = 1 ∧
      (-Z.i0 ≤ dx1 ∧ -Z.i1 ≤ dx2 ∧ -Z.i2 ≤ dx3 ∧ -Z.i3 ≤ dx4) := by
    simp only [Int4.unitStep] at hstep
    omega
  obtain ⟨hodd, hdx⟩ := hsum
  obtain ⟨t1, t2, _, t4⟩ := siteIndex_facts Z hZ hE.1 i hi hV
  have hV2 := setDims_V Z
  have hin := shiftCoords_inBox Z (lexCoords Z (siteIndex (setDims Z) i))
    ⟨dx1, dx2, dx3, dx4⟩ hZ
  obtain ⟨b1, b2⟩ := lexIndex_bounds Z _ hin
  rw [← hV2] at b2
  obtain ⟨e1, e2, _, e4⟩ := eoIndex_facts Z hZ hE.1 _ b1 b2
  have hN := neighborIndexFullLattice_eq Z hZ hE i hi hV ⟨dx1, dx2, dx3, dx4⟩ hdx
  simp only at hN
  rw [hN]
  refine ⟨?_, e1, e2⟩
  rw [e4, lexCoords_lexIndex Z _ hZ hin, shiftCoords_parity Z _ _ hE, t4]
  simp only
  by_cases h : i ≥ (setDims Z).Vh
  · simp only [if_pos h]
    omega
  · simp only [if_neg h]
    omega

theorem unit_step_swaps_parity_witness :
    ((⟨4, 2, 2, 2⟩ : Int4).positive ∧ (⟨4, 2, 2, 2⟩ : Int4).allEven ∧ (0 : Int) ≤ 5 ∧
      5 < (setDims ⟨4, 2, 2, 2⟩).V ∧ (⟨0, -1, 0, 0⟩ : Int4).unitStep) ∧
    neighborIndexFullLattice (setDims ⟨4, 2, 2, 2⟩) 5 0 0 (-1) 0 = 23 ∧
    (setDims ⟨4, 2, 2, 2⟩).Vh = 16 ∧
    (((setDims ⟨4, 2, 2, 2⟩).Vh ≤ neighborIndexFullLattice (setDims ⟨4, 2, 2, 2⟩) 5 0 0 (-1) 0 ↔
      5 < (setDims ⟨4, 2, 2, 2⟩).Vh) ∧
    0 ≤ neighborIndexFullLattice (setDims ⟨4, 2, 2, 2⟩) 5 0 0 (-1) 0 ∧
    neighborIndexFullLattice (setDims ⟨4, 2, 2, 2⟩) 5 0 0 (-1) 0 < (setDims ⟨4, 2, 2, 2⟩).V) :=
  ⟨⟨by decide, by decide, by decide, by decide, by decide⟩, by decide, by decide,
   unit_step_swaps_parity ⟨4, 2, 2, 2⟩ (by decide) (by decide) 5 (by decide) (by decide)
    0 0 (-1) 0 (by decide)⟩

/-- C30 (neighbour displacement is invertible): for all-even positive extents
`Z`, an even-odd ordered full index `0 ≤ i < V` and a displacement with
`|dx_d| ≤ Z[d]`, the neighbour lies in `[0, V)` and the opposite displacement
leads back to `i`; the zero displacement returns `i`; the displacement is a
permutation of `[0, V)` (onto and one-to-one); and the overload
`neighborIndexFullLattice(Z, i, {dx1, dx2, dx3, dx4})` returns the same
value. -/
theorem neighbor_displacement_invertible (Z : Int4) (hZ : Z.positive) (hE : Z.allEven)
    (i : Int) (hi : 0 ≤ i) (hV : i < (setDims Z).V) (dx4 dx3 dx2 dx1 : Int)
    (hdx : (⟨dx1, dx2, dx3, dx4⟩ : Int4).within Z) :
    neighborIndexFullLattice (setDims Z)
        (neighborIndexFullLattice (setDims Z) i dx4 dx3 dx2 dx1)
        (-dx4) (-dx3) (-dx2) (-dx1) = i ∧
    0 ≤ neighborIndexFullLattice (setDims Z) i dx4 dx3 dx2 dx1 ∧
    neighborIndexFullLattice (setDims Z) i dx4 dx3 dx2 dx1 < (setDims Z).V ∧
    neighborIndexFullLattice (setDims Z) i 0 0 0 0 = i ∧
    (∀ j, 0 ≤ j → j < (setDims Z).V →
      ∃ k, 0 ≤ k ∧ k < (setDims Z).V ∧
        neighborIndexFullLattice (setDims Z) k dx4 dx3 dx2 dx1 = j) ∧
    (∀ j k, 0 ≤ j → j < (setDims Z).V → 0 ≤ k → k < (setDims Z).V →
      neighborIndexFullLattice (setDims Z) j dx4 dx3 dx2 dx1
        = neighborIndexFullLattice (setDims Z) k dx4 dx3 dx2 dx1 → j = k) ∧
    neighborIndexFullLattice_dim Z i ⟨dx1, dx2, dx3, dx4⟩
      = neighborIndexFullLattice (setDims Z) i dx4 dx3 dx2 dx1 := by
  have hneg : (⟨-dx1, -dx2, -dx3, -dx4⟩ : Int4).within Z := by
    obtain ⟨⟨l0, u0⟩, ⟨l1, u1⟩, ⟨l2, u2⟩, ⟨l3, u3⟩⟩ := hdx
    simp only at l0 u0 l1 u1 l2 u2 l3 u3
    exact ⟨⟨by show -Z.i0 ≤ -dx1; omega, by show -dx1 ≤ Z.i0; omega⟩,
      ⟨by show -Z.i1 ≤ -dx2; omega, by show -dx2 ≤ Z.i1; omega⟩,
      ⟨by show -Z.i2 ≤ -dx3; omega, by show -dx3 ≤ Z.i2; omega⟩,
      ⟨by show -Z.i3 ≤ -dx4; omega, by show -dx4 ≤ Z.i3; omega⟩⟩
  have fwd := fun (j : Int) (hj : 0 ≤ j) (hjV : j < (setDims Z).V) =>
    neighbor_back Z hZ hE j hj hjV ⟨dx1, dx2, dx3, dx4⟩ hdx
  have bwd := fun (j : Int) (hj : 0 ≤ j) (hjV : j < (setDims Z).V) =>
    neighbor_back Z hZ hE j hj hjV ⟨-dx1, -dx2, -dx3, -dx4⟩ hneg
  simp only [neg_neg] at fwd bwd
  obtain ⟨f1, f2, f3⟩ := fwd i hi hV
  refine ⟨f3, f1, f2, ?_, ?_, ?_, ?_⟩
  · obtain ⟨t1, t2, t3, _⟩ := siteIndex_facts Z hZ hE.1 i hi hV
    rw [setDims_V] at t2
    obtain ⟨hxin, hxlex⟩ := lexIndex_lexCoords Z hZ _ t1 t2
    have hN := neighborIndexFullLattice_eq Z hZ hE i hi hV ⟨0, 0, 0, 0⟩
      ⟨by show -Z.i0 ≤ 0; have := hZ.1; omega, by show -Z.i1 ≤ 0; have := hZ.2.1; omega,
       by show -Z.i2 ≤ 0; have := hZ.2.2.1; omega, by show -Z.i3 ≤ 0; have := hZ.2.2.2; omega⟩
    simp only at hN
    rw [hN, shiftCoords_zero Z _ hxin, hxlex, t3]
  · intro j hj hjV
    obtain ⟨g1, g2, g3⟩ := bwd j hj hjV
    exact ⟨_, g1, g2, g3⟩
  · intro j k hj hjV hk hkV h
    have ej := (fwd j hj hjV).2.2
    have ek := (fwd k hk hkV).2.2
    rw [h] at ej
    exact ej.symm.trans ek
  · exact neighborIndexFullLattice_dim_eq Z (le_of_lt hZ.1) i ⟨dx1, dx2, dx3, dx4⟩

theorem neighbor_displacement_invertible_witness :
    ((⟨4, 2, 2, 2⟩ : Int4).positive ∧ (⟨4, 2, 2, 2⟩ : Int4).allEven ∧ (0 : Int) ≤ 21 ∧
      21 < (setDims ⟨4, 2, 2, 2⟩).V ∧ (⟨-3, 2, 0, 1⟩ : Int4).within ⟨4, 2, 2, 2⟩) ∧
    neighborIndexFullLattice (setDims ⟨4, 2, 2, 2⟩) 21 1 0 2 (-3) = 29 ∧
    neighborIndexFullLattice (setDims ⟨4, 2, 2, 2⟩) 29 (-1) 0 (-2) 3 = 21 ∧
    (neighborIndexFullLattice (setDims ⟨4, 2, 2, 2⟩)
        (neighborIndexFullLattice (setDims ⟨4, 2, 2, 2⟩) 21 1 0 2 (-3))
        (-1) (-0) (-2) (- -3) = 21 ∧
    0 ≤ neighborIndexFullLattice (setDims ⟨4, 2, 2, 2⟩) 21 1 0 2 (-3) ∧
    neighborIndexFullLattice (setDims ⟨4, 2, 2, 2⟩) 21 1 0 2 (-3) < (setDims ⟨4, 2, 2, 2⟩).V ∧
    neighborIndexFullLattice (setDims ⟨4, 2, 2, 2⟩) 21 0 0 0 0 = 21 ∧
    (∀ j, 0 ≤ j → j < (setDims ⟨4, 2, 2, 2⟩).V →
      ∃ k, 0 ≤ k ∧ k < (setDims ⟨4, 2, 2, 2⟩).V ∧
        neighborIndexFullLattice (setDims ⟨4, 2, 2, 2⟩) k 1 0 2 (-3) = j) ∧
    (∀ j k, 0 ≤ j → j < (setDims ⟨4, 2, 2, 2⟩).V → 0 ≤ k → k < (setDims ⟨4, 2, 2, 2⟩).V →
      neighborIndexFullLattice (setDims ⟨4, 2, 2, 2⟩) j 1 0 2 (-3)
        = neighborIndexFullLattice (setDims ⟨4, 2, 2, 2⟩) k 1 0 2 (-3) → j = k) ∧
    neighborIndexFullLattice_dim ⟨4, 2, 2, 2⟩ 21 ⟨-3, 2, 0, 1⟩
      = neighborIndexFullLattice (setDims ⟨4, 2, 2, 2⟩) 21 1 0 2 (-3)) :=
  ⟨⟨by decide, by decide, by decide, by decide, by decide⟩, by decide, by decide,
   neighbor_displacement_invertible ⟨4, 2, 2, 2⟩ (by decide) (by decide) 21 (by decide)
    (by decide) 1 0 2 (-3) (by decide)⟩

end quda
